import Mathlib

/-!
Verification of filewatcherd: the watchtab parser, the command-line processing,
the execution of commands and the supervision loop.

Shallow embedding of `src/watchtab.c` (`parse_events`, `strdupesc`,
`wentry_readline`, the `wenv_*` functions, `wtab_readfile`, `wtab_release`), of
`src/filewatcherd.c` (the option loop, the initialization and the main loop of
`main`, `insert_entry`) and of `src/run.c` (`run_entry`).

Conventions of the embedding

* A byte is a `Nat`.  A C buffer is the list of its stored bytes; reading at or
  past the end of the list gives `0`, the NUL terminator (`rd`).  A pointer
  `p + k` into a buffer is `List.drop k`.
* Loops over a buffer are recursive functions with an iteration budget equal to
  the length of the buffer (or to the loop bound of the source); every loop of
  the source advances its index at each iteration, so the budget is never
  exhausted before the loop condition fails.
* Allocation is assumed to succeed (the `log_alloc` branches are not modelled)
  and the slots of a `watch_env` past `size` are taken to be NULL.
* `long`, `time_t` are 64-bit two's complement (LP64); `uid_t`, `gid_t` are
  32-bit unsigned.  The `NOTE_*` flags have their `<sys/event.h>` values.
* The user database (`getpwnam`, `getpwuid`, `getgrnam`, `getgrgid`,
  `getlogin`) is a parameter `UserDb`.
* The main loop is a function from a state and the results of the system calls
  of one iteration to the next state.  The state holds the live watchtab, the
  events registered in the kernel queue and the open descriptors.  The kernel
  returns one registered event at a time and removes it when it is one-shot;
  `open` returns the lowest descriptor not in use; `close` removes the vnode
  events of the descriptor.
* A pointer to a `watch_entry` is an address, a natural number; `malloc` never
  returns an address again.  A pointer to a released entry is an address the
  watchtab does not hold, and its dereference ends the run (`fault`).
* The child of `run_entry` is the list of the calls it makes.
-/

namespace Filewatcherd

/-! ## Bytes, buffers and libc -/

/-- Byte `line[i]` of a C buffer; past the stored bytes the buffer reads as NUL. -/
def rd (line : List Nat) (i : Nat) : Nat := line.getD i 0

/-- The bytes of an ASCII string literal. -/
def str (s : String) : List Nat := s.toList.map Char.toNat

/-- C `strlen`: number of bytes before the first NUL. -/
def strlen : List Nat → Nat
  | [] => 0
  | c :: cs => if c = 0 then 0 else strlen cs + 1

/-- The C string a pointer designates: the bytes before the first NUL. -/
def cstr (p : List Nat) : List Nat := p.take (strlen p)

/-- C `strncmp` on unsigned bytes: difference at the first mismatch among the first
`n` bytes, `0` when there is none or both strings end first. -/
def strncmp : List Nat → List Nat → Nat → Int
  | _, _, 0 => 0
  | a, b, n + 1 =>
    if a.headD 0 ≠ b.headD 0 then (a.headD 0 : Int) - (b.headD 0 : Int)
    else if a.headD 0 = 0 then 0
    else strncmp a.tail b.tail n

/-- C `strchr(p, c)` for a non-NUL `c`: offset of the first `c` before the first NUL. -/
def strchr : List Nat → Nat → Option Nat
  | [], _ => none
  | x :: xs, c =>
    if x = c then some 0
    else if x = 0 then none
    else (strchr xs c).map (· + 1)

/-- Largest value of a C `long` (LP64). -/
def LONG_MAX : Int := 9223372036854775807

/-- Smallest value of a C `long` (LP64). -/
def LONG_MIN : Int := -9223372036854775808

/-- C `isspace` in the C locale. -/
def isspace (c : Nat) : Bool := c = 32 || (9 ≤ c && c ≤ 13)

/-- Decimal digit test, `'0' <= c && c <= '9'`. -/
def isdigit (c : Nat) : Bool := 48 ≤ c && c ≤ 57

/-- ASCII letter test used by `parse_events`. -/
def isletter (c : Nat) : Bool := (97 ≤ c && c ≤ 122) || (65 ≤ c && c ≤ 90)

/-- Number of leading white-space bytes skipped by `strtol`. -/
def strtol_space : List Nat → Nat
  | [] => 0
  | c :: cs => if isspace c then strtol_space cs + 1 else 0

/-- Digit loop of `strtol`: accumulated value and number of digits consumed. -/
def strtol_digits : List Nat → Nat → Nat → Nat × Nat
  | [], acc, k => (acc, k)
  | c :: cs, acc, k =>
    if isdigit c then strtol_digits cs (acc * 10 + (c - 48)) (k + 1) else (acc, k)

/-- Saturation of `strtol` to the range of `long`. -/
def clamp_long (v : Int) : Int :=
  if v > LONG_MAX then LONG_MAX else if v < LONG_MIN then LONG_MIN else v

/-- C `strtol(p, &end, 10)`: the value and the offset `end - p`.  White space is
skipped, one optional sign is read, then decimal digits; without any digit the value
is `0` and `end = p`; out-of-range values saturate. -/
def strtol (p : List Nat) : Int × Nat :=
  let w := strtol_space p
  let q := p.drop w
  let neg := q.headD 0 = 45
  let sg := if q.headD 0 = 45 ∨ q.headD 0 = 43 then 1 else 0
  let d := strtol_digits (q.drop sg) 0 0
  if d.2 = 0 then (0, 0)
  else (clamp_long (if neg then - (d.1 : Int) else (d.1 : Int)), w + sg + d.2)

/-! ## `<sys/event.h>` vnode flags -/

def NOTE_DELETE : Nat := 0x0001
def NOTE_WRITE : Nat := 0x0002
def NOTE_EXTEND : Nat := 0x0004
def NOTE_ATTRIB : Nat := 0x0008
def NOTE_LINK : Nat := 0x0010
def NOTE_RENAME : Nat := 0x0020
def NOTE_REVOKE : Nat := 0x0040

/-! ## `parse_events` -/

/-- The token comparison chain of one iteration of `parse_events`: the flag of the
token found at `p` and the token length, or `none` for the final `else return 0`. -/
def event_token (p : List Nat) : Option (Nat × Nat) :=
  if strncmp p (str "delete") 6 = 0 ∨ strncmp p (str "DELETE") 6 = 0 then some (NOTE_DELETE, 6)
  else if strncmp p (str "write") 5 = 0 ∨ strncmp p (str "WRITE") 5 = 0 then some (NOTE_WRITE, 5)
  else if strncmp p (str "extend") 6 = 0 ∨ strncmp p (str "EXTEND") 6 = 0 then some (NOTE_EXTEND, 6)
  else if strncmp p (str "attrib") 6 = 0 ∨ strncmp p (str "ATTRIB") 6 = 0 then some (NOTE_ATTRIB, 6)
  else if strncmp p (str "link") 4 = 0 ∨ strncmp p (str "LINK") 4 = 0 then some (NOTE_LINK, 4)
  else if strncmp p (str "rename") 6 = 0 ∨ strncmp p (str "RENAME") 6 = 0 then some (NOTE_RENAME, 6)
  else if strncmp p (str "revoke") 6 = 0 ∨ strncmp p (str "REVOKE") 6 = 0 then some (NOTE_REVOKE, 6)
  else none

/-- The `while (i < len)` loop of `parse_events`. -/
def parse_events_loop : Nat → List Nat → Nat → Nat → Nat → Nat
  | 0, _, _, _, result => result
  | fuel + 1, line, len, i, result =>
    if i < len then
      match event_token (line.drop i) with
      | none => 0
      | some (flag, n) =>
        if i + n < len ∧ isletter (rd line (i + n)) then 0
        else parse_events_loop fuel line len (i + n + 1) (result ||| flag)
    else result

/-- Function `parse_events`: process a configuration string into fflags vnode events. -/
def parse_events (line : List Nat) (len : Nat) : Nat :=
  if len = 1 ∧ rd line 0 = 42 then
    NOTE_DELETE ||| NOTE_WRITE ||| NOTE_EXTEND ||| NOTE_ATTRIB
      ||| NOTE_LINK ||| NOTE_RENAME ||| NOTE_REVOKE
  else parse_events_loop len line len 0 0

/-! ## `strdupesc` -/

/-- The copy loop of `strdupesc`; `dest` is the output written so far. -/
def strdupesc_loop : Nat → List Nat → Nat → Nat → List Nat → List Nat
  | 0, _, _, _, dest => dest
  | fuel + 1, src, len, s, dest =>
    if rd src s ≠ 0 ∧ s < len then
      if rd src s ≠ 92 ∨ (s > 0 ∧ rd src (s - 1) = 92) then
        strdupesc_loop fuel src len (s + 1) (dest ++ [rd src s])
      else strdupesc_loop fuel src len (s + 1) dest
    else dest

/-- Function `strdupesc`: duplicate and unescape an input string. -/
def strdupesc (src : List Nat) (len : Nat) : List Nat :=
  strdupesc_loop len src len 0 []

/-! ## Data model (`watchtab.h`) and the user database -/

/-- C `struct timespec`. -/
structure timespec where
  tv_sec : Int
  tv_nsec : Int
deriving DecidableEq, Repr

/-- C `struct watch_entry` (without the list link); a NULL string pointer is `none`. -/
structure watch_entry where
  path : Option (List Nat)
  events : Nat
  delay : timespec
  uid : Nat
  gid : Nat
  chroot : Option (List Nat)
  command : Option (List Nat)
  envp : Option (List (List Nat))
  fd : Int
deriving DecidableEq, Repr

/-- C `WENV_ALLOC_UNIT`. -/
def WENV_ALLOC_UNIT : Nat := 16

/-- Value of a slot of the array `environ`: the NULL pointer, a pointer to a C string
(`str s`, with `s` the bytes before the terminating NUL), or any other value, through
which nothing can be read (`wild`).  A slot that the program has not written holds what
the allocator left there. -/
inductive env_ptr where
  | null
  | str (s : List Nat)
  | wild
deriving DecidableEq, Repr

/-- C `struct watch_env`: `environ` is NULL (`none`) or the allocated array, slot by
slot.  The member `undefined` is not in the C structure: the model sets it when a call
on the table does something for which C defines no behaviour (it reads through a slot
that holds no string, reads or writes outside the array, or frees a pointer that the
table does not own), which normally kills the process; what the model computes from
then on says nothing about the program. -/
structure watch_env where
  environ : Option (List env_ptr)
  size : Nat
  capacity : Nat
  undefined : Bool
deriving DecidableEq, Repr

/-- The fields of `struct passwd` the parser reads. -/
structure passwd where
  pw_name : List Nat
  pw_uid : Nat
  pw_gid : Nat
  pw_dir : List Nat
deriving DecidableEq, Repr

/-- The field of `struct group` the parser reads. -/
structure group where
  gr_gid : Nat
deriving DecidableEq, Repr

/-- The user database and login name the parser consults; a NULL result is `none`. -/
structure UserDb where
  getpwnam : List Nat → Option passwd
  getpwuid : Nat → Option passwd
  getgrnam : List Nat → Option group
  getgrgid : Nat → Option group
  getlogin : Option (List Nat)

/-! ## `watch_env` interface -/

/-- The contents of a block of `n` pointers as `malloc` or `realloc` returns it, `mem`
being what the block holds, slot by slot; a slot that `mem` does not give is `wild`. -/
def alloc_block (n : Nat) (mem : List env_ptr) : List env_ptr :=
  (mem ++ List.replicate n env_ptr.wild).take n

/-- A block of NULL pointers, as `malloc` returns it from memory that the kernel has
just given to the process. -/
def fresh_block : List env_ptr := List.replicate 16 env_ptr.null

/-- Function `wenv_init`: create an empty environment list.  `mem` is what the block
returned by `malloc` holds; the function does not clear it. -/
def wenv_init (mem : List env_ptr) : watch_env :=
  { environ := some (alloc_block WENV_ALLOC_UNIT mem), size := 0,
    capacity := WENV_ALLOC_UNIT, undefined := false }

/-- Step "Initialize if needed" of `wenv_resize` and of `wenv_set`. -/
def wenv_need_init (mem : List env_ptr) (wenv : watch_env) : watch_env :=
  match wenv.environ with
  | none => { wenv_init mem with undefined := wenv.undefined }
  | some _ => wenv

/-- Loop `while (new_cap < new_size) new_cap += WENV_ALLOC_UNIT`. -/
def wenv_resize_cap : Nat → Nat → Nat → Nat
  | 0, new_cap, _ => new_cap
  | fuel + 1, new_cap, new_size =>
    if new_cap < new_size then wenv_resize_cap fuel (new_cap + WENV_ALLOC_UNIT) new_size
    else new_cap

/-- Function `wenv_resize`: preallocate enough storage for `new_size` pointers.  The
block that `realloc` returns keeps the old slots; the function clears the new ones. -/
def wenv_resize (mem : List env_ptr) (wenv : watch_env) (new_size : Nat) : watch_env :=
  let w := wenv_need_init mem wenv
  if new_size ≤ w.capacity then w
  else
    let new_cap := wenv_resize_cap new_size w.capacity new_size
    let old := match w.environ with
      | none => []
      | some a => a
    { w with environ := some (alloc_block w.capacity old
                                ++ List.replicate (new_cap - w.capacity) env_ptr.null),
             capacity := new_cap }

/-- How the search loop of `wenv_set` or of `wenv_get` ends: at a NULL slot, at a slot
whose string passes the test, or in a read through a slot that holds no string or
outside the array. -/
inductive env_scan where
  | at_null (i : Nat)
  | at_match (i : Nat)
  | undefined
deriving DecidableEq, Repr

/-- The search loop of `wenv_set`, on the slots from index `i` on:
`while (wenv->environ[i])` with the body
`if (strncmp(wenv->environ[i], line, namelen + 1) == 0) break; i++;`. -/
def wenv_set_scan : List env_ptr → List Nat → Nat → Nat → env_scan
  | [], _, _, _ => env_scan.undefined
  | env_ptr.null :: _, _, _, i => env_scan.at_null i
  | env_ptr.wild :: _, _, _, _ => env_scan.undefined
  | env_ptr.str e :: es, line, n, i =>
    if strncmp e line n = 0 then env_scan.at_match i else wenv_set_scan es line n (i + 1)

/-- Function `wenv_set`: insert or reset an environment variable.  `name` and `value`
are C strings given by pointer; `mem` is what the block holds that `malloc` returns if
the table is to be initialized.  Allocation succeeds. -/
def wenv_set (mem : List env_ptr) (wenv : watch_env) (name value : List Nat)
    (overwrite : Bool) : watch_env :=
  let w := wenv_need_init mem wenv
  let a := match w.environ with
    | none => []
    | some a => a
  let namelen := strlen name
  let line := name.take namelen ++ [61] ++ value.take (strlen value)
  match wenv_set_scan a line (namelen + 1) 0 with
  | env_scan.undefined => { w with undefined := true }
  | env_scan.at_null _ =>
    let w1 := wenv_resize mem w (w.size + 2)
    let a1 := match w1.environ with
      | none => []
      | some a => a
    { w1 with environ := some (a1.set w1.size (env_ptr.str line)), size := w1.size + 1,
              undefined := w1.undefined || decide (a1.length ≤ w1.size) }
  | env_scan.at_match i =>
    if !overwrite then w
    else { w with environ := some (a.set i (env_ptr.str line)),
                  undefined := w.undefined || decide (w.size ≤ i) }

/-- The search loop of `wenv_get` on the slots of the table: `none` when it reads
through a slot that holds no string or outside the array, `some none` when it ends at a
NULL slot, else the value found. -/
def wenv_get_scan : List env_ptr → List Nat → Nat → Option (Option (List Nat))
  | [], _, _ => none
  | env_ptr.null :: _, _, _ => some none
  | env_ptr.wild :: _, _, _ => none
  | env_ptr.str e :: es, name, namelen =>
    if strncmp e name namelen = 0 ∧ rd e namelen = 61 then
      some (some (cstr (e.drop (namelen + 1))))
    else wenv_get_scan es name namelen

/-- Function `wenv_get`: lookup environment variable.  The result is `some none` for
NULL and `none` when the search has no defined behaviour.  The call of `LOG_ASSERT` on a
table that is not initialized only writes to the log, which is not modelled here. -/
def wenv_get (wenv : watch_env) (name : List Nat) : Option (Option (List Nat)) :=
  match wenv.environ with
  | none => some none
  | some a => wenv_get_scan a name (strlen name)

/-- The strings that the first slots of an array point to, up to the first slot that
holds no string. -/
def env_strings : List env_ptr → List (List Nat)
  | env_ptr.str s :: r => s :: env_strings r
  | _ => []

/-- Function `wenv_dup`: deep copy environment strings, those of the first `size`
slots.  The result is the array it returns, read as `envp` is read, up to its first
NULL.  When one of the first `size` slots holds no string, `strdup` reads through it
and C defines no behaviour; the model then gives the strings before that slot.
`wenv_init` and `wenv_set` build no such table (`wenv_ok`). -/
def wenv_dup (wenv : watch_env) : List (List Nat) :=
  match wenv.environ with
  | none => []
  | some a => env_strings (a.take wenv.size)

/-! ## `watch_entry` interface -/

/-- Function `wentry_init`: initialize a watch_entry with null values. -/
def wentry_init : watch_entry :=
  { path := none, events := 0, delay := ⟨0, 0⟩, uid := 0, gid := 0,
    chroot := none, command := none, envp := none, fd := -1 }

/-- Function `wentry_release`: free internal objects from a watch_entry. -/
def wentry_release (wentry : watch_entry) : watch_entry :=
  { wentry with path := none, chroot := none, command := none, envp := none, fd := -1 }

/-- Loop `while (line[i] != 0 && (line[i] != '\t' || line[i-1] == '\\')) i++`. -/
def skip_field : Nat → List Nat → Nat → Nat
  | 0, _, i => i
  | fuel + 1, line, i =>
    if rd line i ≠ 0 ∧ (rd line i ≠ 9 ∨ rd line (i - 1) = 92) then skip_field fuel line (i + 1)
    else i

/-- Loop `while (line[i] == '\t') i++`. -/
def skip_tabs : Nat → List Nat → Nat → Nat
  | 0, _, i => i
  | fuel + 1, line, i => if rd line i = 9 then skip_tabs fuel line (i + 1) else i

/-- Loop `while (line[i] != 0) i++`. -/
def skip_rest : Nat → List Nat → Nat → Nat
  | 0, _, i => i
  | fuel + 1, line, i => if rd line i ≠ 0 then skip_rest fuel line (i + 1) else i

/-- The field offsets and lengths computed by `wentry_readline`. -/
structure field_bounds where
  path_len : Nat
  event_first : Nat
  event_len : Nat
  delay_first : Nat
  delay_len : Nat
  user_first : Nat
  user_len : Nat
  chroot_first : Nat
  chroot_len : Nat
  cmd_first : Nat
  cmd_len : Nat
deriving DecidableEq, Repr

/-- Block "Look for fields boundaries" of `wentry_readline`. -/
def wentry_readline_bounds (line : List Nat) : field_bounds :=
  let n := line.length
  let i0 := skip_field n line 1
  let event_first := skip_tabs n line i0
  let i1 := skip_field n line event_first
  let delay_first := skip_tabs n line i1
  let i2 := skip_field n line delay_first
  let user_first := skip_tabs n line i2
  let i3 := skip_field n line user_first
  let chroot_first := skip_tabs n line i3
  let i4 := skip_field n line chroot_first
  let cmd_first := skip_tabs n line i4
  let i5 := skip_rest n line cmd_first
  { path_len := i0, event_first := event_first, event_len := i1 - event_first,
    delay_first := delay_first, delay_len := i2 - delay_first,
    user_first := user_first, user_len := i3 - user_first,
    chroot_first := chroot_first, chroot_len := i4 - chroot_first,
    cmd_first := cmd_first, cmd_len := i5 - cmd_first }

/-- Block "Adjust offsets depending on which fields are omitted" of `wentry_readline`. -/
def wentry_readline_adjust (line : List Nat) (b : field_bounds) : field_bounds :=
  if rd line b.user_first = 0 then
    { b with cmd_first := b.delay_first, cmd_len := b.delay_len,
             delay_first := 0, delay_len := 0, user_first := 0, user_len := 0,
             chroot_first := 0, chroot_len := 0 }
  else if rd line b.chroot_first = 0 then
    { b with cmd_first := b.user_first, cmd_len := b.user_len,
             user_first := 0, user_len := 0, chroot_first := 0, chroot_len := 0 }
  else if rd line b.cmd_first = 0 then
    { b with cmd_first := b.chroot_first, cmd_len := b.chroot_len,
             chroot_first := 0, chroot_len := 0 }
  else b

/-- Loop `while (ns - s <= 9) { tv_nsec *= 10; s--; }`; `d` is `ns - s`. -/
def delay_pad : Nat → Int → Nat → Int
  | 0, nsec, _ => nsec
  | fuel + 1, nsec, d => if d ≤ 9 then delay_pad fuel (nsec * 10) (d + 1) else nsec

/-- Block "Parse delay" of `wentry_readline`: the delay, or `none` for `return -1`. -/
def wentry_readline_delay (line : List Nat) (delay_first delay_len : Nat) : Option timespec :=
  if delay_len > 0 ∧ ¬ (delay_len = 1 ∧ rd line delay_first = 42) then
    let r := strtol (line.drop delay_first)
    let s := delay_first + r.2
    if rd line s = 46 then
      let r2 := strtol (line.drop (s + 1))
      let ns := s + 1 + r2.2
      if ns < delay_first + delay_len then none
      else some ⟨r.1, delay_pad 10 r2.1 (ns - s)⟩
    else if s < delay_first + delay_len then none
    else some ⟨r.1, 0⟩
  else some ⟨0, 0⟩

/-- Number of leading decimal digits, the loop
`for (i = 0; p[i] >= '0' && p[i] <= '9'; i++);`. -/
def digits_len : List Nat → Nat
  | [] => 0
  | c :: cs => if isdigit c then digits_len cs + 1 else 0

/-- Conversion of a `long` to the 32-bit unsigned `uid_t` / `gid_t`. -/
def to_id (v : Int) : Nat := (v % 4294967296).toNat

/-- The lookup `login[i] ? getpwnam(login) : getpwuid(strtol(login, 0, 10))`. -/
def lookup_pw (db : UserDb) (login : List Nat) : Option passwd :=
  if rd login (digits_len login) ≠ 0 then db.getpwnam (cstr login)
  else db.getpwuid (to_id (strtol login).1)

/-- The lookup `group[i] ? getgrnam(group) : getgrgid(strtol(group, 0, 10))`. -/
def lookup_grp (db : UserDb) (grp : List Nat) : Option group :=
  if rd grp (digits_len grp) ≠ 0 then db.getgrnam (cstr grp)
  else db.getgrgid (to_id (strtol grp).1)

/-- Block "Process user name and optional group name" of `wentry_readline`: the line
buffer after the NUL writes, `pw` and `grp`; `none` for `return -1`. -/
def wentry_readline_user (db : UserDb) (line : List Nat) (user_first user_len : Nat) :
    Option (List Nat × Option passwd × Option group) :=
  if user_len > 0 then
    let line1 := line.set user_len 0
    match strchr (line1.drop user_first) 58 with
    | some g =>
      let line2 := line1.set (user_first + g) 0
      match lookup_grp db (line2.drop (user_first + g + 1)) with
      | none => none
      | some grp =>
        match lookup_pw db (line2.drop user_first) with
        | none => none
        | some pw => some (line2, some pw, some grp)
    | none =>
      match lookup_pw db (line1.drop user_first) with
      | none => none
      | some pw => some (line1, some pw, none)
  else some (line, none, none)

/-- Block "Lookup self name if not overridden" of `wentry_readline`. -/
def lookup_self (db : UserDb) : Option passwd :=
  match db.getlogin with
  | none => none
  | some login => db.getpwnam login

/-- Function `wentry_readline`: parse a config file line and fill a struct watch_entry.
The result is `none` for the return value `-1` (the caller then frees `dest`) and
otherwise the filled entry together with the updated `base_env`. -/
def wentry_readline (db : UserDb) (mem : List env_ptr) (dest : watch_entry)
    (line : List Nat) (base_env : watch_env) : Option (watch_entry × watch_env) :=
  if rd line 0 = 0 ∨ rd line 0 = 9 then none
  else
    let b0 := wentry_readline_bounds line
    if rd line b0.delay_first = 0 then none
    else
      let b := wentry_readline_adjust line b0
      let events := parse_events (line.drop b.event_first) b.event_len
      if events = 0 then none
      else
        match wentry_readline_delay line b.delay_first b.delay_len with
        | none => none
        | some delay =>
          match wentry_readline_user db line b.user_first b.user_len with
          | none => none
          | some (line1, pw, grp) =>
            let uid := match pw with
              | some p => p.pw_uid
              | none => 0
            let gid := match grp with
              | some g => g.gr_gid
              | none => match pw with
                | some p => p.pw_gid
                | none => 0
            let self := match pw with
              | some p => some p
              | none => lookup_self db
            match self with
            | none => none
            | some p =>
              let d := wentry_release { dest with events := events, delay := delay, uid := uid, gid := gid }
              let path := strdupesc line1 b.path_len
              let command := strdupesc (line1.drop b.cmd_first) b.cmd_len
              let chroot := if b.chroot_len > 0
                then some (strdupesc (line1.drop b.chroot_first) b.chroot_len) else none
              let e1 := wenv_set mem base_env (str "LOGNAME") p.pw_name true
              let e2 := wenv_set mem e1 (str "USER") p.pw_name true
              let e3 := wenv_set mem e2 (str "HOME") p.pw_dir false
              let e4 := wenv_set mem e3 (str "TRIGGER") path true
              some ({ d with path := some path, command := some command, chroot := chroot,
                             envp := some (wenv_dup e4) }, e4)

/-! ## `wtab_readfile` -/

/-- C `getdelim(&line, &linecap, '\n', input)`: the next line, its delimiter included,
and the rest of the stream; `none` at end of file. -/
def getdelim : List Nat → Option (List Nat × List Nat)
  | [] => none
  | c :: cs =>
    if c = 10 then some ([c], cs)
    else match getdelim cs with
      | none => some ([c], [])
      | some (l, rest) => some (c :: l, rest)

/-- Loop `while (line[skip] == ' ' || line[skip] == '\t') skip++`. -/
def skip_blanks : Nat → List Nat → Nat → Nat
  | 0, _, skip => skip
  | fuel + 1, line, skip =>
    if rd line skip = 32 ∨ rd line skip = 9 then skip_blanks fuel line (skip + 1) else skip

/-- The "Trim trailing blanks" loop of `wtab_readfile`. -/
def trim_blanks : Nat → List Nat → Nat → Nat → Nat
  | 0, _, _, linelen => linelen
  | fuel + 1, line, skip, linelen =>
    if linelen > skip ∧ (rd line (linelen - 1) = 10 ∨ rd line (linelen - 1) = 13
        ∨ rd line (linelen - 1) = 32 ∨ rd line (linelen - 1) = 9) then
      trim_blanks fuel line skip (linelen - 1)
    else linelen

/-- Loop `while (line[i] != 0 && line[i] != '=' && line[i] != '\\' && line[i] != '\t') i++`. -/
def scan_assign : Nat → List Nat → Nat → Nat
  | 0, _, i => i
  | fuel + 1, line, i =>
    if rd line i ≠ 0 ∧ rd line i ≠ 61 ∧ rd line i ≠ 92 ∧ rd line i ≠ 9 then
      scan_assign fuel line (i + 1)
    else i

/-- Loop `while (line[j] == ' ' && j > skip) j--`. -/
def name_end : Nat → List Nat → Nat → Nat → Nat
  | 0, _, _, j => j
  | fuel + 1, line, skip, j =>
    if rd line j = 32 ∧ j > skip then name_end fuel line skip (j - 1) else j

/-- Loop `while (line[j] == ' ') j++`. -/
def value_start : Nat → List Nat → Nat → Nat
  | 0, _, j => j
  | fuel + 1, line, j => if rd line j = 32 then value_start fuel line (j + 1) else j

/-- The state carried by the reading loop of `wtab_readfile`: the parser environment,
the table (head first) and the return value. -/
structure wtab_state where
  env : watch_env
  tab : List watch_entry
  result : Int
deriving DecidableEq, Repr

/-- One iteration of the reading loop of `wtab_readfile` on the line `line0` that
`getdelim` returned.  For a line whose first byte is `=` the source computes
`j = i - 1` below zero and reads before the buffer; the model reads `line[0]` there,
which is the `=` and stops the loop at once. -/
def wtab_readfile_line (db : UserDb) (mem : List env_ptr) (line0 : List Nat)
    (st : wtab_state) : wtab_state :=
  let n := line0.length
  let skip := skip_blanks n line0 0
  let linelen := trim_blanks n line0 skip n
  let line := line0.set linelen 0
  if linelen ≤ skip ∨ rd line skip = 35 then st
  else
    let i := scan_assign n line skip
    if rd line i = 61 then
      let j := name_end n line skip (i - 1)
      let line1 := if j + 1 < i then line.set (j + 1) 0 else line
      let j1 := value_start n line1 (i + 1)
      { st with env := wenv_set mem st.env (line1.drop skip) (line1.drop j1) true }
    else
      match wentry_readline db mem wentry_init (line.drop skip) st.env with
      | none => { st with result := -1 }
      | some (entry, env) => { st with env := env, tab := entry :: st.tab }

/-- The reading loop of `wtab_readfile`. -/
def wtab_readfile_loop : Nat → UserDb → List env_ptr → List Nat → wtab_state → wtab_state
  | 0, _, _, _, st => st
  | fuel + 1, db, mem, input, st =>
    match getdelim input with
    | none => st
    | some (line, rest) =>
      wtab_readfile_loop fuel db mem rest (wtab_readfile_line db mem line st)

/-- Function `wtab_readfile`: parse the given file to build a new watchtab.  `tab` is
the table on entry; the result is the return value and the table on exit.  The stream
is read without error; `mem` is what the block holds that `malloc` returns to
`wenv_init`. -/
def wtab_readfile (db : UserDb) (mem : List env_ptr) (tab : List watch_entry)
    (input : List Nat) : Int × List watch_entry :=
  let env := wenv_set mem (wenv_set mem (wenv_init mem) (str "SHELL") (str "/bin/sh") true)
    (str "PATH") (str "/usr/bin:/bin") true
  let st := wtab_readfile_loop input.length db mem input ⟨env, tab, 0⟩
  (st.result, st.tab)

/-- Whether a call of `wtab_readfile` does something on its environment table for which
C defines no behaviour (see `watch_env`). -/
def wtab_readfile_undefined (db : UserDb) (mem : List env_ptr) (input : List Nat) : Bool :=
  let env := wenv_set mem (wenv_set mem (wenv_init mem) (str "SHELL") (str "/bin/sh") true)
    (str "PATH") (str "/usr/bin:/bin") true
  (wtab_readfile_loop input.length db mem input ⟨env, [], 0⟩).env.undefined

/-! ## Command-line processing of `main` -/

/-- The variables of `main` set by command-line processing. -/
structure main_vars where
  argerr : Bool
  help : Bool
  daemonize : Bool
  delay : Int
  tabpath : Option (List Nat)
deriving DecidableEq, Repr

/-- The initial values of the variables of `main`. -/
def main_init : main_vars :=
  { argerr := false, help := false, daemonize := true, delay := 100, tabpath := none }

/-- The "Process options" loop of `main`, over the successive results of
`getopt_long`: the option character and `optarg`. -/
def main_options : List (Nat × List Nat) → main_vars → main_vars
  | [], v => v
  | (c, optarg) :: rest, v =>
    if v.argerr then v
    else if c = 100 then main_options rest { v with daemonize := false }
    else if c = 104 then main_options rest { v with help := true }
    else if c = 119 then
      let r := strtol optarg
      if rd optarg r.2 = 0 then main_options rest { v with delay := r.1, argerr := true }
      else main_options rest { v with delay := r.1 }
    else main_options rest { v with argerr := true }

/-- Outcome of the command-line processing of `main`: it prints the usage and returns
an exit status, or continues to initialization with the variables set. -/
inductive cmdline_result where
  | exit (status : Int)
  | run (v : main_vars)
deriving DecidableEq, Repr

/-- Command-line processing of `main`: `opts` are the options `getopt_long` yields and
`args` the arguments from `optind` on (`EXIT_SUCCESS` is 0, `EXIT_FAILURE` is 1). -/
def main_cmdline (opts : List (Nat × List Nat)) (args : List (List Nat)) :
    cmdline_result :=
  let v := main_options opts main_init
  let v1 := match args with
    | a :: _ => { v with tabpath := some a }
    | [] => { v with argerr := true }
  if v1.argerr ∨ v1.help then cmdline_result.exit (if v1.help then 0 else 1)
  else cmdline_result.run v1

/-! ## `run_entry` -/

/-- The calls the child created by `run_entry` makes, in program order: system calls,
log calls and `_exit`; `crash` is the dereference of a NULL `envp`. -/
inductive child_act where
  | chroot (path : List Nat)
  | chdir (path : List Nat)
  | setgid (gid : Nat)
  | setuid (uid : Nat)
  | nanosleep (delay : timespec)
  | execve (path : List Nat) (argv : List (List Nat)) (envp : List (List Nat))
  | log_chroot (path : List Nat)
  | log_chdir (path : List Nat)
  | log_setgid (gid : Nat)
  | log_setuid (uid : Nat)
  | log_exec
  | exit (status : Int)
  | crash
deriving DecidableEq, Repr

/-- Whether each system call of the child succeeds; a successful `execve` does not
return. -/
structure child_sys where
  chroot_ok : Bool
  chdir_ok : Bool
  setgid_ok : Bool
  setuid_ok : Bool
  execve_ok : Bool
deriving DecidableEq, Repr

/-- The loop "Lookup SHELL environment variable" of `run_entry`: `argv[0]` after the
loop, `none` for NULL. -/
def run_entry_shell : List (List Nat) → Option (List Nat)
  | [] => none
  | e :: es =>
    if strncmp e (str "SHELL=") 6 = 0 then some (cstr (e.drop 6)) else run_entry_shell es

/-- Function `run_entry`, in the child (`result == 0`): the calls made until the
process image is replaced or the process exits.  `EXIT_FAILURE` is 1. -/
def run_entry_child (wentry : watch_entry) (sys : child_sys) : List child_act :=
  let has_delay := decide (wentry.delay.tv_sec ≠ 0 ∨ wentry.delay.tv_nsec ≠ 0)
  let exec := match wentry.envp with
    | none => [child_act.crash]
    | some envp =>
      let argv0 := match run_entry_shell envp with
        | none => str "/bin/sh"
        | some s => s
      let argv := [argv0, str "-c"] ++ wentry.command.toList
      if sys.execve_ok then [child_act.execve argv0 argv envp]
      else [child_act.execve argv0 argv envp, child_act.log_exec, child_act.exit 1]
  let wait := if has_delay then child_act.nanosleep wentry.delay :: exec else exec
  let uid :=
    if wentry.uid ≠ 0 then
      if sys.setuid_ok then child_act.setuid wentry.uid :: wait
      else [child_act.setuid wentry.uid, child_act.log_setuid wentry.uid, child_act.exit 1]
    else wait
  let gid :=
    if wentry.gid ≠ 0 then
      if sys.setgid_ok then child_act.setgid wentry.gid :: uid
      else [child_act.setgid wentry.gid, child_act.log_setgid wentry.gid, child_act.exit 1]
    else uid
  match wentry.chroot with
  | none => gid
  | some c =>
    if sys.chroot_ok then
      if sys.chdir_ok then child_act.chroot c :: child_act.chdir (str "/") :: gid
      else [child_act.chroot c, child_act.chdir (str "/"), child_act.log_chdir c,
            child_act.exit 1]
    else [child_act.chroot c, child_act.log_chroot c, child_act.exit 1]

/-! ## The kernel queue and the supervision loop of `main` -/

/-- The filters of `<sys/event.h>` the daemon uses. -/
inductive kfilter where
  | EVFILT_VNODE
  | EVFILT_PROC
  | EVFILT_TIMER
deriving DecidableEq, Repr

/-- The `fflags` value `NOTE_EXIT` of `<sys/event.h>`. -/
def NOTE_EXIT : Nat := 0x80000000

/-- C `struct kevent`, as registered in a kernel queue or returned by it: `oneshot` is
the flag `EV_ONESHOT`, `udata` is a pointer to a `watch_entry` (`none` is NULL). -/
structure kevent where
  ident : Nat
  filter : kfilter
  oneshot : Bool
  fflags : Nat
  data : Int
  udata : Option Nat
deriving DecidableEq, Repr

/-- The log calls of `insert_entry` and of `main`. -/
inductive log_msg where
  | log_signal
  | log_kqueue
  | log_open_entry (path : Option (List Nat))
  | log_kevent_entry (path : Option (List Nat))
  | log_entry_wait (wentry : Nat)
  | log_kevent_wait
  | log_kevent_timer
  | log_assert
  | log_fork
  | log_kevent_proc (wentry : Nat) (pid : Int)
  | log_open_watchtab
  | log_kevent_timer_off
  | log_kevent_watchtab
  | log_watchtab_loaded
deriving DecidableEq, Repr

/-- The state of the daemon between two events: the live watchtab `wtab` as the list of
its entries with their addresses (head first), the next address `malloc` returns for an
entry (addresses are not reused), the events registered in the kernel queue, the open
file descriptors of the process, the descriptor under the stream `tab_f` (`none` once
the stream is closed), the variable `wtab_error` and the log written so far. -/
structure main_state where
  wtab : List (Nat × watch_entry)
  brk : Nat
  kq : List kevent
  fds : List Nat
  tab_f : Option Nat
  wtab_error : Bool
  log : List log_msg
deriving DecidableEq, Repr

/-- What the environment gives while one event is handled: the event `kevent` returns
(`none` when it fails), and the results of the system calls made: registering or
deleting the timer, `fork`, registering the process event, opening the watchtab,
`fdopen`, registering the watchtab event, the bytes read from the watchtab, what the
block holds that `malloc` returns to `wenv_init` when the watchtab is read, and for the
successive calls of `insert_entry` whether `open` and `kevent` succeed; at start, whether `signal` and `kqueue` succeed. -/
structure sys_input where
  ev : Option kevent
  timer_ok : Bool
  fork : Int
  proc_ok : Bool
  open_ok : Bool
  fdopen_ok : Bool
  watch_ok : Bool
  content : List Nat
  heap : List env_ptr
  arm : List (Bool × Bool)
  signal_ok : Bool
  kqueue_ok : Bool
deriving DecidableEq, Repr

/-- How one iteration of the main loop ends: back at the top of the loop, out of the
program with a status, or in a dereference of a pointer to released memory or another
step for which C defines no behaviour. -/
inductive loop_result where
  | next (s : main_state)
  | exit (status : Int) (s : main_state)
  | fault
deriving DecidableEq, Repr

/-- The scan for the lowest descriptor number that is not open. -/
def lowest_free_from : Nat → List Nat → Nat → Nat
  | 0, _, n => n
  | fuel + 1, fds, n =>
    if n ∈ fds then lowest_free_from fuel (fds.filter (fun x => x ≠ n)) (n + 1) else n

/-- The descriptor `open` returns: the lowest number not open in the process. -/
def lowest_free (fds : List Nat) : Nat := lowest_free_from fds.length fds 0

/-- Kernel: `EV_DELETE` of the event with the given identifier and filter. -/
def kq_delete (kq : List kevent) (ident : Nat) (filter : kfilter) : List kevent :=
  kq.filter (fun k => ¬ (k.ident = ident ∧ k.filter = filter))

/-- Kernel: `EV_ADD`, which replaces the event of the same identifier and filter. -/
def kq_add (kq : List kevent) (ev : kevent) : List kevent :=
  kq_delete kq ev.ident ev.filter ++ [ev]

/-- Kernel: `close(fd)`, which also removes the vnode events registered on `fd`; a
negative `fd` is refused. -/
def sys_close (s : main_state) (fd : Int) : main_state :=
  if fd < 0 then s
  else { s with fds := s.fds.filter (fun x => x ≠ fd.toNat),
                kq := kq_delete s.kq fd.toNat kfilter.EVFILT_VNODE }

/-- The event set watched on the watchtab file. -/
def watchtab_events : Nat := NOTE_DELETE ||| NOTE_WRITE ||| NOTE_RENAME ||| NOTE_REVOKE

/-- The event `insert_entry` registers for the entry at address `wentry`. -/
def entry_event (fd events wentry : Nat) : kevent :=
  ⟨fd, kfilter.EVFILT_VNODE, true, events, 0, some wentry⟩

/-- The event `main` registers for the watchtab file. -/
def watchtab_event (tab_fd : Nat) : kevent :=
  ⟨tab_fd, kfilter.EVFILT_VNODE, true, watchtab_events, 0, none⟩

/-- The timer `main` registers before reloading the watchtab. -/
def timer_event (delay : Int) : kevent :=
  ⟨42, kfilter.EVFILT_TIMER, false, 0, delay, none⟩

/-- The event `main` registers for the child `pid` of the entry at address `wentry`. -/
def proc_event (pid : Int) (wentry : Nat) : kevent :=
  ⟨pid.toNat, kfilter.EVFILT_PROC, true, NOTE_EXIT, 0, some wentry⟩

/-- Store into the entry at address `p`. -/
def wtab_set (wtab : List (Nat × watch_entry)) (p : Nat) (e : watch_entry) :
    List (Nat × watch_entry) :=
  wtab.map (fun x => if x.1 = p then (p, e) else x)

/-- Function `insert_entry`: wait for an event described by the given watchtab entry.
The result is `none` when `wentry` does not point to an entry of the watchtab. -/
def insert_entry (s : main_state) (wentry : Nat) (open_ok kevent_ok : Bool) :
    Option main_state :=
  match s.wtab.lookup wentry with
  | none => none
  | some e =>
    if open_ok = false ∨ e.path = none then
      some { s with wtab := wtab_set s.wtab wentry { e with fd := -1 },
                    log := s.log ++ [log_msg.log_open_entry e.path] }
    else
      let fd := lowest_free s.fds
      let s1 := { s with fds := fd :: s.fds,
                         wtab := wtab_set s.wtab wentry { e with fd := (fd : Int) } }
      if kevent_ok = false then
        let s2 := sys_close { s1 with log := s1.log ++ [log_msg.log_kevent_entry e.path] } fd
        some { s2 with wtab := wtab_set s2.wtab wentry { e with fd := -1 } }
      else
        some { s1 with kq := kq_add s1.kq (entry_event fd e.events wentry),
                       log := s1.log ++ [log_msg.log_entry_wait wentry] }

/-- The loops `SLIST_FOREACH(wentry, &wtab, next) insert_entry(kq, wentry)` of `main`,
over the addresses of the entries. -/
def insert_entries : List Nat → List (Bool × Bool) → main_state → Option main_state
  | [], _, s => some s
  | p :: ps, arm, s =>
    match insert_entry s p (arm.headD (true, true)).1 (arm.headD (true, true)).2 with
    | none => none
    | some s1 => insert_entries ps arm.tail s1

/-- Function `wentry_free` on an entry of the watchtab: `wentry_release` closes its
descriptor unless it is -1, and the entry is freed. -/
def wentry_free (s : main_state) (pe : Nat × watch_entry) : main_state :=
  if pe.2.fd ≠ -1 then sys_close s pe.2.fd else s

/-- Function `wtab_release`: release children objects but not the struct watchtab. -/
def wtab_release (s : main_state) : main_state :=
  { s.wtab.foldl wentry_free s with wtab := [] }

/-- Function `run_entry`, in the parent: the value returned for the result `fork` of
`fork` or `vfork`, and whether `log_fork` is called. -/
def run_entry (_wentry : watch_entry) (fork : Int) : Int × List log_msg :=
  if fork = -1 then (0, [log_msg.log_fork]) else (fork, [])

/-- The watchtab read in a reload becomes the live one: the old one is released, the
new entries get fresh addresses, and every entry is inserted. -/
def wtab_replace (s : main_state) (new_wtab : List watch_entry) (arm : List (Bool × Bool)) :
    Option main_state :=
  let s1 := wtab_release s
  let s2 := { s1 with wtab := new_wtab.enumFrom s1.brk, brk := s1.brk + new_wtab.length }
  insert_entries (s2.wtab.map (fun pe => pe.1)) arm s2

/-- The case `EVFILT_TIMER` of the main loop, `event` being the timer event. -/
def main_loop_timer (db : UserDb) (s : main_state) (i : sys_input) (event : kevent) :
    loop_result :=
  if i.open_ok = false then
    loop_result.next { s with
      log := if s.wtab_error = false then s.log ++ [log_msg.log_open_watchtab] else s.log,
      wtab_error := true }
  else
    let tab_fd := lowest_free s.fds
    let s1 := { s with fds := tab_fd :: s.fds }
    if i.fdopen_ok = false then
      loop_result.next (sys_close { s1 with
        log := if s.wtab_error = false then s.log ++ [log_msg.log_open_watchtab] else s.log,
        wtab_error := true, tab_f := none } tab_fd)
    else if i.timer_ok = false then
      loop_result.next { sys_close { s1 with log := s.log ++ [log_msg.log_kevent_timer_off] }
        tab_fd with tab_f := none }
    else
      let s2 := { s1 with tab_f := some tab_fd, kq := kq_delete s1.kq event.ident event.filter }
      let s3 :=
        if i.watch_ok then
          { s2 with kq := kq_add s2.kq (watchtab_event tab_fd) }
        else { s2 with log := s2.log ++ [log_msg.log_kevent_watchtab] }
      let r := wtab_readfile db i.heap [] i.content
      if wtab_readfile_undefined db i.heap i.content then loop_result.fault
      else if r.1 < 0 then loop_result.next s3
      else
        match wtab_replace s3 r.2 i.arm with
        | none => loop_result.fault
        | some s4 =>
          loop_result.next { s4 with log := s4.log ++ [log_msg.log_watchtab_loaded] }

/-- The part "A watchtab entry has been triggered" of the case `EVFILT_VNODE`. -/
def main_loop_entry (s : main_state) (i : sys_input) (event : kevent) (wentry : Nat) :
    loop_result :=
  match s.wtab.lookup wentry with
  | none => loop_result.fault
  | some e =>
    if e.fd < 0 ∨ e.fd.toNat ≠ event.ident then
      loop_result.exit 1 { s with log := s.log ++ [log_msg.log_assert] }
    else
      let s1 := sys_close s e.fd
      let s2 := { s1 with wtab := wtab_set s1.wtab wentry { e with fd := -1 } }
      let r := run_entry e i.fork
      let s3 := { s2 with log := s2.log ++ r.2 }
      if r.1 = 0 then loop_result.next s3
      else if i.proc_ok then
        loop_result.next { s3 with kq := kq_add s3.kq (proc_event r.1 wentry) }
      else
        loop_result.next { s3 with log := s3.log ++ [log_msg.log_kevent_proc wentry r.1] }

/-- The part "Something happened on the watchtab" of the case `EVFILT_VNODE`; `delay`
is the reload delay in milliseconds. -/
def main_loop_watchtab (delay : Int) (s : main_state) (i : sys_input) : loop_result :=
  match s.tab_f with
  | none => loop_result.fault
  | some fd =>
    let s1 := { sys_close s fd with tab_f := none }
    if i.timer_ok then
      loop_result.next { s1 with kq := kq_add s1.kq (timer_event delay) }
    else loop_result.exit 1 { s1 with log := s1.log ++ [log_msg.log_kevent_timer] }

/-- One iteration of the main loop of `main`.  The kernel removes a one-shot event
from the queue when it returns it. -/
def main_loop_body (db : UserDb) (delay : Int) (s : main_state) (i : sys_input) :
    loop_result :=
  match i.ev with
  | none => loop_result.exit 0 { s with log := s.log ++ [log_msg.log_kevent_wait] }
  | some event =>
    let s0 := if event.oneshot then
        { s with kq := kq_delete s.kq event.ident event.filter }
      else s
    match event.filter with
    | kfilter.EVFILT_VNODE =>
      match event.udata with
      | none => main_loop_watchtab delay s0 i
      | some wentry => main_loop_entry s0 i event wentry
    | kfilter.EVFILT_PROC =>
      match event.udata with
      | none => loop_result.fault
      | some wentry =>
        match insert_entry s0 wentry (i.arm.headD (true, true)).1
            (i.arm.headD (true, true)).2 with
        | none => loop_result.fault
        | some s1 => loop_result.next s1
    | kfilter.EVFILT_TIMER => main_loop_timer db s0 i event

/-- The process when `main` starts: no entry, an empty queue, the three standard
descriptors open. -/
def main_state0 : main_state :=
  { wtab := [], brk := 0, kq := [], fds := [0, 1, 2], tab_f := none,
    wtab_error := false, log := [] }

/-- The part INITIALIZATION of `main`, up to the main loop. -/
def main_start (db : UserDb) (i : sys_input) : loop_result :=
  let s := main_state0
  if i.signal_ok = false then
    loop_result.exit 1 { s with log := s.log ++ [log_msg.log_signal] }
  else if i.open_ok = false ∨ i.fdopen_ok = false then
    loop_result.exit 1 { s with log := s.log ++ [log_msg.log_open_watchtab] }
  else
    let tab_fd := lowest_free s.fds
    let s1 := { s with fds := tab_fd :: s.fds, tab_f := some tab_fd }
    let r := wtab_readfile db i.heap [] i.content
    if wtab_readfile_undefined db i.heap i.content then loop_result.fault
    else if r.1 < 0 then loop_result.exit 1 s1
    else
      let s2 := { s1 with wtab := r.2.enumFrom 0, brk := r.2.length,
                          log := s1.log ++ [log_msg.log_watchtab_loaded] }
      if i.kqueue_ok = false then
        loop_result.exit 1 { s2 with log := s2.log ++ [log_msg.log_kqueue] }
      else
        let s3 := { s2 with fds := lowest_free s2.fds :: s2.fds }
        if i.watch_ok = false then
          loop_result.exit 1 { s3 with log := s3.log ++ [log_msg.log_kevent_watchtab] }
        else
          let s4 := { s3 with kq := kq_add s3.kq (watchtab_event tab_fd) }
          match insert_entries (s4.wtab.map (fun pe => pe.1)) i.arm s4 with
          | none => loop_result.fault
          | some s5 => loop_result.next s5

/-- The main loop over a sequence of events and system call results.  The result is
`none` when an event of the sequence is not in the queue at the time the kernel is to
return it, which no kernel does. -/
def main_loop (db : UserDb) (delay : Int) : List sys_input → main_state → Option loop_result
  | [], s => some (loop_result.next s)
  | i :: rest, s =>
    if (match i.ev with
        | none => true
        | some event => decide (event ∈ s.kq)) = true then
      match main_loop_body db delay s i with
      | loop_result.next s1 => main_loop db delay rest s1
      | r => some r
    else none

/-- System call results in which every call succeeds, `fork` returns the pid 100 and
`malloc` returns blocks of NULL pointers; the event and the watchtab bytes are to be
filled in. -/
def sys_ok : sys_input :=
  { ev := none, timer_ok := true, fork := 100, proc_ok := true, open_ok := true,
    fdopen_ok := true, watch_ok := true, content := [], heap := fresh_block, arm := [],
    signal_ok := true, kqueue_ok := true }

/-! ## Concrete inputs used by the examples -/

/-- A user database with root and nobody, logged in as root. -/
def db0 : UserDb :=
  { getpwnam := fun n =>
      if n = str "root" then some ⟨str "root", 0, 0, str "/root"⟩
      else if n = str "nobody" then some ⟨str "nobody", 65534, 65534, str "/nonexistent"⟩
      else none,
    getpwuid := fun u =>
      if u = 0 then some ⟨str "root", 0, 0, str "/root"⟩
      else if u = 65534 then some ⟨str "nobody", 65534, 65534, str "/nonexistent"⟩
      else none,
    getgrnam := fun n =>
      if n = str "wheel" then some ⟨0⟩
      else if n = str "nogroup" then some ⟨65533⟩
      else none,
    getgrgid := fun g =>
      if g = 0 then some ⟨0⟩ else if g = 65533 then some ⟨65533⟩ else none,
    getlogin := some (str "root") }

/-! ## Vocabulary of the statements -/

/-- The seven vnode events of the watchtab grammar. -/
inductive event where
  | delete | write | extend | attrib | link | rename | revoke
deriving DecidableEq, Repr

/-- The flag of an event. -/
def event.flag : event → Nat
  | .delete => NOTE_DELETE
  | .write => NOTE_WRITE
  | .extend => NOTE_EXTEND
  | .attrib => NOTE_ATTRIB
  | .link => NOTE_LINK
  | .rename => NOTE_RENAME
  | .revoke => NOTE_REVOKE

/-- The name of an event, written all-uppercase (`upper = true`) or all-lowercase. -/
def event.spell : event → Bool → List Nat
  | .delete, false => str "delete"
  | .delete, true => str "DELETE"
  | .write, false => str "write"
  | .write, true => str "WRITE"
  | .extend, false => str "extend"
  | .extend, true => str "EXTEND"
  | .attrib, false => str "attrib"
  | .attrib, true => str "ATTRIB"
  | .link, false => str "link"
  | .link, true => str "LINK"
  | .rename, false => str "rename"
  | .rename, true => str "RENAME"
  | .revoke, false => str "revoke"
  | .revoke, true => str "REVOKE"

/-- The continuation of a token run: each further name preceded by its separator byte. -/
def run_tail : List (Nat × event × Bool) → List Nat
  | [] => []
  | (s, e, u) :: m => s :: (e.spell u ++ run_tail m)

/-- Bitwise OR of the flags of the names of a continuation. -/
def run_flags : List (Nat × event × Bool) → Nat
  | [] => 0
  | (_, e, _) :: m => e.flag ||| run_flags m


/-- The copy rule of `strdupesc` on a NUL-free string, as a recursion on the bytes
still to read: `prev` is the byte before them (`0` at the start of the string). -/
def unesc_prev : Nat → List Nat → List Nat
  | _, [] => []
  | prev, c :: cs => if c ≠ 92 ∨ prev = 92 then c :: unesc_prev c cs else unesc_prev c cs


/-- No byte of the list ends a field when the byte before the list is `prev`: no NUL,
and every tab is preceded by a backslash. -/
def no_sep : Nat → List Nat → Bool
  | _, [] => true
  | prev, c :: cs => decide (c ≠ 0) && (decide (c ≠ 9) || decide (prev = 92)) && no_sep c cs

/-- A field of an entry line: non-empty, without NUL, not starting with a tab, and
with every tab preceded by a backslash. -/
def is_field (f : List Nat) : Prop := f ≠ [] ∧ no_sep 0 f = true

/-- A field that a following tab terminates: its last byte is not a backslash. -/
def is_sep_field (f : List Nat) : Prop := is_field f ∧ f.getLastD 0 ≠ 92

/-- A separator of an entry line: a run of `k + 1` tabs. -/
def tabs (k : Nat) : List Nat := List.replicate (k + 1) 9

/-- The value of a string of decimal digits. -/
def decimal : List Nat → Nat := List.foldl (fun a c => a * 10 + (c - 48)) 0


instance is_field_decidable (f : List Nat) : Decidable (is_field f) := by
  unfold is_field
  exact inferInstance

instance is_sep_field_decidable (f : List Nat) : Decidable (is_sep_field f) := by
  unfold is_sep_field
  exact inferInstance

/-- The event names of a token run, in order. -/
def run_names (e : event) (m : List (Nat × event × Bool)) : List event :=
  e :: m.map (fun x => x.2.1)

/-- The environment `wentry_readline` leaves in `base_env` for the user `p` and the
stored path `path`. -/
def entry_env (mem : List env_ptr) (base_env : watch_env) (p : passwd) (path : List Nat) :
    watch_env :=
  wenv_set mem (wenv_set mem (wenv_set mem (wenv_set mem base_env (str "LOGNAME") p.pw_name
    true) (str "USER") p.pw_name true) (str "HOME") p.pw_dir false) (str "TRIGGER") path true

/-! ## Vocabulary of the reading loop -/

/-- The successive lines that `getdelim` returns on a stream, delimiters included. -/
def file_lines : List Nat → List (List Nat)
  | [] => []
  | c :: cs =>
    if c = 10 then [c] :: file_lines cs
    else match file_lines cs with
      | [] => [[c]]
      | l :: ls => (c :: l) :: ls

/-- What the reading loop of `wtab_readfile` does with a line: skip it, record a
variable, or hand a buffer to `wentry_readline`. -/
inductive line_class where
  | skipped
  | assignment (name value : List Nat)
  | entry (buf : List Nat)
deriving DecidableEq, Repr

/-- The branch the reading loop of `wtab_readfile` takes on the line `line0`, with the
arguments it passes to `wenv_set` or to `wentry_readline`. -/
def classify_line (line0 : List Nat) : line_class :=
  let n := line0.length
  let skip := skip_blanks n line0 0
  let linelen := trim_blanks n line0 skip n
  let line := line0.set linelen 0
  if linelen ≤ skip ∨ rd line skip = 35 then line_class.skipped
  else
    let i := scan_assign n line skip
    if rd line i = 61 then
      let j := name_end n line skip (i - 1)
      let line1 := if j + 1 < i then line.set (j + 1) 0 else line
      let j1 := value_start n line1 (i + 1)
      line_class.assignment (line1.drop skip) (line1.drop j1)
    else line_class.entry (line.drop skip)

/-- The environment `wtab_readfile` starts from. -/
def wtab_env0 (mem : List env_ptr) : watch_env :=
  wenv_set mem (wenv_set mem (wenv_init mem) (str "SHELL") (str "/bin/sh") true)
    (str "PATH") (str "/usr/bin:/bin") true

/-- The outcome of `wentry_readline` on each entry line of a list of lines, in file
order, the parser environment being `env` before the first line: `none` for a rejected
line, the entry for an accepted one. -/
def line_outcomes (db : UserDb) (mem : List env_ptr) :
    List (List Nat) → watch_env → List (Option watch_entry)
  | [], _ => []
  | l :: ls, env =>
    match classify_line l with
    | line_class.skipped => line_outcomes db mem ls env
    | line_class.assignment name value =>
      line_outcomes db mem ls (wenv_set mem env name value true)
    | line_class.entry buf =>
      match wentry_readline db mem wentry_init buf env with
      | none => none :: line_outcomes db mem ls env
      | some (e, env1) => some e :: line_outcomes db mem ls env1

/-- The parser environment after a list of lines. -/
def env_after (db : UserDb) (mem : List env_ptr) : List (List Nat) → watch_env → watch_env
  | [], env => env
  | l :: ls, env =>
    match classify_line l with
    | line_class.skipped => env_after db mem ls env
    | line_class.assignment name value =>
      env_after db mem ls (wenv_set mem env name value true)
    | line_class.entry buf =>
      match wentry_readline db mem wentry_init buf env with
      | none => env_after db mem ls env
      | some (_, env1) => env_after db mem ls env1

/-- The entries accepted among a list of outcomes, in file order. -/
def accepted (o : List (Option watch_entry)) : List watch_entry := o.filterMap id

/-- The reading loop of `wtab_readfile` as a fold over the lines of the stream. -/
def wtab_fold (db : UserDb) (mem : List env_ptr) (ls : List (List Nat)) (st : wtab_state) :
    wtab_state :=
  ls.foldl (fun st l => wtab_readfile_line db mem l st) st

/-- A byte trimmed at the end of a watchtab line: LF, CR, space or tab. -/
def is_trailing (c : Nat) : Bool := c = 10 || c = 13 || c = 32 || c = 9

/-- The first byte among `=`, backslash and TAB in a string, if any. -/
def first_special : List Nat → Option Nat
  | [] => none
  | c :: cs => if c = 61 ∨ c = 92 ∨ c = 9 then some c else first_special cs

/-- The search of `wenv_set` among the strings of a table: index of the first string whose
first `n` bytes compare equal to those of `line`, or the number of strings when there is
none. -/
def wenv_set_find : List (List Nat) → List Nat → Nat → Nat → Nat
  | [], _, _, i => i
  | e :: es, line, n, i => if strncmp e line n = 0 then i else wenv_set_find es line n (i + 1)

/-- The search of `wenv_get` among the strings of a table. -/
def wenv_get_find : List (List Nat) → List Nat → Nat → Option (List Nat)
  | [], _, _ => none
  | e :: es, name, namelen =>
    if strncmp e name namelen = 0 ∧ rd e namelen = 61 then some (cstr (e.drop (namelen + 1)))
    else wenv_get_find es name namelen

/-- Whether a slot holds a pointer to a string. -/
def env_ptr.is_str : env_ptr → Bool
  | env_ptr.str _ => true
  | _ => false

/-- The shape of every table that `wenv_init` and `wenv_set` build: the array has
`capacity` slots, the first `size` of them point to strings, and `size` is below
`capacity`.  Nothing is said of the slots from `size` on. -/
def wenv_ok (w : watch_env) : Prop :=
  match w.environ with
  | none => True
  | some a => a.length = w.capacity ∧ w.size < w.capacity
      ∧ (a.take w.size).all env_ptr.is_str = true

instance wenv_ok_decidable (w : watch_env) : Decidable (wenv_ok w) := by
  unfold wenv_ok
  cases w.environ <;> simp only [] <;> exact inferInstance

/-- The table whose array starts with the strings `ls`, followed by the slots `g`. -/
def env_table (ls : List (List Nat)) (g : List env_ptr) (u : Bool) : watch_env :=
  { environ := some (ls.map env_ptr.str ++ g), size := ls.length,
    capacity := ls.length + g.length, undefined := u }

/-- A table without stray slots: it has the shape `wenv_ok`, its array is allocated, the
slots that follow its strings hold NULL pointers only, and no call on it has left the
defined behaviour.  A table is so when `malloc` gave `wenv_init` a block of NULL
pointers. -/
def wenv_clean (w : watch_env) : Prop :=
  wenv_ok w ∧ w.undefined = false
    ∧ match w.environ with
      | none => False
      | some a => (a.drop w.size).all (fun p => decide (p = env_ptr.null)) = true

instance wenv_clean_decidable (w : watch_env) : Decidable (wenv_clean w) := by
  unfold wenv_clean
  cases w.environ <;> simp only [] <;> exact inferInstance

/-- The line `wenv_set` builds for a variable. -/
def env_line (name value : List Nat) : List Nat := cstr name ++ [61] ++ cstr value

/-- A line may follow the assignment of the variable line `L` without replacing it: it
is not an assignment, or it assigns a variable whose `name=` does not start `L`. -/
def keeps_line (L : List Nat) (l : List Nat) : Prop :=
  match classify_line l with
  | line_class.assignment name value => strncmp L (env_line name value) (strlen name + 1) ≠ 0
  | _ => True

instance keeps_line_decidable (L l : List Nat) : Decidable (keeps_line L l) := by
  unfold keeps_line
  cases classify_line l <;> simp only [] <;> exact inferInstance

/-! ## Vocabulary of the environment table, of the child and of the main loop -/

/-- The table `wenv_set` leaves when the search loop stops at index `i`: the line is
appended when `i` is the size of the table and stored at `i` otherwise. -/
def env_put (es : List (List Nat)) (i : Nat) (line : List Nat) : List (List Nat) :=
  if i = es.length then es ++ [line] else es.set i line

/-- The steps of the child as the specification lists them, in its order, each present
only if requested, ending with the exec of `shell -c command`. -/
def child_sequence_spec (wentry : watch_entry) (shell : List Nat) (envp : List (List Nat)) :
    List child_act :=
  (match wentry.chroot with
    | some c => [child_act.chroot c, child_act.chdir (str "/")]
    | none => [])
  ++ (if wentry.gid ≠ 0 then [child_act.setgid wentry.gid] else [])
  ++ (if wentry.uid ≠ 0 then [child_act.setuid wentry.uid] else [])
  ++ (if wentry.delay ≠ ⟨0, 0⟩ then [child_act.nanosleep wentry.delay] else [])
  ++ [child_act.execve shell ([shell, str "-c"] ++ wentry.command.toList) envp]

/-- Whether a step of the child succeeds. -/
def step_ok (sys : child_sys) : child_act → Bool
  | child_act.chroot _ => sys.chroot_ok
  | child_act.chdir _ => sys.chdir_ok
  | child_act.setgid _ => sys.setgid_ok
  | child_act.setuid _ => sys.setuid_ok
  | child_act.execve _ _ _ => sys.execve_ok
  | _ => true

/-- The steps performed when a list of steps is run up to its first failure, that step
included. -/
def run_until_failure (sys : child_sys) : List child_act → List child_act
  | [] => []
  | a :: rest => if step_ok sys a then a :: run_until_failure sys rest else [a]

/-- A step of the child, as opposed to a log call or the exit. -/
def is_step : child_act → Bool
  | child_act.chroot _ => true
  | child_act.chdir _ => true
  | child_act.setgid _ => true
  | child_act.setuid _ => true
  | child_act.nanosleep _ => true
  | child_act.execve _ _ _ => true
  | _ => false

/-- An exec among the calls. -/
def is_execve : child_act → Bool
  | child_act.execve _ _ _ => true
  | _ => false

/-- The entry is unarmed, or its descriptor is open and registered in the queue as a
one-shot vnode event for the events of the entry, with the address of the entry as
`udata`. -/
def entry_armed (fds : List Nat) (kq : List kevent) (pe : Nat × watch_entry) : Prop :=
  pe.2.fd = -1
  ∨ (0 ≤ pe.2.fd ∧ pe.2.fd.toNat ∈ fds ∧ entry_event pe.2.fd.toNat pe.2.events pe.1 ∈ kq)

/-- Every vnode event of the queue is registered on an open descriptor. -/
def kq_open (kq : List kevent) (fds : List Nat) : Prop :=
  ∀ k ∈ kq, k.filter = kfilter.EVFILT_VNODE → k.ident ∈ fds

/-- The queue holds at most one event for an identifier and a filter. -/
def kq_keys (kq : List kevent) : Prop :=
  ∀ a ∈ kq, ∀ b ∈ kq, a.ident = b.ident → a.filter = b.filter → a = b

/-- The invariant of the main loop: every entry of the live watchtab is unarmed or
armed, the queue is consistent with the open descriptors, the entries have distinct
addresses, and the descriptor of the watchtab stream is open and is not the descriptor
of an entry. -/
def main_inv (s : main_state) : Prop :=
  (∀ pe ∈ s.wtab, entry_armed s.fds s.kq pe)
  ∧ kq_open s.kq s.fds
  ∧ kq_keys s.kq
  ∧ (s.wtab.map (fun pe => pe.1)).Nodup
  ∧ (∀ t ∈ s.tab_f, t ∈ s.fds ∧ ∀ pe ∈ s.wtab, pe.2.fd ≠ (t : Int))

instance entry_armed_decidable (fds : List Nat) (kq : List kevent) (pe : Nat × watch_entry) :
    Decidable (entry_armed fds kq pe) := by
  unfold entry_armed
  exact inferInstance

instance kq_open_decidable (kq : List kevent) (fds : List Nat) : Decidable (kq_open kq fds) := by
  unfold kq_open
  exact inferInstance

instance kq_keys_decidable (kq : List kevent) : Decidable (kq_keys kq) := by
  unfold kq_keys
  exact inferInstance

instance main_inv_decidable (s : main_state) : Decidable (main_inv s) := by
  unfold main_inv
  exact inferInstance

/-! ## Concrete states used by the examples -/

/-- The watchtab of the examples: the line `/tmp/a<TAB>write<TAB>echo hi`. -/
def tab0 : List Nat := str "/tmp/a\twrite\techo hi\n"

/-- The entry of `tab0` read with `db0`, with the descriptor `fd`. -/
def entry0 (fd : Int) : watch_entry :=
  { path := some (str "/tmp/a"), events := NOTE_WRITE, delay := ⟨0, 0⟩, uid := 0, gid := 0,
    chroot := none, command := some (str "echo hi"),
    envp := some [str "SHELL=/bin/sh", str "PATH=/usr/bin:/bin", str "LOGNAME=root",
                  str "USER=root", str "HOME=/root", str "TRIGGER=/tmp/a"],
    fd := fd }

/-- The state in which `main` enters the main loop on `tab0` when every call succeeds:
the watchtab is open on descriptor 3, the queue is descriptor 4 and the entry, at
address 0, is armed on descriptor 5. -/
def state0 : main_state :=
  { wtab := [(0, entry0 5)], brk := 1,
    kq := [watchtab_event 3, entry_event 5 NOTE_WRITE 0],
    fds := [5, 4, 3, 0, 1, 2], tab_f := some 3, wtab_error := false,
    log := [log_msg.log_watchtab_loaded, log_msg.log_entry_wait 0] }

/-- The state `state0` after the event of the watchtab file: the stream is closed and
the timer runs. -/
def state1 : main_state :=
  { wtab := [(0, entry0 5)], brk := 1,
    kq := [entry_event 5 NOTE_WRITE 0, timer_event 100],
    fds := [5, 4, 0, 1, 2], tab_f := none, wtab_error := false,
    log := [log_msg.log_watchtab_loaded, log_msg.log_entry_wait 0] }

/-- An entry with a chroot, a group, a user and a delay, and no `SHELL` line. -/
def entry1 : watch_entry :=
  { path := some (str "/tmp/a"), events := NOTE_WRITE, delay := ⟨1, 500000000⟩,
    uid := 1001, gid := 1002, chroot := some (str "/jail"), command := some (str "echo hi"),
    envp := some [str "PATH=/usr/bin:/bin", str "TRIGGER=/tmp/a"], fd := -1 }

/-! ## Buffer reads -/

theorem rd_append_right (pre x : List Nat) (j : Nat) :
    rd (pre ++ x) (pre.length + j) = rd x j := by
  induction pre with
  | nil => simp
  | cons c cs ih =>
    have : (c :: cs).length + j = (cs.length + j) + 1 := by simp; omega
    rw [this]
    simpa [rd] using ih

theorem rd_append_left (pre x : List Nat) (j : Nat) (h : j < pre.length) :
    rd (pre ++ x) j = rd pre j := by
  simp [rd, List.getD, List.getElem?_append_left h]

theorem rd_append_length (pre x : List Nat) : rd (pre ++ x) pre.length = x.headD 0 := by
  have := rd_append_right pre x 0
  cases x <;> simp_all [rd]

theorem rd_append_last (pre x : List Nat) (h : pre ≠ []) :
    rd (pre ++ x) (pre.length - 1) = pre.getLastD 0 := by
  obtain ⟨a, c, rfl⟩ : ∃ a c, pre = a ++ [c] := by
    rcases List.eq_nil_or_concat pre with h1 | ⟨a, c, h1⟩
    · exact absurd h1 h
    · exact ⟨a, c, by simpa using h1⟩
  have := rd_append_length a ([c] ++ x)
  simpa [List.append_assoc] using this

/-! ## Loop budgets -/

theorem rd_of_length_le (line : List Nat) (i : Nat) (h : line.length ≤ i) : rd line i = 0 := by
  simp [rd, List.getD, List.getElem?_eq_none h]

/-- The budget of `skip_field` is never exhausted: beyond `line.length - i` iterations
more budget does not change the result. -/
theorem skip_field_budget : ∀ (fuel k : Nat) (line : List Nat) (i : Nat),
    line.length ≤ i + fuel → skip_field (fuel + k) line i = skip_field fuel line i := by
  intro fuel
  induction fuel with
  | zero =>
    intro k line i h
    cases k with
    | zero => rfl
    | succ k =>
      have := rd_of_length_le line i (by omega)
      simp [skip_field, this]
  | succ n ih =>
    intro k line i h
    have e : n + 1 + k = (n + k) + 1 := by omega
    rw [e, skip_field, skip_field, ih k line (i + 1) (by omega)]

/-- The budget of `skip_tabs` is never exhausted. -/
theorem skip_tabs_budget : ∀ (fuel k : Nat) (line : List Nat) (i : Nat),
    line.length ≤ i + fuel → skip_tabs (fuel + k) line i = skip_tabs fuel line i := by
  intro fuel
  induction fuel with
  | zero =>
    intro k line i h
    cases k with
    | zero => rfl
    | succ k =>
      have := rd_of_length_le line i (by omega)
      simp [skip_tabs, this]
  | succ n ih =>
    intro k line i h
    have e : n + 1 + k = (n + k) + 1 := by omega
    rw [e, skip_tabs, skip_tabs, ih k line (i + 1) (by omega)]

/-- The budget of `skip_rest` is never exhausted. -/
theorem skip_rest_budget : ∀ (fuel k : Nat) (line : List Nat) (i : Nat),
    line.length ≤ i + fuel → skip_rest (fuel + k) line i = skip_rest fuel line i := by
  intro fuel
  induction fuel with
  | zero =>
    intro k line i h
    cases k with
    | zero => rfl
    | succ k =>
      have := rd_of_length_le line i (by omega)
      simp [skip_rest, this]
  | succ n ih =>
    intro k line i h
    have e : n + 1 + k = (n + k) + 1 := by omega
    rw [e, skip_rest, skip_rest, ih k line (i + 1) (by omega)]

/-- The budget of the loop of `parse_events` is never exhausted: the loop runs while
`i < len` and `i` grows at each iteration. -/
theorem parse_events_loop_budget : ∀ (fuel k : Nat) (line : List Nat) (len i result : Nat),
    len ≤ i + fuel →
    parse_events_loop (fuel + k) line len i result = parse_events_loop fuel line len i result := by
  intro fuel
  induction fuel with
  | zero =>
    intro k line len i result h
    cases k with
    | zero => rfl
    | succ k => simp [parse_events_loop]; omega
  | succ n ih =>
    intro k line len i result h
    have e : n + 1 + k = (n + k) + 1 := by omega
    rw [e, parse_events_loop, parse_events_loop]
    by_cases hi : i < len
    · rw [if_pos hi, if_pos hi]
      cases event_token (List.drop i line) with
      | none => rfl
      | some fn =>
        obtain ⟨fl, m⟩ := fn
        simp only []
        rw [ih k line len (i + m + 1) (result ||| fl) (by omega)]
    · rw [if_neg hi, if_neg hi]

/-- The budget of the loop of `strdupesc` is never exhausted: the loop runs while
`s < len` and `s` grows at each iteration. -/
theorem strdupesc_loop_budget : ∀ (fuel k : Nat) (src : List Nat) (len s : Nat)
    (dest : List Nat), len ≤ s + fuel →
    strdupesc_loop (fuel + k) src len s dest = strdupesc_loop fuel src len s dest := by
  intro fuel
  induction fuel with
  | zero =>
    intro k src len s dest h
    cases k with
    | zero => rfl
    | succ k =>
      have : ¬ s < len := by omega
      simp [strdupesc_loop, this]
  | succ n ih =>
    intro k src len s dest h
    have e : n + 1 + k = (n + k) + 1 := by omega
    rw [e, strdupesc_loop, strdupesc_loop, ih k src len (s + 1) _ (by omega),
      ih k src len (s + 1) _ (by omega)]


/-- The budget of the padding loop of the delay block is never exhausted: the loop runs
while `ns - s <= 9` and `ns - s` grows at each iteration. -/
theorem delay_pad_budget : ∀ (fuel k : Nat) (nsec : Int) (d : Nat),
    10 ≤ d + fuel → delay_pad (fuel + k) nsec d = delay_pad fuel nsec d := by
  intro fuel
  induction fuel with
  | zero =>
    intro k nsec d h
    cases k with
    | zero => rfl
    | succ k =>
      have : ¬ d ≤ 9 := by omega
      simp [delay_pad, this]
  | succ n ih =>
    intro k nsec d h
    have e : n + 1 + k = (n + k) + 1 := by omega
    rw [e, delay_pad, delay_pad, ih k _ (d + 1) (by omega)]

/-! ## `parse_events` -/

theorem strncmp_self_append (tok r : List Nat) : strncmp (tok ++ r) tok tok.length = 0 := by
  induction tok with
  | nil => simp [strncmp]
  | cons c cs ih => simp [strncmp, ih]

theorem strncmp_eq_zero (tok : List Nat) (h0 : ∀ c ∈ tok, c ≠ 0) :
    ∀ p : List Nat, strncmp p tok tok.length = 0 → ∃ r, p = tok ++ r := by
  induction tok with
  | nil => intro p _; exact ⟨p, rfl⟩
  | cons c cs ih =>
    intro p h
    have hc : c ≠ 0 := h0 c (by simp)
    cases p with
    | nil =>
      simp [strncmp] at h
      omega
    | cons x xs =>
      simp only [List.length_cons, strncmp, List.headD_cons, List.tail_cons] at h
      by_cases hx : x = c
      · subst hx
        simp [hc] at h
        obtain ⟨r, hr⟩ := ih (fun d hd => h0 d (by simp [hd])) xs h
        exact ⟨r, by simp [hr]⟩
      · simp [hx] at h
        omega

theorem event_token_spell (e : event) (u : Bool) (r : List Nat) :
    event_token (e.spell u ++ r) = some (e.flag, (e.spell u).length) := by
  cases e <;> cases u <;> simp [event.spell, event.flag, event_token, str, strncmp]


theorem spell_token (p : List Nat) (e : event) (u : Bool)
    (h : strncmp p (e.spell u) (e.spell u).length = 0) : ∃ r, p = e.spell u ++ r :=
  strncmp_eq_zero (e.spell u) (by cases e <;> cases u <;> decide) p h

theorem event_token_some (p : List Nat) (fl n : Nat) (h : event_token p = some (fl, n)) :
    ∃ e u r, fl = event.flag e ∧ n = (event.spell e u).length ∧ p = event.spell e u ++ r := by
  unfold event_token at h
  split_ifs at h with h1 h2 h3 h4 h5 h6 h7
  · simp only [Option.some.injEq, Prod.mk.injEq] at h
    rcases h1 with h1 | h1
    · obtain ⟨r, hr⟩ := spell_token p .delete false h1
      exact ⟨.delete, false, r, h.1.symm, h.2.symm, hr⟩
    · obtain ⟨r, hr⟩ := spell_token p .delete true h1
      exact ⟨.delete, true, r, h.1.symm, h.2.symm, hr⟩
  · simp only [Option.some.injEq, Prod.mk.injEq] at h
    rcases h2 with h1 | h1
    · obtain ⟨r, hr⟩ := spell_token p .write false h1
      exact ⟨.write, false, r, h.1.symm, h.2.symm, hr⟩
    · obtain ⟨r, hr⟩ := spell_token p .write true h1
      exact ⟨.write, true, r, h.1.symm, h.2.symm, hr⟩
  · simp only [Option.some.injEq, Prod.mk.injEq] at h
    rcases h3 with h1 | h1
    · obtain ⟨r, hr⟩ := spell_token p .extend false h1
      exact ⟨.extend, false, r, h.1.symm, h.2.symm, hr⟩
    · obtain ⟨r, hr⟩ := spell_token p .extend true h1
      exact ⟨.extend, true, r, h.1.symm, h.2.symm, hr⟩
  · simp only [Option.some.injEq, Prod.mk.injEq] at h
    rcases h4 with h1 | h1
    · obtain ⟨r, hr⟩ := spell_token p .attrib false h1
      exact ⟨.attrib, false, r, h.1.symm, h.2.symm, hr⟩
    · obtain ⟨r, hr⟩ := spell_token p .attrib true h1
      exact ⟨.attrib, true, r, h.1.symm, h.2.symm, hr⟩
  · simp only [Option.some.injEq, Prod.mk.injEq] at h
    rcases h5 with h1 | h1
    · obtain ⟨r, hr⟩ := spell_token p .link false h1
      exact ⟨.link, false, r, h.1.symm, h.2.symm, hr⟩
    · obtain ⟨r, hr⟩ := spell_token p .link true h1
      exact ⟨.link, true, r, h.1.symm, h.2.symm, hr⟩
  · simp only [Option.some.injEq, Prod.mk.injEq] at h
    rcases h6 with h1 | h1
    · obtain ⟨r, hr⟩ := spell_token p .rename false h1
      exact ⟨.rename, false, r, h.1.symm, h.2.symm, hr⟩
    · obtain ⟨r, hr⟩ := spell_token p .rename true h1
      exact ⟨.rename, true, r, h.1.symm, h.2.symm, hr⟩
  · simp only [Option.some.injEq, Prod.mk.injEq] at h
    rcases h7 with h1 | h1
    · obtain ⟨r, hr⟩ := spell_token p .revoke false h1
      exact ⟨.revoke, false, r, h.1.symm, h.2.symm, hr⟩
    · obtain ⟨r, hr⟩ := spell_token p .revoke true h1
      exact ⟨.revoke, true, r, h.1.symm, h.2.symm, hr⟩

theorem spell_length_pos (e : event) (u : Bool) : 0 < (event.spell e u).length := by
  cases e <;> cases u <;> decide

theorem spell_letters (e : event) (u : Bool) : ∀ c ∈ event.spell e u, isletter c = true := by
  cases e <;> cases u <;> decide

theorem flag_pos (e : event) : 0 < event.flag e := by
  cases e <;> decide

/-- The loop of `parse_events` on a token run (followed by at most one further
non-letter byte when `tr` is given) accumulates the flags of its names. -/
theorem parse_events_loop_run : ∀ (m : List (Nat × event × Bool)) (e : event) (u : Bool)
    (tr : List Nat) (pre rest : List Nat) (fuel result : Nat),
    (∀ x ∈ m, isletter x.1 = false) → (tr.length ≤ 1) → (∀ c ∈ tr, isletter c = false) →
    m.length < fuel →
    parse_events_loop fuel (pre ++ (event.spell e u ++ run_tail m ++ tr) ++ rest)
      (pre.length + (event.spell e u ++ run_tail m ++ tr).length) pre.length result
      = result ||| (event.flag e ||| run_flags m) := by
  intro m
  induction m with
  | nil =>
    intro e u tr pre rest fuel result _ htr htl hf
    obtain ⟨fuel, rfl⟩ : ∃ k, fuel = k + 1 := ⟨fuel - 1, by simp at hf; omega⟩
    have hpos := spell_length_pos e u
    have hdrop : List.drop pre.length (pre ++ (event.spell e u ++ run_tail [] ++ tr) ++ rest)
        = event.spell e u ++ (tr ++ rest) := by
      simp [run_tail, List.append_assoc]
    rw [parse_events_loop, if_pos (by simp; omega), hdrop, event_token_spell]
    simp only [run_tail, run_flags, List.append_nil, Nat.or_zero]
    match tr, htr, htl with
    | [], _, _ =>
      simp only [List.append_nil, List.length_append]
      rw [if_neg (by omega)]
      cases fuel with
      | zero => simp [parse_events_loop]
      | succ k => rw [parse_events_loop, if_neg (by omega)]
    | [s], _, htl =>
      have hs : isletter s = false := htl s (by simp)
      have hrd : rd (pre ++ (event.spell e u ++ [s]) ++ rest) (pre.length + (event.spell e u).length) = s := by
        have := rd_append_length (pre ++ event.spell e u) ([s] ++ rest)
        simpa [List.append_assoc] using this
      rw [hrd, if_neg (by simp [hs])]
      cases fuel with
      | zero => simp [parse_events_loop]
      | succ k => rw [parse_events_loop, if_neg (by simp; omega)]
    | _ :: _ :: _, htr, _ => simp at htr
  | cons x m ih =>
    intro e u tr pre rest fuel result hm htr htl hf
    obtain ⟨s, e1, u1⟩ := x
    obtain ⟨fuel, rfl⟩ : ∃ k, fuel = k + 1 := ⟨fuel - 1, by simp at hf; omega⟩
    have hpos := spell_length_pos e u
    have hpos1 := spell_length_pos e1 u1
    have hs : isletter s = false := hm (s, e1, u1) (by simp)
    have hdrop : List.drop pre.length (pre ++ (event.spell e u ++ run_tail ((s, e1, u1) :: m) ++ tr) ++ rest)
        = event.spell e u ++ (run_tail ((s, e1, u1) :: m) ++ tr ++ rest) := by
      simp [List.append_assoc]
    rw [parse_events_loop, if_pos (by simp; omega), hdrop, event_token_spell]
    have hrd : rd (pre ++ (event.spell e u ++ run_tail ((s, e1, u1) :: m) ++ tr) ++ rest)
        (pre.length + (event.spell e u).length) = s := by
      have := rd_append_length (pre ++ event.spell e u) (run_tail ((s, e1, u1) :: m) ++ tr ++ rest)
      simpa [List.append_assoc, run_tail] using this
    simp only []
    rw [hrd, if_neg (by simp [hs])]
    have hline : pre ++ (event.spell e u ++ run_tail ((s, e1, u1) :: m) ++ tr) ++ rest
        = (pre ++ event.spell e u ++ [s]) ++ (event.spell e1 u1 ++ run_tail m ++ tr) ++ rest := by
      simp [run_tail, List.append_assoc]
    have hlen : pre.length + (event.spell e u ++ run_tail ((s, e1, u1) :: m) ++ tr).length
        = (pre ++ event.spell e u ++ [s]).length + (event.spell e1 u1 ++ run_tail m ++ tr).length := by
      simp [run_tail]; omega
    have hi : pre.length + (event.spell e u).length + 1 = (pre ++ event.spell e u ++ [s]).length := by
      simp; omega
    rw [hline, hlen, hi, ih e1 u1 tr _ rest fuel _ (fun y hy => hm y (by simp [hy])) htr htl
      (by simp at hf; omega)]
    simp [run_flags, Nat.lor_assoc]


theorem lor_ne_zero_left (a b : Nat) (h : a ≠ 0) : a ||| b ≠ 0 := by
  obtain ⟨k, hk⟩ := Nat.ne_zero_implies_bit_true h
  intro h0
  have : (a ||| b).testBit k = true := by simp [Nat.testBit_lor, hk]
  rw [h0] at this
  simp at this

theorem run_tail_length (m : List (Nat × event × Bool)) : m.length ≤ (run_tail m).length := by
  induction m with
  | nil => simp
  | cons x m ih =>
    obtain ⟨s, e, u⟩ := x
    simp [run_tail]
    omega

/-- Function `parse_events` on a token run, with at most one further non-letter byte,
returns the OR of the flags of its names, whatever follows the field in the buffer. -/
theorem parse_events_run (e : event) (u : Bool) (m : List (Nat × event × Bool))
    (tr rest : List Nat) (hm : ∀ x ∈ m, isletter x.1 = false) (htr : tr.length ≤ 1)
    (htl : ∀ c ∈ tr, isletter c = false) :
    parse_events ((event.spell e u ++ run_tail m ++ tr) ++ rest)
      (event.spell e u ++ run_tail m ++ tr).length = event.flag e ||| run_flags m := by
  have hpos := spell_length_pos e u
  have h4 : 4 ≤ (event.spell e u).length := by cases e <;> cases u <;> decide
  have hml := run_tail_length m
  unfold parse_events
  rw [if_neg (by simp; omega)]
  have := parse_events_loop_run m e u tr [] rest (event.spell e u ++ run_tail m ++ tr).length 0
    hm htr htl (by simp; omega)
  simpa using this

theorem parse_events_loop_accept : ∀ (fuel : Nat) (f rest : List Nat) (i result : Nat),
    isletter (rest.headD 0) = false → i < f.length → f.length - i ≤ fuel →
    parse_events_loop fuel (f ++ rest) f.length i result ≠ 0 →
    ∃ e u m tr, (∀ x ∈ m, isletter x.1 = false) ∧ tr.length ≤ 1 ∧
      (∀ c ∈ tr, isletter c = false) ∧ f.drop i = event.spell e u ++ run_tail m ++ tr := by
  intro fuel
  induction fuel with
  | zero => intro f rest i result _ hi hf; omega
  | succ fuel ih =>
    intro f rest i result hrest hi hf hne
    rw [parse_events_loop, if_pos hi] at hne
    have hdrop : List.drop i (f ++ rest) = f.drop i ++ rest := by
      rw [List.drop_append_of_le_length (by omega)]
    rw [hdrop] at hne
    cases htok : event_token (f.drop i ++ rest) with
    | none => rw [htok] at hne; simp at hne
    | some fn =>
      obtain ⟨fl, n⟩ := fn
      rw [htok] at hne
      simp only [] at hne
      obtain ⟨e, u, r, hfl, hn, hp⟩ := event_token_some _ _ _ htok
      -- the token lies inside the field
      have hin : ∃ c, f.drop i = event.spell e u ++ c := by
        rcases List.append_eq_append_iff.1 hp with ⟨a, ha, hb⟩ | ⟨c, hc, _⟩
        · cases a with
          | nil => exact ⟨[], by simpa using ha.symm⟩
          | cons x a =>
            have hx : isletter x = true := spell_letters e u x (by rw [ha]; simp)
            rw [hb] at hrest
            simp [hx] at hrest
        · exact ⟨c, hc⟩
      obtain ⟨c, hc⟩ := hin
      have hlen : f.length = i + n + c.length := by
        have := congrArg List.length hc
        simp at this
        omega
      cases c with
      | nil => exact ⟨e, u, [], [], by simp, by simp, by simp, by simpa [run_tail] using hc⟩
      | cons s c =>
        have hfs : f = f.take i ++ event.spell e u ++ (s :: c) := by
          conv_lhs => rw [← List.take_append_drop i f, hc]
          simp
        have hrd : rd (f ++ rest) (i + n) = s := by
          have h1 := rd_append_length (f.take i ++ event.spell e u) ((s :: c) ++ rest)
          have h2 : (f.take i ++ event.spell e u).length = i + n := by
            simp [hn]; omega
          rw [h2] at h1
          have h3 : f.take i ++ event.spell e u ++ (s :: c ++ rest) = f ++ rest := by
            conv_rhs => rw [hfs]
            simp
          rw [h3] at h1
          simpa using h1
        rw [hrd] at hne
        by_cases hs : isletter s = true
        · rw [if_pos ⟨by simp at hlen; omega, hs⟩] at hne
          exact absurd rfl hne
        · have hs : isletter s = false := by simpa using hs
          rw [if_neg (by simp [hs])] at hne
          cases c with
          | nil => exact ⟨e, u, [], [s], by simp, by simp, by simp [hs], by simpa [run_tail] using hc⟩
          | cons y c =>
            have hd2 : f.drop (i + n + 1) = y :: c := by
              have : f.drop (i + n + 1) = (f.drop i).drop (n + 1) := by
                rw [List.drop_drop, Nat.add_assoc]
              rw [this, hc, hn]
              simp
            obtain ⟨e1, u1, m, tr, hm, htr, htl, hrun⟩ :=
              ih f rest (i + n + 1) (result ||| fl) hrest (by simp at hlen; omega)
                (by simp at hlen; omega) hne
            refine ⟨e, u, (s, e1, u1) :: m, tr, ?_, htr, htl, ?_⟩
            · intro x hx
              rcases List.mem_cons.1 hx with rfl | hx
              · exact hs
              · exact hm x hx
            · rw [hc, ← hd2, hrun]
              simp [run_tail]

/-- Every field that `parse_events` accepts is `*` or a token run followed by at most
one further non-letter byte, provided the byte after the field is not a letter. -/
theorem parse_events_accept (f rest : List Nat) (hrest : isletter (rest.headD 0) = false)
    (hne : parse_events (f ++ rest) f.length ≠ 0) :
    f = [42] ∨ ∃ e u m tr, (∀ x ∈ m, isletter x.1 = false) ∧ tr.length ≤ 1 ∧
      (∀ c ∈ tr, isletter c = false) ∧ f = event.spell e u ++ run_tail m ++ tr := by
  unfold parse_events at hne
  by_cases hw : f.length = 1 ∧ rd (f ++ rest) 0 = 42
  · left
    obtain ⟨h1, h2⟩ := hw
    match f, h1 with
    | [c], _ => simp [rd] at h2; simp [h2]
  · right
    rw [if_neg hw] at hne
    cases f with
    | nil => simp [parse_events_loop] at hne
    | cons c cs =>
      have := parse_events_loop_accept (c :: cs).length (c :: cs) rest 0 0 hrest (by simp)
        (by simp) hne
      simpa using this

/-- The value of `parse_events` on a field does not depend on the bytes that follow
the field in the buffer, as long as the first of them is not a letter. -/
theorem parse_events_ext (f rest : List Nat) (hrest : isletter (rest.headD 0) = false) :
    parse_events (f ++ rest) f.length = parse_events f f.length := by
  by_cases hstar : f = [42]
  · subst hstar
    simp [parse_events, rd]
  · by_cases h : parse_events (f ++ rest) f.length = 0
    · by_cases h2 : parse_events f f.length = 0
      · rw [h, h2]
      · exfalso
        have h3 : parse_events (f ++ []) f.length ≠ 0 := by simpa using h2
        rcases parse_events_accept f [] (by decide) h3 with hs | ⟨e, u, m, tr, hm, htr, htl, hf⟩
        · exact hstar hs
        · have := parse_events_run e u m tr rest hm htr htl
          rw [← hf, h] at this
          exact lor_ne_zero_left _ _ (Nat.pos_iff_ne_zero.1 (flag_pos e)) this.symm
    · rcases parse_events_accept f rest hrest h with hs | ⟨e, u, m, tr, hm, htr, htl, hf⟩
      · exact absurd hs hstar
      · have h1 := parse_events_run e u m tr rest hm htr htl
        have h2 := parse_events_run e u m tr [] hm htr htl
        rw [← hf] at h1 h2
        simp only [List.append_nil] at h2
        rw [h1, h2]


/-! ## `strdupesc` -/

theorem unesc_prev_cons (p c : Nat) (cs : List Nat) :
    unesc_prev p (c :: cs)
      = if c ≠ 92 ∨ p = 92 then c :: unesc_prev c cs else unesc_prev c cs := rfl

theorem strdupesc_loop_spec : ∀ (suf pre dest : List Nat) (fuel : Nat),
    (∀ x ∈ suf, x ≠ 0) → suf.length ≤ fuel →
    strdupesc_loop fuel (pre ++ suf) (pre ++ suf).length pre.length dest
      = dest ++ unesc_prev (pre.getLastD 0) suf := by
  intro suf
  induction suf with
  | nil =>
    intro pre dest fuel _ _
    cases fuel with
    | zero => simp [strdupesc_loop, unesc_prev]
    | succ k => simp [strdupesc_loop, unesc_prev]
  | cons c cs ih =>
    intro pre dest fuel h0 hf
    obtain ⟨fuel, rfl⟩ : ∃ k, fuel = k + 1 := ⟨fuel - 1, by simp at hf; omega⟩
    have hc : c ≠ 0 := h0 c (by simp)
    have hrd : rd (pre ++ c :: cs) pre.length = c := by simpa using rd_append_length pre (c :: cs)
    have hprev : (pre.length > 0 ∧ rd (pre ++ c :: cs) (pre.length - 1) = 92) ↔ pre.getLastD 0 = 92 := by
      cases pre with
      | nil => simp
      | cons p ps =>
        rw [rd_append_last (p :: ps) (c :: cs) (by simp)]
        simp
    have hsplit : pre ++ c :: cs = (pre ++ [c]) ++ cs := by simp
    have hnext := ih (pre ++ [c]) (dest ++ [c]) fuel (fun x hx => h0 x (by simp [hx]))
      (by simp at hf; omega)
    have hnext2 := ih (pre ++ [c]) dest fuel (fun x hx => h0 x (by simp [hx]))
      (by simp at hf; omega)
    have hcond : (c ≠ 92 ∨ (pre.length > 0 ∧ rd (pre ++ c :: cs) (pre.length - 1) = 92))
        ↔ (c ≠ 92 ∨ pre.getLastD 0 = 92) := or_congr Iff.rfl hprev
    rw [strdupesc_loop, hrd, if_pos ⟨hc, by simp⟩]
    by_cases hcopy : c ≠ 92 ∨ pre.getLastD 0 = 92
    · rw [if_pos (hcond.2 hcopy), hsplit]
      have : pre.length + 1 = (pre ++ [c]).length := by simp
      rw [this, hnext, unesc_prev_cons, if_pos hcopy]
      simp
    · rw [if_neg (fun h => hcopy (hcond.1 h)), hsplit]
      have : pre.length + 1 = (pre ++ [c]).length := by simp
      rw [this, hnext2, unesc_prev_cons, if_neg hcopy]
      simp

theorem strdupesc_eq_unesc (a : List Nat) (h0 : ∀ x ∈ a, x ≠ 0) :
    strdupesc a a.length = unesc_prev 0 a := by
  have := strdupesc_loop_spec a [] [] a.length h0 (le_refl _)
  simpa [strdupesc] using this

theorem unesc_prev_snoc : ∀ (a : List Nat) (p c : Nat),
    unesc_prev p (a ++ [c])
      = unesc_prev p a ++ (if c ≠ 92 ∨ a.getLastD p = 92 then [c] else []) := by
  intro a
  induction a with
  | nil => intro p c; simp [unesc_prev]
  | cons x xs ih =>
    intro p c
    have hl : (x :: xs).getLastD p = xs.getLastD x := List.getLastD_cons p x xs
    rw [hl, List.cons_append, unesc_prev_cons, unesc_prev_cons, ih x c]
    by_cases hx : x ≠ 92 ∨ p = 92
    · rw [if_pos hx, if_pos hx]
      simp
    · rw [if_neg hx, if_neg hx]

theorem unesc_prev_backslashes : ∀ k : Nat,
    unesc_prev 92 (List.replicate k 92) = List.replicate k 92 := by
  intro k
  induction k with
  | zero => simp [unesc_prev]
  | succ k ih => simp [List.replicate_succ, unesc_prev, ih]

theorem unesc_prev_plain : ∀ (a : List Nat) (p : Nat), (∀ x ∈ a, x ≠ 92) → unesc_prev p a = a := by
  intro a
  induction a with
  | nil => intro p _; simp [unesc_prev]
  | cons x xs ih =>
    intro p h
    have hx : x ≠ 92 := h x (by simp)
    simp [unesc_prev, hx, ih x (fun y hy => h y (by simp [hy]))]

theorem strdupesc_loop_buffer (a b : List Nat) : ∀ (fuel s : Nat) (dest : List Nat),
    strdupesc_loop fuel (a ++ b) a.length s dest = strdupesc_loop fuel a a.length s dest := by
  intro fuel
  induction fuel with
  | zero => intro s dest; simp [strdupesc_loop]
  | succ k ih =>
    intro s dest
    by_cases hs : s < a.length
    · have h1 : rd (a ++ b) s = rd a s := rd_append_left a b s hs
      have h2 : rd (a ++ b) (s - 1) = rd a (s - 1) := rd_append_left a b (s - 1) (by omega)
      simp only [strdupesc_loop, h1, h2, ih]
    · simp [strdupesc_loop, hs]

/-- The bytes that follow the first `len` bytes of the buffer are not read by `strdupesc`. -/
theorem strdupesc_append (a b : List Nat) : strdupesc (a ++ b) a.length = strdupesc a a.length :=
  strdupesc_loop_buffer a b a.length 0 []


/-! ## Field boundaries -/

theorem no_sep_cons (p c : Nat) (cs : List Nat) :
    no_sep p (c :: cs) = true ↔ c ≠ 0 ∧ (c ≠ 9 ∨ p = 92) ∧ no_sep c cs = true := by
  simp [no_sep, and_assoc]

theorem no_sep_mono (f : List Nat) (p : Nat) (h : no_sep 0 f = true) : no_sep p f = true := by
  cases f with
  | nil => rfl
  | cons c cs =>
    rw [no_sep_cons] at h ⊢
    obtain ⟨h1, h2, h3⟩ := h
    exact ⟨h1, Or.inl (by rcases h2 with h2 | h2 <;> simp_all), h3⟩

theorem skip_field_run : ∀ (f pre rest : List Nat) (fuel : Nat),
    no_sep (pre.getLastD 0) f = true → f.length ≤ fuel →
    (rest.headD 0 = 0 ∨ (rest.headD 0 = 9 ∧ (pre ++ f).getLastD 0 ≠ 92)) →
    skip_field fuel (pre ++ f ++ rest) pre.length = pre.length + f.length := by
  intro f
  induction f with
  | nil =>
    intro pre rest fuel _ _ hstop
    cases fuel with
    | zero => simp [skip_field]
    | succ k =>
      have hrd : rd (pre ++ [] ++ rest) pre.length = rest.headD 0 := by
        simpa using rd_append_length pre rest
      rw [skip_field, hrd]
      rcases hstop with h0 | ⟨h9, hl⟩
      · rw [if_neg (fun h => h.1 h0)]; simp
      · have hprev : rd (pre ++ [] ++ rest) (pre.length - 1) ≠ 92 := by
          cases pre with
          | nil => simp; rw [show rd rest 0 = rest.headD 0 by cases rest <;> simp [rd]]; omega
          | cons p ps =>
            have := rd_append_last (p :: ps) rest (by simp)
            simp only [List.append_nil] at hl ⊢
            rw [this]; exact hl
        rw [if_neg (fun h => h.2.elim (fun h1 => h1 h9) hprev)]; simp
  | cons c cs ih =>
    intro pre rest fuel hns hf hstop
    obtain ⟨fuel, rfl⟩ : ∃ k, fuel = k + 1 := ⟨fuel - 1, by simp at hf; omega⟩
    rw [no_sep_cons] at hns
    obtain ⟨hc0, hc9, hcs⟩ := hns
    have hrd : rd (pre ++ c :: cs ++ rest) pre.length = c := by
      have := rd_append_length pre (c :: cs ++ rest)
      simpa [List.append_assoc] using this
    have hesc : c ≠ 9 ∨ rd (pre ++ c :: cs ++ rest) (pre.length - 1) = 92 := by
      rcases hc9 with h | h
      · exact Or.inl h
      · right
        have hpre : pre ≠ [] := by
          intro hp; rw [hp] at h; simp at h
        have := rd_append_last pre (c :: cs ++ rest) hpre
        rw [List.append_assoc, this, h]
    rw [skip_field, hrd, if_pos ⟨hc0, hesc⟩]
    have hline : pre ++ c :: cs ++ rest = (pre ++ [c]) ++ cs ++ rest := by simp
    have hi : pre.length + 1 = (pre ++ [c]).length := by simp
    rw [hline, hi, ih (pre ++ [c]) rest fuel (by simpa using hcs) (by simp at hf; omega)
      (by simpa [List.append_assoc] using hstop)]
    simp; omega

theorem skip_tabs_run : ∀ (k : Nat) (pre rest : List Nat) (fuel : Nat),
    rest.headD 0 ≠ 9 → k ≤ fuel →
    skip_tabs fuel (pre ++ List.replicate k 9 ++ rest) pre.length = pre.length + k := by
  intro k
  induction k with
  | zero =>
    intro pre rest fuel h _
    cases fuel with
    | zero => simp [skip_tabs]
    | succ n =>
      have hrd : rd (pre ++ List.replicate 0 9 ++ rest) pre.length = rest.headD 0 := by
        simpa using rd_append_length pre rest
      rw [skip_tabs, hrd, if_neg h]; simp
  | succ k ih =>
    intro pre rest fuel h hf
    obtain ⟨fuel, rfl⟩ : ∃ n, fuel = n + 1 := ⟨fuel - 1, by omega⟩
    have hrd : rd (pre ++ List.replicate (k + 1) 9 ++ rest) pre.length = 9 := by
      have := rd_append_length pre (List.replicate (k + 1) 9 ++ rest)
      simpa [List.append_assoc, List.replicate_succ] using this
    have hline : pre ++ List.replicate (k + 1) 9 ++ rest
        = (pre ++ [9]) ++ List.replicate k 9 ++ rest := by
      simp [List.replicate_succ]
    have hi : pre.length + 1 = (pre ++ [9]).length := by simp
    rw [skip_tabs, hrd, if_pos rfl, hline, hi, ih (pre ++ [9]) rest fuel h (by omega)]
    simp; omega

theorem skip_rest_run : ∀ (f pre : List Nat) (fuel : Nat),
    (∀ x ∈ f, x ≠ 0) → f.length ≤ fuel →
    skip_rest fuel (pre ++ f) pre.length = pre.length + f.length := by
  intro f
  induction f with
  | nil =>
    intro pre fuel _ _
    cases fuel with
    | zero => simp [skip_rest]
    | succ k =>
      have hrd : rd (pre ++ []) pre.length = 0 := by
        simpa using rd_append_length pre []
      rw [skip_rest, hrd]; simp
  | cons c cs ih =>
    intro pre fuel h0 hf
    obtain ⟨fuel, rfl⟩ : ∃ k, fuel = k + 1 := ⟨fuel - 1, by simp at hf; omega⟩
    have hrd : rd (pre ++ c :: cs) pre.length = c := by
      simpa using rd_append_length pre (c :: cs)
    have hline : pre ++ c :: cs = (pre ++ [c]) ++ cs := by simp
    have hi : pre.length + 1 = (pre ++ [c]).length := by simp
    rw [skip_rest, hrd, if_pos (h0 c (by simp)), hline, hi,
      ih (pre ++ [c]) fuel (fun x hx => h0 x (by simp [hx])) (by simp at hf; omega)]
    simp; omega

theorem tabs_head (k : Nat) (rest : List Nat) : (tabs k ++ rest).headD 0 = 9 := by
  simp [tabs, List.replicate_succ]

theorem tabs_length (k : Nat) : (tabs k).length = k + 1 := by simp [tabs]

theorem is_field_head (f rest : List Nat) (h : is_field f) :
    (f ++ rest).headD 0 ≠ 0 ∧ (f ++ rest).headD 0 ≠ 9 := by
  obtain ⟨hne, hns⟩ := h
  cases f with
  | nil => exact absurd rfl hne
  | cons c cs =>
    rw [no_sep_cons] at hns
    obtain ⟨h0, h9, _⟩ := hns
    simp at h9
    simp [h0, h9]

theorem is_field_no_nul : ∀ (f : List Nat) (p : Nat), no_sep p f = true → ∀ x ∈ f, x ≠ 0 := by
  intro f
  induction f with
  | nil => intro p _ x hx; simp at hx
  | cons c cs ih =>
    intro p h x hx
    rw [no_sep_cons] at h
    rcases List.mem_cons.1 hx with rfl | hx
    · exact h.1
    · exact ih c h.2.2 x hx

/-- Scanning a field that a run of tabs terminates, from the position after `pre`. -/
theorem scan_sep_field (line pre f rest : List Nat) (k fuel i : Nat)
    (hline : line = pre ++ f ++ tabs k ++ rest) (hi : i = pre.length)
    (hns : no_sep (pre.getLastD 0) f = true) (hlast : (pre ++ f).getLastD 0 ≠ 92)
    (hrest : rest.headD 0 ≠ 9) (hfuel : line.length ≤ fuel) :
    skip_field fuel line i = i + f.length
    ∧ skip_tabs fuel line (i + f.length) = i + f.length + (k + 1) := by
  subst hline hi
  simp only [List.length_append, tabs_length] at hfuel
  constructor
  · have := skip_field_run f pre (tabs k ++ rest) fuel hns (by omega)
      (Or.inr ⟨tabs_head k rest, hlast⟩)
    simpa [List.append_assoc] using this
  · have := skip_tabs_run (k + 1) (pre ++ f) rest fuel hrest (by omega)
    simpa [tabs, List.append_assoc] using this

/-- Scanning the last field of a line, from the position after `pre`. -/
theorem scan_last_field (line pre f : List Nat) (fuel i : Nat)
    (hline : line = pre ++ f) (hi : i = pre.length)
    (hns : no_sep (pre.getLastD 0) f = true) (hfuel : line.length ≤ fuel) :
    skip_field fuel line i = line.length := by
  subst hline hi
  simp only [List.length_append] at hfuel
  have := skip_field_run f pre [] fuel hns (by omega) (Or.inl rfl)
  simpa using this

/-- At the end of the line every scanning loop stops at once. -/
theorem scan_end (line : List Nat) (fuel : Nat) :
    skip_field fuel line line.length = line.length
    ∧ skip_tabs fuel line line.length = line.length
    ∧ skip_rest fuel line line.length = line.length := by
  refine ⟨?_, ?_, ?_⟩
  · have := skip_field_run [] line [] fuel rfl (by simp) (Or.inl rfl)
    simpa using this
  · have := skip_tabs_run 0 line [] fuel (by simp) (by simp)
    simpa using this
  · have := skip_rest_run [] line fuel (by simp) (by simp)
    simpa using this

theorem sep_field_scan (pre f : List Nat) (h : is_sep_field f) :
    no_sep (pre.getLastD 0) f = true ∧ (pre ++ f).getLastD 0 ≠ 92 := by
  obtain ⟨⟨hne, hns⟩, hl⟩ := h
  refine ⟨no_sep_mono f _ hns, ?_⟩
  rcases List.eq_nil_or_concat f with h1 | ⟨a, c, h1⟩
  · exact absurd h1 hne
  · subst h1
    rw [List.concat_eq_append] at hl ⊢
    rw [← List.append_assoc]
    simpa using hl

/-- Scanning the path field, which `wentry_readline` starts at index 1. -/
theorem scan_path (line f rest : List Nat) (k fuel : Nat) (hline : line = f ++ tabs k ++ rest)
    (hf : is_sep_field f) (hrest : rest.headD 0 ≠ 9) (hfuel : line.length ≤ fuel) :
    skip_field fuel line 1 = f.length
    ∧ skip_tabs fuel line f.length = f.length + (k + 1) := by
  have hl := (sep_field_scan [] f hf).2
  obtain ⟨⟨hne, hns⟩, _⟩ := hf
  cases f with
  | nil => exact absurd rfl hne
  | cons c cs =>
    rw [no_sep_cons] at hns
    have := scan_sep_field line [c] cs rest k fuel 1 (by simpa using hline) rfl
      (by simpa using hns.2.2) (by simpa using hl) hrest hfuel
    simp only [List.length_cons]
    rw [Nat.add_comm 1] at this
    exact this

/-- The field boundaries found on a line of three fields. -/
theorem wentry_readline_bounds_three (line f1 f2 f3 : List Nat) (k1 k2 : Nat)
    (hline : line = f1 ++ tabs k1 ++ f2 ++ tabs k2 ++ f3)
    (h1 : is_sep_field f1) (h2 : is_sep_field f2) (h3 : is_field f3) :
    wentry_readline_bounds line
      = { path_len := f1.length,
          event_first := f1.length + (k1 + 1), event_len := f2.length,
          delay_first := f1.length + (k1 + 1) + f2.length + (k2 + 1), delay_len := f3.length,
          user_first := line.length, user_len := 0,
          chroot_first := line.length, chroot_len := 0,
          cmd_first := line.length, cmd_len := 0 } := by
  have hh2 := is_field_head f2 (tabs k2 ++ f3) h2.1
  have hh3 := is_field_head f3 [] h3
  have hlen : line.length = f1.length + (k1 + 1) + f2.length + (k2 + 1) + f3.length := by
    rw [hline]; simp [tabs_length]; omega
  have e1 := scan_path line f1 (f2 ++ tabs k2 ++ f3) k1 line.length
    (by rw [hline]; simp [List.append_assoc]) h1
    (by simpa [List.append_assoc] using hh2.2) (le_refl _)
  have s2 := sep_field_scan (f1 ++ tabs k1) f2 h2
  have e2 := scan_sep_field line (f1 ++ tabs k1) f2 f3 k2 line.length (f1.length + (k1 + 1))
    hline (by simp [tabs_length]) s2.1 s2.2 (by simpa using hh3.2) (le_refl _)
  have e3 := scan_last_field line (f1 ++ tabs k1 ++ f2 ++ tabs k2) f3 line.length
    (f1.length + (k1 + 1) + f2.length + (k2 + 1)) hline (by simp [tabs_length]; omega)
    (no_sep_mono f3 _ h3.2) (le_refl _)
  have e4 := scan_end line line.length
  unfold wentry_readline_bounds
  simp only [e1.1, e1.2, e2.1, e2.2, e3, e4.1, e4.2.1, e4.2.2]
  simp only [field_bounds.mk.injEq, Nat.sub_self, and_true, true_and]
  omega


theorem rd_zero (l : List Nat) : rd l 0 = l.headD 0 := by
  cases l <;> simp [rd]

theorem rd_length (l : List Nat) : rd l l.length = 0 := by
  simp [rd]

/-- The result of `wentry_readline` on a line of three fields. -/
theorem wentry_readline_three (db : UserDb) (mem : List env_ptr) (dest : watch_entry)
    (env : watch_env)
    (f1 f2 f3 : List Nat) (k1 k2 : Nat) (l : List Nat) (p : passwd)
    (h1 : is_sep_field f1) (h2 : is_sep_field f2) (h3 : is_field f3)
    (hev : parse_events f2 f2.length ≠ 0)
    (hl : db.getlogin = some l) (hp : db.getpwnam l = some p) :
    wentry_readline db mem dest (f1 ++ tabs k1 ++ f2 ++ tabs k2 ++ f3) env
      = some ({ path := some (strdupesc f1 f1.length), events := parse_events f2 f2.length,
                delay := ⟨0, 0⟩, uid := 0, gid := 0, chroot := none,
                command := some (strdupesc f3 f3.length),
                envp := some (wenv_dup (entry_env mem env p (strdupesc f1 f1.length))), fd := -1 },
              entry_env mem env p (strdupesc f1 f1.length)) := by
  obtain ⟨line, hline⟩ : ∃ line, line = f1 ++ tabs k1 ++ f2 ++ tabs k2 ++ f3 := ⟨_, rfl⟩
  rw [← hline]
  have hb := wentry_readline_bounds_three line f1 f2 f3 k1 k2 hline h1 h2 h3
  have hh1 := is_field_head f1 (tabs k1 ++ f2 ++ tabs k2 ++ f3) h1.1
  have hh3 := is_field_head f3 [] h3
  have hr0 : ¬ (rd line 0 = 0 ∨ rd line 0 = 9) := by
    rw [rd_zero, hline]
    simp only [List.append_assoc] at hh1 ⊢
    tauto
  have hrd : rd line (f1.length + (k1 + 1) + f2.length + (k2 + 1)) ≠ 0 := by
    have := rd_append_length (f1 ++ tabs k1 ++ f2 ++ tabs k2) f3
    rw [← hline] at this
    simp only [List.length_append, tabs_length] at this
    rw [this]
    simpa using hh3.1
  have hdrop2 : line.drop (f1.length + (k1 + 1)) = f2 ++ (tabs k2 ++ f3) := by
    rw [hline]
    have : f1 ++ tabs k1 ++ f2 ++ tabs k2 ++ f3 = (f1 ++ tabs k1) ++ (f2 ++ (tabs k2 ++ f3)) := by
      simp [List.append_assoc]
    rw [this]
    exact List.drop_left' (by simp [tabs_length])
  have hdrop3 : line.drop (f1.length + (k1 + 1) + f2.length + (k2 + 1)) = f3 := by
    rw [hline]
    exact List.drop_left' (by simp [tabs_length]; omega)
  have hpe : parse_events (f2 ++ (tabs k2 ++ f3)) f2.length = parse_events f2 f2.length :=
    parse_events_ext f2 (tabs k2 ++ f3) (by rw [tabs_head]; decide)
  have hpath : strdupesc line f1.length = strdupesc f1 f1.length := by
    rw [hline]
    simp only [List.append_assoc]
    exact strdupesc_append f1 _
  have hself : lookup_self db = some p := by simp [lookup_self, hl, hp]
  unfold wentry_readline
  rw [if_neg hr0]
  simp only [hb]
  rw [if_neg hrd]
  simp only [wentry_readline_adjust, rd_length, if_true, hdrop2, hpe]
  rw [if_neg hev]
  simp [wentry_readline_delay, wentry_readline_user, hself, hdrop3, hpath, wentry_release,
    entry_env]


/-- The field boundaries found on a line of four fields. -/
theorem wentry_readline_bounds_four (line f1 f2 f3 f4 : List Nat) (k1 k2 k3 : Nat)
    (hline : line = f1 ++ tabs k1 ++ f2 ++ tabs k2 ++ f3 ++ tabs k3 ++ f4)
    (h1 : is_sep_field f1) (h2 : is_sep_field f2) (h3 : is_sep_field f3) (h4 : is_field f4) :
    wentry_readline_bounds line
      = { path_len := f1.length,
          event_first := f1.length + (k1 + 1), event_len := f2.length,
          delay_first := f1.length + (k1 + 1) + f2.length + (k2 + 1), delay_len := f3.length,
          user_first := f1.length + (k1 + 1) + f2.length + (k2 + 1) + f3.length + (k3 + 1),
          user_len := f4.length,
          chroot_first := line.length, chroot_len := 0,
          cmd_first := line.length, cmd_len := 0 } := by
  have hh2 := is_field_head f2 (tabs k2 ++ f3 ++ tabs k3 ++ f4) h2.1
  have hh3 := is_field_head f3 (tabs k3 ++ f4) h3.1
  have hh4 := is_field_head f4 [] h4
  have hlen : line.length
      = f1.length + (k1 + 1) + f2.length + (k2 + 1) + f3.length + (k3 + 1) + f4.length := by
    rw [hline]; simp [tabs_length]; omega
  have e1 := scan_path line f1 (f2 ++ tabs k2 ++ f3 ++ tabs k3 ++ f4) k1 line.length
    (by rw [hline]; simp [List.append_assoc]) h1
    (by simpa [List.append_assoc] using hh2.2) (le_refl _)
  have s2 := sep_field_scan (f1 ++ tabs k1) f2 h2
  have e2 := scan_sep_field line (f1 ++ tabs k1) f2 (f3 ++ tabs k3 ++ f4) k2 line.length
    (f1.length + (k1 + 1)) (by rw [hline]; simp [List.append_assoc]) (by simp [tabs_length])
    s2.1 s2.2 (by simpa [List.append_assoc] using hh3.2) (le_refl _)
  have s3 := sep_field_scan (f1 ++ tabs k1 ++ f2 ++ tabs k2) f3 h3
  have e3 := scan_sep_field line (f1 ++ tabs k1 ++ f2 ++ tabs k2) f3 f4 k3 line.length
    (f1.length + (k1 + 1) + f2.length + (k2 + 1)) hline (by simp [tabs_length]; omega)
    s3.1 s3.2 (by simpa using hh4.2) (le_refl _)
  have e4 := scan_last_field line (f1 ++ tabs k1 ++ f2 ++ tabs k2 ++ f3 ++ tabs k3) f4 line.length
    (f1.length + (k1 + 1) + f2.length + (k2 + 1) + f3.length + (k3 + 1)) hline
    (by simp [tabs_length]; omega) (no_sep_mono f4 _ h4.2) (le_refl _)
  have e5 := scan_end line line.length
  unfold wentry_readline_bounds
  simp only [e1.1, e1.2, e2.1, e2.2, e3.1, e3.2, e4, e5.1, e5.2.1, e5.2.2]
  simp only [field_bounds.mk.injEq, Nat.sub_self, and_true, true_and]
  omega

theorem rd_drop (line : List Nat) (a b : Nat) : rd (line.drop a) b = rd line (a + b) := by
  simp [rd, List.getD, List.getElem?_drop]

/-- The delay block reads the buffer only from `delay_first` on. -/
theorem wentry_readline_delay_drop (line : List Nat) (delay_first delay_len : Nat) :
    wentry_readline_delay line delay_first delay_len
      = wentry_readline_delay (line.drop delay_first) 0 delay_len := by
  unfold wentry_readline_delay
  simp only [rd_drop, List.drop_drop, Nat.zero_add, List.drop_zero, Nat.add_zero]
  have e : ∀ x : Nat, x + 1 + delay_first = delay_first + x + 1 := fun x => by omega
  have e2 : ∀ x y : Nat, delay_first + x + 1 + y - (delay_first + x) = x + 1 + y - x :=
    fun x y => by omega
  simp only [e, e2, Nat.add_lt_add_iff_left, Nat.add_assoc, Nat.add_sub_add_left]

/-- The result of `wentry_readline` on a line of four fields, in terms of the delay
block on the third field. -/
theorem wentry_readline_four (db : UserDb) (mem : List env_ptr) (dest : watch_entry)
    (env : watch_env)
    (f1 f2 f3 f4 : List Nat) (k1 k2 k3 : Nat) (l : List Nat) (p : passwd)
    (h1 : is_sep_field f1) (h2 : is_sep_field f2) (h3 : is_sep_field f3) (h4 : is_field f4)
    (hev : parse_events f2 f2.length ≠ 0)
    (hl : db.getlogin = some l) (hp : db.getpwnam l = some p) :
    wentry_readline db mem dest (f1 ++ tabs k1 ++ f2 ++ tabs k2 ++ f3 ++ tabs k3 ++ f4) env
      = (wentry_readline_delay (f3 ++ (tabs k3 ++ f4)) 0 f3.length).map (fun d =>
          ({ path := some (strdupesc f1 f1.length), events := parse_events f2 f2.length,
             delay := d, uid := 0, gid := 0, chroot := none,
             command := some (strdupesc f4 f4.length),
             envp := some (wenv_dup (entry_env mem env p (strdupesc f1 f1.length))), fd := -1 },
           entry_env mem env p (strdupesc f1 f1.length))) := by
  obtain ⟨line, hline⟩ : ∃ line, line = f1 ++ tabs k1 ++ f2 ++ tabs k2 ++ f3 ++ tabs k3 ++ f4 :=
    ⟨_, rfl⟩
  rw [← hline]
  have hb := wentry_readline_bounds_four line f1 f2 f3 f4 k1 k2 k3 hline h1 h2 h3 h4
  have hh1 := is_field_head f1 (tabs k1 ++ f2 ++ tabs k2 ++ f3 ++ tabs k3 ++ f4) h1.1
  have hh3 := is_field_head f3 (tabs k3 ++ f4) h3.1
  have hh4 := is_field_head f4 [] h4
  have hr0 : ¬ (rd line 0 = 0 ∨ rd line 0 = 9) := by
    rw [rd_zero, hline]
    simp only [List.append_assoc] at hh1 ⊢
    tauto
  have hrd : rd line (f1.length + (k1 + 1) + f2.length + (k2 + 1)) ≠ 0 := by
    have := rd_append_length (f1 ++ tabs k1 ++ f2 ++ tabs k2) (f3 ++ (tabs k3 ++ f4))
    simp only [← List.append_assoc] at this
    rw [← hline] at this
    simp only [List.length_append, tabs_length] at this
    rw [this]
    simpa [List.append_assoc] using hh3.1
  have hrd4 : rd line (f1.length + (k1 + 1) + f2.length + (k2 + 1) + f3.length + (k3 + 1)) ≠ 0 := by
    have := rd_append_length (f1 ++ tabs k1 ++ f2 ++ tabs k2 ++ f3 ++ tabs k3) f4
    rw [← hline] at this
    simp only [List.length_append, tabs_length] at this
    rw [this]
    simpa using hh4.1
  have hdrop2 : line.drop (f1.length + (k1 + 1)) = f2 ++ (tabs k2 ++ f3 ++ tabs k3 ++ f4) := by
    rw [hline]
    have : f1 ++ tabs k1 ++ f2 ++ tabs k2 ++ f3 ++ tabs k3 ++ f4
        = (f1 ++ tabs k1) ++ (f2 ++ (tabs k2 ++ f3 ++ tabs k3 ++ f4)) := by
      simp [List.append_assoc]
    rw [this]
    exact List.drop_left' (by simp [tabs_length])
  have hdrop3 : line.drop (f1.length + (k1 + 1) + f2.length + (k2 + 1))
      = f3 ++ (tabs k3 ++ f4) := by
    rw [hline]
    have : f1 ++ tabs k1 ++ f2 ++ tabs k2 ++ f3 ++ tabs k3 ++ f4
        = (f1 ++ tabs k1 ++ f2 ++ tabs k2) ++ (f3 ++ (tabs k3 ++ f4)) := by
      simp [List.append_assoc]
    rw [this]
    exact List.drop_left' (by simp [tabs_length]; omega)
  have hdrop4 : line.drop (f1.length + (k1 + 1) + f2.length + (k2 + 1) + f3.length + (k3 + 1))
      = f4 := by
    rw [hline]
    exact List.drop_left' (by simp [tabs_length]; omega)
  have hpe : parse_events (f2 ++ (tabs k2 ++ f3 ++ tabs k3 ++ f4)) f2.length
      = parse_events f2 f2.length :=
    parse_events_ext f2 _ (by simp only [List.append_assoc]; rw [tabs_head]; decide)
  have hpath : strdupesc line f1.length = strdupesc f1 f1.length := by
    rw [hline]
    simp only [List.append_assoc]
    exact strdupesc_append f1 _
  have hself : lookup_self db = some p := by simp [lookup_self, hl, hp]
  unfold wentry_readline
  rw [if_neg hr0]
  simp only [hb]
  rw [if_neg hrd]
  simp only [wentry_readline_adjust, rd_length, if_true, if_neg hrd4, hdrop2, hpe]
  rw [if_neg hev, wentry_readline_delay_drop, hdrop3]
  cases wentry_readline_delay (f3 ++ (tabs k3 ++ f4)) 0 f3.length with
  | none => rfl
  | some d =>
    simp [wentry_readline_user, hself, hdrop4, hpath, wentry_release, entry_env]

/-! ## The delay block -/

theorem isdigit_facts (c : Nat) (h : isdigit c = true) :
    isspace c = false ∧ c ≠ 45 ∧ c ≠ 43 ∧ c ≠ 0 ∧ c ≠ 9 ∧ c ≠ 92 ∧ 48 ≤ c ∧ c ≤ 57 := by
  simp only [isdigit, Bool.and_eq_true, decide_eq_true_eq] at h
  refine ⟨?_, by omega, by omega, by omega, by omega, by omega, h.1, h.2⟩
  simp only [isspace, Bool.or_eq_false_iff, decide_eq_false_iff_not, Bool.and_eq_false_iff]
  omega

theorem strtol_digits_run : ∀ (S rest : List Nat) (acc k : Nat),
    (∀ c ∈ S, isdigit c = true) → isdigit (rest.headD 0) = false →
    strtol_digits (S ++ rest) acc k
      = (S.foldl (fun a c => a * 10 + (c - 48)) acc, k + S.length) := by
  intro S
  induction S with
  | nil =>
    intro rest acc k _ hr
    cases rest with
    | nil => simp [strtol_digits]
    | cons c cs =>
      have : isdigit c = false := by simpa using hr
      simp [strtol_digits, this]
  | cons c cs ih =>
    intro rest acc k hd hr
    have hc : isdigit c = true := hd c (by simp)
    have hstep : strtol_digits (c :: (cs ++ rest)) acc k
        = strtol_digits (cs ++ rest) (acc * 10 + (c - 48)) (k + 1) := by
      rw [strtol_digits, if_pos hc]
    rw [List.cons_append, hstep, ih rest _ _ (fun x hx => hd x (by simp [hx])) hr]
    simp only [List.foldl_cons, List.length_cons]
    congr 1
    omega

/-- C `strtol` on a non-empty string of decimal digits followed by a non-digit. -/
theorem strtol_decimal (S rest : List Nat) (hne : S ≠ []) (hd : ∀ c ∈ S, isdigit c = true)
    (hr : isdigit (rest.headD 0) = false) :
    strtol (S ++ rest) = (clamp_long (decimal S), S.length) := by
  cases S with
  | nil => exact absurd rfl hne
  | cons c cs =>
    obtain ⟨hsp, h45, h43, _⟩ := isdigit_facts c (hd c (by simp))
    have hrun := strtol_digits_run (c :: cs) rest 0 0 hd hr
    have hw : strtol_space (c :: cs ++ rest) = 0 := by simp [strtol_space, hsp]
    unfold strtol
    simp only [hw, List.drop_zero]
    simp only [List.cons_append, List.headD_cons, h45, h43, or_self, if_false, List.drop_zero]
    rw [← List.cons_append, hrun]
    simp [decimal]

theorem decimal_bound : ∀ (F : List Nat) (acc : Nat), (∀ c ∈ F, isdigit c = true) →
    F.foldl (fun a c => a * 10 + (c - 48)) acc + 1 ≤ (acc + 1) * 10 ^ F.length := by
  intro F
  induction F with
  | nil => intro acc _; simp
  | cons c cs ih =>
    intro acc hd
    obtain ⟨_, _, _, _, _, _, h48, h57⟩ := isdigit_facts c (hd c (by simp))
    have := ih (acc * 10 + (c - 48)) (fun x hx => hd x (by simp [hx]))
    simp only [List.foldl_cons, List.length_cons]
    calc List.foldl (fun a c => a * 10 + (c - 48)) (acc * 10 + (c - 48)) cs + 1
        ≤ (acc * 10 + (c - 48) + 1) * 10 ^ cs.length := this
      _ ≤ ((acc + 1) * 10) * 10 ^ cs.length := by
          apply Nat.mul_le_mul_right
          omega
      _ = (acc + 1) * 10 ^ (cs.length + 1) := by ring

theorem decimal_lt (F : List Nat) (hd : ∀ c ∈ F, isdigit c = true) :
    decimal F < 10 ^ F.length := by
  have := decimal_bound F 0 hd
  simp only [Nat.zero_add, Nat.one_mul] at this
  exact this

theorem delay_pad_digits (v : Int) (k : Nat) (h1 : 1 ≤ k) (h9 : k ≤ 9) :
    delay_pad 10 v (k + 1) = v * 10 ^ (9 - k) := by
  interval_cases k <;> simp [delay_pad] <;> ring

theorem clamp_long_id (v : Nat) (h : (v : Int) ≤ LONG_MAX) : clamp_long (v : Int) = v := by
  unfold clamp_long
  rw [if_neg (by omega), if_neg (by unfold LONG_MIN; omega)]

/-- The delay block on a field `S.F` of decimal digits with one to nine digits after
the point. -/
theorem wentry_readline_delay_fraction (S F rest : List Nat) (hne : S ≠ [])
    (hS : ∀ c ∈ S, isdigit c = true) (hF : ∀ c ∈ F, isdigit c = true)
    (h1 : 1 ≤ F.length) (h9 : F.length ≤ 9) (hr : isdigit (rest.headD 0) = false) :
    wentry_readline_delay (S ++ [46] ++ F ++ rest) 0 (S ++ [46] ++ F).length
      = some ⟨clamp_long (decimal S), (decimal F : Int) * 10 ^ (9 - F.length)⟩ := by
  have hFne : F ≠ [] := by intro h; rw [h] at h1; simp at h1
  have hs1 : strtol (S ++ [46] ++ F ++ rest) = (clamp_long (decimal S), S.length) := by
    have := strtol_decimal S ([46] ++ F ++ rest) hne hS (by simp [isdigit])
    simpa [List.append_assoc] using this
  have hdot : rd (S ++ [46] ++ F ++ rest) S.length = 46 := by
    have := rd_append_length S ([46] ++ F ++ rest)
    simpa [List.append_assoc] using this
  have hdrop : List.drop (S.length + 1) (S ++ [46] ++ F ++ rest) = F ++ rest := by
    have : S ++ [46] ++ F ++ rest = (S ++ [46]) ++ (F ++ rest) := by simp [List.append_assoc]
    rw [this]
    exact List.drop_left' (by simp)
  have hs2 : strtol (F ++ rest) = (clamp_long (decimal F), F.length) :=
    strtol_decimal F rest hFne hF hr
  have hlt := decimal_lt F hF
  have hFmax : ((decimal F : Nat) : Int) ≤ LONG_MAX := by
    have : 10 ^ F.length ≤ 10 ^ 9 := Nat.pow_le_pow_right (by omega) h9
    unfold LONG_MAX
    omega
  have hlen0 : (S ++ [46] ++ F).length = S.length + 1 + F.length := by simp; omega
  have hdel : ¬ ((S ++ [46] ++ F).length = 1 ∧ rd (S ++ [46] ++ F ++ rest) 0 = 42) := by
    rw [hlen0]; omega
  unfold wentry_readline_delay
  rw [if_pos ⟨by rw [hlen0]; omega, hdel⟩]
  simp only [List.drop_zero, hs1, Nat.zero_add, hdot, if_true, hdrop, hs2]
  rw [if_neg (by rw [hlen0]; omega), clamp_long_id _ hFmax]
  have : S.length + 1 + F.length - S.length = F.length + 1 := by omega
  rw [this, delay_pad_digits _ _ h1 h9]

/-! ## Further facts on `parse_events` and on digit fields -/

theorem run_flags_testBit (m : List (Nat × event × Bool)) (k : Nat) :
    (run_flags m).testBit k = true ↔ ∃ ev ∈ m.map (fun x => x.2.1), (event.flag ev).testBit k = true := by
  induction m with
  | nil => simp [run_flags]
  | cons x m ih =>
    obtain ⟨s, e, u⟩ := x
    simp only [run_flags, Nat.testBit_lor, Bool.or_eq_true, ih, List.map_cons, List.mem_cons,
      exists_eq_or_imp]

theorem run_names_testBit (e : event) (m : List (Nat × event × Bool)) (k : Nat) :
    (event.flag e ||| run_flags m).testBit k = true
      ↔ ∃ ev ∈ run_names e m, (event.flag ev).testBit k = true := by
  simp only [Nat.testBit_lor, Bool.or_eq_true, run_flags_testBit, run_names, List.mem_cons,
    exists_eq_or_imp]

/-- The OR of the flags of a run depends only on the set of its names. -/
theorem run_flags_congr (e e1 : event) (m m1 : List (Nat × event × Bool))
    (h : ∀ ev, ev ∈ run_names e m ↔ ev ∈ run_names e1 m1) :
    event.flag e ||| run_flags m = event.flag e1 ||| run_flags m1 := by
  apply Nat.eq_of_testBit_eq
  intro k
  have h1 := run_names_testBit e m k
  have h2 := run_names_testBit e1 m1 k
  have : (∃ ev ∈ run_names e m, (event.flag ev).testBit k = true)
      ↔ (∃ ev ∈ run_names e1 m1, (event.flag ev).testBit k = true) := by
    constructor
    · rintro ⟨ev, hev, hk⟩; exact ⟨ev, (h ev).1 hev, hk⟩
    · rintro ⟨ev, hev, hk⟩; exact ⟨ev, (h ev).2 hev, hk⟩
  rw [Bool.eq_iff_iff, h1, h2, this]

theorem event_token_letter (p : List Nat) (h : isletter (p.headD 0) = false) :
    event_token p = none := by
  cases htok : event_token p with
  | none => rfl
  | some fn =>
    obtain ⟨fl, n⟩ := fn
    obtain ⟨e, u, r, _, _, hp⟩ := event_token_some p fl n htok
    have hpos := spell_length_pos e u
    have hl := spell_letters e u
    cases hs : event.spell e u with
    | nil => rw [hs] at hpos; simp at hpos
    | cons c cs =>
      rw [hs] at hp hl
      rw [hp] at h
      have := hl c (by simp)
      simp [this] at h

/-- A field whose first bytes are not an event name is rejected by `parse_events`,
unless it is the wildcard. -/
theorem parse_events_first (g rest : List Nat) (hg : g ≠ []) (hstar : g ≠ [42])
    (htok : event_token (g ++ rest) = none) : parse_events (g ++ rest) g.length = 0 := by
  have hw : ¬ (g.length = 1 ∧ rd (g ++ rest) 0 = 42) := by
    rintro ⟨h1, h2⟩
    match g, h1 with
    | [c], _ => simp [rd] at h2; exact hstar (by simp [h2])
  obtain ⟨n, hn⟩ : ∃ n, g.length = n + 1 := by
    cases g with
    | nil => exact absurd rfl hg
    | cons c cs => exact ⟨cs.length, rfl⟩
  unfold parse_events
  rw [if_neg hw, hn, parse_events_loop, if_pos (by omega), List.drop_zero, htok]

/-- The loop of `parse_events` returns 0 when a token run is followed, inside the
field, by a letter or by a separator and then something that is not an event name. -/
theorem parse_events_loop_reject : ∀ (m : List (Nat × event × Bool)) (e : event) (u : Bool)
    (bad pre rest : List Nat) (fuel result : Nat),
    (∀ x ∈ m, isletter x.1 = false) →
    ((∃ c g, bad = c :: g ∧ isletter c = true)
      ∨ (∃ s g, bad = s :: g ∧ isletter s = false ∧ g ≠ [] ∧ event_token (g ++ rest) = none)) →
    m.length + 1 < fuel →
    parse_events_loop fuel (pre ++ (event.spell e u ++ run_tail m ++ bad) ++ rest)
      (pre.length + (event.spell e u ++ run_tail m ++ bad).length) pre.length result = 0 := by
  intro m
  induction m with
  | nil =>
    intro e u bad pre rest fuel result _ hbad hf
    obtain ⟨fuel, rfl⟩ : ∃ k, fuel = k + 1 := ⟨fuel - 1, by simp at hf; omega⟩
    have hpos := spell_length_pos e u
    have hdrop : List.drop pre.length (pre ++ (event.spell e u ++ run_tail [] ++ bad) ++ rest)
        = event.spell e u ++ (bad ++ rest) := by
      simp [run_tail, List.append_assoc]
    rw [parse_events_loop, if_pos (by simp; omega), hdrop, event_token_spell]
    simp only [run_tail, List.append_nil]
    have hrd : rd (pre ++ (event.spell e u ++ bad) ++ rest) (pre.length + (event.spell e u).length)
        = (bad ++ rest).headD 0 := by
      have := rd_append_length (pre ++ event.spell e u) (bad ++ rest)
      simpa [List.append_assoc] using this
    rw [hrd]
    rcases hbad with ⟨c, g, rfl, hc⟩ | ⟨s, g, rfl, hs, hg, htok⟩
    · rw [if_pos ⟨(by simp only [List.length_append, List.length_cons, List.length_nil, List.length_singleton]; omega), by simpa using hc⟩]
    · rw [if_neg (by simp [hs])]
      obtain ⟨fuel, rfl⟩ : ∃ k, fuel = k + 1 := ⟨fuel - 1, by simp at hf; omega⟩
      have hglen : 0 < g.length := List.length_pos.2 hg
      have hdrop2 : List.drop (pre.length + (event.spell e u).length + 1)
          (pre ++ (event.spell e u ++ s :: g) ++ rest) = g ++ rest := by
        have : pre ++ (event.spell e u ++ s :: g) ++ rest
            = (pre ++ event.spell e u ++ [s]) ++ (g ++ rest) := by simp [List.append_assoc]
        rw [this]
        exact List.drop_left' (by simp only [List.length_append, List.length_singleton])
      rw [parse_events_loop, if_pos (by simp only [List.length_append, List.length_cons, List.length_nil, List.length_singleton]; omega), hdrop2, htok]
  | cons x m ih =>
    intro e u bad pre rest fuel result hm hbad hf
    obtain ⟨s, e1, u1⟩ := x
    obtain ⟨fuel, rfl⟩ : ∃ k, fuel = k + 1 := ⟨fuel - 1, by simp at hf; omega⟩
    have hpos := spell_length_pos e u
    have hpos1 := spell_length_pos e1 u1
    have hs : isletter s = false := hm (s, e1, u1) (by simp)
    have hdrop : List.drop pre.length
        (pre ++ (event.spell e u ++ run_tail ((s, e1, u1) :: m) ++ bad) ++ rest)
        = event.spell e u ++ (run_tail ((s, e1, u1) :: m) ++ bad ++ rest) := by
      simp [List.append_assoc]
    rw [parse_events_loop, if_pos (by simp; omega), hdrop, event_token_spell]
    have hrd : rd (pre ++ (event.spell e u ++ run_tail ((s, e1, u1) :: m) ++ bad) ++ rest)
        (pre.length + (event.spell e u).length) = s := by
      have := rd_append_length (pre ++ event.spell e u)
        (run_tail ((s, e1, u1) :: m) ++ bad ++ rest)
      simpa [List.append_assoc, run_tail] using this
    simp only []
    rw [hrd, if_neg (by simp [hs])]
    have hline : pre ++ (event.spell e u ++ run_tail ((s, e1, u1) :: m) ++ bad) ++ rest
        = (pre ++ event.spell e u ++ [s]) ++ (event.spell e1 u1 ++ run_tail m ++ bad) ++ rest := by
      simp [run_tail, List.append_assoc]
    have hlen : pre.length + (event.spell e u ++ run_tail ((s, e1, u1) :: m) ++ bad).length
        = (pre ++ event.spell e u ++ [s]).length
          + (event.spell e1 u1 ++ run_tail m ++ bad).length := by
      simp [run_tail]; omega
    have hi : pre.length + (event.spell e u).length + 1
        = (pre ++ event.spell e u ++ [s]).length := by
      simp only [List.length_append, List.length_singleton]
    rw [hline, hlen, hi, ih e1 u1 bad _ rest fuel _ (fun y hy => hm y (by simp [hy])) hbad
      (by simp at hf; omega)]

/-- Function `parse_events` returns 0 on a field in which a token run is followed by a
letter or by a separator and then something that is not an event name. -/
theorem parse_events_reject (e : event) (u : Bool) (m : List (Nat × event × Bool))
    (bad rest : List Nat) (hm : ∀ x ∈ m, isletter x.1 = false)
    (hbad : (∃ c g, bad = c :: g ∧ isletter c = true)
      ∨ (∃ s g, bad = s :: g ∧ isletter s = false ∧ g ≠ [] ∧ event_token (g ++ rest) = none)) :
    parse_events ((event.spell e u ++ run_tail m ++ bad) ++ rest)
      (event.spell e u ++ run_tail m ++ bad).length = 0 := by
  have h4 : 4 ≤ (event.spell e u).length := by cases e <;> cases u <;> decide
  have hml := run_tail_length m
  have hbl : 1 ≤ bad.length := by
    rcases hbad with ⟨c, g, rfl, _⟩ | ⟨s, g, rfl, _⟩ <;> simp
  unfold parse_events
  rw [if_neg (by simp; omega)]
  have := parse_events_loop_reject m e u bad [] rest
    (event.spell e u ++ run_tail m ++ bad).length 0 hm hbad (by simp; omega)
  simpa using this


theorem digits_sep_field (D : List Nat) (hne : D ≠ [])
    (hD : ∀ c ∈ D, isdigit c = true ∨ c = 46) : is_sep_field D := by
  have hns : ∀ (D : List Nat) (p : Nat), (∀ c ∈ D, isdigit c = true ∨ c = 46) →
      no_sep p D = true := by
    intro D
    induction D with
    | nil => intro p _; rfl
    | cons c cs ih =>
      intro p h
      rw [no_sep_cons]
      have hc : c ≠ 0 ∧ c ≠ 9 := by
        rcases h c (by simp) with hc | hc
        · have := isdigit_facts c hc
          exact ⟨this.2.2.2.1, this.2.2.2.2.1⟩
        · omega
      exact ⟨hc.1, Or.inl hc.2, ih c (fun x hx => h x (by simp [hx]))⟩
  refine ⟨⟨hne, hns D 0 hD⟩, ?_⟩
  rcases List.eq_nil_or_concat D with h1 | ⟨a, c, h1⟩
  · exact absurd h1 hne
  · subst h1
    rw [List.concat_eq_append]
    have : (a ++ [c]).getLastD 0 = c := by simp
    rw [this]
    rcases hD c (by simp) with hc | hc
    · exact (isdigit_facts c hc).2.2.2.2.2.1
    · omega

/-! ## Lines of a watchtab -/

theorem file_lines_getdelim (input : List Nat) :
    file_lines input = match getdelim input with
      | none => []
      | some (l, rest) => l :: file_lines rest := by
  induction input with
  | nil => rfl
  | cons c cs ih =>
    by_cases hc : c = 10
    · simp [file_lines, getdelim, hc]
    · simp only [file_lines, getdelim, hc, if_false]
      rw [ih]
      cases getdelim cs with
      | none => simp [file_lines]
      | some lr => rfl

theorem getdelim_length : ∀ (input l rest : List Nat), getdelim input = some (l, rest) →
    rest.length < input.length := by
  intro input
  induction input with
  | nil => intro l rest h; simp [getdelim] at h
  | cons c cs ih =>
    intro l rest h
    by_cases hc : c = 10
    · simp [getdelim, hc] at h
      rw [← h.2]; simp
    · simp only [getdelim, hc, if_false] at h
      cases hg : getdelim cs with
      | none =>
        rw [hg] at h
        simp at h
        rw [h.2]; simp
      | some lr =>
        obtain ⟨l1, r1⟩ := lr
        rw [hg] at h
        simp at h
        have := ih l1 r1 hg
        rw [← h.2]
        simp; omega

/-- The budget of the reading loop is never exhausted: with a budget of at least the
length of the stream the loop is the fold of the line step over the lines. -/
theorem wtab_readfile_loop_fold (db : UserDb) (mem : List env_ptr) : ∀ (fuel : Nat)
    (input : List Nat)
    (st : wtab_state), input.length ≤ fuel →
    wtab_readfile_loop fuel db mem input st = wtab_fold db mem (file_lines input) st := by
  intro fuel
  induction fuel with
  | zero =>
    intro input st h
    have : input = [] := List.length_eq_zero.1 (by omega)
    subst this
    rfl
  | succ n ih =>
    intro input st h
    rw [wtab_readfile_loop, file_lines_getdelim]
    cases hg : getdelim input with
    | none => rfl
    | some lr =>
      obtain ⟨l, rest⟩ := lr
      have := getdelim_length input l rest hg
      simp only []
      rw [ih rest _ (by omega)]
      rfl

theorem wtab_readfile_line_classify (db : UserDb) (mem : List env_ptr) (line0 : List Nat)
    (st : wtab_state) :
    wtab_readfile_line db mem line0 st = match classify_line line0 with
      | line_class.skipped => st
      | line_class.assignment name value => { st with env := wenv_set mem st.env name value true }
      | line_class.entry buf =>
        match wentry_readline db mem wentry_init buf st.env with
        | none => { st with result := -1 }
        | some (e, env) => { st with env := env, tab := e :: st.tab } := by
  unfold wtab_readfile_line classify_line
  simp only []
  split_ifs <;> rfl

theorem line_outcomes_cons (db : UserDb) (mem : List env_ptr) (l : List Nat) (ls : List (List Nat))
    (env : watch_env) :
    line_outcomes db mem (l :: ls) env = match classify_line l with
      | line_class.skipped => line_outcomes db mem ls env
      | line_class.assignment name value => line_outcomes db mem ls (wenv_set mem env name value true)
      | line_class.entry buf =>
        match wentry_readline db mem wentry_init buf env with
        | none => none :: line_outcomes db mem ls env
        | some (e, env1) => some e :: line_outcomes db mem ls env1 := rfl

theorem env_after_cons (db : UserDb) (mem : List env_ptr) (l : List Nat) (ls : List (List Nat))
    (env : watch_env) :
    env_after db mem (l :: ls) env = match classify_line l with
      | line_class.skipped => env_after db mem ls env
      | line_class.assignment name value => env_after db mem ls (wenv_set mem env name value true)
      | line_class.entry buf =>
        match wentry_readline db mem wentry_init buf env with
        | none => env_after db mem ls env
        | some (_, env1) => env_after db mem ls env1 := rfl

/-- The state after a list of lines, in terms of the outcomes of its entry lines. -/
theorem wtab_fold_trace (db : UserDb) (mem : List env_ptr) : ∀ (ls : List (List Nat))
    (st : wtab_state),
    wtab_fold db mem ls st
      = { env := env_after db mem ls st.env,
          tab := (accepted (line_outcomes db mem ls st.env)).reverse ++ st.tab,
          result := if none ∈ line_outcomes db mem ls st.env then -1 else st.result } := by
  intro ls
  induction ls with
  | nil => intro st; simp [wtab_fold, env_after, line_outcomes, accepted]
  | cons l ls ih =>
    intro st
    have hstep : wtab_fold db mem (l :: ls) st = wtab_fold db mem ls (wtab_readfile_line db mem l st) := rfl
    rw [hstep, ih, wtab_readfile_line_classify, env_after_cons, line_outcomes_cons]
    cases classify_line l with
    | skipped => rfl
    | assignment name value => rfl
    | entry buf =>
      simp only []
      obtain h | ⟨⟨e, env1⟩, h⟩ : wentry_readline db mem wentry_init buf st.env = none
          ∨ ∃ r, wentry_readline db mem wentry_init buf st.env = some r := by
        cases wentry_readline db mem wentry_init buf st.env with
        | none => exact Or.inl rfl
        | some r => exact Or.inr ⟨r, rfl⟩
      · simp [h, accepted]
      · simp [h, accepted]

theorem wtab_readfile_trace (db : UserDb) (mem : List env_ptr) (tab : List watch_entry)
    (input : List Nat) :
    wtab_readfile db mem tab input
      = (if none ∈ line_outcomes db mem (file_lines input) (wtab_env0 mem) then -1 else 0,
         (accepted (line_outcomes db mem (file_lines input) (wtab_env0 mem))).reverse ++ tab) := by
  unfold wtab_readfile
  simp only []
  rw [wtab_readfile_loop_fold db mem _ _ _ (le_refl _), wtab_fold_trace]
  rfl

theorem first_special_split : ∀ core : List Nat, ∃ mid rest, core = mid ++ rest
    ∧ (∀ c ∈ mid, c ≠ 61 ∧ c ≠ 92 ∧ c ≠ 9) ∧ first_special core = rest.head?
    ∧ (rest = [] ∨ rest.headD 0 = 61 ∨ rest.headD 0 = 92 ∨ rest.headD 0 = 9) := by
  intro core
  induction core with
  | nil => exact ⟨[], [], rfl, by simp, rfl, Or.inl rfl⟩
  | cons c cs ih =>
    by_cases hc : c = 61 ∨ c = 92 ∨ c = 9
    · exact ⟨[], c :: cs, rfl, by simp, by simp [first_special, hc], Or.inr (by simpa using hc)⟩
    · obtain ⟨mid, rest, h1, h2, h3, h4⟩ := ih
      refine ⟨c :: mid, rest, by simp [h1], ?_, by simp [first_special, hc, h3], h4⟩
      intro x hx
      rcases List.mem_cons.1 hx with rfl | hx
      · exact ⟨fun h => hc (Or.inl h), fun h => hc (Or.inr (Or.inl h)), fun h => hc (Or.inr (Or.inr h))⟩
      · exact h2 x hx

theorem skip_blanks_run : ∀ (lead pre rest : List Nat) (fuel : Nat),
    (∀ c ∈ lead, c = 32 ∨ c = 9) → (rest.headD 0 ≠ 32 ∧ rest.headD 0 ≠ 9) → lead.length ≤ fuel →
    skip_blanks fuel (pre ++ lead ++ rest) pre.length = pre.length + lead.length := by
  intro lead
  induction lead with
  | nil =>
    intro pre rest fuel _ hr _
    cases fuel with
    | zero => simp [skip_blanks]
    | succ k =>
      have hrd : rd (pre ++ [] ++ rest) pre.length = rest.headD 0 := by
        simpa using rd_append_length pre rest
      rw [skip_blanks, hrd, if_neg (by tauto)]; simp
  | cons c cs ih =>
    intro pre rest fuel hl hr hf
    obtain ⟨fuel, rfl⟩ : ∃ k, fuel = k + 1 := ⟨fuel - 1, by simp at hf; omega⟩
    have hrd : rd (pre ++ c :: cs ++ rest) pre.length = c := by
      have := rd_append_length pre (c :: cs ++ rest)
      simpa [List.append_assoc] using this
    have hline : pre ++ c :: cs ++ rest = (pre ++ [c]) ++ cs ++ rest := by simp
    have hi : pre.length + 1 = (pre ++ [c]).length := by simp
    rw [skip_blanks, hrd, if_pos (hl c (by simp)), hline, hi,
      ih (pre ++ [c]) rest fuel (fun x hx => hl x (by simp [hx])) hr (by simp at hf; omega)]
    simp; omega

theorem trim_blanks_run (pre trail : List Nat) (skip : Nat)
    (ht : ∀ c ∈ trail, is_trailing c = true) (hskip : skip ≤ pre.length)
    (hstop : ¬ (pre.length > skip ∧ is_trailing (rd pre (pre.length - 1)) = true)) :
    ∀ (n fuel : Nat), n ≤ trail.length → n ≤ fuel →
    trim_blanks fuel (pre ++ trail) skip (pre.length + n) = pre.length := by
  have hcond : ∀ x : Nat, (x = 10 ∨ x = 13 ∨ x = 32 ∨ x = 9) ↔ is_trailing x = true := by
    intro x; simp [is_trailing, or_assoc]
  intro n
  induction n with
  | zero =>
    intro fuel _ _
    cases fuel with
    | zero => simp [trim_blanks]
    | succ k =>
      rw [trim_blanks, Nat.add_zero]
      by_cases hp : pre.length > skip
      · have hrd : rd (pre ++ trail) (pre.length - 1) = rd pre (pre.length - 1) :=
          rd_append_left pre trail _ (by omega)
        rw [hrd, if_neg (fun h => hstop ⟨h.1, (hcond _).1 h.2⟩)]
      · rw [if_neg (fun h => hp h.1)]
  | succ m ih =>
    intro fuel hn hf
    obtain ⟨fuel, rfl⟩ : ∃ k, fuel = k + 1 := ⟨fuel - 1, by omega⟩
    have hrd : rd (pre ++ trail) (pre.length + (m + 1) - 1) = rd trail m := by
      have := rd_append_right pre trail m
      rw [← this]; congr 1
    have hmem : rd trail m ∈ trail := by
      have hm : m < trail.length := by omega
      simp [rd, List.getD, List.getElem?_eq_getElem hm]
    rw [trim_blanks, hrd, if_pos ⟨by omega, (hcond _).2 (ht _ hmem)⟩]
    have : pre.length + (m + 1) - 1 = pre.length + m := by omega
    rw [this, ih fuel (by omega) (by omega)]

theorem scan_assign_run : ∀ (mid pre rest : List Nat) (fuel : Nat),
    (∀ c ∈ mid, c ≠ 0 ∧ c ≠ 61 ∧ c ≠ 92 ∧ c ≠ 9) →
    (rest.headD 0 = 0 ∨ rest.headD 0 = 61 ∨ rest.headD 0 = 92 ∨ rest.headD 0 = 9) →
    mid.length ≤ fuel →
    scan_assign fuel (pre ++ mid ++ rest) pre.length = pre.length + mid.length := by
  intro mid
  induction mid with
  | nil =>
    intro pre rest fuel _ hr _
    cases fuel with
    | zero => simp [scan_assign]
    | succ k =>
      have hrd : rd (pre ++ [] ++ rest) pre.length = rest.headD 0 := by
        simpa using rd_append_length pre rest
      rw [scan_assign, hrd, if_neg (by tauto)]; simp
  | cons c cs ih =>
    intro pre rest fuel hm hr hf
    obtain ⟨fuel, rfl⟩ : ∃ k, fuel = k + 1 := ⟨fuel - 1, by simp at hf; omega⟩
    have hrd : rd (pre ++ c :: cs ++ rest) pre.length = c := by
      have := rd_append_length pre (c :: cs ++ rest)
      simpa [List.append_assoc] using this
    have hline : pre ++ c :: cs ++ rest = (pre ++ [c]) ++ cs ++ rest := by simp
    have hi : pre.length + 1 = (pre ++ [c]).length := by simp
    rw [scan_assign, hrd, if_pos (hm c (by simp)), hline, hi,
      ih (pre ++ [c]) rest fuel (fun x hx => hm x (by simp [hx])) hr (by simp at hf; omega)]
    simp; omega

theorem rd_set_ne (l : List Nat) (i j x : Nat) (h : i ≠ j) : rd (l.set i x) j = rd l j := by
  simp [rd, List.getD, List.getElem?_set_ne h]

theorem set_zero_head (trail : List Nat) : (trail.set 0 0).headD 0 = 0 := by
  cases trail <;> simp

/-- The branch taken on a line made of leading blanks, a core that neither starts
with a blank nor ends with a trimmed byte, and trailing bytes that are trimmed. -/
theorem classify_line_core (lead core trail : List Nat)
    (hlead : ∀ c ∈ lead, c = 32 ∨ c = 9) (htrail : ∀ c ∈ trail, is_trailing c = true)
    (hne : core ≠ []) (hhead : core.headD 0 ≠ 32 ∧ core.headD 0 ≠ 9)
    (hlast : is_trailing (core.getLastD 0) = false) (h35 : core.headD 0 ≠ 35)
    (h0 : ∀ c ∈ core, c ≠ 0) :
    (first_special core = some 61 →
      ∃ name value, classify_line (lead ++ core ++ trail) = line_class.assignment name value)
    ∧ (first_special core ≠ some 61 →
      classify_line (lead ++ core ++ trail) = line_class.entry (core ++ trail.set 0 0)) := by
  obtain ⟨line0, hline0⟩ : ∃ line0, line0 = lead ++ core ++ trail := ⟨_, rfl⟩
  have hlen : line0.length = lead.length + core.length + trail.length := by
    rw [hline0]; simp; omega
  have hcl : 0 < core.length := List.length_pos.2 hne
  -- leading blanks
  have hA : skip_blanks line0.length line0 0 = lead.length := by
    have := skip_blanks_run lead [] (core ++ trail) line0.length hlead
      (by cases core with
          | nil => exact absurd rfl hne
          | cons c cs => simpa using hhead) (by omega)
    simpa [hline0, List.append_assoc] using this
  -- trailing bytes
  have hB : trim_blanks line0.length line0 lead.length line0.length
      = lead.length + core.length := by
    have hrdl : rd (lead ++ core) ((lead ++ core).length - 1) = core.getLastD 0 := by
      have h1 := rd_append_last (lead ++ core) [] (by simp [hne])
      rw [List.append_nil] at h1
      rw [h1]
      rcases List.eq_nil_or_concat core with h | ⟨a, c, h⟩
      · exact absurd h hne
      · subst h; simp [← List.append_assoc]
    have := trim_blanks_run (lead ++ core) trail lead.length htrail (by simp)
      (by rw [hrdl, hlast]; simp) trail.length line0.length (le_refl _) (by omega)
    have e : line0.length = (lead ++ core).length + trail.length := by rw [hlen]; simp
    rw [← hline0, ← e] at this
    rw [this]; simp
  -- the line after the NUL write
  have hC : line0.set (lead.length + core.length) 0 = lead ++ core ++ trail.set 0 0 := by
    rw [hline0, List.set_append_right _ _ (by simp)]
    simp
  obtain ⟨line, hline⟩ : ∃ line, line = lead ++ core ++ trail.set 0 0 := ⟨_, rfl⟩
  have hD : rd line lead.length = core.headD 0 := by
    have := rd_append_length lead (core ++ trail.set 0 0)
    rw [hline, List.append_assoc, this]
    cases core with
    | nil => exact absurd rfl hne
    | cons c cs => simp
  have hdrop : line.drop lead.length = core ++ trail.set 0 0 := by
    rw [hline, List.append_assoc]
    exact List.drop_left' rfl
  obtain ⟨mid, rest, hsplit, hmid, hfs, hrest⟩ := first_special_split core
  have hE : scan_assign line0.length line lead.length = lead.length + mid.length := by
    have hml : mid.length ≤ core.length := by rw [hsplit]; simp
    have := scan_assign_run mid lead (rest ++ trail.set 0 0) line0.length
      (fun c hc => ⟨h0 c (by rw [hsplit]; simp [hc]), hmid c hc⟩)
      (by cases rest with
          | nil => left; simpa using set_zero_head trail
          | cons r rs => right; simpa using hrest) (by omega)
    rw [hline, hsplit]
    simpa [List.append_assoc] using this
  have hF : rd line (lead.length + mid.length) = (rest ++ trail.set 0 0).headD 0 := by
    have := rd_append_length (lead ++ mid) (rest ++ trail.set 0 0)
    rw [hline, hsplit]
    simpa [List.append_assoc] using this
  have hnot : ¬ (lead.length + core.length ≤ lead.length ∨ rd line lead.length = 35) := by
    rw [hD]; intro h; rcases h with h | h
    · omega
    · exact h35 h
  have hF61 : rd line (lead.length + mid.length) = 61 ↔ first_special core = some 61 := by
    rw [hF, hfs]
    cases rest with
    | nil =>
      have := set_zero_head trail
      rw [List.nil_append, this]
      simp
    | cons r rs => simp
  constructor
  · intro h61
    unfold classify_line
    simp only [hA, hB, hC, ← hline, ← hline0]
    rw [if_neg hnot]
    simp only [hE]
    rw [if_pos (hF61.2 h61)]
    exact ⟨_, _, rfl⟩
  · intro h61
    unfold classify_line
    simp only [hA, hB, hC, ← hline, ← hline0]
    rw [if_neg hnot]
    simp only [hE]
    rw [if_neg (fun h => h61 (hF61.1 h)), hdrop]

/-- A line of blanks, CR and the newline only is skipped. -/
theorem classify_line_blank (lead trail : List Nat)
    (hlead : ∀ c ∈ lead, c = 32 ∨ c = 9) (htrail : ∀ c ∈ trail, is_trailing c = true)
    (hhead : trail.headD 0 ≠ 32 ∧ trail.headD 0 ≠ 9) :
    classify_line (lead ++ trail) = line_class.skipped := by
  obtain ⟨line0, hline0⟩ : ∃ line0, line0 = lead ++ trail := ⟨_, rfl⟩
  have hlen : line0.length = lead.length + trail.length := by rw [hline0]; simp
  have hA : skip_blanks line0.length line0 0 = lead.length := by
    have := skip_blanks_run lead [] trail line0.length hlead hhead (by omega)
    simpa [hline0] using this
  have hB : trim_blanks line0.length line0 lead.length line0.length = lead.length := by
    have := trim_blanks_run lead trail lead.length htrail (le_refl _) (by simp)
      trail.length line0.length (le_refl _) (by omega)
    rw [← hline0, ← hlen] at this
    exact this
  unfold classify_line
  simp only [← hline0, hA, hB]
  rw [if_pos (Or.inl (le_refl _))]

/-- A line whose first byte after the leading blanks is `#` is skipped. -/
theorem classify_line_comment (lead rest : List Nat) (hlead : ∀ c ∈ lead, c = 32 ∨ c = 9) :
    classify_line (lead ++ 35 :: rest) = line_class.skipped := by
  obtain ⟨line0, hline0⟩ : ∃ line0, line0 = lead ++ 35 :: rest := ⟨_, rfl⟩
  have hlen : line0.length = lead.length + (rest.length + 1) := by rw [hline0]; simp
  have hA : skip_blanks line0.length line0 0 = lead.length := by
    have := skip_blanks_run lead [] (35 :: rest) line0.length hlead (by simp) (by omega)
    simpa [hline0] using this
  have hrd0 : rd line0 lead.length = 35 := by
    rw [hline0]; simpa using rd_append_length lead (35 :: rest)
  -- the trimmed length stays above `skip`
  have hB : ∀ (fuel linelen : Nat), lead.length < linelen →
      lead.length < trim_blanks fuel line0 lead.length linelen := by
    intro fuel
    induction fuel with
    | zero => intro linelen h; simpa [trim_blanks] using h
    | succ k ih =>
      intro linelen h
      rw [trim_blanks]
      split_ifs with hc
      · by_cases hl : linelen - 1 = lead.length
        · rw [hl, hrd0] at hc
          omega
        · exact ih _ (by omega)
      · exact h
  have hB1 := hB line0.length line0.length (by omega)
  have hset : rd (line0.set (trim_blanks line0.length line0 lead.length line0.length) 0)
      lead.length = 35 := by
    rw [← hrd0]
    exact rd_set_ne _ _ _ _ (by omega)
  unfold classify_line
  simp only [← hline0, hA]
  rw [if_pos (Or.inr hset)]

theorem file_lines_cons (c : Nat) (cs : List Nat) :
    file_lines (c :: cs) = if c = 10 then [c] :: file_lines cs
      else match file_lines cs with
        | [] => [[c]]
        | l :: ls => (c :: l) :: ls := rfl

theorem file_lines_eq_nil (x : List Nat) : file_lines x = [] ↔ x = [] := by
  cases x with
  | nil => simp [file_lines]
  | cons c cs =>
    simp only [file_lines]
    split_ifs
    · simp
    · cases file_lines cs <;> simp

/-- A stream that ends at a line boundary splits into its lines independently of
what follows. -/
theorem file_lines_append : ∀ (pre x : List Nat), (pre = [] ∨ pre.getLast? = some 10) →
    file_lines (pre ++ x) = file_lines pre ++ file_lines x := by
  intro pre
  induction pre with
  | nil => intro x _; simp [file_lines]
  | cons c cs ih =>
    intro x h
    have hlast : (c :: cs).getLast? = some 10 := by
      rcases h with h | h
      · exact absurd h (by simp)
      · exact h
    by_cases hc : c = 10
    · have hcs : cs = [] ∨ cs.getLast? = some 10 := by
        cases cs with
        | nil => exact Or.inl rfl
        | cons d ds => right; simpa [List.getLast?_cons_cons] using hlast
      rw [List.cons_append, file_lines_cons, file_lines_cons, if_pos hc, if_pos hc, ih x hcs]
      simp
    · have hne : cs ≠ [] := by
        intro h0; subst h0; simp at hlast; exact hc hlast
      have hcs : cs.getLast? = some 10 := by
        cases cs with
        | nil => exact absurd rfl hne
        | cons d ds => simpa [List.getLast?_cons_cons] using hlast
      rw [List.cons_append, file_lines_cons, file_lines_cons, if_neg hc, if_neg hc,
        ih x (Or.inr hcs)]
      have hfl : file_lines cs ≠ [] := fun h0 => hne ((file_lines_eq_nil cs).1 h0)
      cases hf : file_lines cs with
      | nil => exact absurd hf hfl
      | cons l ls => simp

/-- A line without newline followed by its newline is the first line of the stream. -/
theorem file_lines_line : ∀ (b x : List Nat), (∀ c ∈ b, c ≠ 10) →
    file_lines (b ++ 10 :: x) = (b ++ [10]) :: file_lines x := by
  intro b
  induction b with
  | nil => intro x _; simp [file_lines]
  | cons c cs ih =>
    intro x h
    have hc : c ≠ 10 := h c (by simp)
    rw [List.cons_append, file_lines_cons, if_neg hc, ih x (fun d hd => h d (by simp [hd]))]
    rfl

/-- A non-empty line without newline is the only line of its stream. -/
theorem file_lines_last : ∀ b : List Nat, (∀ c ∈ b, c ≠ 10) → b ≠ [] → file_lines b = [b] := by
  intro b
  induction b with
  | nil => intro _ h; exact absurd rfl h
  | cons c cs ih =>
    intro h _
    have hc : c ≠ 10 := h c (by simp)
    rw [file_lines_cons, if_neg hc]
    cases cs with
    | nil => rfl
    | cons d ds => rw [ih (fun x hx => h x (by simp [hx])) (by simp)]

/-- The lines of a stream around one of its lines: `nl` is the newline of the line, or
is empty when the line is the last of the stream and has no newline. -/
theorem file_lines_insert (pre b nl post : List Nat) (hpre : pre = [] ∨ pre.getLast? = some 10)
    (hb : ∀ c ∈ b, c ≠ 10) (hnl : nl = [10] ∨ (nl = [] ∧ post = [] ∧ b ≠ [])) :
    file_lines (pre ++ (b ++ nl) ++ post)
      = file_lines pre ++ (b ++ nl) :: file_lines post := by
  rw [List.append_assoc, file_lines_append pre _ hpre]
  rcases hnl with h | ⟨h1, h2, h3⟩
  · have : b ++ nl ++ post = b ++ 10 :: post := by simp [h]
    rw [this, file_lines_line b post hb, h]
  · rw [h1, h2, List.append_nil, List.append_nil, file_lines_last b hb h3]
    rfl

theorem wtab_fold_append (db : UserDb) (mem : List env_ptr) (a b : List (List Nat))
    (st : wtab_state) :
    wtab_fold db mem (a ++ b) st = wtab_fold db mem b (wtab_fold db mem a st) := by
  simp [wtab_fold]

theorem wtab_fold_cons (db : UserDb) (mem : List env_ptr) (l : List Nat) (ls : List (List Nat))
    (st : wtab_state) :
    wtab_fold db mem (l :: ls) st = wtab_fold db mem ls (wtab_readfile_line db mem l st) := rfl

/-- The state `wtab_readfile` starts from, and its result read off the final state. -/
theorem wtab_readfile_fold (db : UserDb) (mem : List env_ptr) (tab : List watch_entry)
    (input : List Nat) :
    wtab_readfile db mem tab input
      = ((wtab_fold db mem (file_lines input) ⟨(wtab_env0 mem), tab, 0⟩).result,
         (wtab_fold db mem (file_lines input) ⟨(wtab_env0 mem), tab, 0⟩).tab) := by
  unfold wtab_readfile
  simp only []
  rw [wtab_readfile_loop_fold db mem _ _ _ (le_refl _)]
  rfl

/-- A failure recorded in the return value stays recorded and changes nothing else. -/
theorem wtab_readfile_line_failed (db : UserDb) (mem : List env_ptr) (l : List Nat)
    (st : wtab_state) :
    wtab_readfile_line db mem l { st with result := -1 }
      = { wtab_readfile_line db mem l st with result := -1 } := by
  rw [wtab_readfile_line_classify, wtab_readfile_line_classify]
  cases classify_line l with
  | skipped => rfl
  | assignment name value => rfl
  | entry buf =>
    simp only []
    cases wentry_readline db mem wentry_init buf st.env with
    | none => rfl
    | some r => rfl

theorem wtab_fold_failed (db : UserDb) (mem : List env_ptr) : ∀ (ls : List (List Nat))
    (st : wtab_state),
    wtab_fold db mem ls { st with result := -1 } = { wtab_fold db mem ls st with result := -1 } := by
  intro ls
  induction ls with
  | nil => intro st; rfl
  | cons l ls ih =>
    intro st
    rw [wtab_fold_cons, wtab_fold_cons, wtab_readfile_line_failed, ih]

/-- Inserting a line that the reading loop skips changes nothing. -/
theorem wtab_readfile_insert_skipped (db : UserDb) (mem : List env_ptr) (tab : List watch_entry)
    (pre b nl post : List Nat) (hpre : pre = [] ∨ pre.getLast? = some 10)
    (hb : ∀ c ∈ b, c ≠ 10) (hnl : nl = [10] ∨ (nl = [] ∧ post = [] ∧ b ≠ []))
    (hskip : classify_line (b ++ nl) = line_class.skipped) :
    wtab_readfile db mem tab (pre ++ (b ++ nl) ++ post) = wtab_readfile db mem tab (pre ++ post) := by
  have hstep : ∀ st, wtab_readfile_line db mem (b ++ nl) st = st := by
    intro st
    rw [wtab_readfile_line_classify, hskip]
  rw [wtab_readfile_fold, wtab_readfile_fold, file_lines_insert pre b nl post hpre hb hnl,
    file_lines_append pre post hpre, wtab_fold_append, wtab_fold_cons, hstep, wtab_fold_append]

/-- Inserting a rejected entry line makes the return value -1 and changes no entry. -/
theorem wtab_readfile_insert_rejected (db : UserDb) (mem : List env_ptr) (tab : List watch_entry)
    (pre b nl post : List Nat) (hpre : pre = [] ∨ pre.getLast? = some 10)
    (hb : ∀ c ∈ b, c ≠ 10) (hnl : nl = [10] ∨ (nl = [] ∧ post = [] ∧ b ≠ []))
    (hrej : ∀ st, wtab_readfile_line db mem (b ++ nl) st = { st with result := -1 }) :
    wtab_readfile db mem tab (pre ++ (b ++ nl) ++ post)
      = (-1, (wtab_readfile db mem tab (pre ++ post)).2) := by
  rw [wtab_readfile_fold, wtab_readfile_fold, file_lines_insert pre b nl post hpre hb hnl,
    file_lines_append pre post hpre, wtab_fold_append, wtab_fold_cons, hrej, wtab_fold_failed,
    wtab_fold_append]

/-! ## Entry lines in general -/

/-- The result of `wentry_readline` on a line of three fields, whatever the events field
and the login. -/
theorem wentry_readline_three_gen (db : UserDb) (mem : List env_ptr) (dest : watch_entry)
    (env : watch_env)
    (f1 f2 f3 : List Nat) (k1 k2 : Nat)
    (h1 : is_sep_field f1) (h2 : is_sep_field f2) (h3 : is_field f3) :
    wentry_readline db mem dest (f1 ++ tabs k1 ++ f2 ++ tabs k2 ++ f3) env
      = if parse_events f2 f2.length = 0 then none
        else (lookup_self db).map (fun p =>
          ({ path := some (strdupesc f1 f1.length), events := parse_events f2 f2.length,
             delay := ⟨0, 0⟩, uid := 0, gid := 0, chroot := none,
             command := some (strdupesc f3 f3.length),
             envp := some (wenv_dup (entry_env mem env p (strdupesc f1 f1.length))), fd := -1 },
           entry_env mem env p (strdupesc f1 f1.length))) := by
  obtain ⟨line, hline⟩ : ∃ line, line = f1 ++ tabs k1 ++ f2 ++ tabs k2 ++ f3 := ⟨_, rfl⟩
  rw [← hline]
  have hb := wentry_readline_bounds_three line f1 f2 f3 k1 k2 hline h1 h2 h3
  have hh1 := is_field_head f1 (tabs k1 ++ f2 ++ tabs k2 ++ f3) h1.1
  have hh3 := is_field_head f3 [] h3
  have hr0 : ¬ (rd line 0 = 0 ∨ rd line 0 = 9) := by
    rw [rd_zero, hline]
    simp only [List.append_assoc] at hh1 ⊢
    tauto
  have hrd : rd line (f1.length + (k1 + 1) + f2.length + (k2 + 1)) ≠ 0 := by
    have := rd_append_length (f1 ++ tabs k1 ++ f2 ++ tabs k2) f3
    rw [← hline] at this
    simp only [List.length_append, tabs_length] at this
    rw [this]
    simpa using hh3.1
  have hdrop2 : line.drop (f1.length + (k1 + 1)) = f2 ++ (tabs k2 ++ f3) := by
    rw [hline]
    have : f1 ++ tabs k1 ++ f2 ++ tabs k2 ++ f3 = (f1 ++ tabs k1) ++ (f2 ++ (tabs k2 ++ f3)) := by
      simp [List.append_assoc]
    rw [this]
    exact List.drop_left' (by simp [tabs_length])
  have hdrop3 : line.drop (f1.length + (k1 + 1) + f2.length + (k2 + 1)) = f3 := by
    rw [hline]
    exact List.drop_left' (by simp [tabs_length]; omega)
  have hpe : parse_events (f2 ++ (tabs k2 ++ f3)) f2.length = parse_events f2 f2.length :=
    parse_events_ext f2 (tabs k2 ++ f3) (by rw [tabs_head]; decide)
  have hpath : strdupesc line f1.length = strdupesc f1 f1.length := by
    rw [hline]
    simp only [List.append_assoc]
    exact strdupesc_append f1 _
  unfold wentry_readline
  rw [if_neg hr0]
  simp only [hb]
  rw [if_neg hrd]
  simp only [wentry_readline_adjust, rd_length, if_true, hdrop2, hpe]
  by_cases hev : parse_events f2 f2.length = 0
  · rw [if_pos hev, if_pos hev]
  · rw [if_neg hev, if_neg hev]
    cases hs : lookup_self db with
    | none => simp [wentry_readline_delay, wentry_readline_user]
    | some p =>
      simp [wentry_readline_delay, wentry_readline_user, hdrop3, hpath, wentry_release,
        entry_env]

/-- The result of `wentry_readline` on a line of four fields, whatever the events field,
the delay field and the login. -/
theorem wentry_readline_four_gen (db : UserDb) (mem : List env_ptr) (dest : watch_entry)
    (env : watch_env)
    (f1 f2 f3 f4 : List Nat) (k1 k2 k3 : Nat)
    (h1 : is_sep_field f1) (h2 : is_sep_field f2) (h3 : is_sep_field f3) (h4 : is_field f4) :
    wentry_readline db mem dest (f1 ++ tabs k1 ++ f2 ++ tabs k2 ++ f3 ++ tabs k3 ++ f4) env
      = if parse_events f2 f2.length = 0 then none
        else (wentry_readline_delay (f3 ++ (tabs k3 ++ f4)) 0 f3.length).bind (fun d =>
          (lookup_self db).map (fun p =>
            ({ path := some (strdupesc f1 f1.length), events := parse_events f2 f2.length,
               delay := d, uid := 0, gid := 0, chroot := none,
               command := some (strdupesc f4 f4.length),
               envp := some (wenv_dup (entry_env mem env p (strdupesc f1 f1.length))), fd := -1 },
             entry_env mem env p (strdupesc f1 f1.length)))) := by
  obtain ⟨line, hline⟩ : ∃ line, line = f1 ++ tabs k1 ++ f2 ++ tabs k2 ++ f3 ++ tabs k3 ++ f4 :=
    ⟨_, rfl⟩
  rw [← hline]
  have hb := wentry_readline_bounds_four line f1 f2 f3 f4 k1 k2 k3 hline h1 h2 h3 h4
  have hh1 := is_field_head f1 (tabs k1 ++ f2 ++ tabs k2 ++ f3 ++ tabs k3 ++ f4) h1.1
  have hh3 := is_field_head f3 (tabs k3 ++ f4) h3.1
  have hh4 := is_field_head f4 [] h4
  have hr0 : ¬ (rd line 0 = 0 ∨ rd line 0 = 9) := by
    rw [rd_zero, hline]
    simp only [List.append_assoc] at hh1 ⊢
    tauto
  have hrd : rd line (f1.length + (k1 + 1) + f2.length + (k2 + 1)) ≠ 0 := by
    have := rd_append_length (f1 ++ tabs k1 ++ f2 ++ tabs k2) (f3 ++ (tabs k3 ++ f4))
    simp only [← List.append_assoc] at this
    rw [← hline] at this
    simp only [List.length_append, tabs_length] at this
    rw [this]
    simpa [List.append_assoc] using hh3.1
  have hrd4 : rd line (f1.length + (k1 + 1) + f2.length + (k2 + 1) + f3.length + (k3 + 1)) ≠ 0 := by
    have := rd_append_length (f1 ++ tabs k1 ++ f2 ++ tabs k2 ++ f3 ++ tabs k3) f4
    rw [← hline] at this
    simp only [List.length_append, tabs_length] at this
    rw [this]
    simpa using hh4.1
  have hdrop2 : line.drop (f1.length + (k1 + 1)) = f2 ++ (tabs k2 ++ f3 ++ tabs k3 ++ f4) := by
    rw [hline]
    have : f1 ++ tabs k1 ++ f2 ++ tabs k2 ++ f3 ++ tabs k3 ++ f4
        = (f1 ++ tabs k1) ++ (f2 ++ (tabs k2 ++ f3 ++ tabs k3 ++ f4)) := by
      simp [List.append_assoc]
    rw [this]
    exact List.drop_left' (by simp [tabs_length])
  have hdrop3 : line.drop (f1.length + (k1 + 1) + f2.length + (k2 + 1))
      = f3 ++ (tabs k3 ++ f4) := by
    rw [hline]
    have : f1 ++ tabs k1 ++ f2 ++ tabs k2 ++ f3 ++ tabs k3 ++ f4
        = (f1 ++ tabs k1 ++ f2 ++ tabs k2) ++ (f3 ++ (tabs k3 ++ f4)) := by
      simp [List.append_assoc]
    rw [this]
    exact List.drop_left' (by simp [tabs_length]; omega)
  have hdrop4 : line.drop (f1.length + (k1 + 1) + f2.length + (k2 + 1) + f3.length + (k3 + 1))
      = f4 := by
    rw [hline]
    exact List.drop_left' (by simp [tabs_length]; omega)
  have hpe : parse_events (f2 ++ (tabs k2 ++ f3 ++ tabs k3 ++ f4)) f2.length
      = parse_events f2 f2.length :=
    parse_events_ext f2 _ (by simp only [List.append_assoc]; rw [tabs_head]; decide)
  have hpath : strdupesc line f1.length = strdupesc f1 f1.length := by
    rw [hline]
    simp only [List.append_assoc]
    exact strdupesc_append f1 _
  unfold wentry_readline
  rw [if_neg hr0]
  simp only [hb]
  rw [if_neg hrd]
  simp only [wentry_readline_adjust, rd_length, if_true, if_neg hrd4, hdrop2, hpe]
  by_cases hev : parse_events f2 f2.length = 0
  · rw [if_pos hev, if_pos hev]
  · rw [if_neg hev, if_neg hev, wentry_readline_delay_drop, hdrop3]
    cases wentry_readline_delay (f3 ++ (tabs k3 ++ f4)) 0 f3.length with
    | none => rfl
    | some d =>
      cases hs : lookup_self db with
      | none => simp [wentry_readline_user]
      | some p =>
        simp [wentry_readline_user, hdrop4, hpath, wentry_release, entry_env]

theorem scan_nul (line : List Nat) (fuel i : Nat) (h : rd line i = 0) :
    skip_field fuel line i = i ∧ skip_tabs fuel line i = i := by
  cases fuel with
  | zero => simp [skip_field, skip_tabs]
  | succ k => simp [skip_field, skip_tabs, h]

theorem wentry_readline_short (db : UserDb) (mem : List env_ptr) (dest : watch_entry)
    (env : watch_env)
    (line : List Nat) (h : rd line (wentry_readline_bounds line).delay_first = 0) :
    wentry_readline db mem dest line env = none := by
  unfold wentry_readline
  split_ifs with h0
  · rfl
  · simp only []
    rw [if_pos h]

/-- A line of one field is rejected by `wentry_readline`. -/
theorem wentry_readline_one_field (db : UserDb) (mem : List env_ptr) (dest : watch_entry)
    (env : watch_env)
    (f1 z : List Nat) (h1 : is_field f1) (hz : z.headD 0 = 0) :
    wentry_readline db mem dest (f1 ++ z) env = none := by
  obtain ⟨line, hline⟩ : ∃ line, line = f1 ++ z := ⟨_, rfl⟩
  rw [← hline]
  have hlen : f1.length ≤ line.length := by rw [hline]; simp
  have hrd : rd line f1.length = 0 := by
    rw [hline, rd_append_length, hz]
  have e1 : skip_field line.length line 1 = f1.length := by
    obtain ⟨hne, hns⟩ := h1
    cases f1 with
    | nil => exact absurd rfl hne
    | cons c cs =>
      rw [no_sep_cons] at hns
      have := skip_field_run cs [c] z line.length (by simpa using hns.2.2)
        (by simp at hlen; omega) (Or.inl hz)
      have hl2 : [c] ++ cs ++ z = line := by rw [hline]; simp
      rw [hl2] at this
      simp only [List.length_singleton] at this
      rw [this]
      simp; omega
  apply wentry_readline_short
  have hdf : (wentry_readline_bounds line).delay_first = f1.length := by
    unfold wentry_readline_bounds
    simp only [e1, (scan_nul line line.length f1.length hrd).1,
      (scan_nul line line.length f1.length hrd).2]
  rw [hdf, hrd]

/-- A line of two fields is rejected by `wentry_readline`. -/
theorem wentry_readline_two_fields (db : UserDb) (mem : List env_ptr) (dest : watch_entry)
    (env : watch_env)
    (f1 f2 z : List Nat) (k : Nat) (h1 : is_sep_field f1) (h2 : is_field f2)
    (hz : z.headD 0 = 0) :
    wentry_readline db mem dest (f1 ++ tabs k ++ f2 ++ z) env = none := by
  obtain ⟨line, hline⟩ : ∃ line, line = f1 ++ tabs k ++ f2 ++ z := ⟨_, rfl⟩
  rw [← hline]
  have hlen : line.length = f1.length + (k + 1) + f2.length + z.length := by
    rw [hline]; simp [tabs_length]; omega
  have hh2 := is_field_head f2 z h2
  have e1 := scan_path line f1 (f2 ++ z) k line.length
    (by rw [hline]; simp [List.append_assoc]) h1 hh2.2 (le_refl _)
  have e2 : skip_field line.length line (f1.length + (k + 1)) = f1.length + (k + 1) + f2.length := by
    have := skip_field_run f2 (f1 ++ tabs k) z line.length (no_sep_mono f2 _ h2.2)
      (by omega) (Or.inl hz)
    rw [← hline] at this
    simpa [tabs_length] using this
  have hrd : rd line (f1.length + (k + 1) + f2.length) = 0 := by
    have := rd_append_length (f1 ++ tabs k ++ f2) z
    rw [← hline] at this
    simp only [List.length_append, tabs_length] at this
    rw [this, hz]
  apply wentry_readline_short
  have hdf : (wentry_readline_bounds line).delay_first = f1.length + (k + 1) + f2.length := by
    unfold wentry_readline_bounds
    simp only [e1.1, e1.2, e2, (scan_nul line line.length _ hrd).2]
  rw [hdf, hrd]

theorem unesc_prev_append : ∀ (a b : List Nat) (p : Nat),
    unesc_prev p (a ++ b) = unesc_prev p a ++ unesc_prev (a.getLastD p) b := by
  intro a
  induction a with
  | nil => intro b p; simp [unesc_prev]
  | cons x xs ih =>
    intro b p
    have hl : (x :: xs).getLastD p = xs.getLastD x := List.getLastD_cons p x xs
    rw [hl, List.cons_append, unesc_prev_cons, unesc_prev_cons, ih b x]
    split_ifs <;> simp

theorem unesc_prev_congr (b : List Nat) (p q : Nat) (hp : p ≠ 92) (hq : q ≠ 92) :
    unesc_prev p b = unesc_prev q b := by
  cases b with
  | nil => rfl
  | cons c cs => rw [unesc_prev_cons, unesc_prev_cons]; simp [hp, hq]

/-- The stored image of a string in which a tab follows a run of `k + 1` backslashes. -/
theorem strdupesc_escaped_tab (a b : List Nat) (k : Nat) (ha : a.getLast? ≠ some 92)
    (h0a : ∀ x ∈ a, x ≠ 0) (h0b : ∀ x ∈ b, x ≠ 0) :
    strdupesc (a ++ List.replicate (k + 1) 92 ++ [9] ++ b)
        (a ++ List.replicate (k + 1) 92 ++ [9] ++ b).length
      = strdupesc a a.length ++ List.replicate k 92 ++ 9 :: strdupesc b b.length := by
  have hall : ∀ x ∈ a ++ List.replicate (k + 1) 92 ++ [9] ++ b, x ≠ 0 := by
    intro x hx
    simp only [List.mem_append, List.mem_replicate, List.mem_singleton] at hx
    rcases hx with ((hx | hx) | hx) | hx
    · exact h0a x hx
    · omega
    · omega
    · exact h0b x hx
  have hlast : a.getLastD 0 ≠ 92 := by
    rcases List.eq_nil_or_concat a with h | ⟨a1, c, h⟩
    · simp [h]
    · subst h; simpa using ha
  rw [strdupesc_eq_unesc _ hall, strdupesc_eq_unesc _ h0a, strdupesc_eq_unesc _ h0b]
  have e1 : a ++ List.replicate (k + 1) 92 ++ [9] ++ b
      = a ++ (92 :: (List.replicate k 92 ++ 9 :: b)) := by
    simp [List.replicate_succ]
  rw [e1, unesc_prev_append, unesc_prev_cons, if_neg (by simpa using hlast), unesc_prev_append,
    unesc_prev_backslashes, unesc_prev_cons, if_pos (Or.inl (by decide))]
  rw [unesc_prev_congr b 9 0 (by decide) (by decide)]
  simp

/-! ## The environment of the entries -/

theorem wenv_set_find_shift : ∀ (es : List (List Nat)) (line : List Nat) (n i : Nat),
    wenv_set_find es line n (i + 1) = wenv_set_find es line n i + 1 := by
  intro es
  induction es with
  | nil => intro line n i; rfl
  | cons e es ih =>
    intro line n i
    simp only [wenv_set_find]
    split_ifs
    · rfl
    · exact ih line n (i + 1)

theorem wenv_set_find_le : ∀ (es : List (List Nat)) (line : List Nat) (n : Nat),
    wenv_set_find es line n 0 ≤ es.length := by
  intro es
  induction es with
  | nil => intro line n; simp [wenv_set_find]
  | cons e es ih =>
    intro line n
    simp only [wenv_set_find]
    split_ifs
    · simp
    · rw [wenv_set_find_shift]
      simp only [List.length_cons]
      exact Nat.succ_le_succ (ih line n)

/-- Replacing the line found by the search of `wenv_set` keeps every line that does not
compare equal on the searched bytes. -/
theorem wenv_set_find_keeps : ∀ (es : List (List Nat)) (line x L : List Nat) (n : Nat),
    L ∈ es → strncmp L line n ≠ 0 → L ∈ es.set (wenv_set_find es line n 0) x := by
  intro es
  induction es with
  | nil => intro line x L n h _; simp at h
  | cons e es ih =>
    intro line x L n h hL
    simp only [wenv_set_find]
    split_ifs with he
    · rcases List.mem_cons.1 h with rfl | h
      · exact absurd he hL
      · simp [h]
    · rw [wenv_set_find_shift]
      rcases List.mem_cons.1 h with rfl | h
      · simp
      · simp only [List.set_cons_succ, List.mem_cons]
        exact Or.inr (ih line x L n h hL)

theorem alloc_block_length (n : Nat) (mem : List env_ptr) : (alloc_block n mem).length = n := by
  simp [alloc_block]

theorem alloc_block_self (a : List env_ptr) : alloc_block a.length a = a := by
  simp [alloc_block]

theorem wenv_resize_cap_ge : ∀ (fuel c n : Nat), n ≤ fuel + c →
    n ≤ wenv_resize_cap fuel c n ∧ c ≤ wenv_resize_cap fuel c n := by
  intro fuel
  induction fuel with
  | zero => intro c n h; simp only [wenv_resize_cap]; omega
  | succ f ih =>
    intro c n h
    simp only [wenv_resize_cap]
    split_ifs with hc
    · have := ih (c + WENV_ALLOC_UNIT) n (by unfold WENV_ALLOC_UNIT; omega)
      omega
    · omega

theorem env_strings_map (ls : List (List Nat)) :
    env_strings (ls.map env_ptr.str) = ls := by
  induction ls with
  | nil => rfl
  | cons l ls ih => simp [env_strings, ih]

/-- An array whose first `n` slots point to strings starts with these strings. -/
theorem env_strings_split : ∀ (n : Nat) (a : List env_ptr), n ≤ a.length →
    (a.take n).all env_ptr.is_str = true →
    a = (env_strings (a.take n)).map env_ptr.str ++ a.drop n
      ∧ (env_strings (a.take n)).length = n := by
  intro n
  induction n with
  | zero => intro a _ _; simp [env_strings]
  | succ n ih =>
    intro a hn hs
    cases a with
    | nil => simp at hn
    | cons p a =>
      simp only [List.take_succ_cons, List.all_cons, Bool.and_eq_true] at hs
      cases p with
      | null => simp [env_ptr.is_str] at hs
      | wild => simp [env_ptr.is_str] at hs
      | str s =>
        have := ih a (by simpa using hn) hs.2
        simp only [List.take_succ_cons, env_strings, List.map_cons, List.cons_append,
          List.drop_succ_cons, List.length_cons]
        exact ⟨by rw [← this.1], by rw [this.2]⟩

theorem env_strings_take (ls : List (List Nat)) (g : List env_ptr) :
    env_strings ((ls.map env_ptr.str ++ g).take ls.length) = ls := by
  have : (ls.map env_ptr.str ++ g).take ls.length = ls.map env_ptr.str := by
    rw [List.take_left']
    simp
  rw [this, env_strings_map ls]

theorem wenv_dup_table (ls : List (List Nat)) (g : List env_ptr) (u : Bool) :
    wenv_dup (env_table ls g u) = ls :=
  env_strings_take ls g

theorem wenv_ok_table (ls : List (List Nat)) (g : List env_ptr) (u : Bool) (hg : g ≠ []) :
    wenv_ok (env_table ls g u) := by
  have hpos : 0 < g.length := List.length_pos.2 hg
  show (ls.map env_ptr.str ++ g).length = ls.length + g.length ∧ ls.length < ls.length + g.length
    ∧ ((ls.map env_ptr.str ++ g).take ls.length).all env_ptr.is_str = true
  refine ⟨by simp, by omega, ?_⟩
  rw [List.take_left' (by simp)]
  simp [env_ptr.is_str]

/-- A table of the shape `wenv_ok` with an array is an `env_table`. -/
theorem wenv_ok_shape (w : watch_env) (a : List env_ptr) (h : wenv_ok w)
    (ha : w.environ = some a) :
    ∃ g, g ≠ [] ∧ w = env_table (wenv_dup w) g w.undefined := by
  unfold wenv_ok at h
  rw [ha] at h
  obtain ⟨hlen, hsz, hstr⟩ := h
  obtain ⟨hsplit, hl⟩ := env_strings_split w.size a (by omega) hstr
  have hd : wenv_dup w = env_strings (a.take w.size) := by
    unfold wenv_dup; rw [ha]
  refine ⟨a.drop w.size, ?_, ?_⟩
  · intro h0
    have := congrArg List.length h0
    simp at this
    omega
  · obtain ⟨e, s, c, u⟩ := w
    simp only at ha hlen hsz hstr hsplit hl hd
    subst ha
    simp only [env_table, hd, hl, watch_env.mk.injEq, true_and, and_true]
    refine ⟨by rw [← hsplit], ?_⟩
    simp
    omega

theorem wenv_set_scan_lines (g : List env_ptr) (line : List Nat) (n : Nat) :
    ∀ (ls : List (List Nat)) (i : Nat),
    wenv_set_scan (ls.map env_ptr.str ++ g) line n i
      = if wenv_set_find ls line n 0 < ls.length then
          env_scan.at_match (i + wenv_set_find ls line n 0)
        else wenv_set_scan g line n (i + ls.length) := by
  intro ls
  induction ls with
  | nil => intro i; simp [wenv_set_find]
  | cons e es ih =>
    intro i
    have e1 : wenv_set_scan ((e :: es).map env_ptr.str ++ g) line n i
        = if strncmp e line n = 0 then env_scan.at_match i
          else wenv_set_scan (es.map env_ptr.str ++ g) line n (i + 1) := rfl
    have e2 : wenv_set_find (e :: es) line n 0
        = if strncmp e line n = 0 then 0 else wenv_set_find es line n (0 + 1) := rfl
    rw [e1, e2]
    by_cases he : strncmp e line n = 0
    · simp [he]
    · simp only [he, if_false]
      rw [ih (i + 1), wenv_set_find_shift]
      simp only [List.length_cons, Nat.add_lt_add_iff_right]
      split_ifs
      · congr 1; omega
      · congr 1; omega

/-- The index at which the search loop of `wenv_set` stops is in the part it scans. -/
theorem wenv_set_scan_match (line : List Nat) (n : Nat) : ∀ (g : List env_ptr) (i j : Nat),
    wenv_set_scan g line n i = env_scan.at_match j → i ≤ j ∧ j < i + g.length := by
  intro g
  induction g with
  | nil => intro i j h; simp [wenv_set_scan] at h
  | cons p g ih =>
    intro i j h
    cases p with
    | null => simp [wenv_set_scan] at h
    | wild => simp [wenv_set_scan] at h
    | str e =>
      simp only [wenv_set_scan] at h
      split_ifs at h with he
      · simp only [env_scan.at_match.injEq] at h
        simp only [List.length_cons]; omega
      · have := ih (i + 1) j h
        simp only [List.length_cons]; omega

theorem env_line_eq (name value : List Nat) :
    name.take (strlen name) ++ [61] ++ value.take (strlen value) = env_line name value := rfl

/-- What `wenv_set` does to a table, in terms of its strings: it replaces the first
string that starts with `name=` (or leaves it, without overwrite); when there is none
and the search ends at a NULL slot it appends the line; when the search ends elsewhere,
in the slots that follow the strings, the strings stay as they are and the behaviour is
undefined, unless the search ends at a string there and nothing is to be overwritten. -/
theorem wenv_set_table (mem : List env_ptr) (ls : List (List Nat)) (g : List env_ptr)
    (u : Bool) (name value : List Nat) (overwrite : Bool) (hg : g ≠ []) :
    ∃ ls1 g1 u1, g1 ≠ []
      ∧ wenv_set mem (env_table ls g u) name value overwrite = env_table ls1 g1 u1
      ∧ ((wenv_set_find ls (env_line name value) (strlen name + 1) 0 < ls.length ∧ u1 = u
            ∧ g1 = g
            ∧ ls1 = if overwrite = true then
                ls.set (wenv_set_find ls (env_line name value) (strlen name + 1) 0)
                  (env_line name value)
              else ls)
        ∨ (wenv_set_find ls (env_line name value) (strlen name + 1) 0 = ls.length ∧ u1 = u
            ∧ ls1 = ls ++ [env_line name value]
            ∧ (∃ m, g1 = (g ++ List.replicate m env_ptr.null).tail)
            ∧ ∃ j, wenv_set_scan g (env_line name value) (strlen name + 1) ls.length
                = env_scan.at_null j)
        ∨ (wenv_set_find ls (env_line name value) (strlen name + 1) 0 = ls.length ∧ ls1 = ls
            ∧ (u1 = true ∨ (overwrite = false ∧ u1 = u))
            ∧ ∀ j, wenv_set_scan g (env_line name value) (strlen name + 1) ls.length
                ≠ env_scan.at_null j)) := by
  have hpos : 0 < g.length := List.length_pos.2 hg
  have hle := wenv_set_find_le ls (env_line name value) (strlen name + 1)
  have hscan := wenv_set_scan_lines g (env_line name value) (strlen name + 1) ls 0
  simp only [Nat.zero_add] at hscan
  unfold wenv_set
  simp only [env_table, wenv_need_init, env_line_eq]
  rw [hscan]
  by_cases hk : wenv_set_find ls (env_line name value) (strlen name + 1) 0 < ls.length
  · rw [if_pos hk]
    simp only []
    cases overwrite with
    | false =>
      refine ⟨ls, g, u, hg, rfl, Or.inl ⟨hk, rfl, rfl, by simp⟩⟩
    | true =>
      refine ⟨ls.set (wenv_set_find ls (env_line name value) (strlen name + 1) 0)
        (env_line name value), g, u, hg, ?_, Or.inl ⟨hk, rfl, rfl, by simp⟩⟩
      simp only [Bool.not_true, Bool.false_eq_true, if_false, watch_env.mk.injEq,
        Option.some.injEq, List.length_set, true_and, and_true]
      refine ⟨?_, by simp; omega⟩
      rw [List.set_append_left _ _ (by simpa using hk), List.map_set]
  · rw [if_neg hk]
    have hkl : wenv_set_find ls (env_line name value) (strlen name + 1) 0 = ls.length := by
      omega
    cases hs : wenv_set_scan g (env_line name value) (strlen name + 1) ls.length with
    | undefined =>
      refine ⟨ls, g, true, hg, rfl, Or.inr (Or.inr ⟨hkl, rfl, Or.inl rfl, by simp⟩)⟩
    | at_match j =>
      obtain ⟨hj1, hj2⟩ := wenv_set_scan_match _ _ g _ j hs
      simp only []
      cases overwrite with
      | false =>
        refine ⟨ls, g, u, hg, rfl, Or.inr (Or.inr ⟨hkl, rfl, Or.inr ⟨rfl, rfl⟩, by simp⟩)⟩
      | true =>
        refine ⟨ls, g.set (j - ls.length) (env_ptr.str (env_line name value)), true,
          by simpa using hg, ?_, Or.inr (Or.inr ⟨hkl, rfl, Or.inl rfl, by simp⟩)⟩
        simp only [Bool.not_true, Bool.false_eq_true, if_false, watch_env.mk.injEq,
          Option.some.injEq, List.length_set, true_and, and_true]
        refine ⟨?_, by simp [hj1]⟩
        rw [List.set_append_right _ _ (by simpa using hj1)]
        simp
    | at_null j =>
      simp only []
      -- the array after `wenv_resize`
      have hres : ∃ extra : List env_ptr, (∃ m, extra = List.replicate m env_ptr.null) ∧
          wenv_resize mem
            { environ := some (ls.map env_ptr.str ++ g), size := ls.length,
              capacity := ls.length + g.length, undefined := u } (ls.length + 2)
            = { environ := some (ls.map env_ptr.str ++ (g ++ extra)), size := ls.length,
                capacity := ls.length + (g ++ extra).length, undefined := u }
          ∧ 2 ≤ (g ++ extra).length := by
        unfold wenv_resize
        simp only [wenv_need_init]
        by_cases hc : ls.length + 2 ≤ ls.length + g.length
        · rw [if_pos hc]
          exact ⟨[], ⟨0, rfl⟩, by simp, by simp; omega⟩
        · rw [if_neg hc]
          obtain ⟨h1, h2⟩ := wenv_resize_cap_ge (ls.length + 2) (ls.length + g.length)
            (ls.length + 2) (by omega)
          refine ⟨List.replicate (wenv_resize_cap (ls.length + 2) (ls.length + g.length)
            (ls.length + 2) - (ls.length + g.length)) env_ptr.null, ⟨_, rfl⟩, ?_, by simp; omega⟩
          have hb : alloc_block (ls.length + g.length) (ls.map env_ptr.str ++ g)
              = ls.map env_ptr.str ++ g := by
            have := alloc_block_self (ls.map env_ptr.str ++ g)
            simpa using this
          simp only [hb, watch_env.mk.injEq, Option.some.injEq, List.append_assoc, true_and,
            and_true, List.length_append, List.length_replicate]
          omega
      obtain ⟨extra, ⟨m, hm⟩, hr, h2⟩ := hres
      simp only [hr]
      have hne : g ++ extra ≠ [] := by simp [hg]
      obtain ⟨p, t, hpt⟩ := List.exists_cons_of_ne_nil hne
      refine ⟨ls ++ [env_line name value], t, u, ?_, ?_,
        Or.inr (Or.inl ⟨hkl, rfl, rfl, ⟨m, by rw [← hm, hpt]; rfl⟩, j, rfl⟩)⟩
      · intro ht
        rw [hpt, ht] at h2
        simp at h2
      · have hlen : (g ++ extra).length = t.length + 1 := by rw [hpt]; simp
        rw [watch_env.mk.injEq]
        refine ⟨?_, by simp, ?_, ?_⟩
        · simp only [Option.some.injEq]
          rw [hpt, List.set_append_right _ _ (by simp)]
          simp
        · simp only [List.length_append, List.length_singleton]
          rw [← List.length_append, hlen]
          omega
        · have : ¬ ((ls.map env_ptr.str ++ (g ++ extra)).length ≤ ls.length) := by
            rw [List.length_append, hlen]; simp
          rw [decide_eq_false this, Bool.or_false]

theorem wenv_ok_init (mem : List env_ptr) : wenv_ok (wenv_init mem) := by
  show (alloc_block WENV_ALLOC_UNIT mem).length = WENV_ALLOC_UNIT ∧ 0 < WENV_ALLOC_UNIT
    ∧ ((alloc_block WENV_ALLOC_UNIT mem).take 0).all env_ptr.is_str = true
  refine ⟨alloc_block_length _ _, by decide, by simp⟩

theorem wenv_need_init_idem (mem : List env_ptr) (w : watch_env) :
    wenv_need_init mem (wenv_need_init mem w) = wenv_need_init mem w := by
  unfold wenv_need_init
  cases h : w.environ with
  | none => rfl
  | some a => simp only [h]

theorem wenv_set_need_init (mem : List env_ptr) (w : watch_env) (name value : List Nat)
    (overwrite : Bool) :
    wenv_set mem (wenv_need_init mem w) name value overwrite
      = wenv_set mem w name value overwrite := by
  unfold wenv_set
  rw [wenv_need_init_idem]

/-- A table of the shape `wenv_ok` is, once initialized, an `env_table` of its strings. -/
theorem wenv_ok_need_init (mem : List env_ptr) (w : watch_env) (h : wenv_ok w) :
    ∃ g, g ≠ [] ∧ wenv_need_init mem w = env_table (wenv_dup w) g w.undefined := by
  cases ha : w.environ with
  | none =>
    refine ⟨alloc_block WENV_ALLOC_UNIT mem, ?_, ?_⟩
    · intro h0
      have := congrArg List.length h0
      rw [alloc_block_length] at this
      exact absurd this (by decide)
    · have hd : wenv_dup w = [] := by unfold wenv_dup; rw [ha]
      unfold wenv_need_init
      rw [ha, hd]
      simp [env_table, wenv_init, alloc_block_length]
  | some a =>
    obtain ⟨g, hg, hw⟩ := wenv_ok_shape w a h ha
    refine ⟨g, hg, ?_⟩
    have : wenv_need_init mem w = w := by
      unfold wenv_need_init; rw [ha]
    rw [this]
    exact hw

/-- What `wenv_set` does to the strings of a table of the shape `wenv_ok`. -/
theorem wenv_set_cases (mem : List env_ptr) (w : watch_env) (name value : List Nat)
    (overwrite : Bool) (h : wenv_ok w) :
    wenv_ok (wenv_set mem w name value overwrite)
    ∧ ((wenv_set_find (wenv_dup w) (env_line name value) (strlen name + 1) 0
            < (wenv_dup w).length
          ∧ (wenv_set mem w name value overwrite).undefined = w.undefined
          ∧ wenv_dup (wenv_set mem w name value overwrite)
              = if overwrite = true then
                  (wenv_dup w).set
                    (wenv_set_find (wenv_dup w) (env_line name value) (strlen name + 1) 0)
                    (env_line name value)
                else wenv_dup w)
      ∨ (wenv_set_find (wenv_dup w) (env_line name value) (strlen name + 1) 0
            = (wenv_dup w).length
          ∧ (wenv_set mem w name value overwrite).undefined = w.undefined
          ∧ wenv_dup (wenv_set mem w name value overwrite)
              = wenv_dup w ++ [env_line name value])
      ∨ (wenv_set_find (wenv_dup w) (env_line name value) (strlen name + 1) 0
            = (wenv_dup w).length
          ∧ wenv_dup (wenv_set mem w name value overwrite) = wenv_dup w
          ∧ ((wenv_set mem w name value overwrite).undefined = true
              ∨ (overwrite = false
                ∧ (wenv_set mem w name value overwrite).undefined = w.undefined)))) := by
  obtain ⟨g, hg, hw⟩ := wenv_ok_need_init mem w h
  obtain ⟨ls1, g1, u1, hg1, hr, hc⟩ :=
    wenv_set_table mem (wenv_dup w) g w.undefined name value overwrite hg
  rw [← hw, wenv_set_need_init] at hr
  rw [hr, wenv_dup_table]
  refine ⟨wenv_ok_table ls1 g1 u1 hg1, ?_⟩
  rcases hc with ⟨h1, h2, _, h3⟩ | ⟨h1, h2, h3, _, _⟩ | ⟨h1, h2, h3, _⟩
  · exact Or.inl ⟨h1, h2, h3⟩
  · exact Or.inr (Or.inl ⟨h1, h2, h3⟩)
  · exact Or.inr (Or.inr ⟨h1, h2, h3⟩)

theorem wenv_set_ok (mem : List env_ptr) (w : watch_env) (name value : List Nat)
    (overwrite : Bool) (h : wenv_ok w) : wenv_ok (wenv_set mem w name value overwrite) :=
  (wenv_set_cases mem w name value overwrite h).1

/-- A call that has defined behaviour was made on a table that had. -/
theorem wenv_set_defined (mem : List env_ptr) (w : watch_env) (name value : List Nat)
    (overwrite : Bool) (h : wenv_ok w)
    (hd : (wenv_set mem w name value overwrite).undefined = false) : w.undefined = false := by
  rcases (wenv_set_cases mem w name value overwrite h).2 with
    ⟨_, h2, _⟩ | ⟨_, h2, _⟩ | ⟨_, _, h3 | ⟨_, h3⟩⟩
  · rw [← h2]; exact hd
  · rw [← h2]; exact hd
  · rw [hd] at h3; exact absurd h3 (by decide)
  · rw [← h3]; exact hd

/-- The strings of the table after a call of `wenv_set` with overwrite that has defined
behaviour. -/
theorem wenv_dup_set_defined (mem : List env_ptr) (w : watch_env) (name value : List Nat)
    (h : wenv_ok w) (hd : (wenv_set mem w name value true).undefined = false) :
    wenv_dup (wenv_set mem w name value true)
      = env_put (wenv_dup w)
          (wenv_set_find (wenv_dup w) (env_line name value) (strlen name + 1) 0)
          (env_line name value) := by
  unfold env_put
  rcases (wenv_set_cases mem w name value true h).2 with
    ⟨h1, _, h3⟩ | ⟨h1, _, h3⟩ | ⟨_, _, h3 | ⟨h3, _⟩⟩
  · rw [h3, if_neg (Nat.ne_of_lt h1)]; simp
  · rw [h3, if_pos h1]
  · rw [hd] at h3; exact absurd h3 (by decide)
  · exact absurd h3 (by decide)

/-- The variable line is in the environment after `wenv_set` with overwrite, when the
call has defined behaviour. -/
theorem wenv_set_mem_new (mem : List env_ptr) (env : watch_env) (name value : List Nat)
    (h : wenv_ok env) (hd : (wenv_set mem env name value true).undefined = false) :
    env_line name value ∈ wenv_dup (wenv_set mem env name value true) := by
  rw [wenv_dup_set_defined mem env name value h hd]
  have hle := wenv_set_find_le (wenv_dup env) (env_line name value) (strlen name + 1)
  unfold env_put
  split_ifs with h1
  · simp
  · exact List.mem_set _ _ (by omega) _

/-- A line of the environment that does not start with `name=` survives `wenv_set`. -/
theorem wenv_set_mem_old (mem : List env_ptr) (env : watch_env) (name value L : List Nat)
    (overwrite : Bool) (hok : wenv_ok env)
    (h : L ∈ wenv_dup env) (hL : strncmp L (env_line name value) (strlen name + 1) ≠ 0) :
    L ∈ wenv_dup (wenv_set mem env name value overwrite) := by
  rcases (wenv_set_cases mem env name value overwrite hok).2 with
    ⟨_, _, h3⟩ | ⟨_, _, h3⟩ | ⟨_, h3, _⟩
  · rw [h3]
    split_ifs
    · exact wenv_set_find_keeps _ _ _ _ _ h hL
    · exact h
  · rw [h3]; simp [h]
  · rw [h3]; exact h

/-- Without overwrite `wenv_set` removes no line. -/
theorem wenv_set_mem_keep (mem : List env_ptr) (env : watch_env) (name value L : List Nat)
    (hok : wenv_ok env) (h : L ∈ wenv_dup env) :
    L ∈ wenv_dup (wenv_set mem env name value false) := by
  rcases (wenv_set_cases mem env name value false hok).2 with
    ⟨_, _, h3⟩ | ⟨_, _, h3⟩ | ⟨_, h3, _⟩
  · rw [h3]; simpa using h
  · rw [h3]; simp [h]
  · rw [h3]; exact h

theorem wenv_get_scan_lines (g : List env_ptr) (name : List Nat) (n : Nat) :
    ∀ ls : List (List Nat),
    wenv_get_scan (ls.map env_ptr.str ++ g) name n
      = match wenv_get_find ls name n with
        | some v => some (some v)
        | none => wenv_get_scan g name n := by
  intro ls
  induction ls with
  | nil => rfl
  | cons e es ih =>
    have e1 : wenv_get_scan ((e :: es).map env_ptr.str ++ g) name n
        = if strncmp e name n = 0 ∧ rd e n = 61 then some (some (cstr (e.drop (n + 1))))
          else wenv_get_scan (es.map env_ptr.str ++ g) name n := rfl
    have e2 : wenv_get_find (e :: es) name n
        = if strncmp e name n = 0 ∧ rd e n = 61 then some (cstr (e.drop (n + 1)))
          else wenv_get_find es name n := rfl
    rw [e1, e2]
    split_ifs
    · rfl
    · exact ih

/-- Function `wenv_get` finds a value that is among the strings of the table. -/
theorem wenv_get_own (w : watch_env) (name v : List Nat) (h : wenv_ok w)
    (hf : wenv_get_find (wenv_dup w) name (strlen name) = some v) :
    wenv_get w name = some (some v) := by
  cases ha : w.environ with
  | none =>
    have hd : wenv_dup w = [] := by unfold wenv_dup; rw [ha]
    rw [hd] at hf
    simp [wenv_get_find] at hf
  | some a =>
    obtain ⟨g, _, hw⟩ := wenv_ok_shape w a h ha
    rw [hw]
    show wenv_get_scan ((wenv_dup w).map env_ptr.str ++ g) name (strlen name) = _
    rw [wenv_get_scan_lines, hf]

theorem wenv_clean_table (ls : List (List Nat)) (k : Nat) :
    wenv_clean (env_table ls (List.replicate (k + 1) env_ptr.null) false) := by
  refine ⟨wenv_ok_table _ _ _ (by simp [List.replicate_succ]), rfl, ?_⟩
  show ((ls.map env_ptr.str ++ List.replicate (k + 1) env_ptr.null).drop ls.length).all
    (fun p => decide (p = env_ptr.null)) = true
  rw [List.drop_left' (by simp)]
  simp

theorem wenv_clean_shape (w : watch_env) (h : wenv_clean w) :
    ∃ ls k, w = env_table ls (List.replicate (k + 1) env_ptr.null) false := by
  obtain ⟨hok, hu, hn⟩ := h
  cases ha : w.environ with
  | none => rw [ha] at hn; exact absurd hn (by simp)
  | some a =>
    rw [ha] at hn
    simp only [] at hn
    obtain ⟨g, hg, hw⟩ := wenv_ok_shape w a hok ha
    have hag : a.drop w.size = g := by
      have h1 : w.environ = some ((wenv_dup w).map env_ptr.str ++ g) := by
        conv_lhs => rw [hw]
        rfl
      have h2 : w.size = (wenv_dup w).length := by
        conv_lhs => rw [hw]
        rfl
      rw [ha] at h1
      have h3 := Option.some.inj h1
      rw [h3, h2]
      exact List.drop_left' (by simp)
    rw [hag] at hn
    have hrep : g = List.replicate g.length env_ptr.null := by
      rw [List.eq_replicate_iff]
      refine ⟨rfl, ?_⟩
      intro p hp
      have := (List.all_eq_true.1 hn) p hp
      simpa using this
    have hpos : 0 < g.length := List.length_pos.2 hg
    refine ⟨wenv_dup w, g.length - 1, ?_⟩
    have : g.length - 1 + 1 = g.length := by omega
    rw [this, ← hrep, ← hu]
    exact hw

theorem wenv_clean_ok (w : watch_env) (h : wenv_clean w) : wenv_ok w := h.1

theorem wenv_clean_defined (w : watch_env) (h : wenv_clean w) : w.undefined = false :=
  h.2.1

theorem wenv_clean_init (mem : List env_ptr)
    (h : alloc_block WENV_ALLOC_UNIT mem = fresh_block) : wenv_clean (wenv_init mem) := by
  have : wenv_init mem = env_table [] (List.replicate (15 + 1) env_ptr.null) false := by
    unfold wenv_init
    rw [h]
    rfl
  rw [this]
  exact wenv_clean_table [] 15

/-- On a table without stray slots `wenv_set` has defined behaviour, leaves such a
table, and replaces the first string that starts with `name=` or appends the line. -/
theorem wenv_set_clean (mem : List env_ptr) (w : watch_env) (name value : List Nat)
    (overwrite : Bool) (h : wenv_clean w) :
    wenv_clean (wenv_set mem w name value overwrite)
    ∧ wenv_dup (wenv_set mem w name value overwrite)
      = if wenv_set_find (wenv_dup w) (env_line name value) (strlen name + 1) 0
            = (wenv_dup w).length then wenv_dup w ++ [env_line name value]
        else if overwrite = false then wenv_dup w
        else (wenv_dup w).set
          (wenv_set_find (wenv_dup w) (env_line name value) (strlen name + 1) 0)
          (env_line name value) := by
  obtain ⟨ls, k, rfl⟩ := wenv_clean_shape w h
  obtain ⟨ls1, g1, u1, hg1, hr, hc⟩ := wenv_set_table mem ls
    (List.replicate (k + 1) env_ptr.null) false name value overwrite
    (by simp [List.replicate_succ])
  rw [hr, wenv_dup_table, wenv_dup_table]
  rcases hc with ⟨h1, h2, h3, h4⟩ | ⟨h1, h2, h3, ⟨m, h4⟩, _⟩ | ⟨_, _, _, h4⟩
  · refine ⟨by rw [h2, h3]; exact wenv_clean_table ls1 k, ?_⟩
    rw [if_neg (Nat.ne_of_lt h1), h4]
    cases overwrite <;> simp
  · refine ⟨?_, by rw [if_pos h1, h3]⟩
    rw [h2, h4]
    have hlen : ((List.replicate (k + 1) env_ptr.null ++ List.replicate m env_ptr.null).tail)
        = List.replicate (k + m) env_ptr.null := by
      rw [← List.replicate_add]
      simp [List.replicate_succ, List.tail_replicate]
    rw [hlen]
    have hpos : 0 < k + m := by
      rcases Nat.eq_zero_or_pos (k + m) with h0 | h0
      · rw [h4, hlen, h0] at hg1
        simp at hg1
      · exact h0
    have : k + m = k + m - 1 + 1 := by omega
    rw [this]
    exact wenv_clean_table ls1 (k + m - 1)
  · exact absurd (h4 ls.length) (by simp [List.replicate_succ, wenv_set_scan])

/-- The strings of a table without stray slots after `wenv_set`. -/
theorem wenv_dup_set (mem : List env_ptr) (env : watch_env) (name value : List Nat)
    (overwrite : Bool) (h : wenv_clean env) :
    wenv_dup (wenv_set mem env name value overwrite)
      = if wenv_set_find (wenv_dup env) (env_line name value) (strlen name + 1) 0
            = (wenv_dup env).length then wenv_dup env ++ [env_line name value]
        else if overwrite = false then wenv_dup env
        else (wenv_dup env).set
          (wenv_set_find (wenv_dup env) (env_line name value) (strlen name + 1) 0)
          (env_line name value) :=
  (wenv_set_clean mem env name value overwrite h).2

theorem entry_env_ok (mem : List env_ptr) (env : watch_env) (p : passwd) (path : List Nat)
    (h : wenv_ok env) : wenv_ok (entry_env mem env p path) := by
  unfold entry_env
  exact wenv_set_ok _ _ _ _ _ (wenv_set_ok _ _ _ _ _ (wenv_set_ok _ _ _ _ _
    (wenv_set_ok _ _ _ _ _ h)))

theorem entry_env_clean (mem : List env_ptr) (env : watch_env) (p : passwd) (path : List Nat)
    (h : wenv_clean env) : wenv_clean (entry_env mem env p path) := by
  unfold entry_env
  exact (wenv_set_clean _ _ _ _ _ (wenv_set_clean _ _ _ _ _ (wenv_set_clean _ _ _ _ _
    (wenv_set_clean _ _ _ _ _ h).1).1).1).1

theorem strncmp_take : ∀ (n : Nat) (a b : List Nat), strncmp a b n = strncmp a (b.take n) n := by
  intro n
  induction n with
  | zero => intro a b; simp [strncmp]
  | succ k ih =>
    intro a b
    cases b with
    | nil => simp
    | cons y ys =>
      simp only [strncmp, List.take_succ_cons, List.headD_cons, List.tail_cons]
      rw [ih a.tail ys]

/-- An entry accepted by `wentry_readline` carries a copy of the environment it leaves
in `base_env`, which is `entry_env` of the previous one for some user and its path. -/
theorem wentry_readline_env (db : UserDb) (mem : List env_ptr) (dest : watch_entry)
    (line : List Nat)
    (env env1 : watch_env) (e : watch_entry)
    (h : wentry_readline db mem dest line env = some (e, env1)) :
    ∃ p path, env1 = entry_env mem env p path ∧ e.envp = some (wenv_dup env1)
      ∧ e.path = some path := by
  unfold wentry_readline at h
  split_ifs at h with h0
  simp only [] at h
  split at h
  · exact absurd h (by simp)
  split at h
  · exact absurd h (by simp)
  split at h
  · exact absurd h (by simp)
  split at h
  · exact absurd h (by simp)
  split at h
  · exact absurd h (by simp)
  rename_i p _
  simp only [Option.some.injEq, Prod.mk.injEq] at h
  obtain ⟨he, henv⟩ := h
  refine ⟨p, _, henv.symm, ?_, ?_⟩
  · rw [← he, ← henv]
  · rw [← he]

theorem entry_env_keeps (mem : List env_ptr) (env : watch_env) (p : passwd)
    (path L : List Nat) (hok : wenv_ok env) (h : L ∈ wenv_dup env) (h1 : strncmp L (str "LOGNAME=") 8 ≠ 0)
    (h2 : strncmp L (str "USER=") 5 ≠ 0) (h3 : strncmp L (str "TRIGGER=") 8 ≠ 0) :
    L ∈ wenv_dup (entry_env mem env p path) := by
  have e1 : ∀ v, strncmp L (env_line (str "LOGNAME") v) (strlen (str "LOGNAME") + 1)
      = strncmp L (str "LOGNAME=") 8 := by
    intro v
    have hs : strlen (str "LOGNAME") + 1 = 8 := by decide
    rw [hs, strncmp_take]
    have : (env_line (str "LOGNAME") v).take 8 = str "LOGNAME=" := by
      have hc : cstr (str "LOGNAME") = [76, 79, 71, 78, 65, 77, 69] := by decide
      have hr : str "LOGNAME=" = [76, 79, 71, 78, 65, 77, 69, 61] := by decide
      rw [env_line, hc, hr]
      simp
    rw [this]
  have e2 : ∀ v, strncmp L (env_line (str "USER") v) (strlen (str "USER") + 1)
      = strncmp L (str "USER=") 5 := by
    intro v
    have hs : strlen (str "USER") + 1 = 5 := by decide
    rw [hs, strncmp_take]
    have : (env_line (str "USER") v).take 5 = str "USER=" := by
      have hc : cstr (str "USER") = [85, 83, 69, 82] := by decide
      have hr : str "USER=" = [85, 83, 69, 82, 61] := by decide
      rw [env_line, hc, hr]
      simp
    rw [this]
  have e3 : ∀ v, strncmp L (env_line (str "TRIGGER") v) (strlen (str "TRIGGER") + 1)
      = strncmp L (str "TRIGGER=") 8 := by
    intro v
    have hs : strlen (str "TRIGGER") + 1 = 8 := by decide
    rw [hs, strncmp_take]
    have : (env_line (str "TRIGGER") v).take 8 = str "TRIGGER=" := by
      have hc : cstr (str "TRIGGER") = [84, 82, 73, 71, 71, 69, 82] := by decide
      have hr : str "TRIGGER=" = [84, 82, 73, 71, 71, 69, 82, 61] := by decide
      rw [env_line, hc, hr]
      simp
    rw [this]
  unfold entry_env
  have k1 := wenv_set_ok mem env (str "LOGNAME") p.pw_name true hok
  have k2 := wenv_set_ok mem _ (str "USER") p.pw_name true k1
  have k3 := wenv_set_ok mem _ (str "HOME") p.pw_dir false k2
  have m1 := wenv_set_mem_old mem env _ p.pw_name L true hok h (by rw [e1]; exact h1)
  have m2 := wenv_set_mem_old mem _ _ p.pw_name L true k1 m1 (by rw [e2]; exact h2)
  have m3 := wenv_set_mem_keep mem _ (str "HOME") p.pw_dir L k2 m2
  exact wenv_set_mem_old mem _ _ path L true k3 m3 (by rw [e3]; exact h3)

/-- A variable line of the parser environment that no later line replaces is in the
envp of every entry the later lines produce. -/
theorem visible_lines (db : UserDb) (mem : List env_ptr) (L : List Nat) (h1 : strncmp L
    (str "LOGNAME=") 8 ≠ 0)
    (h2 : strncmp L (str "USER=") 5 ≠ 0) (h3 : strncmp L (str "TRIGGER=") 8 ≠ 0) :
    ∀ (ls : List (List Nat)) (env : watch_env), wenv_ok env → L ∈ wenv_dup env →
    (∀ l ∈ ls, keeps_line L l) →
    ∀ e ∈ accepted (line_outcomes db mem ls env), ∃ envp, e.envp = some envp ∧ L ∈ envp := by
  intro ls
  induction ls with
  | nil => intro env _ _ _ e he; simp [line_outcomes, accepted] at he
  | cons l ls ih =>
    intro env hok hL hk e he
    have hkl := hk l (by simp)
    have hks : ∀ x ∈ ls, keeps_line L x := fun x hx => hk x (by simp [hx])
    rw [line_outcomes_cons] at he
    unfold keeps_line at hkl
    cases hc : classify_line l with
    | skipped =>
      rw [hc] at he
      exact ih env hok hL hks e he
    | assignment name value =>
      rw [hc] at he hkl
      exact ih _ (wenv_set_ok _ _ _ _ _ hok) (wenv_set_mem_old _ _ _ _ _ _ hok hL hkl) hks e he
    | entry buf =>
      rw [hc] at he
      simp only [] at he
      cases hw : wentry_readline db mem wentry_init buf env with
      | none =>
        rw [hw] at he
        simp only [accepted, List.filterMap_cons] at he
        exact ih env hok hL hks e he
      | some r =>
        obtain ⟨e1, env1⟩ := r
        rw [hw] at he
        obtain ⟨p, path, henv, henvp, _⟩ := wentry_readline_env db mem _ _ _ _ _ hw
        have hL1 : L ∈ wenv_dup env1 := by
          rw [henv]; exact entry_env_keeps mem env p path L hok hL h1 h2 h3
        simp only [accepted, List.filterMap_cons, id, List.mem_cons] at he
        rcases he with rfl | he
        · exact ⟨_, henvp, hL1⟩
        · exact ih env1 (by rw [henv]; exact entry_env_ok mem env p path hok) hL1 hks e he

/-! ## Traces of the reading loop -/

theorem line_outcomes_append (db : UserDb) (mem : List env_ptr) : ∀ (a b : List (List Nat))
    (env : watch_env),
    line_outcomes db mem (a ++ b) env
      = line_outcomes db mem a env ++ line_outcomes db mem b (env_after db mem a env) := by
  intro a
  induction a with
  | nil => intro b env; rfl
  | cons l ls ih =>
    intro b env
    rw [List.cons_append, line_outcomes_cons, line_outcomes_cons, env_after_cons]
    cases classify_line l with
    | skipped => exact ih b env
    | assignment name value => exact ih b _
    | entry buf =>
      simp only []
      cases wentry_readline db mem wentry_init buf env with
      | none => simp only []; rw [ih b env]; rfl
      | some r => simp only []; rw [ih b r.2]; rfl

theorem accepted_append (a b : List (Option watch_entry)) :
    accepted (a ++ b) = accepted a ++ accepted b := by
  simp [accepted]

/-- The table after `pre ++ x` is the table after `pre` with the entries of `x` pushed
on it: what follows a line boundary does not change the entries produced before it. -/
theorem wtab_readfile_frame (db : UserDb) (mem : List env_ptr) (tab : List watch_entry)
    (pre x : List Nat)
    (hpre : pre = [] ∨ pre.getLast? = some 10) :
    (wtab_readfile db mem tab (pre ++ x)).2
      = (accepted (line_outcomes db mem (file_lines x)
          (env_after db mem (file_lines pre) (wtab_env0 mem)))).reverse
        ++ (wtab_readfile db mem tab pre).2 := by
  rw [wtab_readfile_trace, wtab_readfile_trace, file_lines_append pre x hpre,
    line_outcomes_append, accepted_append]
  simp

/-- A string of spaces, tabs and CR is a run of blanks followed by bytes that are
trimmed, the first of which is not a blank. -/
theorem blank_split : ∀ b : List Nat, (∀ c ∈ b, c = 32 ∨ c = 9 ∨ c = 13) →
    ∃ lead trail, b = lead ++ trail ∧ (∀ c ∈ lead, c = 32 ∨ c = 9)
      ∧ (∀ c ∈ trail, is_trailing c = true) ∧ (trail = [] ∨ trail.headD 0 = 13) := by
  intro b
  induction b with
  | nil => intro _; exact ⟨[], [], rfl, by simp, by simp, Or.inl rfl⟩
  | cons c cs ih =>
    intro h
    have hc := h c (by simp)
    by_cases h13 : c = 13
    · refine ⟨[], c :: cs, rfl, by simp, ?_, Or.inr (by simp [h13])⟩
      intro x hx
      rcases h x hx with h1 | h1 | h1 <;> simp [is_trailing, h1]
    · obtain ⟨lead, trail, h1, h2, h3, h4⟩ := ih (fun x hx => h x (by simp [hx]))
      refine ⟨c :: lead, trail, by simp [h1], ?_, h3, h4⟩
      intro x hx
      rcases List.mem_cons.1 hx with rfl | hx
      · rcases hc with h5 | h5 | h5
        · exact Or.inl h5
        · exact Or.inr h5
        · exact absurd h5 h13
      · exact h2 x hx

/-- A line of spaces, tabs and CR, with or without its newline, is skipped. -/
theorem classify_line_blank_line (b nl : List Nat) (hb : ∀ c ∈ b, c = 32 ∨ c = 9 ∨ c = 13)
    (hnl : nl = [] ∨ nl = [10]) : classify_line (b ++ nl) = line_class.skipped := by
  obtain ⟨lead, trail, h1, h2, h3, h4⟩ := blank_split b hb
  have hnlt : ∀ c ∈ nl, is_trailing c = true := by
    intro c hc
    rcases hnl with h | h <;> rw [h] at hc <;> simp at hc
    rw [hc]; decide
  have := classify_line_blank lead (trail ++ nl) h2
    (by intro c hc
        rcases List.mem_append.1 hc with h | h
        · exact h3 c h
        · exact hnlt c h)
    (by rcases h4 with h | h
        · subst h
          rcases hnl with h | h <;> subst h <;> simp
        · cases trail with
          | nil => simp at h
          | cons t ts => simp at h; simp [h])
  rw [h1, List.append_assoc]
  exact this

theorem first_special_mem : ∀ (l : List Nat) (x : Nat), first_special l = some x → x ∈ l := by
  intro l
  induction l with
  | nil => intro x h; simp [first_special] at h
  | cons c cs ih =>
    intro x h
    rw [first_special] at h
    split_ifs at h with hc
    · simp at h; simp [h]
    · exact List.mem_cons_of_mem _ (ih x h)

/-- Trailing bytes do not change whether the first special byte of a line is `=`. -/
theorem first_special_trail (trail : List Nat) (ht : ∀ c ∈ trail, is_trailing c = true) :
    ∀ core : List Nat, first_special (core ++ trail) = some 61 ↔ first_special core = some 61 := by
  intro core
  induction core with
  | nil =>
    constructor
    · intro h
      have := ht 61 (first_special_mem trail 61 (by simpa using h))
      exact absurd this (by decide)
    · intro h; simp [first_special] at h
  | cons c cs ih =>
    rw [List.cons_append, first_special, first_special]
    split_ifs
    · exact Iff.rfl
    · exact ih

/-- A line of one or two fields has no NUL and starts neither with a tab nor with a
NUL; followed by a NUL it is rejected by `wentry_readline`. -/
theorem short_line (db : UserDb) (mem : List env_ptr) (core : List Nat)
    (hcore : is_field core
      ∨ ∃ f1 k f2, core = f1 ++ tabs k ++ f2 ∧ is_sep_field f1 ∧ is_field f2) :
    core ≠ [] ∧ core.headD 0 ≠ 9 ∧ (∀ c ∈ core, c ≠ 0)
    ∧ ∀ (dest : watch_entry) (env : watch_env) (z : List Nat), z.headD 0 = 0 →
        wentry_readline db mem dest (core ++ z) env = none := by
  rcases hcore with h | ⟨f1, k, f2, rfl, h1, h2⟩
  · refine ⟨h.1, ?_, is_field_no_nul core 0 h.2, ?_⟩
    · have := (is_field_head core [] h).2
      simpa using this
    · intro dest env z hz
      exact wentry_readline_one_field db mem dest env core z h hz
  · refine ⟨?_, ?_, ?_, ?_⟩
    · intro h0
      have := congrArg List.length h0
      simp [tabs_length] at this
    · have := (is_field_head f1 (tabs k ++ f2) h1.1).2
      simpa [List.append_assoc] using this
    · intro c hc
      simp only [List.mem_append] at hc
      rcases hc with (hc | hc) | hc
      · exact is_field_no_nul f1 0 h1.1.2 c hc
      · simp [tabs] at hc; omega
      · exact is_field_no_nul f2 0 h2.2 c hc
    · intro dest env z hz
      exact wentry_readline_two_fields db mem dest env f1 f2 z k h1 h2 hz

/-! ## The environment table -/

theorem strlen_le (p : List Nat) : strlen p ≤ p.length := by
  induction p with
  | nil => simp [strlen]
  | cons c cs ih =>
    simp only [strlen]
    split_ifs
    · simp
    · simp; exact ih

theorem cstr_length (p : List Nat) : (cstr p).length = strlen p := by
  simp [cstr, strlen_le]

theorem cstr_no_nul : ∀ p : List Nat, ∀ x ∈ cstr p, x ≠ 0 := by
  intro p
  induction p with
  | nil => intro x hx; simp [cstr] at hx
  | cons c cs ih =>
    intro x hx
    unfold cstr at hx
    simp only [strlen] at hx
    split_ifs at hx with hc
    · simp at hx
    · simp only [List.take_succ_cons, List.mem_cons] at hx
      rcases hx with rfl | hx
      · exact hc
      · exact ih x hx

theorem strlen_of_no_nul : ∀ p : List Nat, (∀ x ∈ p, x ≠ 0) → strlen p = p.length := by
  intro p
  induction p with
  | nil => intro _; rfl
  | cons c cs ih =>
    intro h
    simp only [strlen]
    rw [if_neg (h c (by simp)), ih (fun x hx => h x (by simp [hx]))]
    rfl

theorem cstr_cstr (p : List Nat) : cstr (cstr p) = cstr p := by
  have h := strlen_of_no_nul (cstr p) (cstr_no_nul p)
  show List.take (strlen (cstr p)) (cstr p) = cstr p
  rw [h]
  simp

/-- The comparison of `wenv_set` reads only the `name=` prefix of the crafted line. -/
theorem strncmp_env_line (L name value : List Nat) :
    strncmp L (env_line name value) (strlen name + 1)
      = strncmp L (cstr name ++ [61]) (strlen name + 1) := by
  rw [strncmp_take (strlen name + 1) L (env_line name value)]
  have : (env_line name value).take (strlen name + 1) = cstr name ++ [61] := by
    unfold env_line
    rw [List.append_assoc, List.take_append_eq_append_take]
    simp [cstr_length, List.take_of_length_le]
  rw [this]

theorem strncmp_succ (a b : List Nat) (n : Nat) :
    strncmp a b (n + 1)
      = if a.headD 0 ≠ b.headD 0 then (a.headD 0 : Int) - (b.headD 0 : Int)
        else if a.headD 0 = 0 then 0
        else strncmp a.tail b.tail n := rfl

theorem strncmp_zero (a b : List Nat) : strncmp a b 0 = 0 := by
  simp [strncmp]

/-- The test of `wenv_set` and the test of `wenv_get` select the same lines. -/
theorem strncmp_name_eq : ∀ (name L : List Nat),
    strncmp L (cstr name ++ [61]) (strlen name + 1) = 0
      ↔ (strncmp L name (strlen name) = 0 ∧ rd L (strlen name) = 61) := by
  intro name
  have base : ∀ L : List Nat, strncmp L [61] 1 = 0 ↔ rd L 0 = 61 := by
    intro L
    have e61 : ([61] : List Nat).headD 0 = 61 := rfl
    rw [strncmp_succ, e61, rd_zero, strncmp_zero]
    obtain ⟨x, hx⟩ : ∃ x, L.headD 0 = x := ⟨_, rfl⟩
    rw [hx]
    by_cases h : x = 61
    · simp [h]
    · simp [h]; omega
  induction name with
  | nil =>
    intro L
    have h1 : cstr ([] : List Nat) = [] := rfl
    have h2 : strlen ([] : List Nat) = 0 := rfl
    rw [h1, h2, strncmp_zero]
    simpa using base L
  | cons c cs ih =>
    intro L
    by_cases hc : c = 0
    · subst hc
      have h1 : cstr (0 :: cs) = [] := by simp [cstr, strlen]
      have h2 : strlen (0 :: cs) = 0 := by simp [strlen]
      rw [h1, h2, strncmp_zero]
      simpa using base L
    · have hs : strlen (c :: cs) = strlen cs + 1 := by simp [strlen, hc]
      have hcs : cstr (c :: cs) = c :: cstr cs := by simp [cstr, strlen, hc]
      have hrd : rd L (strlen cs + 1) = rd L.tail (strlen cs) := by
        cases L with
        | nil => simp [rd]
        | cons x xs => simp [rd]
      rw [hs, hcs, List.cons_append, strncmp_succ L (c :: (cstr cs ++ [61])) (strlen cs + 1),
        strncmp_succ L (c :: cs) (strlen cs), hrd]
      simp only [List.headD_cons, List.tail_cons]
      have ih1 := ih L.tail
      obtain ⟨x, hx⟩ : ∃ x, L.headD 0 = x := ⟨_, rfl⟩
      rw [hx]
      by_cases hh : x = c
      · subst hh
        simp only [ne_eq, not_true_eq_false, if_false, hc]
        exact ih1
      · have h2 : (x : Int) - (c : Int) ≠ 0 := by omega
        simp [hh, h2]

theorem wenv_set_find_congr (a b : List Nat) (n : Nat)
    (h : ∀ L, strncmp L a n = strncmp L b n) :
    ∀ (es : List (List Nat)) (i : Nat), wenv_set_find es a n i = wenv_set_find es b n i := by
  intro es
  induction es with
  | nil => intro i; rfl
  | cons e es ih =>
    intro i
    simp only [wenv_set_find, h e, ih]

/-- The crafted line starts with its own `name=`. -/
theorem strncmp_env_line_self (name v w : List Nat) :
    strncmp (env_line name v) (env_line name w) (strlen name + 1) = 0 := by
  rw [strncmp_env_line]
  have := strncmp_self_append (cstr name ++ [61]) (cstr v)
  simpa [env_line, cstr_length] using this

/-- After `env_put` at the index found for `name`, the search for `name` stops at the
same index. -/
theorem wenv_set_find_put (line x : List Nat) (n : Nat) (hx : strncmp x line n = 0) :
    ∀ es : List (List Nat),
      wenv_set_find (env_put es (wenv_set_find es line n 0) x) line n 0
        = wenv_set_find es line n 0 := by
  intro es
  induction es with
  | nil => simp [env_put, wenv_set_find, hx]
  | cons e es ih =>
    by_cases he : strncmp e line n = 0
    · simp [env_put, wenv_set_find, he, hx]
    · have hf : wenv_set_find (e :: es) line n 0 = wenv_set_find es line n 0 + 1 := by
        simp only [wenv_set_find, he, if_false]
        exact wenv_set_find_shift es line n 0
      have hp : env_put (e :: es) (wenv_set_find es line n 0 + 1) x
          = e :: env_put es (wenv_set_find es line n 0) x := by
        unfold env_put
        by_cases hl : wenv_set_find es line n 0 = es.length
        · simp [hl]
        · simp [hl]
      rw [hf, hp]
      simp only [wenv_set_find, he, if_false]
      rw [wenv_set_find_shift, ih]

theorem env_put_get (es : List (List Nat)) (i : Nat) (x : List Nat) (hi : i ≤ es.length) :
    (env_put es i x).get? i = some x := by
  unfold env_put
  split_ifs with h
  · subst h; simp
  · simp [List.getElem?_set]; omega

theorem env_put_length (es : List (List Nat)) (i : Nat) (x : List Nat) :
    i < (env_put es i x).length ∨ es.length < i := by
  unfold env_put
  split_ifs with h
  · left; simp [h]
  · by_cases h2 : i < es.length
    · left; simpa using h2
    · right; omega

theorem env_put_put (es : List (List Nat)) (i : Nat) (x y : List Nat) (hi : i ≤ es.length) :
    env_put (env_put es i x) i y = (env_put es i x).set i y := by
  have := env_put_length es i x
  show (if i = (env_put es i x).length then env_put es i x ++ [y]
    else (env_put es i x).set i y) = _
  rw [if_neg (by omega)]

/-- The strings of a table without stray slots after `wenv_set` without overwrite. -/
theorem wenv_dup_set_keep (mem : List env_ptr) (env : watch_env) (name value : List Nat)
    (h : wenv_clean env) :
    wenv_dup (wenv_set mem env name value false)
      = if wenv_set_find (wenv_dup env) (env_line name value) (strlen name + 1) 0
            = (wenv_dup env).length then wenv_dup env ++ [env_line name value]
        else wenv_dup env := by
  rw [wenv_dup_set mem env name value false h]
  simp

/-- Function `wenv_get` returns the value of the line at which the search loop of
`wenv_set` stops for the same name. -/
theorem wenv_get_find_eq (name v : List Nat) : ∀ es : List (List Nat),
    wenv_get_find es name (strlen name)
      = (es.get? (wenv_set_find es (env_line name v) (strlen name + 1) 0)).map
          (fun L => cstr (L.drop (strlen name + 1))) := by
  intro es
  induction es with
  | nil => rfl
  | cons e es ih =>
    have hiff := strncmp_name_eq name e
    rw [← strncmp_env_line e name v] at hiff
    by_cases he : strncmp e (env_line name v) (strlen name + 1) = 0
    · simp [wenv_get_find, wenv_set_find, he, hiff.1 he]
    · have hne : ¬ (strncmp e name (strlen name) = 0 ∧ rd e (strlen name) = 61) :=
        fun h => he (hiff.2 h)
      simp only [wenv_get_find, wenv_set_find, he, hne, if_false]
      rw [wenv_set_find_shift, ih]
      simp

/-- On a table without stray slots `wenv_get` searches the strings of the table. -/
theorem wenv_get_clean (env : watch_env) (name : List Nat) (h : wenv_clean env) :
    wenv_get env name = some (wenv_get_find (wenv_dup env) name (strlen name)) := by
  obtain ⟨ls, k, rfl⟩ := wenv_clean_shape env h
  rw [wenv_dup_table]
  show wenv_get_scan (ls.map env_ptr.str ++ List.replicate (k + 1) env_ptr.null) name
    (strlen name) = _
  rw [wenv_get_scan_lines]
  cases wenv_get_find ls name (strlen name) with
  | none => simp [List.replicate_succ, wenv_get_scan]
  | some v => rfl

theorem env_line_drop (name v : List Nat) :
    cstr ((env_line name v).drop (strlen name + 1)) = cstr v := by
  have : (env_line name v).drop (strlen name + 1) = cstr v := by
    unfold env_line
    exact List.drop_left' (by simp [cstr_length])
  rw [this, cstr_cstr]

/-- After `wenv_set` with overwrite, when the call has defined behaviour, `wenv_get`
returns the value. -/
theorem wenv_get_set_overwrite (mem : List env_ptr) (env : watch_env) (name value : List Nat)
    (h : wenv_ok env) (hd : (wenv_set mem env name value true).undefined = false) :
    wenv_get (wenv_set mem env name value true) name = some (some (cstr value)) := by
  apply wenv_get_own _ _ _ (wenv_set_ok mem env name value true h)
  rw [wenv_get_find_eq name value, wenv_dup_set_defined mem env name value h hd,
    wenv_set_find_put _ _ _ (strncmp_env_line_self name value value),
    env_put_get _ _ _ (wenv_set_find_le _ _ _)]
  simp [env_line_drop]

theorem wenv_set_find_eq_length : ∀ (es : List (List Nat)) (line : List Nat) (n : Nat),
    wenv_set_find es line n 0 = es.length ↔ ∀ L ∈ es, strncmp L line n ≠ 0 := by
  intro es
  induction es with
  | nil => intro line n; simp [wenv_set_find]
  | cons e es ih =>
    intro line n
    simp only [wenv_set_find]
    split_ifs with he
    · simp [he]
    · rw [wenv_set_find_shift]
      simp [he, ih line n]

/-- The strings of a table without stray slots do not start with `name=` when `wenv_get`
finds nothing. -/
theorem wenv_get_none (env : watch_env) (name v : List Nat) (hc : wenv_clean env)
    (h : wenv_get env name = some none) :
    wenv_set_find (wenv_dup env) (env_line name v) (strlen name + 1) 0 = (wenv_dup env).length := by
  rw [wenv_get_clean env name hc, wenv_get_find_eq name v] at h
  have hle := wenv_set_find_le (wenv_dup env) (env_line name v) (strlen name + 1)
  simp only [Option.some.injEq, Option.map_eq_none', List.get?_eq_none] at h
  omega

/-! ## The child of `run_entry` -/

theorem run_entry_shell_find : ∀ envp : List (List Nat),
    run_entry_shell envp
      = (envp.find? (fun L => decide (strncmp L (str "SHELL=") 6 = 0))).map
          (fun L => cstr (L.drop 6)) := by
  intro envp
  induction envp with
  | nil => rfl
  | cons e es ih =>
    by_cases h : strncmp e (str "SHELL=") 6 = 0
    · simp [run_entry_shell, List.find?, h]
    · simp [run_entry_shell, List.find?, h, ih]

theorem timespec_zero (d : timespec) : (d.tv_sec ≠ 0 ∨ d.tv_nsec ≠ 0) ↔ d ≠ ⟨0, 0⟩ := by
  cases d with
  | mk s n =>
    simp only [ne_eq, timespec.mk.injEq]
    tauto

/-- The calls of the child, log calls and exit left out, are the steps of the
specification run up to the first failure. -/
theorem run_entry_child_steps (wentry : watch_entry) (sys : child_sys)
    (envp : List (List Nat)) (henv : wentry.envp = some envp) :
    (run_entry_child wentry sys).filter is_step
      = run_until_failure sys (child_sequence_spec wentry
          ((run_entry_shell envp).getD (str "/bin/sh")) envp) := by
  have hsh : (match run_entry_shell envp with
      | none => str "/bin/sh"
      | some s => s) = (run_entry_shell envp).getD (str "/bin/sh") := by
    cases run_entry_shell envp <;> rfl
  unfold run_entry_child child_sequence_spec
  simp only [henv, hsh, timespec_zero]
  cases wentry.chroot <;> by_cases hg : wentry.gid = 0 <;> by_cases hu : wentry.uid = 0
    <;> by_cases hd : wentry.delay = ⟨0, 0⟩
    <;> cases h1 : sys.chroot_ok <;> cases h2 : sys.chdir_ok <;> cases h3 : sys.setgid_ok
    <;> cases h4 : sys.setuid_ok <;> cases h5 : sys.execve_ok
    <;> simp [hg, hu, hd, run_until_failure, step_ok, is_step, h1, h2, h3, h4, h5, List.filter]

/-- When a requested step before the exec fails, the child makes no exec and its last
call is `_exit(EXIT_FAILURE)`. -/
theorem run_entry_child_failure (wentry : watch_entry) (sys : child_sys)
    (hfail : (wentry.chroot ≠ none ∧ (sys.chroot_ok = false ∨ sys.chdir_ok = false))
      ∨ (wentry.gid ≠ 0 ∧ sys.setgid_ok = false)
      ∨ (wentry.uid ≠ 0 ∧ sys.setuid_ok = false)) :
    (run_entry_child wentry sys).filter is_execve = []
    ∧ (run_entry_child wentry sys).getLast? = some (child_act.exit 1) := by
  unfold run_entry_child
  cases hc : wentry.chroot <;> by_cases hg : wentry.gid = 0 <;> by_cases hu : wentry.uid = 0
    <;> cases h1 : sys.chroot_ok <;> cases h2 : sys.chdir_ok <;> cases h3 : sys.setgid_ok
    <;> cases h4 : sys.setuid_ok
    <;> simp [hc, hg, hu, h1, h2, h3, h4] at hfail
    <;> simp [hg, hu, h1, h2, h3, h4, is_execve, List.filter]

/-! ## The kernel queue and the descriptors -/

theorem mem_kq_delete (kq : List kevent) (i : Nat) (f : kfilter) (k : kevent) :
    k ∈ kq_delete kq i f ↔ k ∈ kq ∧ ¬ (k.ident = i ∧ k.filter = f) := by
  unfold kq_delete
  rw [List.mem_filter, decide_eq_true_eq]

theorem mem_kq_add (kq : List kevent) (ev k : kevent) :
    k ∈ kq_add kq ev ↔ (k ∈ kq ∧ ¬ (k.ident = ev.ident ∧ k.filter = ev.filter)) ∨ k = ev := by
  simp [kq_add, mem_kq_delete]

theorem kq_keys_delete (kq : List kevent) (i : Nat) (f : kfilter) (h : kq_keys kq) :
    kq_keys (kq_delete kq i f) := by
  intro a ha b hb h1 h2
  exact h a ((mem_kq_delete _ _ _ _).1 ha).1 b ((mem_kq_delete _ _ _ _).1 hb).1 h1 h2

theorem kq_keys_add (kq : List kevent) (ev : kevent) (h : kq_keys kq) : kq_keys (kq_add kq ev) := by
  intro a ha b hb h1 h2
  rcases (mem_kq_add _ _ _).1 ha with ⟨ha1, ha2⟩ | ha1
  · rcases (mem_kq_add _ _ _).1 hb with ⟨hb1, hb2⟩ | hb1
    · exact h a ha1 b hb1 h1 h2
    · subst hb1; exact absurd ⟨h1, h2⟩ ha2
  · rcases (mem_kq_add _ _ _).1 hb with ⟨hb1, hb2⟩ | hb1
    · subst ha1; exact absurd ⟨h1.symm, h2.symm⟩ hb2
    · rw [ha1, hb1]

theorem kq_open_delete (kq : List kevent) (fds : List Nat) (i : Nat) (f : kfilter)
    (h : kq_open kq fds) : kq_open (kq_delete kq i f) fds := by
  intro k hk hf
  exact h k ((mem_kq_delete _ _ _ _).1 hk).1 hf

theorem kq_open_cons (kq : List kevent) (fds : List Nat) (fd : Nat) (h : kq_open kq fds) :
    kq_open kq (fd :: fds) := by
  intro k hk hf
  exact List.mem_cons_of_mem _ (h k hk hf)

theorem kq_open_add (kq : List kevent) (fds : List Nat) (ev : kevent) (h : kq_open kq fds)
    (hev : ev.filter = kfilter.EVFILT_VNODE → ev.ident ∈ fds) : kq_open (kq_add kq ev) fds := by
  intro k hk hf
  rcases (mem_kq_add _ _ _).1 hk with ⟨hk1, _⟩ | hk1
  · exact h k hk1 hf
  · subst hk1; exact hev hf

/-- Closing a descriptor keeps the vnode events of the queue on open descriptors. -/
theorem kq_open_close (kq : List kevent) (fds : List Nat) (fd : Nat) (h : kq_open kq fds) :
    kq_open (kq_delete kq fd kfilter.EVFILT_VNODE) (fds.filter (fun x => x ≠ fd)) := by
  intro k hk hf
  obtain ⟨hk1, hk2⟩ := (mem_kq_delete _ _ _ _).1 hk
  have := h k hk1 hf
  simp only [List.mem_filter, decide_eq_true_eq]
  exact ⟨this, fun h1 => hk2 ⟨h1, hf⟩⟩

theorem lowest_free_from_not_mem : ∀ (fuel : Nat) (fds : List Nat) (n : Nat),
    fds.length ≤ fuel → lowest_free_from fuel fds n ∉ fds ∧ n ≤ lowest_free_from fuel fds n := by
  intro fuel
  induction fuel with
  | zero =>
    intro fds n h
    have : fds = [] := List.eq_nil_of_length_eq_zero (by omega)
    subst this
    simp [lowest_free_from]
  | succ k ih =>
    intro fds n h
    rw [lowest_free_from]
    split_ifs with hn
    · have hlen : (fds.filter (fun x => x ≠ n)).length < fds.length := by
        apply List.length_filter_lt_length_iff_exists.2
        exact ⟨n, hn, by simp⟩
      obtain ⟨h1, h2⟩ := ih (fds.filter (fun x => x ≠ n)) (n + 1) (by omega)
      refine ⟨?_, by omega⟩
      intro hmem
      apply h1
      simp only [List.mem_filter, decide_eq_true_eq]
      exact ⟨hmem, by omega⟩
    · exact ⟨hn, le_refl _⟩

/-- The descriptor `open` returns is not open before the call. -/
theorem lowest_free_not_mem (fds : List Nat) : lowest_free fds ∉ fds :=
  (lowest_free_from_not_mem fds.length fds 0 (le_refl _)).1

theorem sys_close_nat (s : main_state) (n : Nat) :
    sys_close s (n : Int)
      = { s with fds := s.fds.filter (fun x => x ≠ n),
                 kq := kq_delete s.kq n kfilter.EVFILT_VNODE } := by
  unfold sys_close
  rw [if_neg (by omega)]
  simp

theorem sys_close_wtab (s : main_state) (fd : Int) : (sys_close s fd).wtab = s.wtab := by
  unfold sys_close
  split_ifs <;> rfl

theorem sys_close_tab_f (s : main_state) (fd : Int) : (sys_close s fd).tab_f = s.tab_f := by
  unfold sys_close
  split_ifs <;> rfl

theorem sys_close_fds (s : main_state) (fd : Int) (x : Nat) :
    x ∈ (sys_close s fd).fds ↔ x ∈ s.fds ∧ (fd < 0 ∨ x ≠ fd.toNat) := by
  unfold sys_close
  split_ifs with h
  · simp [h]
  · simp [h]

theorem sys_close_kq (s : main_state) (fd : Int) (k : kevent) :
    k ∈ (sys_close s fd).kq
      ↔ k ∈ s.kq ∧ (fd < 0 ∨ ¬ (k.ident = fd.toNat ∧ k.filter = kfilter.EVFILT_VNODE)) := by
  unfold sys_close
  split_ifs with h
  · simp [h]
  · simp [h, mem_kq_delete]

theorem sys_close_kq_open (s : main_state) (fd : Int) (h : kq_open s.kq s.fds) :
    kq_open (sys_close s fd).kq (sys_close s fd).fds := by
  intro k hk hf
  obtain ⟨hk1, hk2⟩ := (sys_close_kq s fd k).1 hk
  refine (sys_close_fds s fd _).2 ⟨h k hk1 hf, ?_⟩
  rcases hk2 with h1 | h1
  · exact Or.inl h1
  · exact Or.inr (fun h2 => h1 ⟨h2, hf⟩)

theorem sys_close_kq_keys (s : main_state) (fd : Int) (h : kq_keys s.kq) :
    kq_keys (sys_close s fd).kq := by
  intro a ha b hb h1 h2
  exact h a ((sys_close_kq s fd a).1 ha).1 b ((sys_close_kq s fd b).1 hb).1 h1 h2

theorem entry_armed_close (s : main_state) (fd : Int) (pe : Nat × watch_entry)
    (h : entry_armed s.fds s.kq pe) (hne : pe.2.fd ≠ fd) :
    entry_armed (sys_close s fd).fds (sys_close s fd).kq pe := by
  rcases h with h | ⟨h0, h1, h2⟩
  · exact Or.inl h
  · right
    have hnat : fd < 0 ∨ pe.2.fd.toNat ≠ fd.toNat := by
      by_cases hfd : fd < 0
      · exact Or.inl hfd
      · right; omega
    refine ⟨h0, (sys_close_fds s fd _).2 ⟨h1, hnat⟩, (sys_close_kq s fd _).2 ⟨h2, ?_⟩⟩
    rcases hnat with h3 | h3
    · exact Or.inl h3
    · exact Or.inr (fun h4 => h3 h4.1)

theorem entry_armed_delete (fds : List Nat) (kq : List kevent) (i : Nat) (f : kfilter)
    (pe : Nat × watch_entry) (h : entry_armed fds kq pe)
    (hne : pe.2.fd = -1 ∨ ¬ (pe.2.fd.toNat = i ∧ f = kfilter.EVFILT_VNODE)) :
    entry_armed fds (kq_delete kq i f) pe := by
  rcases h with h | ⟨h0, h1, h2⟩
  · exact Or.inl h
  · right
    refine ⟨h0, h1, (mem_kq_delete _ _ _ _).2 ⟨h2, ?_⟩⟩
    rcases hne with h3 | h3
    · omega
    · intro h4
      exact h3 ⟨h4.1, h4.2.symm⟩

theorem entry_armed_add (fds : List Nat) (kq : List kevent) (ev : kevent)
    (pe : Nat × watch_entry) (h : entry_armed fds kq pe)
    (hne : pe.2.fd = -1 ∨ ¬ (pe.2.fd.toNat = ev.ident ∧ ev.filter = kfilter.EVFILT_VNODE)) :
    entry_armed fds (kq_add kq ev) pe := by
  rcases h with h | ⟨h0, h1, h2⟩
  · exact Or.inl h
  · right
    refine ⟨h0, h1, (mem_kq_add _ _ _).2 (Or.inl ⟨h2, ?_⟩)⟩
    rcases hne with h3 | h3
    · omega
    · intro h4
      exact h3 ⟨h4.1, h4.2.symm⟩

theorem entry_armed_cons (fds : List Nat) (kq : List kevent) (fd : Nat)
    (pe : Nat × watch_entry) (h : entry_armed fds kq pe) : entry_armed (fd :: fds) kq pe := by
  rcases h with h | ⟨h0, h1, h2⟩
  · exact Or.inl h
  · exact Or.inr ⟨h0, List.mem_cons_of_mem _ h1, h2⟩

/-- The descriptor of an armed entry is not one `open` can return. -/
theorem entry_armed_fresh (fds : List Nat) (kq : List kevent) (pe : Nat × watch_entry)
    (h : entry_armed fds kq pe) : pe.2.fd ≠ (lowest_free fds : Int) := by
  rcases h with h | ⟨h0, h1, _⟩
  · omega
  · intro h2
    have : pe.2.fd.toNat = lowest_free fds := by omega
    rw [this] at h1
    exact lowest_free_not_mem fds h1

theorem lookup_mem : ∀ (wtab : List (Nat × watch_entry)) (p : Nat) (e : watch_entry),
    wtab.lookup p = some e → (p, e) ∈ wtab := by
  intro wtab
  induction wtab with
  | nil => intro p e h; simp [List.lookup] at h
  | cons x xs ih =>
    intro p e h
    obtain ⟨a, b⟩ := x
    by_cases hp : p = a
    · subst hp
      simp [List.lookup] at h
      simp [h]
    · have hb : (p == a) = false := by simpa using hp
      simp only [List.lookup, hb] at h
      exact List.mem_cons_of_mem _ (ih p e h)

theorem mem_lookup : ∀ (wtab : List (Nat × watch_entry)) (p : Nat),
    p ∈ wtab.map (fun pe => pe.1) → ∃ e, wtab.lookup p = some e := by
  intro wtab
  induction wtab with
  | nil => intro p h; simp at h
  | cons x xs ih =>
    intro p h
    obtain ⟨a, b⟩ := x
    by_cases hp : p = a
    · subst hp
      exact ⟨b, by simp [List.lookup]⟩
    · have hb : (p == a) = false := by simpa using hp
      simp only [List.map_cons, List.mem_cons] at h
      rcases h with h | h
      · exact absurd h hp
      · obtain ⟨e, he⟩ := ih p h
        exact ⟨e, by simp only [List.lookup, hb]; exact he⟩

theorem wtab_set_keys (wtab : List (Nat × watch_entry)) (p : Nat) (e : watch_entry) :
    (wtab_set wtab p e).map (fun pe => pe.1) = wtab.map (fun pe => pe.1) := by
  unfold wtab_set
  rw [List.map_map]
  apply List.map_congr_left
  intro x _
  simp only [Function.comp]
  split_ifs with h
  · exact h.symm
  · rfl

theorem mem_wtab_set (wtab : List (Nat × watch_entry)) (p : Nat) (e : watch_entry)
    (pe : Nat × watch_entry) (h : pe ∈ wtab_set wtab p e) :
    pe = (p, e) ∨ (pe ∈ wtab ∧ pe.1 ≠ p) := by
  unfold wtab_set at h
  obtain ⟨x, hx, rfl⟩ := List.mem_map.1 h
  split_ifs with h1
  · exact Or.inl rfl
  · exact Or.inr ⟨hx, h1⟩

theorem wtab_set_mem (wtab : List (Nat × watch_entry)) (p : Nat) (e : watch_entry)
    (h : p ∈ wtab.map (fun pe => pe.1)) : (p, e) ∈ wtab_set wtab p e := by
  unfold wtab_set
  obtain ⟨x, hx, hp⟩ := List.mem_map.1 h
  exact List.mem_map.2 ⟨x, hx, by simp [hp]⟩

theorem wtab_set_mem_other (wtab : List (Nat × watch_entry)) (p : Nat) (e : watch_entry)
    (pe : Nat × watch_entry) (h : pe ∈ wtab) (hne : pe.1 ≠ p) : pe ∈ wtab_set wtab p e := by
  unfold wtab_set
  exact List.mem_map.2 ⟨pe, h, by simp [hne]⟩

theorem lookup_keys (wtab : List (Nat × watch_entry)) (p : Nat) (e : watch_entry)
    (h : wtab.lookup p = some e) : p ∈ wtab.map (fun pe => pe.1) :=
  List.mem_map.2 ⟨(p, e), lookup_mem wtab p e h, rfl⟩

/-! ## Arming the entries -/

/-- An entry stored at an address of the watchtab, unarmed, keeps the invariant. -/
theorem main_inv_unarm (s : main_state) (p : Nat) (e : watch_entry) (log : List log_msg)
    (hinv : main_inv s) (hfd : e.fd = -1) :
    main_inv { s with wtab := wtab_set s.wtab p e, log := log } := by
  obtain ⟨h1, h2, h3, h4, h5⟩ := hinv
  refine ⟨?_, h2, h3, ?_, ?_⟩
  · intro pe hpe
    rcases mem_wtab_set _ _ _ _ hpe with rfl | ⟨hm, _⟩
    · exact Or.inl hfd
    · exact h1 pe hm
  · show ((wtab_set s.wtab p e).map (fun pe => pe.1)).Nodup
    rw [wtab_set_keys]; exact h4
  · intro t ht
    refine ⟨(h5 t ht).1, ?_⟩
    intro pe hpe
    rcases mem_wtab_set _ _ _ _ hpe with rfl | ⟨hm, _⟩
    · show e.fd ≠ (t : Int)
      omega
    · exact (h5 t ht).2 pe hm

/-- What `insert_entry` does on an entry of the watchtab, in a state that satisfies the
invariant: the invariant is kept, only the entry at `wentry` changes and only in its
`fd`, which is -1 unless `open` and `kevent` succeed, and the one descriptor that may
be opened is stored in that entry. -/
theorem insert_entry_spec (s s1 : main_state) (p : Nat) (a b : Bool) (hinv : main_inv s)
    (h : insert_entry s p a b = some s1) :
    main_inv s1
    ∧ s1.wtab.map (fun pe => pe.1) = s.wtab.map (fun pe => pe.1)
    ∧ s1.tab_f = s.tab_f ∧ s1.brk = s.brk ∧ s1.wtab_error = s.wtab_error
    ∧ (∀ pe, pe.1 ≠ p → (pe ∈ s1.wtab ↔ pe ∈ s.wtab))
    ∧ (∀ x ∈ s.fds, x ∈ s1.fds)
    ∧ (∀ k ∈ s.kq, k ∈ s1.kq)
    ∧ ∃ e fd, s.wtab.lookup p = some e ∧ (p, { e with fd := fd }) ∈ s1.wtab
        ∧ (∀ pe ∈ s1.wtab, pe.1 = p → pe = (p, { e with fd := fd }))
        ∧ (∀ x ∈ s1.fds, x ∈ s.fds ∨ (x : Int) = fd)
        ∧ (∀ k ∈ s1.kq, k ∈ s.kq ∨ k = entry_event fd.toNat e.events p)
        ∧ ((a = false ∨ b = false ∨ e.path = none) → fd = -1)
        ∧ ((a = true ∧ b = true ∧ e.path ≠ none) → fd = (lowest_free s.fds : Int)) := by
  unfold insert_entry at h
  cases hl : s.wtab.lookup p with
  | none => rw [hl] at h; exact absurd h (by simp)
  | some e =>
    rw [hl] at h
    simp only [] at h
    have hkeys := lookup_keys _ _ _ hl
    have hfresh := lowest_free_not_mem s.fds
    obtain ⟨h1, h2, h3, h4, h5⟩ := hinv
    have hothers : ∀ (w : List (Nat × watch_entry)) (e1 : watch_entry) (pe : Nat × watch_entry),
        pe.1 ≠ p → (pe ∈ wtab_set w p e1 ↔ pe ∈ w) := by
      intro w e1 pe hne
      constructor
      · intro hm
        rcases mem_wtab_set _ _ _ _ hm with rfl | ⟨hm1, _⟩
        · exact absurd rfl hne
        · exact hm1
      · intro hm
        exact wtab_set_mem_other _ _ _ _ hm hne
    have hself : ∀ (w : List (Nat × watch_entry)) (e1 : watch_entry),
        ∀ pe ∈ wtab_set w p e1, pe.1 = p → pe = (p, e1) := by
      intro w e1 pe hm hp
      rcases mem_wtab_set _ _ _ _ hm with rfl | ⟨_, hne⟩
      · rfl
      · exact absurd hp hne
    split_ifs at h with hopen hkev
    · -- open fails
      have hs := Option.some.inj h
      subst hs
      refine ⟨main_inv_unarm s p _ _ ⟨h1, h2, h3, h4, h5⟩ rfl, wtab_set_keys _ _ _, rfl, rfl,
        rfl, fun pe hne => hothers _ _ pe hne, fun x hx => hx, fun k hk => hk,
        e, -1, rfl, wtab_set_mem _ _ _ hkeys, hself _ _, fun x hx => Or.inl hx,
        fun k hk => Or.inl hk, fun _ => rfl, ?_⟩
      intro ⟨ha, _, hp⟩
      rcases hopen with h6 | h6
      · rw [ha] at h6; exact absurd h6 (by simp)
      · exact absurd h6 hp
    · -- kevent fails
      have hs := Option.some.inj h
      subst hs
      rw [sys_close_nat]
      have hfds : ∀ x, x ∈ (lowest_free s.fds :: s.fds).filter (fun x => x ≠ lowest_free s.fds)
          ↔ x ∈ s.fds := by
        intro x
        simp only [List.mem_filter, List.mem_cons, decide_eq_true_eq]
        constructor
        · rintro ⟨h6 | h6, h7⟩
          · exact absurd h6 h7
          · exact h6
        · intro h6
          exact ⟨Or.inr h6, fun h7 => hfresh (h7 ▸ h6)⟩
      have hkq : ∀ k, k ∈ kq_delete s.kq (lowest_free s.fds) kfilter.EVFILT_VNODE ↔ k ∈ s.kq := by
        intro k
        rw [mem_kq_delete]
        constructor
        · exact fun h6 => h6.1
        · intro h6
          exact ⟨h6, fun h7 => hfresh (h7.1 ▸ h2 k h6 h7.2)⟩
      have hw : ∀ pe, pe ∈ wtab_set (wtab_set s.wtab p { e with fd := (lowest_free s.fds : Int) }) p
          { e with fd := -1 } ↔ pe ∈ wtab_set s.wtab p { e with fd := -1 } := by
        intro pe
        by_cases hp : pe.1 = p
        · constructor
          · intro hm
            rw [hself _ _ pe hm hp]
            exact wtab_set_mem _ _ _ hkeys
          · intro hm
            rw [hself _ _ pe hm hp]
            exact wtab_set_mem _ _ _ (by rw [wtab_set_keys]; exact hkeys)
        · rw [hothers _ _ pe hp, hothers _ _ pe hp, hothers _ _ pe hp]
      refine ⟨⟨?_, ?_, ?_, ?_, ?_⟩, ?_, rfl, rfl, rfl, ?_, ?_, ?_, e, -1, rfl, ?_, ?_, ?_, ?_,
        fun _ => rfl, ?_⟩
      · intro pe hpe
        have hpe1 := (hw pe).1 hpe
        rcases mem_wtab_set _ _ _ _ hpe1 with rfl | ⟨hm, _⟩
        · exact Or.inl rfl
        · rcases h1 pe hm with h6 | ⟨h6, h7, h8⟩
          · exact Or.inl h6
          · exact Or.inr ⟨h6, (hfds _).2 h7, (hkq _).2 h8⟩
      · intro k hk hf
        exact (hfds _).2 (h2 k ((hkq k).1 hk) hf)
      · exact kq_keys_delete _ _ _ h3
      · show ((wtab_set (wtab_set s.wtab p _) p _).map (fun pe => pe.1)).Nodup
        rw [wtab_set_keys, wtab_set_keys]; exact h4
      · intro t ht
        refine ⟨(hfds _).2 (h5 t ht).1, ?_⟩
        intro pe hpe
        have hpe1 := (hw pe).1 hpe
        rcases mem_wtab_set _ _ _ _ hpe1 with rfl | ⟨hm, _⟩
        · show (-1 : Int) ≠ (t : Int)
          omega
        · exact (h5 t ht).2 pe hm
      · show (wtab_set (wtab_set s.wtab p _) p _).map (fun pe => pe.1) = _
        rw [wtab_set_keys, wtab_set_keys]
      · intro pe hne
        show pe ∈ wtab_set (wtab_set s.wtab p _) p _ ↔ _
        rw [hothers _ _ pe hne, hothers _ _ pe hne]
      · intro x hx
        exact (hfds x).2 hx
      · intro k hk
        exact (hkq k).2 hk
      · exact wtab_set_mem _ _ _ (by rw [wtab_set_keys]; exact hkeys)
      · exact hself _ _
      · intro x hx
        exact Or.inl ((hfds x).1 hx)
      · intro k hk
        exact Or.inl ((hkq k).1 hk)
      · intro ⟨_, hb, _⟩
        rw [hb] at hkev
        exact absurd hkev (by simp)
    · -- both succeed
      have hs := Option.some.inj h
      subst hs
      have hev : ∀ pe ∈ s.wtab, pe.2.fd = -1
          ∨ ¬ (pe.2.fd.toNat = (entry_event (lowest_free s.fds) e.events p).ident
            ∧ (entry_event (lowest_free s.fds) e.events p).filter = kfilter.EVFILT_VNODE) := by
        intro pe hm
        rcases h1 pe hm with h6 | ⟨h6, h7, _⟩
        · exact Or.inl h6
        · right
          intro h8
          have h9 : pe.2.fd.toNat = lowest_free s.fds := h8.1
          exact hfresh (h9 ▸ h7)
      refine ⟨⟨?_, ?_, kq_keys_add _ _ h3, ?_, ?_⟩, wtab_set_keys _ _ _, rfl, rfl, rfl,
        fun pe hne => hothers _ _ pe hne, fun x hx => List.mem_cons_of_mem _ hx,
        fun k hk => ?_, e, (lowest_free s.fds : Int), rfl, wtab_set_mem _ _ _ hkeys, hself _ _,
        ?_, ?_, ?_, fun _ => rfl⟩
      · intro pe hpe
        rcases mem_wtab_set _ _ _ _ hpe with rfl | ⟨hm, _⟩
        · right
          refine ⟨by show (0 : Int) ≤ (lowest_free s.fds : Int); omega, ?_, ?_⟩
          · show ((lowest_free s.fds : Nat) : Int).toNat ∈ lowest_free s.fds :: s.fds
            simp
          · show entry_event ((lowest_free s.fds : Nat) : Int).toNat e.events p ∈ kq_add s.kq _
            rw [Int.toNat_ofNat]
            exact (mem_kq_add _ _ _).2 (Or.inr rfl)
        · exact entry_armed_add _ _ _ _ (entry_armed_cons _ _ _ _ (h1 pe hm)) (hev pe hm)
      · exact kq_open_add _ _ _ (kq_open_cons _ _ _ h2) (fun _ => List.mem_cons_self _ _)
      · show ((wtab_set s.wtab p _).map (fun pe => pe.1)).Nodup
        rw [wtab_set_keys]; exact h4
      · intro t ht
        refine ⟨List.mem_cons_of_mem _ (h5 t ht).1, ?_⟩
        intro pe hpe
        rcases mem_wtab_set _ _ _ _ hpe with rfl | ⟨hm, _⟩
        · show ((lowest_free s.fds : Nat) : Int) ≠ (t : Int)
          intro h6
          have : lowest_free s.fds = t := by omega
          exact hfresh (this ▸ (h5 t ht).1)
        · exact (h5 t ht).2 pe hm
      · show k ∈ kq_add s.kq _
        refine (mem_kq_add _ _ _).2 (Or.inl ⟨hk, ?_⟩)
        intro h6
        have h7 : k.ident = lowest_free s.fds := h6.1
        exact hfresh (h7 ▸ h2 k hk h6.2)
      · intro x hx
        rcases List.mem_cons.1 hx with h6 | h6
        · right; rw [h6]
        · exact Or.inl h6
      · intro k hk
        rcases (mem_kq_add _ _ _).1 hk with ⟨h6, _⟩ | h6
        · exact Or.inl h6
        · right; rw [h6, Int.toNat_ofNat]
      · intro h6
        rcases h6 with h6 | h6 | h6
        · rcases not_or.1 hopen with ⟨h7, _⟩
          exact absurd h6 h7
        · exact absurd h6 hkev
        · rcases not_or.1 hopen with ⟨_, h7⟩
          exact absurd h6 h7

/-- An entry accepted by `wentry_readline` has the descriptor -1. -/
theorem wentry_readline_fd (db : UserDb) (mem : List env_ptr) (dest : watch_entry) (line : List Nat)
    (env env1 : watch_env) (e : watch_entry)
    (h : wentry_readline db mem dest line env = some (e, env1)) : e.fd = -1 := by
  unfold wentry_readline at h
  split_ifs at h with h0
  simp only [] at h
  split at h
  · exact absurd h (by simp)
  split at h
  · exact absurd h (by simp)
  split at h
  · exact absurd h (by simp)
  split at h
  · exact absurd h (by simp)
  split at h
  · exact absurd h (by simp)
  simp only [Option.some.injEq, Prod.mk.injEq] at h
  obtain ⟨he, _⟩ := h
  rw [← he]
  rfl

theorem line_outcomes_fd (db : UserDb) (mem : List env_ptr) : ∀ (ls : List (List Nat))
    (env : watch_env),
    ∀ e ∈ accepted (line_outcomes db mem ls env), e.fd = -1 := by
  intro ls
  induction ls with
  | nil => intro env e he; simp [line_outcomes, accepted] at he
  | cons l ls ih =>
    intro env e he
    rw [line_outcomes_cons] at he
    cases hc : classify_line l with
    | skipped =>
      rw [hc] at he
      exact ih env e he
    | assignment name value =>
      rw [hc] at he
      exact ih _ e he
    | entry buf =>
      rw [hc] at he
      simp only [] at he
      cases hw : wentry_readline db mem wentry_init buf env with
      | none =>
        rw [hw] at he
        simp only [accepted, List.filterMap_cons] at he
        exact ih env e he
      | some r =>
        obtain ⟨e1, env1⟩ := r
        rw [hw] at he
        simp only [accepted, List.filterMap_cons, id, List.mem_cons] at he
        rcases he with rfl | he
        · exact wentry_readline_fd db mem _ _ _ _ _ hw
        · exact ih env1 e he

/-- Every entry of a watchtab read into an empty table has the descriptor -1. -/
theorem wtab_readfile_fd (db : UserDb) (mem : List env_ptr) (input : List Nat) :
    ∀ e ∈ (wtab_readfile db mem [] input).2, e.fd = -1 := by
  intro e he
  rw [wtab_readfile_trace] at he
  simp only [List.append_nil, List.mem_reverse] at he
  exact line_outcomes_fd db mem _ _ e he

theorem mem_enumFrom_fst {α : Type} : ∀ (l : List α) (n : Nat) (x : Nat × α),
    x ∈ l.enumFrom n → n ≤ x.1 ∧ x.2 ∈ l := by
  intro l
  induction l with
  | nil => intro n x h; simp at h
  | cons a as ih =>
    intro n x h
    simp only [List.enumFrom_cons, List.mem_cons] at h
    rcases h with rfl | h
    · simp
    · obtain ⟨h1, h2⟩ := ih (n + 1) x h
      exact ⟨by omega, List.mem_cons_of_mem _ h2⟩

theorem enumFrom_keys_nodup {α : Type} : ∀ (l : List α) (n : Nat),
    ((l.enumFrom n).map (fun pe => pe.1)).Nodup := by
  intro l
  induction l with
  | nil => intro n; simp
  | cons a as ih =>
    intro n
    simp only [List.enumFrom_cons, List.map_cons, List.nodup_cons]
    refine ⟨?_, ih (n + 1)⟩
    intro h
    obtain ⟨x, hx, hx1⟩ := List.mem_map.1 h
    have := (mem_enumFrom_fst as (n + 1) x hx).1
    omega

/-- The loop over the entries of a watchtab whose entries are all unarmed: it ends,
keeps the invariant, changes the entries in their `fd` only, and every descriptor it
leaves open that was not open before is the `fd` of an entry. -/
theorem insert_entries_spec : ∀ (ps : List Nat) (arm : List (Bool × Bool)) (s : main_state),
    main_inv s → (∀ p ∈ ps, p ∈ s.wtab.map (fun pe => pe.1)) → ps.Nodup →
    (∀ pe ∈ s.wtab, pe.1 ∈ ps → pe.2.fd = -1) →
    ∃ s1, insert_entries ps arm s = some s1 ∧ main_inv s1
      ∧ s1.wtab.map (fun pe => pe.1) = s.wtab.map (fun pe => pe.1)
      ∧ s1.tab_f = s.tab_f ∧ s1.brk = s.brk ∧ s1.wtab_error = s.wtab_error
      ∧ (∀ pe, pe.1 ∉ ps → (pe ∈ s1.wtab ↔ pe ∈ s.wtab))
      ∧ (∀ x ∈ s.fds, x ∈ s1.fds)
      ∧ (∀ k ∈ s.kq, k ∈ s1.kq)
      ∧ (∀ x ∈ s1.fds, x ∈ s.fds ∨ ∃ pe ∈ s1.wtab, pe.1 ∈ ps ∧ pe.2.fd = (x : Int))
      ∧ (∀ pe1 ∈ s1.wtab, ∃ pe ∈ s.wtab, pe.1 = pe1.1 ∧ pe1.2 = { pe.2 with fd := pe1.2.fd }) := by
  intro ps
  induction ps with
  | nil =>
    intro arm s hinv _ _ _
    exact ⟨s, rfl, hinv, rfl, rfl, rfl, rfl, fun _ _ => Iff.rfl, fun _ hx => hx,
      fun _ hk => hk, fun x hx => Or.inl hx, fun pe hpe => ⟨pe, hpe, rfl, rfl⟩⟩
  | cons p ps ih =>
    intro arm s hinv hsub hnd hun
    obtain ⟨e, he⟩ := mem_lookup s.wtab p (hsub p (by simp))
    obtain ⟨s1, hs1⟩ : ∃ s1, insert_entry s p (arm.headD (true, true)).1
        (arm.headD (true, true)).2 = some s1 := by
      unfold insert_entry
      rw [he]
      simp only []
      split_ifs <;> exact ⟨_, rfl⟩
    obtain ⟨hi1, hk1, ht1, hb1, he1, ho1, hf1, hq1, e0, fd, hl0, hm0, hu0, hx0, _, _, _⟩ :=
      insert_entry_spec s s1 p _ _ hinv hs1
    have hp : p ∉ ps := (List.nodup_cons.1 hnd).1
    obtain ⟨s2, hs2, hi2, hk2, ht2, hb2, he2, ho2, hf2, hq2, hx2, hy2⟩ := ih arm.tail s1 hi1
      (fun q hq => by rw [hk1]; exact hsub q (by simp [hq]))
      (List.nodup_cons.1 hnd).2
      (fun pe hpe hq => by
        have hne : pe.1 ≠ p := fun h => hp (h ▸ hq)
        exact hun pe ((ho1 pe hne).1 hpe) (by simp [hq]))
    refine ⟨s2, ?_, hi2, by rw [hk2, hk1], by rw [ht2, ht1], by rw [hb2, hb1], by rw [he2, he1],
      ?_, fun x hx => hf2 x (hf1 x hx), fun k hk => hq2 k (hq1 k hk), ?_, ?_⟩
    · simp only [insert_entries]
      rw [hs1]
      exact hs2
    · intro pe hpe
      have h1 : pe.1 ∉ ps := fun h => hpe (by simp [h])
      have h2 : pe.1 ≠ p := fun h => hpe (by simp [h])
      rw [ho2 pe h1, ho1 pe h2]
    · intro x hx
      rcases hx2 x hx with h1 | ⟨pe, hpe, hq, hfd⟩
      · rcases hx0 x h1 with h2 | h2
        · exact Or.inl h2
        · right
          refine ⟨(p, { e0 with fd := fd }), (ho2 _ hp).2 hm0, by simp, ?_⟩
          exact h2.symm
      · exact Or.inr ⟨pe, hpe, by simp [hq], hfd⟩
    · intro pe2 hpe2
      obtain ⟨pe1, hpe1, hk, hv⟩ := hy2 pe2 hpe2
      by_cases hp1 : pe1.1 = p
      · have := hu0 pe1 hpe1 hp1
        refine ⟨(p, e0), lookup_mem _ _ _ hl0, by rw [← hk, hp1], ?_⟩
        rw [hv, this]
      · exact ⟨pe1, (ho1 pe1 hp1).1 hpe1, hk, hv⟩

/-- The descriptors and the events left by the calls of `wentry_free` on a list of
entries. -/
theorem wentry_free_foldl : ∀ (l : List (Nat × watch_entry)) (s : main_state),
    (l.foldl wentry_free s).wtab = s.wtab
    ∧ (l.foldl wentry_free s).tab_f = s.tab_f
    ∧ (l.foldl wentry_free s).brk = s.brk
    ∧ (l.foldl wentry_free s).wtab_error = s.wtab_error
    ∧ (l.foldl wentry_free s).log = s.log
    ∧ (∀ x, x ∈ (l.foldl wentry_free s).fds ↔ x ∈ s.fds ∧ ∀ pe ∈ l, pe.2.fd ≠ (x : Int))
    ∧ (∀ k, k ∈ (l.foldl wentry_free s).kq
        ↔ k ∈ s.kq ∧ ∀ pe ∈ l, ¬ (pe.2.fd = (k.ident : Int)
            ∧ k.filter = kfilter.EVFILT_VNODE)) := by
  intro l
  induction l with
  | nil => intro s; simp
  | cons pe l ih =>
    intro s
    obtain ⟨h1, h2, h3, h4, h5, h6, h7⟩ := ih (wentry_free s pe)
    have hfree : wentry_free s pe = sys_close s pe.2.fd ∨ (wentry_free s pe = s ∧ pe.2.fd = -1) := by
      unfold wentry_free
      split_ifs with h
      · exact Or.inl rfl
      · exact Or.inr ⟨rfl, not_not.1 h⟩
    have hlog : (wentry_free s pe).log = s.log := by
      unfold wentry_free sys_close
      split_ifs <;> rfl
    have hbrk : (wentry_free s pe).brk = s.brk := by
      unfold wentry_free sys_close
      split_ifs <;> rfl
    have herr : (wentry_free s pe).wtab_error = s.wtab_error := by
      unfold wentry_free sys_close
      split_ifs <;> rfl
    have hw : (wentry_free s pe).wtab = s.wtab := by
      rcases hfree with h | ⟨h, _⟩ <;> rw [h]
      exact sys_close_wtab _ _
    have ht : (wentry_free s pe).tab_f = s.tab_f := by
      rcases hfree with h | ⟨h, _⟩ <;> rw [h]
      exact sys_close_tab_f _ _
    have hfd : ∀ x, x ∈ (wentry_free s pe).fds ↔ x ∈ s.fds ∧ pe.2.fd ≠ (x : Int) := by
      intro x
      rcases hfree with h | ⟨h, hm⟩ <;> rw [h]
      · rw [sys_close_fds]
        constructor
        · rintro ⟨ha, hb⟩
          refine ⟨ha, ?_⟩
          rcases hb with hb | hb <;> omega
        · rintro ⟨ha, hb⟩
          refine ⟨ha, ?_⟩
          by_cases hneg : pe.2.fd < 0
          · exact Or.inl hneg
          · right; omega
      · constructor
        · intro ha; exact ⟨ha, by omega⟩
        · exact fun ha => ha.1
    have hkq : ∀ k, k ∈ (wentry_free s pe).kq ↔ k ∈ s.kq
        ∧ ¬ (pe.2.fd = (k.ident : Int) ∧ k.filter = kfilter.EVFILT_VNODE) := by
      intro k
      rcases hfree with h | ⟨h, hm⟩ <;> rw [h]
      · rw [sys_close_kq]
        constructor
        · rintro ⟨ha, hb⟩
          refine ⟨ha, ?_⟩
          rintro ⟨hc, hd⟩
          rcases hb with hb | hb
          · omega
          · exact hb ⟨by omega, hd⟩
        · rintro ⟨ha, hb⟩
          refine ⟨ha, ?_⟩
          by_cases hneg : pe.2.fd < 0
          · exact Or.inl hneg
          · right
            rintro ⟨hc, hd⟩
            exact hb ⟨by omega, hd⟩
      · constructor
        · intro ha
          exact ⟨ha, fun hc => by omega⟩
        · exact fun ha => ha.1
    simp only [List.foldl_cons]
    refine ⟨by rw [h1, hw], by rw [h2, ht], by rw [h3, hbrk], by rw [h4, herr],
      by rw [h5, hlog], ?_, ?_⟩
    · intro x
      rw [h6, hfd]
      simp only [List.mem_cons, forall_eq_or_imp]
      tauto
    · intro k
      rw [h7, hkq]
      simp only [List.mem_cons, forall_eq_or_imp]
      tauto

/-- Function `wtab_release` empties the watchtab and closes exactly the descriptors of
its entries; the invariant is kept. -/
theorem wtab_release_spec (s : main_state) (hinv : main_inv s) :
    (wtab_release s).wtab = []
    ∧ main_inv (wtab_release s)
    ∧ (wtab_release s).tab_f = s.tab_f
    ∧ (wtab_release s).brk = s.brk
    ∧ (wtab_release s).wtab_error = s.wtab_error
    ∧ (wtab_release s).log = s.log
    ∧ (∀ x, x ∈ (wtab_release s).fds ↔ x ∈ s.fds ∧ ∀ pe ∈ s.wtab, pe.2.fd ≠ (x : Int))
    ∧ (∀ k ∈ (wtab_release s).kq, k ∈ s.kq) := by
  obtain ⟨_, h2, h3, h4, h5, h6, h7⟩ := wentry_free_foldl s.wtab s
  obtain ⟨i1, i2, i3, i4, i5⟩ := hinv
  have hfds : ∀ x, x ∈ (wtab_release s).fds ↔ x ∈ s.fds ∧ ∀ pe ∈ s.wtab, pe.2.fd ≠ (x : Int) := h6
  have hkq : ∀ k, k ∈ (wtab_release s).kq ↔ k ∈ s.kq ∧ ∀ pe ∈ s.wtab,
      ¬ (pe.2.fd = (k.ident : Int) ∧ k.filter = kfilter.EVFILT_VNODE) := h7
  refine ⟨rfl, ⟨?_, ?_, ?_, ?_, ?_⟩, h2, h3, h4, h5, hfds, fun k hk => ((hkq k).1 hk).1⟩
  · intro pe hpe
    exact absurd hpe (by simp [wtab_release])
  · intro k hk hf
    obtain ⟨hk1, hk2⟩ := (hkq k).1 hk
    exact (hfds _).2 ⟨i2 k hk1 hf, fun pe hpe hc => hk2 pe hpe ⟨hc, hf⟩⟩
  · intro a ha b hb
    exact i3 a ((hkq a).1 ha).1 b ((hkq b).1 hb).1
  · simp [wtab_release]
  · intro t ht
    have ht1 : t ∈ s.tab_f := by
      have : (wtab_release s).tab_f = s.tab_f := h2
      rw [this] at ht; exact ht
    exact ⟨(hfds t).2 ⟨(i5 t ht1).1, (i5 t ht1).2⟩, fun pe hpe => absurd hpe (by simp [wtab_release])⟩

/-! ## The cases of the main loop -/

/-- The invariant does not read the break, the error flag and the log. -/
theorem main_inv_congr (s s1 : main_state) (hinv : main_inv s) (h1 : s1.wtab = s.wtab)
    (h2 : s1.kq = s.kq) (h3 : s1.fds = s.fds) (h4 : s1.tab_f = s.tab_f) : main_inv s1 := by
  unfold main_inv at *
  rw [h1, h2, h3, h4]
  exact hinv

/-- The state after the kernel has returned an event that is not the event of an armed
entry: a one-shot event is removed from the queue. -/
theorem main_inv_oneshot (s : main_state) (event : kevent) (hinv : main_inv s)
    (hmem : event ∈ s.kq)
    (h : event.filter ≠ kfilter.EVFILT_VNODE ∨ event.udata = none) :
    main_inv (if event.oneshot then
        { s with kq := kq_delete s.kq event.ident event.filter }
      else s) := by
  split_ifs
  · obtain ⟨h1, h2, h3, h4, h5⟩ := hinv
    refine ⟨?_, kq_open_delete _ _ _ _ h2, kq_keys_delete _ _ _ h3, h4, h5⟩
    intro pe hpe
    refine entry_armed_delete _ _ _ _ _ (h1 pe hpe) ?_
    rcases h1 pe hpe with h6 | ⟨_, _, h8⟩
    · exact Or.inl h6
    · right
      rintro ⟨h9, h10⟩
      rcases h with h | h
      · exact h h10
      · have := h3 _ h8 _ hmem h9 h10.symm
        rw [← this] at h
        exact absurd h (by simp [entry_event])
  · exact hinv

/-- The watchtab read in a reload replaces the live one: the call ends, the invariant
is kept, every entry of the new watchtab is an entry read from the file, changed in its
`fd` only and stored at a fresh address, and a descriptor left open is either one that
was open and is the `fd` of no entry of the old watchtab, or the `fd` of an entry of
the new one. -/
theorem wtab_replace_spec (s : main_state) (new_wtab : List watch_entry)
    (arm : List (Bool × Bool)) (hinv : main_inv s) (hnew : ∀ e ∈ new_wtab, e.fd = -1) :
    ∃ s1, wtab_replace s new_wtab arm = some s1 ∧ main_inv s1
      ∧ s1.tab_f = s.tab_f ∧ s1.wtab_error = s.wtab_error
      ∧ s1.wtab.map (fun pe => pe.1) = (new_wtab.enumFrom s.brk).map (fun pe => pe.1)
      ∧ (∀ pe ∈ s1.wtab, s.brk ≤ pe.1 ∧ ∃ e ∈ new_wtab, pe.2 = { e with fd := pe.2.fd })
      ∧ (∀ x ∈ s1.fds, (x ∈ s.fds ∧ ∀ pe ∈ s.wtab, pe.2.fd ≠ (x : Int))
          ∨ ∃ pe ∈ s1.wtab, pe.2.fd = (x : Int))
      ∧ (∀ x ∈ s.fds, (∀ pe ∈ s.wtab, pe.2.fd ≠ (x : Int)) → x ∈ s1.fds) := by
  obtain ⟨r1, r2, r3, r4, r5, r6, r7, r8⟩ := wtab_release_spec s hinv
  obtain ⟨i1, i2, i3, i4, i5⟩ := r2
  have hinv2 : main_inv
      { wtab_release s with wtab := new_wtab.enumFrom (wtab_release s).brk,
                            brk := (wtab_release s).brk + new_wtab.length } := by
    refine ⟨?_, i2, i3, enumFrom_keys_nodup _ _, ?_⟩
    · intro pe hpe
      exact Or.inl (hnew _ (mem_enumFrom_fst _ _ _ hpe).2)
    · intro t ht
      refine ⟨(i5 t ht).1, ?_⟩
      intro pe hpe
      have : pe.2.fd = -1 := hnew _ (mem_enumFrom_fst _ _ _ hpe).2
      omega
  obtain ⟨s1, hs1, hi1, hk1, ht1, hb1, he1, ho1, hf1, hq1, hx1, hy1⟩ :=
    insert_entries_spec ((new_wtab.enumFrom (wtab_release s).brk).map (fun pe => pe.1)) arm
      { wtab_release s with wtab := new_wtab.enumFrom (wtab_release s).brk,
                            brk := (wtab_release s).brk + new_wtab.length }
      hinv2 (fun p hp => hp) (enumFrom_keys_nodup _ _)
      (fun pe hpe _ => hnew _ (mem_enumFrom_fst _ _ _ hpe).2)
  refine ⟨s1, hs1, hi1, by rw [ht1]; exact r3, by rw [he1]; exact r5, ?_, ?_, ?_, ?_⟩
  · rw [hk1, r4]
  · intro pe hpe
    obtain ⟨pe0, hpe0, hk, hv⟩ := hy1 pe hpe
    have := mem_enumFrom_fst _ _ _ hpe0
    refine ⟨by rw [← hk, ← r4]; exact this.1, pe0.2, this.2, hv⟩
  · intro x hx
    rcases hx1 x hx with h | ⟨pe, hpe, _, hfd⟩
    · exact Or.inl ((r7 x).1 h)
    · exact Or.inr ⟨pe, hpe, hfd⟩
  · intro x hx hne
    exact hf1 x ((r7 x).2 ⟨hx, hne⟩)

/-- The state after the watchtab was opened and the timer deleted. -/
theorem main_inv_opened (s : main_state) (event : kevent) (log : List log_msg)
    (hinv : main_inv s) (hf : event.filter = kfilter.EVFILT_TIMER) :
    main_inv { s with fds := lowest_free s.fds :: s.fds, tab_f := some (lowest_free s.fds),
                      kq := kq_delete s.kq event.ident event.filter, log := log } := by
  obtain ⟨h1, h2, h3, h4, h5⟩ := hinv
  refine ⟨?_, kq_open_cons _ _ _ (kq_open_delete _ _ _ _ h2), kq_keys_delete _ _ _ h3, h4, ?_⟩
  · intro pe hpe
    exact entry_armed_cons _ _ _ _ (entry_armed_delete _ _ _ _ _ (h1 pe hpe)
      (Or.inr (fun h6 => by rw [hf] at h6; exact absurd h6.2 (by simp))))
  · intro t ht
    have : t = lowest_free s.fds := by
      simp only [Option.mem_def, Option.some.injEq] at ht
      exact ht.symm
    subst this
    refine ⟨List.mem_cons_self _ _, ?_⟩
    intro pe hpe
    exact entry_armed_fresh _ _ _ (h1 pe hpe)

/-- The state after the event of the new watchtab descriptor was registered. -/
theorem main_inv_watched (s : main_state) (event : kevent) (log : List log_msg)
    (hinv : main_inv s) (hf : event.filter = kfilter.EVFILT_TIMER) :
    main_inv { s with fds := lowest_free s.fds :: s.fds, tab_f := some (lowest_free s.fds),
                      kq := kq_add (kq_delete s.kq event.ident event.filter)
                        (watchtab_event (lowest_free s.fds)), log := log } := by
  obtain ⟨j1, j2, j3, j4, j5⟩ := main_inv_opened s event log hinv hf
  refine ⟨?_, kq_open_add _ _ _ j2 (fun _ => List.mem_cons_self _ _), kq_keys_add _ _ j3,
    j4, j5⟩
  intro pe hpe
  refine entry_armed_add _ _ _ _ (j1 pe hpe) ?_
  rcases hinv.1 pe hpe with h6 | ⟨h6, h7, _⟩
  · exact Or.inl h6
  · right
    intro h8
    have h9 : pe.2.fd.toNat = lowest_free s.fds := h8.1
    exact lowest_free_not_mem s.fds (h9 ▸ h7)

/-- The case `EVFILT_TIMER`: unless the watchtab is read in a way for which C defines no
behaviour, it returns to the loop, with the invariant.  Unless the watchtab is opened,
the timer deleted and the file parsed without error, the watchtab, the open descriptors
and the vnode events are kept; `wtab_error` is never reset. -/
theorem main_loop_timer_spec (db : UserDb) (s : main_state) (i : sys_input) (event : kevent)
    (hinv : main_inv s) (hf : event.filter = kfilter.EVFILT_TIMER) :
    (i.open_ok = true ∧ i.fdopen_ok = true ∧ i.timer_ok = true
      ∧ wtab_readfile_undefined db i.heap i.content = true
      ∧ main_loop_timer db s i event = loop_result.fault)
    ∨ ∃ s1, main_loop_timer db s i event = loop_result.next s1 ∧ main_inv s1
      ∧ (s.wtab_error = true → s1.wtab_error = true)
      ∧ (¬ (i.open_ok = true ∧ i.fdopen_ok = true ∧ i.timer_ok = true
            ∧ 0 ≤ (wtab_readfile db i.heap [] i.content).1) →
          s1.wtab = s.wtab ∧ s1.brk = s.brk ∧ (∀ x ∈ s.fds, x ∈ s1.fds)
          ∧ (∀ k ∈ s.kq, k.filter = kfilter.EVFILT_VNODE → k ∈ s1.kq)) := by
  obtain ⟨h1, h2, h3, h4, h5⟩ := hinv
  have hfresh := lowest_free_not_mem s.fds
  have hfds : ∀ x, x ∈ (lowest_free s.fds :: s.fds).filter (fun x => x ≠ lowest_free s.fds)
      ↔ x ∈ s.fds := by
    intro x
    simp only [List.mem_filter, List.mem_cons, decide_eq_true_eq]
    constructor
    · rintro ⟨h6 | h6, h7⟩
      · exact absurd h6 h7
      · exact h6
    · intro h6
      exact ⟨Or.inr h6, fun h7 => hfresh (h7 ▸ h6)⟩
  have hkq : ∀ k, k ∈ kq_delete s.kq (lowest_free s.fds) kfilter.EVFILT_VNODE ↔ k ∈ s.kq := by
    intro k
    rw [mem_kq_delete]
    constructor
    · exact fun h6 => h6.1
    · intro h6
      exact ⟨h6, fun h7 => hfresh (h7.1 ▸ h2 k h6 h7.2)⟩
  -- the state after a descriptor was opened and closed again
  have hclosed : ∀ (err : Bool) (log : List log_msg),
      main_inv { s with fds := (lowest_free s.fds :: s.fds).filter (fun x => x ≠ lowest_free s.fds),
                        kq := kq_delete s.kq (lowest_free s.fds) kfilter.EVFILT_VNODE,
                        tab_f := none, wtab_error := err, log := log } := by
    intro err log
    refine ⟨?_, ?_, kq_keys_delete _ _ _ h3, h4, ?_⟩
    · intro pe hpe
      rcases h1 pe hpe with h6 | ⟨h6, h7, h8⟩
      · exact Or.inl h6
      · exact Or.inr ⟨h6, (hfds _).2 h7, (hkq _).2 h8⟩
    · intro k hk hv
      exact (hfds _).2 (h2 k ((hkq k).1 hk) hv)
    · intro t ht
      exact absurd ht (by simp)
  have hopened := fun log => main_inv_opened s event log ⟨h1, h2, h3, h4, h5⟩ hf
  have hwatched := fun log => main_inv_watched s event log ⟨h1, h2, h3, h4, h5⟩ hf
  have hkept : ∀ k ∈ s.kq, k.filter = kfilter.EVFILT_VNODE →
      k ∈ kq_delete s.kq event.ident event.filter := by
    intro k hk hv
    exact (mem_kq_delete _ _ _ _).2 ⟨hk, fun h6 => by rw [hf, hv] at h6; exact absurd h6.2 (by simp)⟩
  have hkept2 : ∀ k ∈ s.kq, k.filter = kfilter.EVFILT_VNODE →
      k ∈ kq_add (kq_delete s.kq event.ident event.filter)
        (watchtab_event (lowest_free s.fds)) := by
    intro k hk hv
    refine (mem_kq_add _ _ _).2 (Or.inl ⟨hkept k hk hv, ?_⟩)
    intro h6
    have h7 : k.ident = lowest_free s.fds := h6.1
    exact hfresh (h7 ▸ h2 k hk hv)
  unfold main_loop_timer
  by_cases ho : i.open_ok = false
  · rw [if_pos ho]
    refine Or.inr ⟨_, rfl, main_inv_congr _ _ ⟨h1, h2, h3, h4, h5⟩ rfl rfl rfl rfl,
      fun _ => rfl, ?_⟩
    intro _
    exact ⟨rfl, rfl, fun x hx => hx, fun k hk _ => hk⟩
  rw [if_neg ho]
  simp only []
  by_cases hd : i.fdopen_ok = false
  · rw [if_pos hd, sys_close_nat]
    refine Or.inr ⟨_, rfl, hclosed _ _, fun _ => rfl, ?_⟩
    intro _
    exact ⟨rfl, rfl, fun x hx => (hfds x).2 hx, fun k hk _ => (hkq k).2 hk⟩
  rw [if_neg hd]
  by_cases ht : i.timer_ok = false
  · rw [if_pos ht, sys_close_nat]
    refine Or.inr ⟨_, rfl, hclosed _ _, fun h => h, ?_⟩
    intro _
    exact ⟨rfl, rfl, fun x hx => (hfds x).2 hx, fun k hk _ => (hkq k).2 hk⟩
  rw [if_neg ht]
  by_cases hu : wtab_readfile_undefined db i.heap i.content = true
  · rw [if_pos hu]
    exact Or.inl ⟨by simpa using ho, by simpa using hd, by simpa using ht, hu, rfl⟩
  rw [if_neg hu]
  right
  by_cases hr : (wtab_readfile db i.heap [] i.content).1 < 0
  · rw [if_pos hr]
    by_cases hw : i.watch_ok = true
    · rw [if_pos hw]
      refine ⟨_, rfl, hwatched _, fun h => h, ?_⟩
      intro _
      exact ⟨rfl, rfl, fun x hx => List.mem_cons_of_mem _ hx, hkept2⟩
    · rw [if_neg hw]
      refine ⟨_, rfl, hopened _, fun h => h, ?_⟩
      intro _
      exact ⟨rfl, rfl, fun x hx => List.mem_cons_of_mem _ hx, hkept⟩
  rw [if_neg hr]
  have hall : i.open_ok = true ∧ i.fdopen_ok = true ∧ i.timer_ok = true
      ∧ 0 ≤ (wtab_readfile db i.heap [] i.content).1 :=
    ⟨by simpa using ho, by simpa using hd, by simpa using ht, by omega⟩
  by_cases hw : i.watch_ok = true
  · rw [if_pos hw]
    obtain ⟨s1, hs1, hi1, _, he1, _⟩ := wtab_replace_spec _ (wtab_readfile db i.heap [] i.content).2
      i.arm (hwatched s.log) (wtab_readfile_fd db i.heap i.content)
    rw [hs1]
    exact ⟨_, rfl, main_inv_congr _ _ hi1 rfl rfl rfl rfl, fun h => by
      show s1.wtab_error = true
      rw [he1]; exact h, fun hn => absurd hall hn⟩
  · rw [if_neg hw]
    obtain ⟨s1, hs1, hi1, _, he1, _⟩ := wtab_replace_spec _ (wtab_readfile db i.heap [] i.content).2
      i.arm (hopened (s.log ++ [log_msg.log_kevent_watchtab])) (wtab_readfile_fd db i.heap i.content)
    rw [hs1]
    exact ⟨_, rfl, main_inv_congr _ _ hi1 rfl rfl rfl rfl, fun h => by
      show s1.wtab_error = true
      rw [he1]; exact h, fun hn => absurd hall hn⟩

/-- The case `EVFILT_TIMER` when the watchtab is opened, the timer deleted and the file
parsed without error: the new watchtab replaces the live one. -/
theorem main_loop_timer_reload (db : UserDb) (s : main_state) (i : sys_input) (event : kevent)
    (hinv : main_inv s) (hf : event.filter = kfilter.EVFILT_TIMER)
    (ho : i.open_ok = true) (hd : i.fdopen_ok = true) (ht : i.timer_ok = true)
    (hu : wtab_readfile_undefined db i.heap i.content = false)
    (hr : 0 ≤ (wtab_readfile db i.heap [] i.content).1) :
    ∃ s1, main_loop_timer db s i event = loop_result.next s1
      ∧ s1.tab_f = some (lowest_free s.fds)
      ∧ s1.wtab.map (fun pe => pe.1)
          = ((wtab_readfile db i.heap [] i.content).2.enumFrom s.brk).map (fun pe => pe.1)
      ∧ (∀ pe ∈ s1.wtab, s.brk ≤ pe.1
          ∧ ∃ e ∈ (wtab_readfile db i.heap [] i.content).2, pe.2 = { e with fd := pe.2.fd })
      ∧ (∀ x ∈ s1.fds, ((x = lowest_free s.fds ∨ x ∈ s.fds) ∧ ∀ pe ∈ s.wtab, pe.2.fd ≠ (x : Int))
          ∨ ∃ pe ∈ s1.wtab, pe.2.fd = (x : Int))
      ∧ (∀ x ∈ s.fds, (∀ pe ∈ s.wtab, pe.2.fd ≠ (x : Int)) → x ∈ s1.fds) := by
  unfold main_loop_timer
  rw [if_neg (by simp [ho])]
  simp only []
  rw [if_neg (by simp [hd]), if_neg (by simp [ht]), if_neg (by simp [hu]), if_neg (by omega)]
  by_cases hw : i.watch_ok = true
  · rw [if_pos hw]
    obtain ⟨s1, hs1, _, ht1, _, hk1, hy1, hx1, hz1⟩ := wtab_replace_spec _
      (wtab_readfile db i.heap [] i.content).2 i.arm (main_inv_watched s event s.log hinv hf)
      (wtab_readfile_fd db i.heap i.content)
    rw [hs1]
    refine ⟨_, rfl, ht1, hk1, hy1, ?_, ?_⟩
    · intro x hx
      rcases hx1 x hx with ⟨h1, h2⟩ | h1
      · exact Or.inl ⟨List.mem_cons.1 h1, h2⟩
      · exact Or.inr h1
    · intro x hx hne
      exact hz1 x (List.mem_cons_of_mem _ hx) hne
  · rw [if_neg hw]
    obtain ⟨s1, hs1, _, ht1, _, hk1, hy1, hx1, hz1⟩ := wtab_replace_spec _
      (wtab_readfile db i.heap [] i.content).2 i.arm
      (main_inv_opened s event (s.log ++ [log_msg.log_kevent_watchtab]) hinv hf)
      (wtab_readfile_fd db i.heap i.content)
    rw [hs1]
    refine ⟨_, rfl, ht1, hk1, hy1, ?_, ?_⟩
    · intro x hx
      rcases hx1 x hx with ⟨h1, h2⟩ | h1
      · exact Or.inl ⟨List.mem_cons.1 h1, h2⟩
      · exact Or.inr h1
    · intro x hx hne
      exact hz1 x (List.mem_cons_of_mem _ hx) hne

/-- The part "Something happened on the watchtab": with the stream open it returns to
the loop or exits; the invariant is kept and the watchtab is not touched. -/
theorem main_loop_watchtab_spec (delay : Int) (s : main_state) (i : sys_input) (s1 : main_state)
    (hinv : main_inv s) (h : main_loop_watchtab delay s i = loop_result.next s1) :
    main_inv s1 ∧ s1.wtab = s.wtab ∧ s1.wtab_error = s.wtab_error := by
  unfold main_loop_watchtab at h
  cases ht : s.tab_f with
  | none => rw [ht] at h; exact absurd h (by simp)
  | some t =>
    rw [ht] at h
    simp only [] at h
    split_ifs at h
    have hs := loop_result.next.inj h
    subst hs
    obtain ⟨h1, h2, h3, h4, h5⟩ := hinv
    have h5t := h5 t (by rw [ht]; simp)
    refine ⟨⟨?_, ?_, ?_, ?_, ?_⟩, sys_close_wtab _ _, ?_⟩
    · intro pe hpe
      have hpe1 : pe ∈ s.wtab := by
        have : (sys_close s (t : Int)).wtab = s.wtab := sys_close_wtab _ _
        exact this ▸ hpe
      refine entry_armed_add _ _ _ _ (entry_armed_close s t pe (h1 pe hpe1) (h5t.2 pe hpe1)) ?_
      exact Or.inr (fun h6 => absurd h6.2 (by simp [timer_event]))
    · exact kq_open_add _ _ _ (sys_close_kq_open s t h2)
        (fun h6 => absurd h6 (by simp [timer_event]))
    · exact kq_keys_add _ _ (sys_close_kq_keys s t h3)
    · show ((sys_close s (t : Int)).wtab.map (fun pe => pe.1)).Nodup
      rw [sys_close_wtab]; exact h4
    · intro x hx
      exact absurd hx (by simp)
    · unfold sys_close
      split_ifs <;> rfl

/-- The part "A watchtab entry has been triggered": when it returns to the loop the
invariant holds, the fired entry is unarmed and the other entries are as before. -/
theorem main_loop_entry_spec (s : main_state) (i : sys_input) (event : kevent) (p : Nat)
    (s1 : main_state) (hinv : main_inv s) (hmem : event ∈ s.kq)
    (hf : event.filter = kfilter.EVFILT_VNODE) (hu : event.udata = some p)
    (h : main_loop_entry (if event.oneshot then
        { s with kq := kq_delete s.kq event.ident event.filter } else s) i event p
      = loop_result.next s1) :
    main_inv s1 ∧ s1.wtab_error = s.wtab_error
    ∧ ∃ e, s.wtab.lookup p = some e ∧ e.fd = (event.ident : Int)
        ∧ s1.wtab = wtab_set s.wtab p { e with fd := -1 }
        ∧ (∀ k ∈ s1.kq, k ∈ s.kq ∨ k = proc_event i.fork p)
        ∧ (i.fork ≠ -1 ∧ i.fork ≠ 0 ∧ i.proc_ok = true → proc_event i.fork p ∈ s1.kq)
        ∧ (i.fork ≠ -1 ∧ i.fork ≠ 0 ∧ i.proc_ok = false →
            s1.kq = kq_delete s.kq event.ident kfilter.EVFILT_VNODE
            ∧ s1.log = s.log ++ [log_msg.log_kevent_proc p i.fork])
        ∧ (i.fork = -1 ∨ i.fork = 0 → s1.kq = kq_delete s.kq event.ident kfilter.EVFILT_VNODE) := by
  obtain ⟨s0, hs0⟩ : ∃ s0, s0 = (if event.oneshot then
      { s with kq := kq_delete s.kq event.ident event.filter } else s) := ⟨_, rfl⟩
  rw [← hs0] at h
  have hw0 : s0.wtab = s.wtab := by rw [hs0]; split_ifs <;> rfl
  have hfd0 : s0.fds = s.fds := by rw [hs0]; split_ifs <;> rfl
  have ht0 : s0.tab_f = s.tab_f := by rw [hs0]; split_ifs <;> rfl
  have he0 : s0.wtab_error = s.wtab_error := by rw [hs0]; split_ifs <;> rfl
  have hl0 : s0.log = s.log := by rw [hs0]; split_ifs <;> rfl
  have hk0 : ∀ k, k ∈ kq_delete s0.kq event.ident kfilter.EVFILT_VNODE
      ↔ k ∈ kq_delete s.kq event.ident kfilter.EVFILT_VNODE := by
    intro k
    rw [hs0]
    split_ifs
    · simp only [mem_kq_delete, hf]
      tauto
    · exact Iff.rfl
  have hk0eq : kq_delete s0.kq event.ident kfilter.EVFILT_VNODE
      = kq_delete s.kq event.ident kfilter.EVFILT_VNODE := by
    rw [hs0]
    split_ifs
    · unfold kq_delete
      rw [List.filter_filter, hf]
      congr 1
      funext k
      simp
    · rfl
  obtain ⟨h1, h2, h3, h4, h5⟩ := hinv
  unfold main_loop_entry at h
  rw [hw0] at h
  cases hl : s.wtab.lookup p with
  | none => rw [hl] at h; exact absurd h (by simp)
  | some e =>
    rw [hl] at h
    simp only [] at h
    have hpe : (p, e) ∈ s.wtab := lookup_mem _ _ _ hl
    by_cases hchk : e.fd < 0 ∨ e.fd.toNat ≠ event.ident
    · rw [if_pos hchk] at h
      exact absurd h (by simp)
    rw [if_neg hchk] at h
    have hfd : e.fd = (event.ident : Int) := by
      rcases not_or.1 hchk with ⟨h6, h7⟩
      have := not_not.1 h7
      omega
    have hclose : sys_close s0 e.fd
        = { s0 with fds := s0.fds.filter (fun x => x ≠ event.ident),
                    kq := kq_delete s0.kq event.ident kfilter.EVFILT_VNODE } := by
      rw [hfd, sys_close_nat]
    rw [hclose] at h
    simp only [] at h
    -- the other entries keep their descriptor and their event
    have hother : ∀ pe ∈ s.wtab, pe.1 ≠ p →
        entry_armed (s.fds.filter (fun x => x ≠ event.ident))
          (kq_delete s.kq event.ident kfilter.EVFILT_VNODE) pe := by
      intro pe hm hne
      rcases h1 pe hm with h6 | ⟨h6, h7, h8⟩
      · exact Or.inl h6
      · have hne2 : pe.2.fd.toNat ≠ event.ident := by
          intro h9
          have := h3 _ h8 _ hmem h9 hf.symm
          rw [← this] at hu
          simp only [entry_event, Option.some.injEq] at hu
          exact hne hu
        right
        refine ⟨h6, ?_, (mem_kq_delete _ _ _ _).2 ⟨h8, fun h9 => hne2 h9.1⟩⟩
        simp only [List.mem_filter, decide_eq_true_eq]
        exact ⟨h7, hne2⟩
    have hopen : kq_open (kq_delete s.kq event.ident kfilter.EVFILT_VNODE)
        (s.fds.filter (fun x => x ≠ event.ident)) := kq_open_close _ _ _ h2
    have hkeys : kq_keys (kq_delete s.kq event.ident kfilter.EVFILT_VNODE) :=
      kq_keys_delete _ _ _ h3
    have htab : ∀ t ∈ s.tab_f, t ∈ s.fds.filter (fun x => x ≠ event.ident)
        ∧ ∀ pe ∈ wtab_set s.wtab p { e with fd := -1 }, pe.2.fd ≠ (t : Int) := by
      intro t ht
      obtain ⟨h6, h7⟩ := h5 t ht
      refine ⟨?_, ?_⟩
      · simp only [List.mem_filter, decide_eq_true_eq]
        refine ⟨h6, fun h8 => ?_⟩
        have := h7 (p, e) hpe
        rw [hfd, h8] at this
        exact this rfl
      · intro pe hm
        rcases mem_wtab_set _ _ _ _ hm with rfl | ⟨hm1, _⟩
        · show (-1 : Int) ≠ (t : Int)
          omega
        · exact h7 pe hm1
    have harmed : ∀ (kq : List kevent),
        (∀ pe ∈ s.wtab, pe.1 ≠ p →
          entry_armed (s.fds.filter (fun x => x ≠ event.ident)) kq pe) →
        ∀ pe ∈ wtab_set s.wtab p { e with fd := -1 },
          entry_armed (s.fds.filter (fun x => x ≠ event.ident)) kq pe := by
      intro kq hk pe hm
      rcases mem_wtab_set _ _ _ _ hm with rfl | ⟨hm1, hne⟩
      · exact Or.inl rfl
      · exact hk pe hm1 hne
    have hnd : ((wtab_set s.wtab p { e with fd := -1 }).map (fun pe => pe.1)).Nodup := by
      rw [wtab_set_keys]; exact h4
    have hrun : run_entry e i.fork = if i.fork = -1 then (0, [log_msg.log_fork])
        else (i.fork, []) := rfl
    rw [hrun, hw0, hfd0, hk0eq, hl0] at h
    by_cases hfork : i.fork = -1
    · rw [if_pos hfork] at h
      simp only [if_true] at h
      have hs := loop_result.next.inj h
      subst hs
      refine ⟨⟨harmed _ hother, hopen, hkeys, hnd, ?_⟩, he0, e, rfl, hfd, rfl,
        fun k hk => Or.inl ((mem_kq_delete _ _ _ _).1 hk).1,
        fun h6 => absurd hfork h6.1, fun h6 => absurd hfork h6.1, fun _ => rfl⟩
      intro t ht
      exact htab t (by rw [← ht0]; exact ht)
    rw [if_neg hfork] at h
    simp only [] at h
    by_cases hzero : i.fork = 0
    · rw [if_pos hzero] at h
      have hs := loop_result.next.inj h
      subst hs
      refine ⟨⟨harmed _ hother, hopen, hkeys, hnd, ?_⟩, he0, e, rfl, hfd, rfl,
        fun k hk => Or.inl ((mem_kq_delete _ _ _ _).1 hk).1,
        fun h6 => absurd hzero h6.2.1, fun h6 => absurd hzero h6.2.1, fun _ => rfl⟩
      intro t ht
      exact htab t (by rw [← ht0]; exact ht)
    rw [if_neg hzero] at h
    by_cases hproc : i.proc_ok = true
    · rw [if_pos hproc] at h
      have hs := loop_result.next.inj h
      subst hs
      refine ⟨⟨harmed _ ?_, ?_, kq_keys_add _ _ hkeys, hnd, ?_⟩, he0, e, rfl, hfd, rfl, ?_,
        fun _ => (mem_kq_add _ _ _).2 (Or.inr rfl), fun h6 => ?_, fun h6 => ?_⟩
      · intro pe hm hne
        exact entry_armed_add _ _ _ _ (hother pe hm hne)
          (Or.inr (fun h6 => absurd h6.2 (by simp [proc_event])))
      · exact kq_open_add _ _ _ hopen (fun h6 => absurd h6 (by simp [proc_event]))
      · intro t ht
        exact htab t (by rw [← ht0]; exact ht)
      · intro k hk
        rcases (mem_kq_add _ _ _).1 hk with ⟨h6, _⟩ | h6
        · exact Or.inl ((mem_kq_delete _ _ _ _).1 h6).1
        · exact Or.inr h6
      · rw [hproc] at h6
        exact absurd h6.2.2 (by simp)
      · rcases h6 with h6 | h6
        · exact absurd h6 hfork
        · exact absurd h6 hzero
    · rw [if_neg hproc] at h
      have hs := loop_result.next.inj h
      subst hs
      refine ⟨⟨harmed _ hother, hopen, hkeys, hnd, ?_⟩, he0, e, rfl, hfd, rfl,
        fun k hk => Or.inl ((mem_kq_delete _ _ _ _).1 hk).1,
        fun h6 => absurd h6.2.2 hproc, fun _ => ⟨rfl, by simp⟩, fun _ => rfl⟩
      intro t ht
      exact htab t (by rw [← ht0]; exact ht)

theorem lookup_of_mem : ∀ (wtab : List (Nat × watch_entry)) (p : Nat) (e : watch_entry),
    (wtab.map (fun pe => pe.1)).Nodup → (p, e) ∈ wtab → wtab.lookup p = some e := by
  intro wtab
  induction wtab with
  | nil => intro p e _ h; simp at h
  | cons x xs ih =>
    intro p e hnd h
    obtain ⟨a, b⟩ := x
    simp only [List.map_cons, List.nodup_cons] at hnd
    rcases List.mem_cons.1 h with h1 | h1
    · simp only [Prod.mk.injEq] at h1
      obtain ⟨rfl, rfl⟩ := h1
      simp [List.lookup]
    · have hne : p ≠ a := by
        intro hpa
        apply hnd.1
        rw [← hpa]
        exact List.mem_map.2 ⟨(p, e), h1, rfl⟩
      have hb : (p == a) = false := by simpa using hne
      simp only [List.lookup, hb]
      exact ih p e hnd.2 h1

/-- The state in which an event is handled: the one-shot event is out of the queue. -/
theorem oneshot_fields (s : main_state) (event : kevent) :
    (if event.oneshot then { s with kq := kq_delete s.kq event.ident event.filter } else s).wtab
        = s.wtab
    ∧ (if event.oneshot then { s with kq := kq_delete s.kq event.ident event.filter }
        else s).fds = s.fds
    ∧ (if event.oneshot then { s with kq := kq_delete s.kq event.ident event.filter }
        else s).brk = s.brk
    ∧ (if event.oneshot then { s with kq := kq_delete s.kq event.ident event.filter }
        else s).wtab_error = s.wtab_error
    ∧ (if event.oneshot then { s with kq := kq_delete s.kq event.ident event.filter }
        else s).tab_f = s.tab_f
    ∧ (if event.oneshot then { s with kq := kq_delete s.kq event.ident event.filter }
        else s).log = s.log
    ∧ (∀ k ∈ s.kq, k.filter ≠ event.filter →
        k ∈ (if event.oneshot then { s with kq := kq_delete s.kq event.ident event.filter }
          else s).kq)
    ∧ (∀ k ∈ (if event.oneshot then { s with kq := kq_delete s.kq event.ident event.filter }
          else s).kq, k ∈ s.kq) := by
  split_ifs
  · refine ⟨rfl, rfl, rfl, rfl, rfl, rfl, ?_, ?_⟩
    · intro k hk hne
      exact (mem_kq_delete _ _ _ _).2 ⟨hk, fun h => hne h.2⟩
    · intro k hk
      exact ((mem_kq_delete _ _ _ _).1 hk).1
  · exact ⟨rfl, rfl, rfl, rfl, rfl, rfl, fun k hk _ => hk, fun k hk => hk⟩

theorem main_loop_body_timer (db : UserDb) (delay : Int) (s : main_state) (i : sys_input)
    (event : kevent) (hi : i.ev = some event) (hf : event.filter = kfilter.EVFILT_TIMER) :
    main_loop_body db delay s i
      = main_loop_timer db (if event.oneshot then
          { s with kq := kq_delete s.kq event.ident event.filter } else s) i event := by
  unfold main_loop_body
  rw [hi]
  simp only []
  rw [hf]

theorem main_loop_body_entry (db : UserDb) (delay : Int) (s : main_state) (i : sys_input)
    (event : kevent) (p : Nat) (hi : i.ev = some event)
    (hf : event.filter = kfilter.EVFILT_VNODE) (hu : event.udata = some p) :
    main_loop_body db delay s i
      = main_loop_entry (if event.oneshot then
          { s with kq := kq_delete s.kq event.ident event.filter } else s) i event p := by
  unfold main_loop_body
  rw [hi]
  simp only []
  rw [hf, hu]

theorem main_loop_body_watchtab (db : UserDb) (delay : Int) (s : main_state) (i : sys_input)
    (event : kevent) (hi : i.ev = some event)
    (hf : event.filter = kfilter.EVFILT_VNODE) (hu : event.udata = none) :
    main_loop_body db delay s i
      = main_loop_watchtab delay (if event.oneshot then
          { s with kq := kq_delete s.kq event.ident event.filter } else s) i := by
  unfold main_loop_body
  rw [hi]
  simp only []
  rw [hf, hu]

theorem main_loop_body_proc (db : UserDb) (delay : Int) (s : main_state) (i : sys_input)
    (event : kevent) (hi : i.ev = some event)
    (hf : event.filter = kfilter.EVFILT_PROC) :
    main_loop_body db delay s i
      = match event.udata with
        | none => loop_result.fault
        | some wentry =>
          match insert_entry (if event.oneshot then
              { s with kq := kq_delete s.kq event.ident event.filter } else s) wentry
              (i.arm.headD (true, true)).1 (i.arm.headD (true, true)).2 with
          | none => loop_result.fault
          | some s1 => loop_result.next s1 := by
  unfold main_loop_body
  rw [hi]
  simp only []
  rw [hf]
  try rfl

/-- One iteration of the main loop, on an event of the queue, keeps the invariant, and
never resets `wtab_error`. -/
theorem main_loop_body_inv (db : UserDb) (delay : Int) (s : main_state) (i : sys_input)
    (event : kevent) (s1 : main_state) (hinv : main_inv s) (hi : i.ev = some event)
    (hmem : event ∈ s.kq) (h : main_loop_body db delay s i = loop_result.next s1) :
    main_inv s1 ∧ (s.wtab_error = true → s1.wtab_error = true) := by
  obtain ⟨_, _, _, he0, _, _, _, _⟩ := oneshot_fields s event
  cases hf : event.filter with
  | EVFILT_VNODE =>
    cases hu : event.udata with
    | none =>
      rw [main_loop_body_watchtab db delay s i event hi hf hu] at h
      obtain ⟨h1, _, h3⟩ := main_loop_watchtab_spec delay _ i s1
        (main_inv_oneshot s event hinv hmem (Or.inr hu)) h
      exact ⟨h1, fun h4 => by rw [h3, he0]; exact h4⟩
    | some p =>
      rw [main_loop_body_entry db delay s i event p hi hf hu] at h
      obtain ⟨h1, h2, _⟩ := main_loop_entry_spec s i event p s1 hinv hmem hf hu h
      exact ⟨h1, fun h4 => by rw [h2]; exact h4⟩
  | EVFILT_PROC =>
    rw [main_loop_body_proc db delay s i event hi hf] at h
    cases hu : event.udata with
    | none => rw [hu] at h; exact absurd h (by simp)
    | some p =>
      rw [hu] at h
      simp only [] at h
      have hinv0 := main_inv_oneshot s event hinv hmem (Or.inl (by rw [hf]; simp))
      cases hins : insert_entry (if event.oneshot then
          { s with kq := kq_delete s.kq event.ident event.filter } else s) p
          (i.arm.headD (true, true)).1 (i.arm.headD (true, true)).2 with
      | none => rw [hins] at h; exact absurd h (by simp)
      | some s2 =>
        rw [hins] at h
        have hs := loop_result.next.inj h
        subst hs
        obtain ⟨h1, _, _, _, h5, _⟩ := insert_entry_spec _ _ p _ _ hinv0 hins
        exact ⟨h1, fun h4 => by rw [h5, he0]; exact h4⟩
  | EVFILT_TIMER =>
    rw [main_loop_body_timer db delay s i event hi hf] at h
    have hinv0 := main_inv_oneshot s event hinv hmem (Or.inl (by rw [hf]; simp))
    rcases main_loop_timer_spec db _ i event hinv0 hf with
      ⟨_, _, _, _, hfault⟩ | ⟨s2, hs2, h1, h2, _⟩
    · rw [hfault] at h
      exact absurd h (by simp)
    · rw [hs2] at h
      have hs := loop_result.next.inj h
      subst hs
      exact ⟨h1, fun h4 => h2 (by rw [he0]; exact h4)⟩

/-- The state in which `main` enters the main loop satisfies the invariant. -/
theorem main_start_inv (db : UserDb) (i : sys_input) (s : main_state)
    (h : main_start db i = loop_result.next s) : main_inv s := by
  unfold main_start at h
  simp only [] at h
  split_ifs at h
  have h3 : lowest_free main_state0.fds = 3 := by decide
  have h4 : lowest_free (3 :: main_state0.fds) = 4 := by decide
  rw [h3, h4] at h
  have hinv : main_inv
      { wtab := (wtab_readfile db i.heap [] i.content).2.enumFrom 0,
        brk := (wtab_readfile db i.heap [] i.content).2.length,
        kq := kq_add [] (watchtab_event 3), fds := 4 :: 3 :: main_state0.fds,
        tab_f := some 3, wtab_error := false,
        log := main_state0.log ++ [log_msg.log_watchtab_loaded] } := by
    refine ⟨?_, ?_, ?_, enumFrom_keys_nodup _ _, ?_⟩
    · intro pe hpe
      exact Or.inl (wtab_readfile_fd db i.heap i.content _ (mem_enumFrom_fst _ _ _ hpe).2)
    · intro k hk _
      have : k = watchtab_event 3 := by simpa [kq_add, kq_delete] using hk
      rw [this]
      show (3 : Nat) ∈ 4 :: 3 :: main_state0.fds
      decide
    · exact kq_keys_add _ _ (fun a ha => absurd ha (by simp))
    · intro t ht
      have : t = 3 := by
        simp only [Option.mem_def, Option.some.injEq] at ht
        exact ht.symm
      subst this
      refine ⟨by show (3 : Nat) ∈ 4 :: 3 :: main_state0.fds; decide, ?_⟩
      intro pe hpe
      have := wtab_readfile_fd db i.heap i.content _ (mem_enumFrom_fst _ _ _ hpe).2
      omega
  obtain ⟨s1, hs1, hi1, _⟩ := insert_entries_spec _ i.arm _ hinv (fun p hp => hp)
    (enumFrom_keys_nodup _ _)
    (fun pe hpe _ => wtab_readfile_fd db i.heap i.content _ (mem_enumFrom_fst _ _ _ hpe).2)
  have hs1b : insert_entries
      (((wtab_readfile db i.heap [] i.content).2.enumFrom 0).map (fun pe => pe.1)) i.arm
      { wtab := (wtab_readfile db i.heap [] i.content).2.enumFrom 0,
        brk := (wtab_readfile db i.heap [] i.content).2.length,
        kq := kq_add [] (watchtab_event 3), fds := 4 :: 3 :: main_state0.fds,
        tab_f := some 3, wtab_error := false,
        log := main_state0.log ++ [log_msg.log_watchtab_loaded] } = some s1 := hs1
  have hmatch : (match insert_entries
      (((wtab_readfile db i.heap [] i.content).2.enumFrom 0).map (fun pe => pe.1)) i.arm
      { wtab := (wtab_readfile db i.heap [] i.content).2.enumFrom 0,
        brk := (wtab_readfile db i.heap [] i.content).2.length,
        kq := kq_add [] (watchtab_event 3), fds := 4 :: 3 :: main_state0.fds,
        tab_f := some 3, wtab_error := false,
        log := main_state0.log ++ [log_msg.log_watchtab_loaded] } with
      | none => loop_result.fault
      | some s5 => loop_result.next s5) = loop_result.next s := h
  rw [hs1b] at hmatch
  have hs := loop_result.next.inj hmatch
  subst hs
  exact hi1

/-- Every state the main loop reaches from the start of `main` satisfies the
invariant. -/
theorem main_loop_inv (db : UserDb) (delay : Int) : ∀ (inputs : List sys_input)
    (s s1 : main_state), main_inv s →
    main_loop db delay inputs s = some (loop_result.next s1) → main_inv s1 := by
  intro inputs
  induction inputs with
  | nil =>
    intro s s1 hinv h
    simp only [main_loop, Option.some.injEq, loop_result.next.injEq] at h
    rw [← h]; exact hinv
  | cons i rest ih =>
    intro s s1 hinv h
    rw [main_loop] at h
    split_ifs at h with hd
    cases hb : main_loop_body db delay s i with
    | next s2 =>
      rw [hb] at h
      simp only [] at h
      cases hev : i.ev with
      | none =>
        unfold main_loop_body at hb
        rw [hev] at hb
        exact absurd hb (by simp)
      | some event =>
        rw [hev] at hd
        simp only [decide_eq_true_eq] at hd
        exact ih s2 s1 (main_loop_body_inv db delay s i event s2 hinv hev hd hb).1 h
    | exit status s2 =>
      rw [hb] at h
      simp only [Option.some.injEq] at h
      exact absurd h (by simp)
    | fault =>
      rw [hb] at h
      simp only [Option.some.injEq] at h
      exact absurd h (by simp)

/-- The check of the fired entry passes on the event of an armed entry. -/
theorem main_loop_entry_next (s : main_state) (i : sys_input) (event : kevent) (p : Nat)
    (e : watch_entry) (hl : s.wtab.lookup p = some e) (h0 : 0 ≤ e.fd)
    (hid : e.fd.toNat = event.ident) :
    ∃ s1, main_loop_entry s i event p = loop_result.next s1 := by
  unfold main_loop_entry
  rw [hl]
  simp only []
  rw [if_neg (by omega)]
  split_ifs <;> exact ⟨_, rfl⟩

/-! ## Fractions of ten digits and more, and the frame of `wenv_set` -/

theorem delay_pad_done (fuel : Nat) (v : Int) (d : Nat) (h : 9 < d) :
    delay_pad fuel v d = v := by
  cases fuel with
  | zero => rfl
  | succ f =>
    unfold delay_pad
    rw [if_neg (by omega)]

/-- The delay block on a field `S.F` of decimal digits with ten digits or more after
the point: the fraction is stored as read, without scaling. -/
theorem wentry_readline_delay_long_fraction (S F rest : List Nat) (hne : S ≠ [])
    (hS : ∀ c ∈ S, isdigit c = true) (hF : ∀ c ∈ F, isdigit c = true)
    (h10 : 10 ≤ F.length) (hr : isdigit (rest.headD 0) = false) :
    wentry_readline_delay (S ++ [46] ++ F ++ rest) 0 (S ++ [46] ++ F).length
      = some ⟨clamp_long (decimal S), clamp_long (decimal F)⟩ := by
  have hFne : F ≠ [] := by intro h; rw [h] at h10; simp at h10
  have hs1 : strtol (S ++ [46] ++ F ++ rest) = (clamp_long (decimal S), S.length) := by
    have := strtol_decimal S ([46] ++ F ++ rest) hne hS (by simp [isdigit])
    simpa [List.append_assoc] using this
  have hdot : rd (S ++ [46] ++ F ++ rest) S.length = 46 := by
    have := rd_append_length S ([46] ++ F ++ rest)
    simpa [List.append_assoc] using this
  have hdrop : List.drop (S.length + 1) (S ++ [46] ++ F ++ rest) = F ++ rest := by
    have : S ++ [46] ++ F ++ rest = (S ++ [46]) ++ (F ++ rest) := by simp [List.append_assoc]
    rw [this]
    exact List.drop_left' (by simp)
  have hs2 : strtol (F ++ rest) = (clamp_long (decimal F), F.length) :=
    strtol_decimal F rest hFne hF hr
  have hlen0 : (S ++ [46] ++ F).length = S.length + 1 + F.length := by simp; omega
  have hdel : ¬ ((S ++ [46] ++ F).length = 1 ∧ rd (S ++ [46] ++ F ++ rest) 0 = 42) := by
    rw [hlen0]; omega
  unfold wentry_readline_delay
  rw [if_pos ⟨by rw [hlen0]; omega, hdel⟩]
  simp only [List.drop_zero, hs1, Nat.zero_add, hdot, if_true, hdrop, hs2]
  rw [if_neg (by rw [hlen0]; omega), delay_pad_done _ _ _ (by omega)]

theorem clamp_long_large (v : Nat) (h : 10 ^ 9 ≤ v) : 999999999 < clamp_long (v : Int) := by
  unfold clamp_long LONG_MAX LONG_MIN
  split_ifs <;> omega

/-- Two different names without `=` cannot both, followed by `=`, start one line. -/
theorem name_prefix_disjoint : ∀ (a b : List Nat), 61 ∉ a → 61 ∉ b → a ≠ b →
    ∀ L : List Nat, (a ++ [61]) <+: L → ¬ (b ++ [61]) <+: L := by
  intro a
  induction a with
  | nil =>
    intro b _ hb hne L h1 h2
    cases b with
    | nil => exact hne rfl
    | cons y b =>
      obtain ⟨r1, rfl⟩ := h1
      obtain ⟨r2, h2⟩ := h2
      simp only [List.nil_append, List.cons_append, List.cons.injEq] at h2
      exact hb (by simp [h2.1])
  | cons x a ih =>
    intro b ha hb hne L h1 h2
    obtain ⟨r1, rfl⟩ := h1
    cases b with
    | nil =>
      obtain ⟨r2, h2⟩ := h2
      simp only [List.nil_append, List.cons_append, List.cons.injEq] at h2
      exact ha (by simp [h2.1])
    | cons y b =>
      obtain ⟨r2, h2⟩ := h2
      simp only [List.cons_append, List.cons.injEq] at h2
      have hxy : y = x := h2.1
      subst hxy
      refine ih b (fun h => ha (by simp [h])) (fun h => hb (by simp [h]))
        (fun h => hne (by rw [h])) (a ++ [61] ++ r1) ⟨r1, rfl⟩ ⟨r2, ?_⟩
      simpa using h2.2

/-- The test of `wenv_set` on a line, as a prefix. -/
theorem strncmp_name_prefix (name L : List Nat) :
    strncmp L (cstr name ++ [61]) (strlen name + 1) = 0 ↔ (cstr name ++ [61]) <+: L := by
  have hlen : (cstr name ++ [61]).length = strlen name + 1 := by simp [cstr_length]
  constructor
  · intro h
    rw [← hlen] at h
    obtain ⟨r, hr⟩ := strncmp_eq_zero (cstr name ++ [61]) (by
      intro c hc
      simp only [List.mem_append, List.mem_singleton] at hc
      rcases hc with hc | hc
      · exact cstr_no_nul name c hc
      · omega) L h
    exact ⟨r, hr.symm⟩
  · rintro ⟨r, rfl⟩
    rw [← hlen]
    exact strncmp_self_append _ r

/-- A line that `wenv_set` takes for the name `n` is not one that `wenv_get` takes for a
different name `m`, when neither name contains `=`. -/
theorem wenv_line_disjoint (n m v L : List Nat) (hn : 61 ∉ cstr n) (hm : 61 ∉ cstr m)
    (hne : cstr n ≠ cstr m) (h : strncmp L (env_line n v) (strlen n + 1) = 0) :
    ¬ (strncmp L m (strlen m) = 0 ∧ rd L (strlen m) = 61) := by
  rw [strncmp_env_line, strncmp_name_prefix] at h
  rw [← strncmp_name_eq, strncmp_name_prefix]
  exact name_prefix_disjoint (cstr n) (cstr m) hn hm hne L h

theorem wenv_get_find_append (x m : List Nat) (k : Nat)
    (hx : ¬ (strncmp x m k = 0 ∧ rd x k = 61)) : ∀ es : List (List Nat),
    wenv_get_find (es ++ [x]) m k = wenv_get_find es m k := by
  intro es
  induction es with
  | nil => simp [wenv_get_find, hx]
  | cons e es ih =>
    have hc : wenv_get_find ((e :: es) ++ [x]) m k
        = if strncmp e m k = 0 ∧ rd e k = 61 then some (cstr (e.drop (k + 1)))
          else wenv_get_find (es ++ [x]) m k := rfl
    rw [hc, ih]
    rfl

theorem wenv_get_find_set (x m : List Nat) (k : Nat)
    (hx : ¬ (strncmp x m k = 0 ∧ rd x k = 61)) : ∀ (es : List (List Nat)) (i : Nat),
    (∀ e, es.get? i = some e → ¬ (strncmp e m k = 0 ∧ rd e k = 61)) →
    wenv_get_find (es.set i x) m k = wenv_get_find es m k := by
  intro es
  induction es with
  | nil => intro i _; rfl
  | cons e es ih =>
    intro i hi
    cases i with
    | zero =>
      have he := hi e rfl
      simp only [List.set_cons_zero, wenv_get_find]
      rw [if_neg hx, if_neg he]
    | succ i =>
      simp only [List.set_cons_succ, wenv_get_find]
      rw [ih i (fun e1 h1 => hi e1 (by simpa using h1))]

/-- The line at the index found by `wenv_set` passes its test. -/
theorem wenv_set_find_hit : ∀ (es : List (List Nat)) (line : List Nat) (n : Nat) (e : List Nat),
    es.get? (wenv_set_find es line n 0) = some e → strncmp e line n = 0 := by
  intro es
  induction es with
  | nil => intro line n e h; simp at h
  | cons e0 es ih =>
    intro line n e h
    simp only [wenv_set_find] at h
    by_cases h0 : strncmp e0 line n = 0
    · rw [if_pos h0] at h
      simp only [List.get?_cons_zero, Option.some.injEq] at h
      rw [← h]; exact h0
    · rw [if_neg h0, wenv_set_find_shift] at h
      simp only [List.get?_cons_succ] at h
      exact ih line n e h

/-- On a table without stray slots the search of `wenv_set` reaches the end of the
strings exactly when `wenv_get` finds nothing. -/
theorem wenv_get_none_iff (env : watch_env) (name v : List Nat) (hc : wenv_clean env) :
    wenv_get env name = some none
      ↔ wenv_set_find (wenv_dup env) (env_line name v) (strlen name + 1) 0
          = (wenv_dup env).length := by
  rw [wenv_get_clean env name hc, wenv_get_find_eq name v]
  have hle := wenv_set_find_le (wenv_dup env) (env_line name v) (strlen name + 1)
  simp only [Option.some.injEq, Option.map_eq_none', List.get?_eq_none]
  omega

/-- The frame of `wenv_set` on a table without stray slots: another name reads the
same. -/
theorem wenv_get_set_other (mem : List env_ptr) (env : watch_env) (n m v : List Nat)
    (ow : Bool) (hc : wenv_clean env)
    (hn : 61 ∉ cstr n) (hm : 61 ∉ cstr m) (hne : cstr n ≠ cstr m) :
    wenv_get (wenv_set mem env n v ow) m = wenv_get env m := by
  rw [wenv_get_clean _ _ (wenv_set_clean mem env n v ow hc).1, wenv_get_clean _ _ hc,
    wenv_dup_set mem env n v ow hc]
  congr 1
  have hx : ¬ (strncmp (env_line n v) m (strlen m) = 0 ∧ rd (env_line n v) (strlen m) = 61) :=
    wenv_line_disjoint n m v _ hn hm hne (strncmp_env_line_self n v v)
  split_ifs with h1 h2
  · exact wenv_get_find_append _ _ _ hx _
  · rfl
  · exact wenv_get_find_set _ _ _ hx _ _ (fun e he =>
      wenv_line_disjoint n m v e hn hm hne (wenv_set_find_hit _ _ _ e he))

/-! ## The environment table along a watchtab -/

/-- Whether `wentry_readline` accepts a line depends neither on the environment table
nor on what `malloc` returns. -/
theorem wentry_readline_accept (db : UserDb) (mem1 mem2 : List env_ptr) (dest : watch_entry)
    (line : List Nat) (env1 env2 : watch_env) :
    wentry_readline db mem1 dest line env1 = none
      ↔ wentry_readline db mem2 dest line env2 = none := by
  unfold wentry_readline
  by_cases h0 : rd line 0 = 0 ∨ rd line 0 = 9
  · simp only [h0, if_true]
  simp only [h0, if_false]
  by_cases h1 : rd line (wentry_readline_bounds line).delay_first = 0
  · simp only [h1, if_true]
  simp only [h1, if_false]
  by_cases h2 : parse_events (List.drop (wentry_readline_adjust line
      (wentry_readline_bounds line)).event_first line)
      (wentry_readline_adjust line (wentry_readline_bounds line)).event_len = 0
  · simp only [h2, if_true]
  simp only [h2, if_false]
  cases wentry_readline_delay line
      (wentry_readline_adjust line (wentry_readline_bounds line)).delay_first
      (wentry_readline_adjust line (wentry_readline_bounds line)).delay_len with
  | none => simp only []
  | some d =>
    simp only []
    cases wentry_readline_user db line
        (wentry_readline_adjust line (wentry_readline_bounds line)).user_first
        (wentry_readline_adjust line (wentry_readline_bounds line)).user_len with
    | none => simp only []
    | some r =>
      obtain ⟨line1, pw, grp⟩ := r
      simp only []
      cases pw with
      | some p => simp
      | none =>
        simp only []
        cases lookup_self db with
        | none => simp only []
        | some p => simp

/-- Which entry lines of a watchtab are accepted depends neither on the environment
table nor on what `malloc` returns. -/
theorem line_outcomes_shape (db : UserDb) (mem1 mem2 : List env_ptr) :
    ∀ (ls : List (List Nat)) (env1 env2 : watch_env),
    (line_outcomes db mem1 ls env1).map Option.isSome
      = (line_outcomes db mem2 ls env2).map Option.isSome := by
  intro ls
  induction ls with
  | nil => intro env1 env2; rfl
  | cons l ls ih =>
    intro env1 env2
    rw [line_outcomes_cons, line_outcomes_cons]
    cases classify_line l with
    | skipped => exact ih env1 env2
    | assignment name value => exact ih _ _
    | entry buf =>
      simp only []
      have hacc := wentry_readline_accept db mem1 mem2 wentry_init buf env1 env2
      cases h1 : wentry_readline db mem1 wentry_init buf env1 with
      | none =>
        rw [hacc.1 h1]
        simp only [List.map_cons, Option.isSome_none, List.cons.injEq, true_and]
        exact ih env1 env2
      | some r1 =>
        cases h2 : wentry_readline db mem2 wentry_init buf env2 with
        | none => rw [hacc.2 h2] at h1; exact absurd h1 (by simp)
        | some r2 =>
          obtain ⟨e1, x1⟩ := r1
          obtain ⟨e2, x2⟩ := r2
          simp only [List.map_cons, Option.isSome_some, List.cons.injEq, true_and]
          exact ih x1 x2

theorem line_outcomes_none (db : UserDb) (mem1 mem2 : List env_ptr) (ls : List (List Nat))
    (env1 env2 : watch_env) :
    none ∈ line_outcomes db mem1 ls env1 ↔ none ∈ line_outcomes db mem2 ls env2 := by
  have key : ∀ o : List (Option watch_entry), none ∈ o ↔ false ∈ o.map Option.isSome := by
    intro o
    induction o with
    | nil => simp
    | cons x o ih =>
      rw [List.map_cons, List.mem_cons, List.mem_cons, ih]
      cases x with
      | none => exact ⟨fun _ => Or.inl rfl, fun _ => Or.inl rfl⟩
      | some e =>
        constructor
        · rintro (h | h)
          · exact absurd h (by simp)
          · exact Or.inr h
        · rintro (h | h)
          · exact absurd h (by simp)
          · exact Or.inr h
  rw [key, key, line_outcomes_shape db mem1 mem2 ls env1 env2]

/-- The return value of `wtab_readfile` does not depend on what `malloc` returns. -/
theorem wtab_readfile_result (db : UserDb) (mem1 mem2 : List env_ptr)
    (tab1 tab2 : List watch_entry) (input : List Nat) :
    (wtab_readfile db mem1 tab1 input).1 = (wtab_readfile db mem2 tab2 input).1 := by
  rw [wtab_readfile_trace, wtab_readfile_trace]
  simp only []
  by_cases h : none ∈ line_outcomes db mem1 (file_lines input) (wtab_env0 mem1)
  · rw [if_pos h, if_pos ((line_outcomes_none db mem1 mem2 _ _ _).1 h)]
  · rw [if_neg h, if_neg (fun h2 => h ((line_outcomes_none db mem1 mem2 _ _ _).2 h2))]

theorem wtab_env0_ok (mem : List env_ptr) : wenv_ok (wtab_env0 mem) := by
  unfold wtab_env0
  exact wenv_set_ok _ _ _ _ _ (wenv_set_ok _ _ _ _ _ (wenv_ok_init mem))

theorem env_after_ok (db : UserDb) (mem : List env_ptr) : ∀ (ls : List (List Nat))
    (env : watch_env), wenv_ok env → wenv_ok (env_after db mem ls env) := by
  intro ls
  induction ls with
  | nil => intro env h; exact h
  | cons l ls ih =>
    intro env h
    rw [env_after_cons]
    cases classify_line l with
    | skipped => exact ih env h
    | assignment name value => exact ih _ (wenv_set_ok _ _ _ _ _ h)
    | entry buf =>
      simp only []
      cases hw : wentry_readline db mem wentry_init buf env with
      | none => exact ih env h
      | some r =>
        obtain ⟨e1, env1⟩ := r
        obtain ⟨p, path, henv, _, _⟩ := wentry_readline_env db mem _ _ _ _ _ hw
        exact ih env1 (by rw [henv]; exact entry_env_ok mem env p path h)

theorem wtab_env0_clean (mem : List env_ptr)
    (h : alloc_block WENV_ALLOC_UNIT mem = fresh_block) : wenv_clean (wtab_env0 mem) := by
  unfold wtab_env0
  exact (wenv_set_clean _ _ _ _ _ (wenv_set_clean _ _ _ _ _ (wenv_clean_init mem h)).1).1

theorem env_after_clean (db : UserDb) (mem : List env_ptr) : ∀ (ls : List (List Nat))
    (env : watch_env), wenv_clean env → wenv_clean (env_after db mem ls env) := by
  intro ls
  induction ls with
  | nil => intro env h; exact h
  | cons l ls ih =>
    intro env h
    rw [env_after_cons]
    cases classify_line l with
    | skipped => exact ih env h
    | assignment name value => exact ih _ (wenv_set_clean _ _ _ _ _ h).1
    | entry buf =>
      simp only []
      cases hw : wentry_readline db mem wentry_init buf env with
      | none => exact ih env h
      | some r =>
        obtain ⟨e1, env1⟩ := r
        obtain ⟨p, path, henv, _, _⟩ := wentry_readline_env db mem _ _ _ _ _ hw
        exact ih env1 (by rw [henv]; exact entry_env_clean mem env p path h)

/-- Whether a call of `wtab_readfile` leaves the defined behaviour, read off the
environment table after the last line. -/
theorem wtab_readfile_undefined_eq (db : UserDb) (mem : List env_ptr) (input : List Nat) :
    wtab_readfile_undefined db mem input
      = (env_after db mem (file_lines input) (wtab_env0 mem)).undefined := by
  unfold wtab_readfile_undefined
  simp only []
  rw [wtab_readfile_loop_fold db mem _ _ _ (le_refl _), wtab_fold_trace]
  rfl

/-- When `malloc` gives `wenv_init` a block of NULL pointers, `wtab_readfile` keeps to
the defined behaviour, whatever the watchtab. -/
theorem wtab_readfile_defined (db : UserDb) (mem : List env_ptr) (input : List Nat)
    (h : alloc_block WENV_ALLOC_UNIT mem = fresh_block) :
    wtab_readfile_undefined db mem input = false := by
  rw [wtab_readfile_undefined_eq]
  exact wenv_clean_defined _ (env_after_clean db mem _ _ (wtab_env0_clean mem h))

theorem alloc_block_fresh : alloc_block WENV_ALLOC_UNIT fresh_block = fresh_block := by
  decide

/-- On a table without stray slots in which `name` is not set, two calls of `wenv_set`
for `name` without overwrite leave the strings of the table with `name=v1` appended,
the only string for `name`, and `wenv_get` returns `v1`. -/
theorem wenv_set_twice_keep (mem : List env_ptr) (env : watch_env) (name v1 v2 : List Nat)
    (hc : wenv_clean env) (h : wenv_get env name = some none) :
    wenv_dup (wenv_set mem (wenv_set mem env name v1 false) name v2 false)
        = wenv_dup env ++ [env_line name v1]
    ∧ wenv_get (wenv_set mem (wenv_set mem env name v1 false) name v2 false) name
        = some (some (cstr v1))
    ∧ (wenv_dup (wenv_set mem (wenv_set mem env name v1 false) name v2 false)).filter
          (fun L => decide (strncmp L name (strlen name) = 0 ∧ rd L (strlen name) = 61))
        = [env_line name v1] := by
  have hc1 := (wenv_set_clean mem env name v1 false hc).1
  have hc2 := (wenv_set_clean mem _ name v2 false hc1).1
  have hf1 := wenv_get_none env name v1 hc h
  have hf2 := wenv_get_none env name v2 hc h
  have hd1 : wenv_dup (wenv_set mem env name v1 false) = wenv_dup env ++ [env_line name v1] := by
    rw [wenv_dup_set_keep mem env name v1 hc, if_pos hf1]
  have hfind : wenv_set_find (wenv_dup env ++ [env_line name v1]) (env_line name v2)
      (strlen name + 1) 0 = (wenv_dup env).length := by
    have := wenv_set_find_put (env_line name v2) (env_line name v1) (strlen name + 1)
      (strncmp_env_line_self name v1 v2) (wenv_dup env)
    rw [hf2] at this
    simpa [env_put] using this
  have hd2 : wenv_dup (wenv_set mem (wenv_set mem env name v1 false) name v2 false)
      = wenv_dup env ++ [env_line name v1] := by
    rw [wenv_dup_set_keep mem _ name v2 hc1, hd1, hfind, if_neg (by simp)]
  refine ⟨hd2, ?_, ?_⟩
  · rw [wenv_get_clean _ _ hc2, wenv_get_find_eq name v2, hd2, hfind]
    simp [env_line_drop]
  · rw [hd2, List.filter_append]
    have hno : ∀ L ∈ wenv_dup env,
        ¬ (strncmp L name (strlen name) = 0 ∧ rd L (strlen name) = 61) := by
      intro L hL hc
      have h1 := (wenv_set_find_eq_length (wenv_dup env) (env_line name v1)
        (strlen name + 1)).1 hf1 L hL
      rw [strncmp_env_line] at h1
      exact h1 ((strncmp_name_eq name L).2 hc)
    have hyes : strncmp (env_line name v1) name (strlen name) = 0
        ∧ rd (env_line name v1) (strlen name) = 61 := by
      have := strncmp_env_line_self name v1 v1
      rw [strncmp_env_line] at this
      exact (strncmp_name_eq name _).1 this
    have e1 : (wenv_dup env).filter
        (fun L => decide (strncmp L name (strlen name) = 0 ∧ rd L (strlen name) = 61)) = [] := by
      rw [List.filter_eq_nil_iff]
      intro L hL
      simpa using hno L hL
    rw [e1]
    simp [List.filter, hyes]

/-- The frame of `wenv_set` on a table without stray slots, for names `n` and `m` without
`=` that differ as strings: `wenv_get` of `m` returns the same after `wenv_set` of `n`
as before; when `n` was not set the strings of the table are the old ones with `n=v`
appended; when `n` was set they are as many, the old ones (no overwrite) or the old ones
with the string at one index replaced by `n=v` (overwrite). -/
theorem wenv_set_frame (mem : List env_ptr) (env : watch_env) (n m v : List Nat) (ow : Bool)
    (hc : wenv_clean env)
    (hn : 61 ∉ cstr n) (hm : 61 ∉ cstr m) (hne : cstr n ≠ cstr m) :
    wenv_get (wenv_set mem env n v ow) m = wenv_get env m
    ∧ (wenv_get env n = some none →
        wenv_dup (wenv_set mem env n v ow) = wenv_dup env ++ [env_line n v]
        ∧ (wenv_dup (wenv_set mem env n v ow)).length = (wenv_dup env).length + 1)
    ∧ (wenv_get env n ≠ some none →
        (wenv_dup (wenv_set mem env n v ow)).length = (wenv_dup env).length
        ∧ ∃ i, i < (wenv_dup env).length
            ∧ wenv_dup (wenv_set mem env n v ow)
                = if ow = true then (wenv_dup env).set i (env_line n v) else wenv_dup env) := by
  refine ⟨wenv_get_set_other mem env n m v ow hc hn hm hne, ?_, ?_⟩
  · intro h
    have hf := (wenv_get_none_iff env n v hc).1 h
    rw [wenv_dup_set mem env n v ow hc, if_pos hf]
    simp
  · intro h
    have hf : ¬ wenv_set_find (wenv_dup env) (env_line n v) (strlen n + 1) 0
        = (wenv_dup env).length := fun hf => h ((wenv_get_none_iff env n v hc).2 hf)
    have hle := wenv_set_find_le (wenv_dup env) (env_line n v) (strlen n + 1)
    rw [wenv_dup_set mem env n v ow hc, if_neg hf]
    have hlt : wenv_set_find (wenv_dup env) (env_line n v) (strlen n + 1) 0
        < (wenv_dup env).length := by omega
    cases ow with
    | false => exact ⟨rfl, _, hlt, rfl⟩
    | true =>
      exact ⟨by simp,
        wenv_set_find (wenv_dup env) (env_line n v) (strlen n + 1) 0, hlt, by simp⟩

/-! ## The claims -/

/-- C1 (evaluation at the failing input): after the assignment line `FOO=bar`, written
without a blank before the `=`, `wtab_readfile` gives the next entry the envp line
`FOO=bar=bar` and no line `FOO=bar`; when a blank precedes the `=` the line is
`FOO=bar`. -/
theorem C1_assignment_without_blank :
    (wtab_readfile db0 fresh_block [] (str "FOO=bar\n/tmp/a\twrite\techo hi\n")).2.map (fun e => e.envp)
      = [some [str "SHELL=/bin/sh", str "PATH=/usr/bin:/bin", str "FOO=bar=bar",
               str "LOGNAME=root", str "USER=root", str "HOME=/root", str "TRIGGER=/tmp/a"]]
    ∧ (wtab_readfile db0 fresh_block [] (str "FOO =bar\n/tmp/a\twrite\techo hi\n")).2.map (fun e => e.envp)
      = [some [str "SHELL=/bin/sh", str "PATH=/usr/bin:/bin", str "FOO=bar",
               str "LOGNAME=root", str "USER=root", str "HOME=/root", str "TRIGGER=/tmp/a"]] := by
  decide

/-- C2 (evaluation at the failing input): on the 5-field line
`/tmp/watched<TAB>write<TAB>1<TAB>nobody<TAB>echo hi`, with `nobody` in the user
database, `wentry_readline` fails: the user field starts at offset 21 and has length 6,
the NUL is written at `line[6]`, and the login looked up is `nobody<TAB>echo hi`.  The
numeric form `65534` fails in the same way, and on `a<TAB>*<TAB>0<TAB>nobodyXXXXXX<TAB>cmd`
the NUL written at `line[12]` cuts the login to `nobody`, so that a user field naming no
user is accepted with the uid of `nobody`. -/
theorem C2_user_field_not_terminated :
    db0.getpwnam (str "nobody") = some ⟨str "nobody", 65534, 65534, str "/nonexistent"⟩
    ∧ wentry_readline db0 fresh_block wentry_init (str "/tmp/watched\twrite\t1\tnobody\techo hi") (wenv_init fresh_block)
        = none
    ∧ wentry_readline db0 fresh_block wentry_init (str "/tmp/watched\twrite\t1\t65534\techo hi") (wenv_init fresh_block)
        = none
    ∧ db0.getpwnam (str "nobodyXXXXXX") = none
    ∧ (wentry_readline db0 fresh_block wentry_init (str "a\t*\t0\tnobodyXXXXXX\tcmd") (wenv_init fresh_block)).map
        (fun r => r.1.uid) = some 65534
    ∧ (wentry_readline_bounds (str "/tmp/watched\twrite\t1\tnobody\techo hi")).user_first = 21
    ∧ (wentry_readline_bounds (str "/tmp/watched\twrite\t1\tnobody\techo hi")).user_len = 6
    ∧ cstr (((str "/tmp/watched\twrite\t1\tnobody\techo hi").set 6 0).drop 21)
        = str "nobody\techo hi" := by
  decide

/-- C3 (counterexample): a run of four backslashes is copied by `strdupesc` as three
backslashes, not two, and `\\\x` as `\\x`, not `\x`. -/
theorem C3_counterexample :
    strdupesc [92, 92, 92, 92] 4 = [92, 92, 92] ∧ strdupesc [92, 92, 92, 120] 4 = [92, 92, 120] := by
  decide

/-- C3 (amended): on a string without NUL, `strdupesc` copies a byte exactly when it is
not a backslash or the byte just before it in the input is a backslash; so `\x` yields
`x`, `\\` yields one `\`, a run of `k + 1` backslashes yields `k` backslashes, and a
string without backslash is copied unchanged. -/
theorem C3_strdupesc_rule :
    (∀ (a : List Nat) (c : Nat), (∀ x ∈ a, x ≠ 0) → c ≠ 0 →
      strdupesc (a ++ [c]) (a ++ [c]).length
        = strdupesc a a.length ++ (if c ≠ 92 ∨ a.getLast? = some 92 then [c] else []))
    ∧ strdupesc [] 0 = []
    ∧ (∀ x : Nat, x ≠ 0 → x ≠ 92 → strdupesc [92, x] 2 = [x])
    ∧ strdupesc [92, 92] 2 = [92]
    ∧ (∀ k : Nat, strdupesc (List.replicate (k + 1) 92) (k + 1) = List.replicate k 92)
    ∧ (∀ a : List Nat, (∀ x ∈ a, x ≠ 0 ∧ x ≠ 92) → strdupesc a a.length = a) := by
  refine ⟨?_, by decide, ?_, by decide, ?_, ?_⟩
  · intro a c ha hc
    have hac : ∀ x ∈ a ++ [c], x ≠ 0 := by
      intro x hx
      rcases List.mem_append.1 hx with h | h
      · exact ha x h
      · simp at h; rw [h]; exact hc
    rw [strdupesc_eq_unesc _ hac, strdupesc_eq_unesc _ ha, unesc_prev_snoc]
    have : a.getLastD 0 = 92 ↔ a.getLast? = some 92 := by
      rcases List.eq_nil_or_concat a with h1 | ⟨b, d, h1⟩
      · simp [h1]
      · simp [h1]
    simp only [this]
  · intro x hx hx2
    simp [strdupesc, strdupesc_loop, rd, hx, hx2]
  · intro k
    have h := strdupesc_eq_unesc (List.replicate (k + 1) 92) (by
      intro x hx
      rw [List.eq_of_mem_replicate hx]
      decide)
    simp only [List.length_replicate] at h
    rw [h, List.replicate_succ]
    simp [unesc_prev, unesc_prev_backslashes]
  · intro a ha
    rw [strdupesc_eq_unesc a (fun x hx => (ha x hx).1), unesc_prev_plain a 0 (fun x hx => (ha x hx).2)]

/-- C3 (witness): the copy rule at `a\` followed by `\`, the escape `\x`, and a plain
string. -/
theorem C3_strdupesc_rule_witness :
    strdupesc ([97, 92] ++ [92]) ([97, 92] ++ [92]).length
        = strdupesc [97, 92] [97, 92].length ++ (if 92 ≠ 92 ∨ [97, 92].getLast? = some 92 then [92] else [])
    ∧ strdupesc [92, 120] 2 = [120]
    ∧ strdupesc [97, 98] [97, 98].length = [97, 98] :=
  ⟨C3_strdupesc_rule.1 [97, 92] 92 (by decide) (by decide),
   C3_strdupesc_rule.2.2.1 120 (by decide) (by decide),
   C3_strdupesc_rule.2.2.2.2.2 [97, 98] (by decide)⟩

/-- C4 (counterexample): the mixed-case fields `Write` and `wRiTe` are rejected by
`parse_events`. -/
theorem C4_counterexample :
    parse_events (str "Write") 5 = 0 ∧ parse_events (str "wRiTe") 5 = 0 := by
  decide

/-- C4 (amended): for each of the seven event names written all-lowercase or
all-uppercase, a field consisting of that token alone is accepted by `parse_events` and
yields exactly that event's flag, whatever follows the field in the buffer. -/
theorem C4_single_token (e : event) (u : Bool) (rest : List Nat) :
    parse_events (event.spell e u ++ rest) (event.spell e u).length = event.flag e := by
  have := parse_events_run e u [] [] rest (by simp) (by simp) (by simp)
  simpa [run_tail, run_flags] using this

/-- C5 (counterexample): the delay field `99999999999999999999.5` is accepted with
`tv_sec = LONG_MAX`, not with the value of its integer part. -/
theorem C5_counterexample :
    (wentry_readline db0 fresh_block wentry_init (str "/tmp/a\twrite\t99999999999999999999.5\techo hi")
        (wenv_init fresh_block)).map (fun r => r.1.delay) = some ⟨9223372036854775807, 500000000⟩
    ∧ decimal (str "99999999999999999999") = 99999999999999999999 := by
  decide

/-- C5 (amended): for a delay field `S.F` with `S` a non-empty string of decimal digits
whose value is at most `LONG_MAX` and `F` a string of 1 to 9 decimal digits, the delay
block of `wentry_readline` yields `tv_sec = value(S)` and
`tv_nsec = value(F) * 10^(9-k)` wherever the field stands in the line, and a 4-field
line with that delay field (valid events, resolvable login) is accepted with that
delay. -/
theorem C5_delay_fraction (S F : List Nat) (hne : S ≠ [])
    (hS : ∀ c ∈ S, isdigit c = true) (hF : ∀ c ∈ F, isdigit c = true)
    (hk1 : 1 ≤ F.length) (hk9 : F.length ≤ 9) (hmax : (decimal S : Int) ≤ LONG_MAX) :
    (∀ (line rest : List Nat) (delay_first : Nat),
      line.drop delay_first = S ++ [46] ++ F ++ rest → isdigit (rest.headD 0) = false →
      wentry_readline_delay line delay_first (S ++ [46] ++ F).length
        = some ⟨decimal S, (decimal F : Int) * 10 ^ (9 - F.length)⟩)
    ∧ (∀ (db : UserDb) (mem : List env_ptr) (dest : watch_entry) (env : watch_env)
        (f1 f2 f4 : List Nat) (k1 k2 k3 : Nat) (l : List Nat) (p : passwd),
      is_sep_field f1 → is_sep_field f2 → is_field f4 → parse_events f2 f2.length ≠ 0 →
      db.getlogin = some l → db.getpwnam l = some p →
      (wentry_readline db mem dest
          (f1 ++ tabs k1 ++ f2 ++ tabs k2 ++ (S ++ [46] ++ F) ++ tabs k3 ++ f4) env).map
        (fun r => r.1.delay) = some ⟨decimal S, (decimal F : Int) * 10 ^ (9 - F.length)⟩) := by
  constructor
  · intro line rest delay_first hdrop hr
    rw [wentry_readline_delay_drop, hdrop,
      wentry_readline_delay_fraction S F rest hne hS hF hk1 hk9 hr, clamp_long_id _ hmax]
  · intro db mem dest env f1 f2 f4 k1 k2 k3 l p h1 h2 h4 hev hl hp
    have h3 : is_sep_field (S ++ [46] ++ F) := by
      apply digits_sep_field
      · simp
      · intro c hc
        simp only [List.mem_append, List.mem_singleton] at hc
        rcases hc with (hc | hc) | hc
        · exact Or.inl (hS c hc)
        · exact Or.inr hc
        · exact Or.inl (hF c hc)
    rw [wentry_readline_four db mem dest env f1 f2 (S ++ [46] ++ F) f4 k1 k2 k3 l p h1 h2 h3 h4
      hev hl hp]
    have hd := wentry_readline_delay_fraction S F (tabs k3 ++ f4) hne hS hF hk1 hk9
      (by rw [tabs_head]; decide)
    rw [hd, clamp_long_id _ hmax]
    rfl

/-- C5 (witness): the delay fields `2.5` and `1.05`. -/
theorem C5_delay_fraction_witness :
    (wentry_readline db0 fresh_block wentry_init
        (str "/tmp/a" ++ tabs 0 ++ str "write" ++ tabs 0 ++ (str "2" ++ [46] ++ str "5")
          ++ tabs 0 ++ str "echo hi") (wenv_init fresh_block)).map (fun r => r.1.delay)
      = some ⟨decimal (str "2"), (decimal (str "5") : Int) * 10 ^ (9 - (str "5").length)⟩
    ∧ decimal (str "2") = 2
    ∧ (decimal (str "5") : Int) * 10 ^ (9 - (str "5").length) = 500000000
    ∧ wentry_readline_delay (str "1.05") 0 (str "1" ++ [46] ++ str "05").length
      = some ⟨decimal (str "1"), (decimal (str "05") : Int) * 10 ^ (9 - (str "05").length)⟩ :=
  ⟨(C5_delay_fraction (str "2") (str "5") (by decide) (by decide) (by decide) (by decide)
      (by decide) (by decide)).2 db0 fresh_block wentry_init (wenv_init fresh_block) (str "/tmp/a")
      (str "write") (str "echo hi") 0 0 0 (str "root") ⟨str "root", 0, 0, str "/root"⟩
      (by decide) (by decide) (by decide) (by decide) (by decide) (by decide),
   by decide, by decide,
   (C5_delay_fraction (str "1") (str "05") (by decide) (by decide) (by decide) (by decide)
      (by decide) (by decide)).1 (str "1.05") [] 0 (by decide) (by decide)⟩

/-- C6 (evaluation at the failing input): the option `-w 200` makes command-line
processing fail with the usage and `EXIT_FAILURE`, while `-w 200x` is accepted with a
delay of 200 ms; without the option the delay is 100. -/
theorem C6_wait_option_rejected :
    main_cmdline [(119, str "200")] [str "watchtab"] = cmdline_result.exit 1
    ∧ main_cmdline [(119, str "200x")] [str "watchtab"]
        = cmdline_result.run { argerr := false, help := false, daemonize := true, delay := 200,
                               tabpath := some (str "watchtab") }
    ∧ main_cmdline [] [str "watchtab"]
        = cmdline_result.run { argerr := false, help := false, daemonize := true, delay := 100,
                               tabpath := some (str "watchtab") } := by
  decide

/-- C7 (evaluation at the failing input): the entry lines with delay fields `-5` and
`1.-5` are accepted, with `tv_sec = -5` and with `tv_nsec = -50000000`. -/
theorem C7_negative_delay_accepted :
    (wentry_readline db0 fresh_block wentry_init (str "/tmp/a\twrite\t-5\techo hi") (wenv_init fresh_block)).map
        (fun r => r.1.delay) = some ⟨-5, 0⟩
    ∧ (wentry_readline db0 fresh_block wentry_init (str "/tmp/a\twrite\t1.-5\techo hi") (wenv_init fresh_block)).map
        (fun r => r.1.delay) = some ⟨1, -50000000⟩ := by
  decide

/-- C8: for a non-empty list of event names, each all-lowercase or all-uppercase, joined
by exactly one non-letter byte, `parse_events` returns the bitwise OR of the flags of
the names; two such lists with the same set of names (repeated or reordered names) give
the same result. -/
theorem C8_parse_events_or (e : event) (u : Bool) (m : List (Nat × event × Bool))
    (rest : List Nat) (hm : ∀ x ∈ m, isletter x.1 = false) :
    parse_events (event.spell e u ++ run_tail m ++ rest) (event.spell e u ++ run_tail m).length
      = event.flag e ||| run_flags m
    ∧ ∀ (e1 : event) (u1 : Bool) (m1 : List (Nat × event × Bool)) (rest1 : List Nat),
      (∀ x ∈ m1, isletter x.1 = false) →
      (∀ ev, ev ∈ run_names e m ↔ ev ∈ run_names e1 m1) →
      parse_events (event.spell e1 u1 ++ run_tail m1 ++ rest1)
          (event.spell e1 u1 ++ run_tail m1).length
        = parse_events (event.spell e u ++ run_tail m ++ rest)
            (event.spell e u ++ run_tail m).length := by
  have key : ∀ (e : event) (u : Bool) (m : List (Nat × event × Bool)) (rest : List Nat),
      (∀ x ∈ m, isletter x.1 = false) →
      parse_events (event.spell e u ++ run_tail m ++ rest) (event.spell e u ++ run_tail m).length
        = event.flag e ||| run_flags m := by
    intro e u m rest hm
    have := parse_events_run e u m [] rest hm (by simp) (by simp)
    simpa using this
  refine ⟨key e u m rest hm, ?_⟩
  intro e1 u1 m1 rest1 hm1 hset
  rw [key e u m rest hm, key e1 u1 m1 rest1 hm1]
  exact (run_flags_congr e e1 m m1 hset).symm

/-- C8 (witness): `write,LINK` yields WRITE|LINK, and so does `link write;WRITE`. -/
theorem C8_parse_events_or_witness :
    parse_events (event.spell .write false ++ run_tail [(44, .link, true)] ++ [9, 120])
        (event.spell .write false ++ run_tail [(44, .link, true)]).length
      = event.flag .write ||| run_flags [(44, .link, true)]
    ∧ parse_events (event.spell .link false
          ++ run_tail [(32, .write, false), (59, .write, true)] ++ [])
        (event.spell .link false ++ run_tail [(32, .write, false), (59, .write, true)]).length
      = parse_events (event.spell .write false ++ run_tail [(44, .link, true)] ++ [9, 120])
        (event.spell .write false ++ run_tail [(44, .link, true)]).length :=
  ⟨(C8_parse_events_or .write false [(44, .link, true)] [9, 120] (by decide)).1,
   (C8_parse_events_or .write false [(44, .link, true)] [9, 120] (by decide)).2
     .link false [(32, .write, false), (59, .write, true)] [] (by decide)
     (fun ev => by cases ev <;> decide)⟩

/-- C9 (counterexample): the field `write,`, with a separator after the last token, is
accepted by `parse_events` with the flag of WRITE. -/
theorem C9_counterexample : parse_events (str "write,") 6 = NOTE_WRITE ∧ NOTE_WRITE ≠ 0 := by
  decide

/-- C9 (amended): `parse_events` rejects every events field that is neither the literal
`*` nor a run of all-lowercase or all-uppercase event tokens separated by exactly one
non-letter byte, possibly followed by one further non-letter byte (stated as: every
field it accepts, with a result other than 0, has one of these forms); in particular an
empty field, a field that does not start with an event name (an unrecognised word, a
separator before the first token), a token directly followed by a letter (two tokens
without separator), two consecutive separator bytes after a token, and an unrecognised
word after a separator are all rejected. -/
theorem C9_parse_events_rejects :
    (∀ f rest : List Nat, isletter (rest.headD 0) = false →
      parse_events (f ++ rest) f.length ≠ 0 →
      f = [42] ∨ ∃ e u m tr, (∀ x ∈ m, isletter x.1 = false) ∧ tr.length ≤ 1 ∧
        (∀ c ∈ tr, isletter c = false) ∧ f = event.spell e u ++ run_tail m ++ tr)
    ∧ (∀ rest : List Nat, parse_events rest 0 = 0)
    ∧ (∀ g rest : List Nat, g ≠ [] → g ≠ [42] → event_token (g ++ rest) = none →
        parse_events (g ++ rest) g.length = 0)
    ∧ (∀ (s : Nat) (g rest : List Nat), isletter s = false → s :: g ≠ [42] →
        parse_events (s :: g ++ rest) (s :: g).length = 0)
    ∧ (∀ (e : event) (u : Bool) (m : List (Nat × event × Bool)) (c : Nat) (g rest : List Nat),
        (∀ x ∈ m, isletter x.1 = false) → isletter c = true →
        parse_events ((event.spell e u ++ run_tail m ++ c :: g) ++ rest)
          (event.spell e u ++ run_tail m ++ c :: g).length = 0)
    ∧ (∀ (e : event) (u : Bool) (m : List (Nat × event × Bool)) (s1 s2 : Nat)
        (g rest : List Nat), (∀ x ∈ m, isletter x.1 = false) →
        isletter s1 = false → isletter s2 = false →
        parse_events ((event.spell e u ++ run_tail m ++ s1 :: s2 :: g) ++ rest)
          (event.spell e u ++ run_tail m ++ s1 :: s2 :: g).length = 0)
    ∧ (∀ (e : event) (u : Bool) (m : List (Nat × event × Bool)) (s : Nat) (g rest : List Nat),
        (∀ x ∈ m, isletter x.1 = false) → isletter s = false → g ≠ [] →
        event_token (g ++ rest) = none →
        parse_events ((event.spell e u ++ run_tail m ++ s :: g) ++ rest)
          (event.spell e u ++ run_tail m ++ s :: g).length = 0) := by
  refine ⟨parse_events_accept, ?_, parse_events_first, ?_, ?_, ?_, ?_⟩
  · intro rest
    simp [parse_events, parse_events_loop]
  · intro s g rest hs hstar
    exact parse_events_first (s :: g) rest (by simp) hstar
      (event_token_letter _ (by simpa using hs))
  · intro e u m c g rest hm hc
    exact parse_events_reject e u m (c :: g) rest hm (Or.inl ⟨c, g, rfl, hc⟩)
  · intro e u m s1 s2 g rest hm h1 h2
    exact parse_events_reject e u m (s1 :: s2 :: g) rest hm
      (Or.inr ⟨s1, s2 :: g, rfl, h1, by simp, event_token_letter _ (by simpa using h2)⟩)
  · intro e u m s g rest hm hs hg htok
    exact parse_events_reject e u m (s :: g) rest hm (Or.inr ⟨s, g, rfl, hs, hg, htok⟩)

/-- C9 (witness): `,write`, `writelink`, `write,,link` and `write,foo` are rejected. -/
theorem C9_parse_events_rejects_witness :
    parse_events (44 :: str "write" ++ []) (44 :: str "write").length = 0
    ∧ parse_events ((event.spell .write false ++ run_tail [] ++ 108 :: str "ink") ++ [])
        (event.spell .write false ++ run_tail [] ++ 108 :: str "ink").length = 0
    ∧ parse_events ((event.spell .write false ++ run_tail [] ++ 44 :: 44 :: str "link") ++ [])
        (event.spell .write false ++ run_tail [] ++ 44 :: 44 :: str "link").length = 0
    ∧ parse_events ((event.spell .write false ++ run_tail [] ++ 44 :: str "foo") ++ [])
        (event.spell .write false ++ run_tail [] ++ 44 :: str "foo").length = 0 :=
  ⟨C9_parse_events_rejects.2.2.2.1 44 (str "write") [] (by decide) (by decide),
   C9_parse_events_rejects.2.2.2.2.1 .write false [] 108 (str "ink") [] (by decide) (by decide),
   C9_parse_events_rejects.2.2.2.2.2.1 .write false [] 44 44 (str "link") [] (by decide)
     (by decide) (by decide),
   C9_parse_events_rejects.2.2.2.2.2.2 .write false [] 44 (str "foo") [] (by decide)
     (by decide) (by decide) (by decide)⟩

/-- C10: on a line of exactly three fields separated by runs of tabs (fields are
non-empty, NUL-free, with every tab inside them preceded by a backslash, and the first
two do not end in a backslash), with a valid events field and a resolvable current
login, `wentry_readline` succeeds with delay 0 s 0 ns, uid 0, gid 0, no chroot, path the
unescaped first field and command the unescaped third field. -/
theorem C10_three_field_line (db : UserDb) (mem : List env_ptr) (dest : watch_entry)
    (env : watch_env)
    (f1 f2 f3 : List Nat) (k1 k2 : Nat) (l : List Nat) (p : passwd)
    (h1 : is_sep_field f1) (h2 : is_sep_field f2) (h3 : is_field f3)
    (hev : parse_events f2 f2.length ≠ 0)
    (hl : db.getlogin = some l) (hp : db.getpwnam l = some p) :
    wentry_readline db mem dest (f1 ++ tabs k1 ++ f2 ++ tabs k2 ++ f3) env
      = some ({ path := some (strdupesc f1 f1.length), events := parse_events f2 f2.length,
                delay := ⟨0, 0⟩, uid := 0, gid := 0, chroot := none,
                command := some (strdupesc f3 f3.length),
                envp := some (wenv_dup (entry_env mem env p (strdupesc f1 f1.length))), fd := -1 },
              entry_env mem env p (strdupesc f1 f1.length)) :=
  wentry_readline_three db mem dest env f1 f2 f3 k1 k2 l p h1 h2 h3 hev hl hp

/-- C10 (witness): the line `/tmp/a<TAB>write<TAB>echo hi`. -/
theorem C10_three_field_line_witness :
    wentry_readline db0 fresh_block wentry_init
        (str "/tmp/a" ++ tabs 0 ++ str "write" ++ tabs 0 ++ str "echo hi") (wenv_init fresh_block)
      = some ({ path := some (strdupesc (str "/tmp/a") (str "/tmp/a").length),
                events := parse_events (str "write") (str "write").length,
                delay := ⟨0, 0⟩, uid := 0, gid := 0, chroot := none,
                command := some (strdupesc (str "echo hi") (str "echo hi").length),
                envp := some (wenv_dup (entry_env fresh_block (wenv_init fresh_block) ⟨str "root", 0, 0, str "/root"⟩
                  (strdupesc (str "/tmp/a") (str "/tmp/a").length))), fd := -1 },
              entry_env fresh_block (wenv_init fresh_block) ⟨str "root", 0, 0, str "/root"⟩
                (strdupesc (str "/tmp/a") (str "/tmp/a").length)) :=
  C10_three_field_line db0 fresh_block wentry_init (wenv_init fresh_block) (str "/tmp/a") (str "write") (str "echo hi")
    0 0 (str "root") ⟨str "root", 0, 0, str "/root"⟩ (by decide) (by decide) (by decide)
    (by decide) (by decide) (by decide)

/-- C11: a line of one field, or of two fields separated by a run of unescaped tabs, is
rejected by `wentry_readline` (the line being followed by its terminating NUL), and as a
line of a watchtab (after leading blanks, before trailing CR, blanks and the newline, the
newline being optional on the last line) it makes `wtab_readfile` return -1 and leaves
the table as it is without the line. -/
theorem C11_fewer_than_three_fields (db : UserDb) (mem : List env_ptr) (dest : watch_entry)
    (env : watch_env)
    (tab : List watch_entry) (core z pre lead trail nl post : List Nat)
    (hcore : is_field core
      ∨ ∃ f1 k f2, core = f1 ++ tabs k ++ f2 ∧ is_sep_field f1 ∧ is_field f2)
    (hz : z.headD 0 = 0)
    (hpre : pre = [] ∨ pre.getLast? = some 10)
    (hlead : ∀ c ∈ lead, c = 32 ∨ c = 9)
    (htrail : ∀ c ∈ trail, c = 13 ∨ c = 32 ∨ c = 9)
    (hnl : nl = [10] ∨ (nl = [] ∧ post = []))
    (h10 : ∀ c ∈ core, c ≠ 10)
    (h32 : core.headD 0 ≠ 32) (h35 : core.headD 0 ≠ 35)
    (hlast : is_trailing (core.getLastD 0) = false)
    (hsp : first_special core ≠ some 61) :
    wentry_readline db mem dest (core ++ z) env = none
    ∧ wtab_readfile db mem tab (pre ++ (lead ++ core ++ trail ++ nl) ++ post)
        = (-1, (wtab_readfile db mem tab (pre ++ post)).2) := by
  obtain ⟨hne, h9, h0, hrej⟩ := short_line db mem core hcore
  refine ⟨hrej dest env z hz, ?_⟩
  have htr : ∀ c ∈ trail ++ nl, is_trailing c = true := by
    intro c hc
    rcases List.mem_append.1 hc with h | h
    · rcases htrail c h with h1 | h1 | h1 <;> rw [h1] <;> decide
    · rcases hnl with h1 | ⟨h1, _⟩ <;> rw [h1] at h <;> simp at h
      rw [h]; decide
  have hcl := (classify_line_core lead core (trail ++ nl) hlead htr hne ⟨h32, h9⟩ hlast h35
    h0).2 hsp
  have hb : ∀ c ∈ lead ++ core ++ trail, c ≠ 10 := by
    intro c hc
    simp only [List.mem_append] at hc
    rcases hc with (hc | hc) | hc
    · rcases hlead c hc with h | h <;> omega
    · exact h10 c hc
    · rcases htrail c hc with h | h | h <;> omega
  refine wtab_readfile_insert_rejected db mem tab pre (lead ++ core ++ trail) nl post hpre hb ?_ ?_
  · rcases hnl with h | ⟨h1, h2⟩
    · exact Or.inl h
    · exact Or.inr ⟨h1, h2, by simp [hne]⟩
  · intro st
    rw [wtab_readfile_line_classify, List.append_assoc (lead ++ core), hcl]
    simp only []
    rw [hrej wentry_init st.env _ (set_zero_head _)]

/-- C11 (witness): the one-field line `/tmp/a` between two lines of a watchtab. -/
theorem C11_fewer_than_three_fields_witness :
    wentry_readline db0 fresh_block wentry_init (str "/tmp/a" ++ [0]) (wenv_init fresh_block) = none
    ∧ wtab_readfile db0 fresh_block [] (str "a\twrite\tb\n" ++ ([32] ++ str "/tmp/a" ++ [13] ++ [10])
          ++ str "c\twrite\td\n")
        = (-1, (wtab_readfile db0 fresh_block [] (str "a\twrite\tb\n" ++ str "c\twrite\td\n")).2) :=
  C11_fewer_than_three_fields db0 fresh_block wentry_init (wenv_init fresh_block) [] (str "/tmp/a") [0]
    (str "a\twrite\tb\n") [32] [13] [10] (str "c\twrite\td\n")
    (Or.inl (by decide)) (by decide) (Or.inr (by decide)) (by decide) (by decide)
    (Or.inl rfl) (by decide) (by decide) (by decide) (by decide) (by decide)

/-- C12: a watchtab line made of leading blanks, a core without NUL that is not empty,
starts neither with a blank nor with `#` and does not end with a trimmed byte, and
trailing CR, LF and blanks, is handled by the reading loop of `wtab_readfile` according
to the first byte among `=`, backslash and TAB after the leading blanks: when it is `=`
the loop only calls `wenv_set` (table and return value unchanged); otherwise, also when
there is none, the loop calls `wentry_readline` on the core and pushes the entry or
records the failure. -/
theorem C12_line_classification (db : UserDb) (mem : List env_ptr) (st : wtab_state)
    (lead core trail : List Nat)
    (hlead : ∀ c ∈ lead, c = 32 ∨ c = 9) (htrail : ∀ c ∈ trail, is_trailing c = true)
    (hne : core ≠ []) (hhead : core.headD 0 ≠ 32 ∧ core.headD 0 ≠ 9)
    (hlast : is_trailing (core.getLastD 0) = false) (h35 : core.headD 0 ≠ 35)
    (h0 : ∀ c ∈ core, c ≠ 0) :
    (first_special (core ++ trail) = some 61 →
      ∃ name value, wtab_readfile_line db mem (lead ++ core ++ trail) st
        = { env := wenv_set mem st.env name value true, tab := st.tab, result := st.result })
    ∧ (first_special (core ++ trail) ≠ some 61 →
      wtab_readfile_line db mem (lead ++ core ++ trail) st
        = match wentry_readline db mem wentry_init (core ++ trail.set 0 0) st.env with
          | none => { env := st.env, tab := st.tab, result := -1 }
          | some (e, env) => { env := env, tab := e :: st.tab, result := st.result }) := by
  have hcl := classify_line_core lead core trail hlead htrail hne hhead hlast h35 h0
  have hiff := first_special_trail trail htrail core
  constructor
  · intro h
    obtain ⟨name, value, hc⟩ := hcl.1 (hiff.1 h)
    exact ⟨name, value, by rw [wtab_readfile_line_classify, hc]⟩
  · intro h
    have hstep := wtab_readfile_line_classify db mem (lead ++ core ++ trail) st
    rw [hcl.2 (fun h1 => h (hiff.2 h1))] at hstep
    exact hstep

/-- C12 (witness): the lines ` FOO = bar` and `FOO\= bar`, each with CR LF. -/
theorem C12_line_classification_witness :
    (∃ name value, wtab_readfile_line db0 fresh_block ([32] ++ str "FOO = bar" ++ [13, 10])
          ⟨(wtab_env0 fresh_block), [], 0⟩
        = { env := wenv_set fresh_block (wtab_env0 fresh_block) name value true, tab := [], result := 0 })
    ∧ wtab_readfile_line db0 fresh_block ([] ++ str "FOO\\= bar" ++ [13, 10]) ⟨(wtab_env0 fresh_block), [], 0⟩
        = (match wentry_readline db0 fresh_block wentry_init (str "FOO\\= bar" ++ [13, 10].set 0 0)
            (wtab_env0 fresh_block) with
          | none => { env := (wtab_env0 fresh_block), tab := [], result := -1 }
          | some (e, env) => { env := env, tab := e :: [], result := 0 }) :=
  ⟨(C12_line_classification db0 fresh_block ⟨(wtab_env0 fresh_block), [], 0⟩ [32] (str "FOO = bar") [13, 10]
      (by decide) (by decide) (by decide) (by decide) (by decide) (by decide) (by decide)).1
      (by decide),
   (C12_line_classification db0 fresh_block ⟨(wtab_env0 fresh_block), [], 0⟩ [] (str "FOO\\= bar") [13, 10]
      (by decide) (by decide) (by decide) (by decide) (by decide) (by decide) (by decide)).2
      (by decide)⟩

/-- C13: on a three-field entry line whose path field is `a`, a run of `k + 1`
backslashes, a TAB and `b` (`a` not ending in a backslash), the field splitter ends the
path field after `b`, not at the escaped tab, and the entry is accepted with the path
`a`, `k` backslashes, the TAB and `b` (both unescaped), the events of the second field and
the command of the third. -/
theorem C13_escaped_tab_in_path (db : UserDb) (mem : List env_ptr) (dest : watch_entry)
    (env : watch_env)
    (a b f2 f3 : List Nat) (k k1 k2 : Nat) (l : List Nat) (p : passwd)
    (ha : a.getLast? ≠ some 92)
    (h1 : is_sep_field (a ++ List.replicate (k + 1) 92 ++ [9] ++ b))
    (h2 : is_sep_field f2) (h3 : is_field f3)
    (hev : parse_events f2 f2.length ≠ 0)
    (hl : db.getlogin = some l) (hp : db.getpwnam l = some p) :
    (wentry_readline_bounds
        (a ++ List.replicate (k + 1) 92 ++ [9] ++ b ++ tabs k1 ++ f2 ++ tabs k2 ++ f3)).path_len
      = a.length + (k + 1) + 1 + b.length
    ∧ ∃ e env1,
        wentry_readline db mem dest
          (a ++ List.replicate (k + 1) 92 ++ [9] ++ b ++ tabs k1 ++ f2 ++ tabs k2 ++ f3) env
          = some (e, env1)
        ∧ e.path = some (strdupesc a a.length ++ List.replicate k 92 ++ 9 :: strdupesc b b.length)
        ∧ e.events = parse_events f2 f2.length
        ∧ e.command = some (strdupesc f3 f3.length) := by
  have h0 := is_field_no_nul _ 0 h1.1.2
  have h0a : ∀ x ∈ a, x ≠ 0 := fun x hx => h0 x (by simp [hx])
  have h0b : ∀ x ∈ b, x ≠ 0 := fun x hx => h0 x (by simp [hx])
  constructor
  · rw [wentry_readline_bounds_three _ _ f2 f3 k1 k2 rfl h1 h2 h3]
    simp
    omega
  · refine ⟨_, _, wentry_readline_three db mem dest env _ f2 f3 k1 k2 l p h1 h2 h3 hev hl hp,
      ?_, rfl, rfl⟩
    simp only []
    rw [strdupesc_escaped_tab a b k ha h0a h0b]

/-- C13 (witness): the line `a\<TAB>b<TAB>write<TAB>cmd` gives the path `a<TAB>b`, the
events NOTE_WRITE and the command `cmd`. -/
theorem C13_escaped_tab_in_path_witness :
    (wentry_readline_bounds
        (str "a" ++ List.replicate (0 + 1) 92 ++ [9] ++ str "b" ++ tabs 0 ++ str "write"
          ++ tabs 0 ++ str "cmd")).path_len
      = (str "a").length + (0 + 1) + 1 + (str "b").length
    ∧ ∃ e env1,
        wentry_readline db0 fresh_block wentry_init
          (str "a" ++ List.replicate (0 + 1) 92 ++ [9] ++ str "b" ++ tabs 0 ++ str "write"
            ++ tabs 0 ++ str "cmd") (wenv_init fresh_block)
          = some (e, env1)
        ∧ e.path = some (strdupesc (str "a") (str "a").length ++ List.replicate 0 92
            ++ 9 :: strdupesc (str "b") (str "b").length)
        ∧ e.events = parse_events (str "write") (str "write").length
        ∧ e.command = some (strdupesc (str "cmd") (str "cmd").length) :=
  C13_escaped_tab_in_path db0 fresh_block wentry_init (wenv_init fresh_block) (str "a") (str "b") (str "write")
    (str "cmd") 0 0 0 (str "root") ⟨str "root", 0, 0, str "/root"⟩
    (by decide) (by decide) (by decide) (by decide) (by decide) (by decide) (by decide)

/-- C14 (evaluation at the failing input): on the watchtab
`/tmp/a<TAB>write<TAB>echo hi`, `b<TAB>*<TAB>0<TAB>nobodyXXXXXX<TAB>cmd`, read with the
login `root`, the second entry is resolved to `nobody` (uid 65534, home `/nonexistent`)
and no line assigns HOME, yet its envp holds `HOME=/root`, the home of the user of the
first entry; with the two lines exchanged the entry of `root` holds
`HOME=/nonexistent`.  The table lists the last entry first. -/
theorem C14_home_of_an_earlier_user :
    db0.getpwnam (str "nobody") = some ⟨str "nobody", 65534, 65534, str "/nonexistent"⟩
    ∧ (wtab_readfile db0 fresh_block []
        (str "/tmp/a\twrite\techo hi\nb\t*\t0\tnobodyXXXXXX\tcmd\n")).2.map
          (fun e => (e.uid, e.envp))
      = [(65534, some [str "SHELL=/bin/sh", str "PATH=/usr/bin:/bin", str "LOGNAME=nobody",
                       str "USER=nobody", str "HOME=/root", str "TRIGGER=b"]),
         (0, some [str "SHELL=/bin/sh", str "PATH=/usr/bin:/bin", str "LOGNAME=root",
                   str "USER=root", str "HOME=/root", str "TRIGGER=/tmp/a"])]
    ∧ (wtab_readfile db0 fresh_block []
        (str "b\t*\t0\tnobodyXXXXXX\tcmd\n/tmp/a\twrite\techo hi\n")).2.map
          (fun e => (e.uid, e.envp))
      = [(0, some [str "SHELL=/bin/sh", str "PATH=/usr/bin:/bin", str "LOGNAME=root",
                   str "USER=root", str "HOME=/nonexistent", str "TRIGGER=/tmp/a"]),
         (65534, some [str "SHELL=/bin/sh", str "PATH=/usr/bin:/bin", str "LOGNAME=nobody",
                       str "USER=nobody", str "HOME=/nonexistent", str "TRIGGER=b"])] := by
  decide

/-- C15 (evaluation at the failing input): after the two assignment lines `TRIGGER=x`
and `TRIGGER=y`, the entry of the line `/tmp/a<TAB>write<TAB>echo hi` has two envp lines
that start with `TRIGGER=`, namely `TRIGGER=/tmp/a` and `TRIGGER=y=y`; when a blank
precedes each `=` there is the single line `TRIGGER=/tmp/a`. -/
theorem C15_two_trigger_lines :
    (wtab_readfile db0 fresh_block []
        (str "TRIGGER=x\nTRIGGER=y\n/tmp/a\twrite\techo hi\n")).2.map (fun e => e.envp)
      = [some [str "SHELL=/bin/sh", str "PATH=/usr/bin:/bin", str "TRIGGER=/tmp/a",
               str "TRIGGER=y=y", str "LOGNAME=root", str "USER=root", str "HOME=/root"]]
    ∧ (wtab_readfile db0 fresh_block []
        (str "TRIGGER =x\nTRIGGER =y\n/tmp/a\twrite\techo hi\n")).2.map (fun e => e.envp)
      = [some [str "SHELL=/bin/sh", str "PATH=/usr/bin:/bin", str "TRIGGER=/tmp/a",
               str "LOGNAME=root", str "USER=root", str "HOME=/root"]] := by
  decide

/-- C16: `wtab_readfile` returns -1 exactly when `wentry_readline` rejects one of the
entry lines of the input, and 0 otherwise; in both cases the table it leaves is the
given one with, pushed on it, the entries of the accepted entry lines, the last line
first.  This holds whatever the block holds that `malloc` returns to `wenv_init`, and
the return value is the same as with a block of NULL pointers, with which the call keeps
to the defined behaviour. -/
theorem C16_result_and_table (db : UserDb) (mem : List env_ptr) (tab : List watch_entry)
    (input : List Nat) :
    ((wtab_readfile db mem tab input).1 = -1
        ↔ none ∈ line_outcomes db mem (file_lines input) (wtab_env0 mem))
    ∧ ((wtab_readfile db mem tab input).1 = 0
        ↔ none ∉ line_outcomes db mem (file_lines input) (wtab_env0 mem))
    ∧ (wtab_readfile db mem tab input).2
        = (accepted (line_outcomes db mem (file_lines input) (wtab_env0 mem))).reverse ++ tab
    ∧ (wtab_readfile db mem tab input).1 = (wtab_readfile db fresh_block tab input).1
    ∧ wtab_readfile_undefined db fresh_block input = false := by
  refine ⟨?_, ?_, ?_, wtab_readfile_result db mem fresh_block tab tab input,
    wtab_readfile_defined db fresh_block input alloc_block_fresh⟩
  · rw [wtab_readfile_trace]
    by_cases h : none ∈ line_outcomes db mem (file_lines input) (wtab_env0 mem)
    · simp [h]
    · simp [h]
  · rw [wtab_readfile_trace]
    by_cases h : none ∈ line_outcomes db mem (file_lines input) (wtab_env0 mem)
    · simp [h]
    · simp [h]
  · rw [wtab_readfile_trace]

/-- C17: a line made only of spaces, tabs and CR, or whose first byte after leading
spaces and tabs is `#`, inserted at a line boundary of a watchtab (with its newline, or
without it as the last line), changes neither the return value of `wtab_readfile` nor
the table it produces. -/
theorem C17_blank_and_comment_lines (db : UserDb) (mem : List env_ptr) (tab : List watch_entry)
    (pre b nl post : List Nat) (hpre : pre = [] ∨ pre.getLast? = some 10)
    (hb : ∀ c ∈ b, c ≠ 10) (hnl : nl = [10] ∨ (nl = [] ∧ post = [] ∧ b ≠ []))
    (hkind : (∀ c ∈ b, c = 32 ∨ c = 9 ∨ c = 13)
      ∨ ∃ lead rest, b = lead ++ 35 :: rest ∧ ∀ c ∈ lead, c = 32 ∨ c = 9) :
    wtab_readfile db mem tab (pre ++ (b ++ nl) ++ post) = wtab_readfile db mem tab (pre ++ post) := by
  refine wtab_readfile_insert_skipped db mem tab pre b nl post hpre hb hnl ?_
  rcases hkind with h | ⟨lead, rest, rfl, hlead⟩
  · refine classify_line_blank_line b nl h ?_
    rcases hnl with h1 | ⟨h1, _⟩
    · exact Or.inr h1
    · exact Or.inl h1
  · have := classify_line_comment lead (rest ++ nl) hlead
    rw [List.append_assoc, List.cons_append]
    exact this

/-- C17 (witness): a blank line with CR and a comment line between two entry lines. -/
theorem C17_blank_and_comment_lines_witness :
    wtab_readfile db0 fresh_block [] (str "a\twrite\tb\n" ++ (str " \t\r" ++ [10]) ++ str "c\twrite\td\n")
        = wtab_readfile db0 fresh_block [] (str "a\twrite\tb\n" ++ str "c\twrite\td\n")
    ∧ wtab_readfile db0 fresh_block [] (str "a\twrite\tb\n" ++ (str "  # c=d" ++ [10]) ++ str "c\twrite\td\n")
        = wtab_readfile db0 fresh_block [] (str "a\twrite\tb\n" ++ str "c\twrite\td\n") :=
  ⟨C17_blank_and_comment_lines db0 fresh_block [] (str "a\twrite\tb\n") (str " \t\r") [10]
      (str "c\twrite\td\n") (Or.inr (by decide)) (by decide) (Or.inl rfl)
      (Or.inl (by decide)),
   C17_blank_and_comment_lines db0 fresh_block [] (str "a\twrite\tb\n") (str "  # c=d") [10]
      (str "c\twrite\td\n") (Or.inr (by decide)) (by decide) (Or.inl rfl)
      (Or.inr ⟨str "  ", str " c=d", by decide, by decide⟩)⟩

/-- C18: the table after a watchtab `pre ++ x`, `pre` ending at a line boundary, is the
table after `pre` with the entries of the lines of `x` pushed on it, so the entries of
`pre`, envp included, do not depend on `x`; and when `x` starts with an assignment line
for which the call of `wenv_set` keeps to the defined behaviour, the variable line that
`wenv_set` stores for it is in the envp of every entry of the lines that follow, as long
as none of them assigns the same variable again and the variable is not one of LOGNAME,
USER and TRIGGER, which each entry line sets.  This holds whatever the block holds that
`malloc` returns to `wenv_init`. -/
theorem C18_assignments_apply_forward (db : UserDb) (mem : List env_ptr)
    (tab : List watch_entry)
    (pre x b nl post name value : List Nat) (hpre : pre = [] ∨ pre.getLast? = some 10)
    (hb : ∀ c ∈ b, c ≠ 10) (hnl : nl = [10] ∨ (nl = [] ∧ post = [] ∧ b ≠ []))
    (hcl : classify_line (b ++ nl) = line_class.assignment name value)
    (h1 : strncmp (env_line name value) (str "LOGNAME=") 8 ≠ 0)
    (h2 : strncmp (env_line name value) (str "USER=") 5 ≠ 0)
    (h3 : strncmp (env_line name value) (str "TRIGGER=") 8 ≠ 0)
    (hk : ∀ l ∈ file_lines post, keeps_line (env_line name value) l)
    (hd : (wenv_set mem (env_after db mem (file_lines pre) (wtab_env0 mem)) name value
            true).undefined = false) :
    (wtab_readfile db mem tab (pre ++ x)).2
        = (accepted (line_outcomes db mem (file_lines x)
            (env_after db mem (file_lines pre) (wtab_env0 mem)))).reverse
          ++ (wtab_readfile db mem tab pre).2
    ∧ (wtab_readfile db mem tab (pre ++ (b ++ nl ++ post))).2
        = (accepted (line_outcomes db mem (file_lines post)
            (wenv_set mem (env_after db mem (file_lines pre) (wtab_env0 mem)) name value
              true))).reverse
          ++ (wtab_readfile db mem tab pre).2
    ∧ ∀ e ∈ accepted (line_outcomes db mem (file_lines post)
            (wenv_set mem (env_after db mem (file_lines pre) (wtab_env0 mem)) name value
              true)),
        ∃ envp, e.envp = some envp ∧ env_line name value ∈ envp := by
  have hok := env_after_ok db mem (file_lines pre) (wtab_env0 mem) (wtab_env0_ok mem)
  refine ⟨wtab_readfile_frame db mem tab pre x hpre, ?_, ?_⟩
  · have hfl : file_lines (b ++ nl ++ post) = (b ++ nl) :: file_lines post :=
      file_lines_insert [] b nl post (Or.inl rfl) hb hnl
    rw [wtab_readfile_frame db mem tab pre _ hpre, hfl, line_outcomes_cons, hcl]
  · exact visible_lines db mem (env_line name value) h1 h2 h3 (file_lines post) _
      (wenv_set_ok _ _ _ _ _ hok) (wenv_set_mem_new mem _ name value hok hd) hk

/-- C18 (witness): the assignment line `FOO = bar` after one entry line and before
another, `malloc` returning a block of NULL pointers: the entry of the first line is the
same as without what follows, and the envp of the entry of the last line holds
`FOO=bar`. -/
theorem C18_assignments_apply_forward_witness :
    (wtab_readfile db0 fresh_block [] (str "a\twrite\tb\n" ++ str "FOO = bar\nc\twrite\td\n")).2
        = (accepted (line_outcomes db0 fresh_block (file_lines (str "FOO = bar\nc\twrite\td\n"))
            (env_after db0 fresh_block (file_lines (str "a\twrite\tb\n"))
              (wtab_env0 fresh_block)))).reverse
          ++ (wtab_readfile db0 fresh_block [] (str "a\twrite\tb\n")).2
    ∧ (wtab_readfile db0 fresh_block [] (str "a\twrite\tb\n"
          ++ (str "FOO = bar" ++ [10] ++ str "c\twrite\td\n"))).2
        = (accepted (line_outcomes db0 fresh_block (file_lines (str "c\twrite\td\n"))
            (wenv_set fresh_block (env_after db0 fresh_block (file_lines (str "a\twrite\tb\n"))
                (wtab_env0 fresh_block))
              [70, 79, 79, 0, 61, 32, 98, 97, 114, 0] [98, 97, 114, 0] true))).reverse
          ++ (wtab_readfile db0 fresh_block [] (str "a\twrite\tb\n")).2
    ∧ ∃ envp,
        (some [str "SHELL=/bin/sh", str "PATH=/usr/bin:/bin", str "LOGNAME=root",
               str "USER=root", str "HOME=/root", str "TRIGGER=c", str "FOO=bar"]) = some envp
        ∧ env_line [70, 79, 79, 0, 61, 32, 98, 97, 114, 0] [98, 97, 114, 0] ∈ envp :=
  ⟨(C18_assignments_apply_forward db0 fresh_block [] (str "a\twrite\tb\n")
      (str "FOO = bar\nc\twrite\td\n") (str "FOO = bar") [10] (str "c\twrite\td\n")
      [70, 79, 79, 0, 61, 32, 98, 97, 114, 0] [98, 97, 114, 0] (Or.inr (by decide))
      (by decide) (Or.inl rfl) (by decide) (by decide) (by decide) (by decide) (by decide)
      (by decide)).1,
   (C18_assignments_apply_forward db0 fresh_block [] (str "a\twrite\tb\n")
      (str "FOO = bar\nc\twrite\td\n") (str "FOO = bar") [10] (str "c\twrite\td\n")
      [70, 79, 79, 0, 61, 32, 98, 97, 114, 0] [98, 97, 114, 0] (Or.inr (by decide))
      (by decide) (Or.inl rfl) (by decide) (by decide) (by decide) (by decide) (by decide)
      (by decide)).2.1,
   (C18_assignments_apply_forward db0 fresh_block [] (str "a\twrite\tb\n")
      (str "FOO = bar\nc\twrite\td\n") (str "FOO = bar") [10] (str "c\twrite\td\n")
      [70, 79, 79, 0, 61, 32, 98, 97, 114, 0] [98, 97, 114, 0] (Or.inr (by decide))
      (by decide) (Or.inl rfl) (by decide) (by decide) (by decide) (by decide)
      (by decide) (by decide)).2.2
      { path := some (str "c"), events := 2, delay := ⟨0, 0⟩, uid := 0, gid := 0,
        chroot := none, command := some (str "d"),
        envp := some [str "SHELL=/bin/sh", str "PATH=/usr/bin:/bin", str "LOGNAME=root",
                      str "USER=root", str "HOME=/root", str "TRIGGER=c", str "FOO=bar"],
        fd := -1 } (by decide)⟩

/-- C19 (evaluation at the failing input): the entry lines with delay fields `1.+5` and
`1. 5`, in which the number `1` is followed by three more bytes, are accepted with the
delay 1 s 50000000 ns; the lines with delay fields `1.5x`, `3s` and `abc` are
rejected. -/
theorem C19_trailing_bytes_accepted :
    (wentry_readline db0 fresh_block wentry_init (str "/tmp/a\twrite\t1.+5\techo hi") (wenv_init fresh_block)).map
        (fun r => r.1.delay) = some ⟨1, 50000000⟩
    ∧ (wentry_readline db0 fresh_block wentry_init (str "/tmp/a\twrite\t1. 5\techo hi") (wenv_init fresh_block)).map
        (fun r => r.1.delay) = some ⟨1, 50000000⟩
    ∧ wentry_readline db0 fresh_block wentry_init (str "/tmp/a\twrite\t1.5x\techo hi") (wenv_init fresh_block) = none
    ∧ wentry_readline db0 fresh_block wentry_init (str "/tmp/a\twrite\t3s\techo hi") (wenv_init fresh_block) = none
    ∧ wentry_readline db0 fresh_block wentry_init (str "/tmp/a\twrite\tabc\techo hi") (wenv_init fresh_block) = none := by
  decide

/-- C20: for fields `path`, `events` and `command` (non-empty, NUL-free, every tab
inside them preceded by a backslash, the first two not ending in a backslash),
`wentry_readline` gives the same result, rejection or entry and environment, on the
4-field line with the delay field `*` and on the 3-field line; an accepted entry has
the delay 0 s 0 ns. -/
theorem C20_star_delay (db : UserDb) (mem : List env_ptr) (dest : watch_entry) (env : watch_env)
    (path events command : List Nat) (k1 k2 k3 k4 k5 : Nat)
    (h1 : is_sep_field path) (h2 : is_sep_field events) (h3 : is_field command) :
    wentry_readline db mem dest
        (path ++ tabs k1 ++ events ++ tabs k2 ++ [42] ++ tabs k3 ++ command) env
      = wentry_readline db mem dest (path ++ tabs k4 ++ events ++ tabs k5 ++ command) env
    ∧ (wentry_readline db mem dest
        (path ++ tabs k1 ++ events ++ tabs k2 ++ [42] ++ tabs k3 ++ command) env).map
          (fun r => r.1.delay)
      = (wentry_readline db mem dest
        (path ++ tabs k1 ++ events ++ tabs k2 ++ [42] ++ tabs k3 ++ command) env).map
          (fun _ => (⟨0, 0⟩ : timespec)) := by
  have hd : wentry_readline_delay ([42] ++ (tabs k3 ++ command)) 0 [42].length = some ⟨0, 0⟩ := by
    simp [wentry_readline_delay, rd]
  have h4 := wentry_readline_four_gen db mem dest env path events [42] command k1 k2 k3 h1 h2
    (by decide) h3
  rw [hd] at h4
  have h3g := wentry_readline_three_gen db mem dest env path events command k4 k5 h1 h2 h3
  refine ⟨by rw [h4, h3g]; rfl, ?_⟩
  rw [h4]
  split_ifs
  · rfl
  · cases lookup_self db <;> rfl

/-- C20 (witness): the lines `/tmp/a<TAB>write<TAB>*<TAB>echo hi` and
`/tmp/a<TAB>write<TAB>echo hi`. -/
theorem C20_star_delay_witness :
    wentry_readline db0 fresh_block wentry_init
        (str "/tmp/a" ++ tabs 0 ++ str "write" ++ tabs 0 ++ [42] ++ tabs 0 ++ str "echo hi")
        (wenv_init fresh_block)
      = wentry_readline db0 fresh_block wentry_init
        (str "/tmp/a" ++ tabs 0 ++ str "write" ++ tabs 0 ++ str "echo hi") (wenv_init fresh_block)
    ∧ (wentry_readline db0 fresh_block wentry_init
        (str "/tmp/a" ++ tabs 0 ++ str "write" ++ tabs 0 ++ [42] ++ tabs 0 ++ str "echo hi")
        (wenv_init fresh_block)).map (fun r => r.1.delay)
      = (wentry_readline db0 fresh_block wentry_init
        (str "/tmp/a" ++ tabs 0 ++ str "write" ++ tabs 0 ++ [42] ++ tabs 0 ++ str "echo hi")
        (wenv_init fresh_block)).map (fun _ => (⟨0, 0⟩ : timespec)) :=
  C20_star_delay db0 fresh_block wentry_init (wenv_init fresh_block) (str "/tmp/a") (str "write") (str "echo hi")
    0 0 0 0 0 (by decide) (by decide) (by decide)

/-- C21: on an events field that is exactly `*`, whatever follows it in the buffer,
`parse_events` returns a non-zero value (the field is accepted) which is the OR of the
seven flags NOTE_DELETE, NOTE_WRITE, NOTE_EXTEND, NOTE_ATTRIB, NOTE_LINK, NOTE_RENAME
and NOTE_REVOKE, that is 127: the flag of every event is set and no other bit is. -/
theorem C21_star_is_all_events (rest : List Nat) :
    parse_events (42 :: rest) 1
        = NOTE_DELETE ||| NOTE_WRITE ||| NOTE_EXTEND ||| NOTE_ATTRIB ||| NOTE_LINK
          ||| NOTE_RENAME ||| NOTE_REVOKE
    ∧ parse_events (42 :: rest) 1 = 127
    ∧ parse_events (42 :: rest) 1 ≠ 0
    ∧ (∀ ev : event, parse_events (42 :: rest) 1 &&& ev.flag = ev.flag)
    ∧ (∀ k : Nat, (parse_events (42 :: rest) 1).testBit k = true → k < 7) := by
  have h : parse_events (42 :: rest) 1 = 127 := by
    simp [parse_events, rd, NOTE_DELETE, NOTE_WRITE, NOTE_EXTEND, NOTE_ATTRIB, NOTE_LINK,
      NOTE_RENAME, NOTE_REVOKE]
  refine ⟨by rw [h]; decide, h, by rw [h]; decide, ?_, ?_⟩
  · intro ev
    rw [h]
    cases ev <;> decide
  · intro k hk
    rw [h] at hk
    by_contra hlt
    have h7 : 7 ≤ k := by omega
    have : Nat.testBit 127 k = false :=
      Nat.testBit_eq_false_of_lt (lt_of_lt_of_le (by decide) (Nat.pow_le_pow_right (by decide) h7))
    rw [this] at hk
    exact absurd hk (by decide)

/-- C22 (evaluation at the failing input): a table that is not initialized (`environ`
is NULL), in which `wenv_get` finds nothing for `A`, and a block from `malloc` whose
first slot holds a pointer to a string `A=old`.  After `wenv_set` of `A` to `v1` and then
to `v2`, without overwrite, `wenv_get` of `A` returns `old`, the table has no line
(`size` is 0) and no call has left the defined behaviour.  With a block of NULL pointers
the same calls leave the one line `A=v1` and `wenv_get` returns `v1`. -/
theorem C22_stale_slot_taken_for_the_variable :
    wenv_get ⟨none, 0, 0, false⟩ (str "A") = some none
    ∧ wenv_get (wenv_set (env_ptr.str (str "A=old") :: List.replicate 15 env_ptr.null)
          (wenv_set (env_ptr.str (str "A=old") :: List.replicate 15 env_ptr.null)
            ⟨none, 0, 0, false⟩ (str "A") (str "v1") false) (str "A") (str "v2") false)
        (str "A") = some (some (str "old"))
    ∧ wenv_set (env_ptr.str (str "A=old") :: List.replicate 15 env_ptr.null)
          (wenv_set (env_ptr.str (str "A=old") :: List.replicate 15 env_ptr.null)
            ⟨none, 0, 0, false⟩ (str "A") (str "v1") false) (str "A") (str "v2") false
        = ⟨some (env_ptr.str (str "A=old") :: List.replicate 15 env_ptr.null), 0, 16, false⟩
    ∧ wenv_dup (wenv_set (env_ptr.str (str "A=old") :: List.replicate 15 env_ptr.null)
          (wenv_set (env_ptr.str (str "A=old") :: List.replicate 15 env_ptr.null)
            ⟨none, 0, 0, false⟩ (str "A") (str "v1") false) (str "A") (str "v2") false) = []
    ∧ wenv_get (wenv_set fresh_block (wenv_set fresh_block ⟨none, 0, 0, false⟩ (str "A")
          (str "v1") false) (str "A") (str "v2") false) (str "A") = some (some (str "v1"))
    ∧ wenv_dup (wenv_set fresh_block (wenv_set fresh_block ⟨none, 0, 0, false⟩ (str "A")
          (str "v1") false) (str "A") (str "v2") false) = [str "A=v1"] := by
  decide

/-- C23 (counterexample): in the environment built by `wenv_set` of `A` to `q` and of
`A=x` to `x`, on a block of NULL pointers, setting `A` to `x=x` and then to `v2`, both
with overwrite, leaves the line `A=x=x`, which is `name=v1`, next to `A=v2`. -/
theorem C23_counterexample :
    wenv_dup (wenv_set fresh_block (wenv_set fresh_block (wenv_set fresh_block
        (wenv_set fresh_block (wenv_init fresh_block) (str "A") (str "q") true)
        (str "A=x") (str "x") true) (str "A") (str "x=x") true) (str "A") (str "v2") true)
      = [str "A=v2", str "A=x=x"]
    ∧ env_line (str "A") (str "x=x") = str "A=x=x"
    ∧ (wenv_set fresh_block (wenv_set fresh_block (wenv_set fresh_block
        (wenv_set fresh_block (wenv_init fresh_block) (str "A") (str "q") true)
        (str "A=x") (str "x") true) (str "A") (str "x=x") true) (str "A") (str "v2")
        true).undefined = false := by
  decide

/-- C23: for every environment table of the shape that `wenv_init` and `wenv_set` build
(`wenv_ok`), whatever its slots hold after the strings, and for two calls of `wenv_set`
of `name`, to `v1` and then to `v2`, both with overwrite, that keep to the defined
behaviour: `wenv_get` returns `v2`; the strings of the table are those after the first
call with the one at the index `i` of the first string for `name`, which was `name=v1`,
replaced by `name=v2`: same size, same order, every other string unchanged.  A line
`name=v1` is left only when `v1` and `v2` are the same string or when the table after
the first call held that line at another index too. -/
theorem C23_set_twice_with_overwrite (mem : List env_ptr) (env : watch_env)
    (name v1 v2 : List Nat) (hok : wenv_ok env)
    (hd : (wenv_set mem (wenv_set mem env name v1 true) name v2 true).undefined = false) :
    wenv_get (wenv_set mem (wenv_set mem env name v1 true) name v2 true) name
        = some (some (cstr v2))
    ∧ (wenv_dup (wenv_set mem (wenv_set mem env name v1 true) name v2 true)).length
        = (wenv_dup (wenv_set mem env name v1 true)).length
    ∧ ∃ i, i < (wenv_dup (wenv_set mem env name v1 true)).length
        ∧ (wenv_dup (wenv_set mem env name v1 true)).get? i = some (env_line name v1)
        ∧ wenv_dup (wenv_set mem (wenv_set mem env name v1 true) name v2 true)
            = (wenv_dup (wenv_set mem env name v1 true)).set i (env_line name v2)
        ∧ (env_line name v1
              ∈ wenv_dup (wenv_set mem (wenv_set mem env name v1 true) name v2 true) →
            cstr v1 = cstr v2
            ∨ ∃ j, j ≠ i ∧ (wenv_dup (wenv_set mem env name v1 true)).get? j
                = some (env_line name v1)) := by
  have hok1 := wenv_set_ok mem env name v1 true hok
  have hdef1 := wenv_set_defined mem _ name v2 true hok1 hd
  obtain ⟨i, hi⟩ : ∃ i, i = wenv_set_find (wenv_dup env) (env_line name v1) (strlen name + 1) 0 :=
    ⟨_, rfl⟩
  have hle : i ≤ (wenv_dup env).length := by
    rw [hi]; exact wenv_set_find_le _ _ _
  have hcongr : ∀ es, wenv_set_find es (env_line name v2) (strlen name + 1) 0
      = wenv_set_find es (env_line name v1) (strlen name + 1) 0 := by
    intro es
    exact wenv_set_find_congr _ _ _ (fun L => by
      rw [strncmp_env_line, strncmp_env_line]) es 0
  have hd1 : wenv_dup (wenv_set mem env name v1 true)
      = env_put (wenv_dup env) i (env_line name v1) := by
    rw [wenv_dup_set_defined mem env name v1 hok hdef1, hi]
  have hf : wenv_set_find (env_put (wenv_dup env) i (env_line name v1)) (env_line name v2)
      (strlen name + 1) 0 = i := by
    rw [hcongr, hi]
    exact wenv_set_find_put _ _ _ (strncmp_env_line_self name v1 v1) _
  have hd2 : wenv_dup (wenv_set mem (wenv_set mem env name v1 true) name v2 true)
      = (env_put (wenv_dup env) i (env_line name v1)).set i (env_line name v2) := by
    rw [wenv_dup_set_defined mem _ name v2 hok1 hd, hd1, hf, env_put_put _ _ _ _ hle]
  have hlen : i < (env_put (wenv_dup env) i (env_line name v1)).length := by
    rcases env_put_length (wenv_dup env) i (env_line name v1) with h | h
    · exact h
    · omega
  refine ⟨wenv_get_set_overwrite mem _ name v2 hok1 hd, ?_, i, ?_, ?_, ?_, ?_⟩
  · rw [hd2, hd1]; simp
  · rw [hd1]; exact hlen
  · rw [hd1]; exact env_put_get _ _ _ hle
  · rw [hd2, hd1]
  · intro hmem
    rw [hd2] at hmem
    rw [hd1]
    obtain ⟨j, hj, hget⟩ := List.getElem_of_mem hmem
    rw [List.length_set] at hj
    by_cases hji : j = i
    · left
      subst hji
      rw [List.getElem_set_self] at hget
      have h1 := env_line_drop name v1
      have h2 := env_line_drop name v2
      rw [← h1, ← h2, hget]
    · right
      refine ⟨j, hji, ?_⟩
      rw [List.getElem_set_ne (fun h => hji h.symm)] at hget
      rw [List.get?_eq_getElem?, List.getElem?_eq_getElem hj, hget]

/-- C23 (witness): `PATH` set twice in the environment `wtab_readfile` starts from, on a
block of NULL pointers and on a block whose slots after the first four hold stale
pointers to strings. -/
theorem C23_set_twice_with_overwrite_witness :
    wenv_get (wenv_set fresh_block (wenv_set fresh_block (wtab_env0 fresh_block) (str "PATH")
        (str "/bin") true) (str "PATH") (str "/sbin") true) (str "PATH")
      = some (some (cstr (str "/sbin")))
    ∧ wenv_dup (wenv_set fresh_block (wenv_set fresh_block (wtab_env0 fresh_block)
        (str "PATH") (str "/bin") true) (str "PATH") (str "/sbin") true)
      = [str "SHELL=/bin/sh", str "PATH=/sbin"]
    ∧ wenv_get (wenv_set [] (wenv_set []
          (wenv_init (List.replicate 4 env_ptr.null ++ List.replicate 12 (env_ptr.str (str "X=1"))))
          (str "A") (str "1") true) (str "A") (str "2") true) (str "A")
      = some (some (cstr (str "2"))) :=
  match C23_set_twice_with_overwrite fresh_block (wtab_env0 fresh_block) (str "PATH")
      (str "/bin") (str "/sbin") (by decide) (by decide),
    C23_set_twice_with_overwrite []
      (wenv_init (List.replicate 4 env_ptr.null ++ List.replicate 12 (env_ptr.str (str "X=1"))))
      (str "A") (str "1") (str "2") (by decide) (by decide) with
  | ⟨h1, _, _⟩, ⟨h2, _, _⟩ => ⟨h1, by decide, h2⟩

/-- C24: the timer event is handled in a state that satisfies the invariant.  Either
the watchtab is opened, the timer deleted and the file then read in a way for which C
defines no behaviour (the search of `wenv_set` leaves the strings of the environment
table, in slots that `wenv_init` did not clear), and nothing is said; or the loop goes
on, and then: if the watchtab cannot be opened, the timer cannot be deleted or
`wtab_readfile` returns a negative value, the live watchtab is the same list of the same
entries (addresses, fields and `fd`), no new entry is kept, every descriptor that was
open is open and every vnode event of the queue is still registered; the live watchtab
changes only when all of these succeed. -/
theorem C24_failed_reload_keeps_watchtab (db : UserDb) (delay : Int) (s : main_state)
    (i : sys_input) (event : kevent) (hinv : main_inv s) (hi : i.ev = some event)
    (hmem : event ∈ s.kq) (hf : event.filter = kfilter.EVFILT_TIMER) :
    (main_loop_body db delay s i = loop_result.fault ∧ i.open_ok = true
      ∧ i.fdopen_ok = true ∧ i.timer_ok = true
      ∧ wtab_readfile_undefined db i.heap i.content = true)
    ∨ ∃ s1, main_loop_body db delay s i = loop_result.next s1 ∧ main_inv s1
      ∧ (((wtab_readfile db i.heap [] i.content).1 < 0 ∨ i.open_ok = false
            ∨ i.fdopen_ok = false ∨ i.timer_ok = false) →
          s1.wtab = s.wtab ∧ s1.brk = s.brk ∧ (∀ x ∈ s.fds, x ∈ s1.fds)
          ∧ (∀ k ∈ s.kq, k.filter = kfilter.EVFILT_VNODE → k ∈ s1.kq))
      ∧ (s1.wtab ≠ s.wtab →
          0 ≤ (wtab_readfile db i.heap [] i.content).1 ∧ i.open_ok = true ∧ i.fdopen_ok = true
          ∧ i.timer_ok = true) := by
  obtain ⟨hw0, hfd0, hb0, _, _, _, hk0, _⟩ := oneshot_fields s event
  have hinv0 := main_inv_oneshot s event hinv hmem (Or.inl (by rw [hf]; simp))
  rcases main_loop_timer_spec db _ i event hinv0 hf with
    ⟨f1, f2, f3, f4, f5⟩ | ⟨s1, hs1, h1, _, h3⟩
  · exact Or.inl ⟨by rw [main_loop_body_timer db delay s i event hi hf]; exact f5,
      f1, f2, f3, f4⟩
  right
  have hkeep : ¬ (i.open_ok = true ∧ i.fdopen_ok = true ∧ i.timer_ok = true
      ∧ 0 ≤ (wtab_readfile db i.heap [] i.content).1) →
      s1.wtab = s.wtab ∧ s1.brk = s.brk ∧ (∀ x ∈ s.fds, x ∈ s1.fds)
      ∧ (∀ k ∈ s.kq, k.filter = kfilter.EVFILT_VNODE → k ∈ s1.kq) := by
    intro hn
    obtain ⟨a1, a2, a3, a4⟩ := h3 hn
    refine ⟨by rw [a1, hw0], by rw [a2, hb0], fun x hx => a3 x (by rw [hfd0]; exact hx), ?_⟩
    intro k hk hv
    exact a4 k (hk0 k hk (by rw [hv, hf]; simp)) hv
  refine ⟨s1, by rw [main_loop_body_timer db delay s i event hi hf]; exact hs1, h1, ?_, ?_⟩
  · intro hfail
    apply hkeep
    rintro ⟨c1, c2, c3, c4⟩
    rcases hfail with h | h | h | h
    · omega
    · rw [c1] at h; exact absurd h (by simp)
    · rw [c2] at h; exact absurd h (by simp)
    · rw [c3] at h; exact absurd h (by simp)
  · intro hne
    by_contra hn
    apply hne
    apply (hkeep ?_).1
    rintro ⟨c1, c2, c3, c4⟩
    exact hn ⟨c4, c1, c2, c3⟩

/-- C24 (witness): in `state1` the timer fires and the watchtab now holds the one-field
line `bad`, which `wtab_readfile` rejects; `malloc` returns a block of NULL pointers.
With a block whose first slot holds a value that is no pointer to a string, the same
dispatch ends in the search of the first `wenv_set`. -/
theorem C24_failed_reload_keeps_watchtab_witness :
    (∃ s1, main_loop_body db0 100 state1
        { sys_ok with ev := some (timer_event 100), content := str "bad\n" }
        = loop_result.next s1
      ∧ s1.wtab = state1.wtab ∧ s1.brk = state1.brk ∧ (∀ x ∈ state1.fds, x ∈ s1.fds)
      ∧ (∀ k ∈ state1.kq, k.filter = kfilter.EVFILT_VNODE → k ∈ s1.kq))
    ∧ main_loop_body db0 100 state1
        { sys_ok with ev := some (timer_event 100), content := str "bad\n",
                      heap := [env_ptr.wild] }
        = loop_result.fault :=
  ⟨match C24_failed_reload_keeps_watchtab db0 100 state1
      { sys_ok with ev := some (timer_event 100), content := str "bad\n" } (timer_event 100)
      (by decide) rfl (by decide) rfl with
    | Or.inl h => absurd h.2.2.2.2 (by decide)
    | Or.inr ⟨s1, h1, _, h3, _⟩ => ⟨s1, h1, h3 (Or.inl (by decide))⟩,
   by decide⟩

/-- C25: the state in which `main` enters the main loop satisfies the invariant
`main_inv`, whatever `malloc` returns while the watchtab is read; one iteration of the
loop on an event of the queue that returns to the loop keeps it (an iteration in which
the watchtab is read in a way for which C defines no behaviour does not return to the
loop), and so does every state reached by the loop; in a state that satisfies it
every entry of the live watchtab has `fd = -1` or has an open `fd` registered in the
queue as a one-shot vnode event for the events of the entry with the entry as `udata`.
On an entry of the watchtab `insert_entry` leaves the entry with the descriptor `open`
returned, open and so registered, when `open` and `kevent` succeed, and with `fd = -1`
when one of them fails. -/
theorem C25_entries_armed_or_unarmed :
    (∀ (db : UserDb) (i : sys_input) (s : main_state),
        main_start db i = loop_result.next s → main_inv s)
    ∧ (∀ (db : UserDb) (delay : Int) (s : main_state) (i : sys_input) (event : kevent)
        (s1 : main_state), main_inv s → i.ev = some event → event ∈ s.kq →
        main_loop_body db delay s i = loop_result.next s1 → main_inv s1)
    ∧ (∀ (db : UserDb) (delay : Int) (i0 : sys_input) (inputs : List sys_input)
        (s0 s : main_state), main_start db i0 = loop_result.next s0 →
        main_loop db delay inputs s0 = some (loop_result.next s) → main_inv s)
    ∧ (∀ (s : main_state), main_inv s → ∀ pe ∈ s.wtab, pe.2.fd = -1
        ∨ (0 ≤ pe.2.fd ∧ pe.2.fd.toNat ∈ s.fds
          ∧ (⟨pe.2.fd.toNat, kfilter.EVFILT_VNODE, true, pe.2.events, 0, some pe.1⟩ : kevent)
              ∈ s.kq))
    ∧ (∀ (s s1 : main_state) (p : Nat) (a b : Bool), main_inv s →
        insert_entry s p a b = some s1 →
        ∃ e fd, s.wtab.lookup p = some e ∧ s1.wtab.lookup p = some { e with fd := fd }
          ∧ ((a = false ∨ b = false ∨ e.path = none) → fd = -1)
          ∧ ((a = true ∧ b = true ∧ e.path ≠ none) →
              fd = (lowest_free s.fds : Int) ∧ lowest_free s.fds ∈ s1.fds
              ∧ entry_event (lowest_free s.fds) e.events p ∈ s1.kq)) := by
  refine ⟨main_start_inv, ?_, ?_, ?_, ?_⟩
  · intro db delay s i event s1 hinv hi hmem h
    exact (main_loop_body_inv db delay s i event s1 hinv hi hmem h).1
  · intro db delay i0 inputs s0 s h0 h
    exact main_loop_inv db delay inputs s0 s (main_start_inv db i0 s0 h0) h
  · intro s hinv pe hpe
    exact hinv.1 pe hpe
  · intro s s1 p a b hinv h
    obtain ⟨hi1, _, _, _, _, _, _, _, e, fd, hl, hm, _, _, _, hfail, hok⟩ :=
      insert_entry_spec s s1 p a b hinv h
    refine ⟨e, fd, hl, lookup_of_mem _ _ _ hi1.2.2.2.1 hm, hfail, ?_⟩
    intro hs
    have hfd := hok hs
    refine ⟨hfd, ?_, ?_⟩
    · rcases hi1.1 _ hm with h1 | ⟨_, h2, _⟩
      · have : fd = -1 := h1
        omega
      · have h3 : fd.toNat ∈ s1.fds := h2
        rw [hfd] at h3
        simpa using h3
    · rcases hi1.1 _ hm with h1 | ⟨_, _, h2⟩
      · have : fd = -1 := h1
        omega
      · have h3 : entry_event fd.toNat e.events p ∈ s1.kq := h2
        rw [hfd] at h3
        simpa using h3

/-- C25 (witness): the start of `main` on `tab0` gives `state0`, and the event of the
watchtab file takes `state0` to `state1`; both satisfy the invariant. -/
theorem C25_entries_armed_or_unarmed_witness : main_inv state0 ∧ main_inv state1 :=
  ⟨C25_entries_armed_or_unarmed.1 db0 { sys_ok with content := tab0 } state0 (by decide),
   C25_entries_armed_or_unarmed.2.1 db0 100 state0 { sys_ok with ev := some (watchtab_event 3) }
     (watchtab_event 3) state1 (by decide) rfl (by decide) (by decide)⟩

/-- C26 (evaluation at the failing trace): `main` starts on `tab0` and reaches
`state0`, where the entry is at address 0.  The entry fires and its command runs as the
child 100; the watchtab file changes, the timer fires and the watchtab is reloaded.
In the state reached the queue still holds the process event of the child 100 with
`udata` 0, and the live watchtab has one entry, at address 1, and none at address 0,
which `wtab_release` has freed.  When the child exits the kernel returns that event and
`insert_entry` is called on the freed entry. -/
theorem C26_process_event_of_released_entry :
    main_start db0 { sys_ok with content := tab0 } = loop_result.next state0
    ∧ state0.wtab.lookup 0 = some (entry0 5)
    ∧ (main_loop db0 100
        [{ sys_ok with ev := some (entry_event 5 NOTE_WRITE 0) },
         { sys_ok with ev := some (watchtab_event 3) },
         { sys_ok with ev := some (timer_event 100), content := tab0 }] state0).map
        (fun r => match r with
          | loop_result.next s => some (s.wtab.map (fun pe => pe.1), s.wtab.lookup 0, s.kq)
          | _ => none)
      = some (some ([1], none,
          [proc_event 100 0, watchtab_event 3, entry_event 5 NOTE_WRITE 1]))
    ∧ main_loop db0 100
        [{ sys_ok with ev := some (entry_event 5 NOTE_WRITE 0) },
         { sys_ok with ev := some (watchtab_event 3) },
         { sys_ok with ev := some (timer_event 100), content := tab0 },
         { sys_ok with ev := some (proc_event 100 0) }] state0 = some loop_result.fault := by
  decide

/-- C27 (evaluation at the failing trace): from `state0` the watchtab file changes; at
the first timer tick `open` fails, which is logged; at the second it succeeds and the
watchtab is reloaded, and `wtab_error` is still set.  The file changes again, and `open`
fails at the next two timer ticks: neither failure is logged, the log of the run holds
`log_open_watchtab` once. -/
theorem C27_error_flag_never_cleared :
    (main_loop db0 100
        [{ sys_ok with ev := some (watchtab_event 3) },
         { sys_ok with ev := some (timer_event 100), open_ok := false },
         { sys_ok with ev := some (timer_event 100), content := tab0 }] state0).map
        (fun r => match r with
          | loop_result.next s => some (s.wtab_error, s.log)
          | _ => none)
      = some (some (true,
          [log_msg.log_watchtab_loaded, log_msg.log_entry_wait 0, log_msg.log_open_watchtab,
           log_msg.log_entry_wait 1, log_msg.log_watchtab_loaded]))
    ∧ (main_loop db0 100
        [{ sys_ok with ev := some (watchtab_event 3) },
         { sys_ok with ev := some (timer_event 100), open_ok := false },
         { sys_ok with ev := some (timer_event 100), content := tab0 },
         { sys_ok with ev := some (watchtab_event 3) },
         { sys_ok with ev := some (timer_event 100), open_ok := false },
         { sys_ok with ev := some (timer_event 100), open_ok := false }] state0).map
        (fun r => match r with
          | loop_result.next s => some (s.wtab_error, s.log)
          | _ => none)
      = some (some (true,
          [log_msg.log_watchtab_loaded, log_msg.log_entry_wait 0, log_msg.log_open_watchtab,
           log_msg.log_entry_wait 1, log_msg.log_watchtab_loaded])) := by
  decide

/-- C28 (counterexample): in `state0` the entry fires, `run_entry` returns the pid 100
and the registration of the process event fails: the loop goes on with no process event
in the queue, the failure logged and the entry unarmed. -/
theorem C28_counterexample :
    (run_entry (entry0 5) 100).1 = 100
    ∧ main_loop_body db0 100 state0
        { sys_ok with ev := some (entry_event 5 NOTE_WRITE 0), proc_ok := false }
      = loop_result.next
          { wtab := [(0, entry0 (-1))], brk := 1, kq := [watchtab_event 3],
            fds := [4, 3, 0, 1, 2], tab_f := some 3, wtab_error := false,
            log := [log_msg.log_watchtab_loaded, log_msg.log_entry_wait 0,
                    log_msg.log_kevent_proc 0 100] } := by
  decide

/-- C28: when the event of an armed entry is handled, in a state that satisfies the
invariant, and `run_entry` returns a non-zero pid, the loop goes on with the entry
unarmed (`fd = -1`); if the registration succeeds the queue holds the one-shot
process event `NOTE_EXIT` of that pid with the entry as `udata`; if it fails no event is
added to the queue and the failure is logged with `log_kevent_proc`. -/
theorem C28_process_event_unless_kevent_fails (db : UserDb) (delay : Int) (s : main_state)
    (i : sys_input) (p : Nat) (e : watch_entry) (hinv : main_inv s)
    (hpe : (p, e) ∈ s.wtab) (h0 : 0 ≤ e.fd)
    (hi : i.ev = some (entry_event e.fd.toNat e.events p))
    (hmem : entry_event e.fd.toNat e.events p ∈ s.kq)
    (hfork : i.fork ≠ -1) (hpid : i.fork ≠ 0) :
    (run_entry e i.fork).1 = i.fork
    ∧ ∃ s1, main_loop_body db delay s i = loop_result.next s1 ∧ main_inv s1
      ∧ s1.wtab = wtab_set s.wtab p { e with fd := -1 }
      ∧ (i.proc_ok = true →
          (⟨i.fork.toNat, kfilter.EVFILT_PROC, true, NOTE_EXIT, 0, some p⟩ : kevent) ∈ s1.kq)
      ∧ (i.proc_ok = false →
          (∀ k ∈ s1.kq, k ∈ s.kq) ∧ s1.log = s.log ++ [log_msg.log_kevent_proc p i.fork]) := by
  have hl := lookup_of_mem _ _ _ hinv.2.2.2.1 hpe
  have hbody := main_loop_body_entry db delay s i _ p hi rfl rfl
  obtain ⟨hw0, _⟩ := oneshot_fields s (entry_event e.fd.toNat e.events p)
  have hex : ∃ s1, main_loop_body db delay s i = loop_result.next s1 := by
    rw [hbody]
    exact main_loop_entry_next _ i _ p e (by rw [hw0]; exact hl) h0 rfl
  obtain ⟨s1, hs1b⟩ := hex
  have hs1 := hs1b
  rw [hbody] at hs1
  obtain ⟨h1, _, e1, hl1, _, hw1, hk1, hp1, hn1, _⟩ :=
    main_loop_entry_spec s i _ p s1 hinv hmem rfl rfl hs1
  have he1 : e1 = e := by
    rw [hl] at hl1
    exact (Option.some.inj hl1).symm
  subst he1
  refine ⟨by simp [run_entry, hfork], s1, hs1b, h1, hw1, ?_, ?_⟩
  · intro hok
    exact hp1 ⟨hfork, hpid, hok⟩
  · intro hno
    obtain ⟨a1, a2⟩ := hn1 ⟨hfork, hpid, hno⟩
    refine ⟨?_, a2⟩
    intro k hk
    rw [a1] at hk
    exact ((mem_kq_delete _ _ _ _).1 hk).1

/-- C28 (witness): in `state0` the entry fires and `run_entry` returns the pid 100. -/
theorem C28_process_event_unless_kevent_fails_witness :
    (run_entry (entry0 5) 100).1 = 100
    ∧ ∃ s1, main_loop_body db0 100 state0
          { sys_ok with ev := some (entry_event 5 NOTE_WRITE 0) } = loop_result.next s1
        ∧ s1.wtab = wtab_set state0.wtab 0 { entry0 5 with fd := -1 }
        ∧ (⟨100, kfilter.EVFILT_PROC, true, NOTE_EXIT, 0, some 0⟩ : kevent) ∈ s1.kq :=
  match C28_process_event_unless_kevent_fails db0 100 state0
      { sys_ok with ev := some (entry_event 5 NOTE_WRITE 0) } 0 (entry0 5)
      (by decide) (by decide) (by decide) rfl (by decide) (by decide) (by decide) with
  | ⟨h0, s1, h1, _, h3, h4, _⟩ => ⟨h0, s1, h1, h3, h4 rfl⟩

/-- C29: in a state that satisfies the invariant `wtab_release` empties the watchtab
and leaves open no descriptor of its entries.  When the timer event is handled, the
watchtab is opened, the timer is deleted and `wtab_readfile` keeps to the defined
behaviour and succeeds, the loop goes on with a watchtab whose entries are the entries
read, at fresh addresses, changed in `fd` only, and every descriptor then open is either
the `fd` of an entry of the new watchtab or a descriptor that is the `fd` of no entry of
the old watchtab (one that was open before, or the new descriptor of the watchtab
file). -/
theorem C29_no_old_descriptor_after_reload (db : UserDb) (delay : Int) (s : main_state)
    (i : sys_input) (event : kevent) (hinv : main_inv s) (hi : i.ev = some event)
    (hf : event.filter = kfilter.EVFILT_TIMER)
    (ho : i.open_ok = true) (hd : i.fdopen_ok = true) (ht : i.timer_ok = true)
    (hu : wtab_readfile_undefined db i.heap i.content = false)
    (hr : 0 ≤ (wtab_readfile db i.heap [] i.content).1) :
    (wtab_release s).wtab = []
    ∧ (∀ pe ∈ s.wtab, pe.2.fd ≠ -1 → 0 ≤ pe.2.fd ∧ pe.2.fd.toNat ∉ (wtab_release s).fds)
    ∧ ∃ s1, main_loop_body db delay s i = loop_result.next s1
      ∧ s1.wtab.map (fun pe => pe.1)
          = ((wtab_readfile db i.heap [] i.content).2.enumFrom s.brk).map (fun pe => pe.1)
      ∧ (∀ pe ∈ s1.wtab, s.brk ≤ pe.1
          ∧ ∃ e ∈ (wtab_readfile db i.heap [] i.content).2, pe.2 = { e with fd := pe.2.fd })
      ∧ (∀ x ∈ s1.fds, (∃ pe ∈ s1.wtab, pe.2.fd = (x : Int))
          ∨ ((x = lowest_free s.fds ∨ x ∈ s.fds) ∧ ∀ pe ∈ s.wtab, pe.2.fd ≠ (x : Int))) := by
  obtain ⟨r1, _, _, _, _, _, r7, _⟩ := wtab_release_spec s hinv
  refine ⟨r1, ?_, ?_⟩
  · intro pe hpe hne
    rcases hinv.1 pe hpe with h1 | ⟨h1, _, _⟩
    · exact absurd h1 hne
    · refine ⟨h1, ?_⟩
      intro hm
      have := ((r7 _).1 hm).2 pe hpe
      apply this
      omega
  · obtain ⟨hw0, hfd0, hb0, _, _, _, _, hk0⟩ := oneshot_fields s event
    have hinv0 : main_inv (if event.oneshot then
        { s with kq := kq_delete s.kq event.ident event.filter } else s) := by
      split_ifs
      · obtain ⟨h1, h2, h3, h4, h5⟩ := hinv
        refine ⟨?_, kq_open_delete _ _ _ _ h2, kq_keys_delete _ _ _ h3, h4, h5⟩
        intro pe hpe
        exact entry_armed_delete _ _ _ _ _ (h1 pe hpe)
          (Or.inr (fun h6 => by rw [hf] at h6; exact absurd h6.2 (by simp)))
      · exact hinv
    obtain ⟨s1, hs1, _, hk1, hy1, hx1, _⟩ :=
      main_loop_timer_reload db _ i event hinv0 hf ho hd ht hu hr
    rw [hw0, hfd0, hb0] at *
    refine ⟨s1, by rw [main_loop_body_timer db delay s i event hi hf]; exact hs1, hk1, hy1, ?_⟩
    intro x hx
    rcases hx1 x hx with h | h
    · exact Or.inr h
    · exact Or.inl h

/-- C29 (witness): in `state1`, where the entry is armed on descriptor 5, the timer
fires and the watchtab `tab0` is read again, `malloc` returning a block of NULL
pointers. -/
theorem C29_no_old_descriptor_after_reload_witness :
    (wtab_release state1).wtab = []
    ∧ (∀ pe ∈ state1.wtab, pe.2.fd ≠ -1 →
        0 ≤ pe.2.fd ∧ pe.2.fd.toNat ∉ (wtab_release state1).fds)
    ∧ ∃ s1, main_loop_body db0 100 state1
          { sys_ok with ev := some (timer_event 100), content := tab0 } = loop_result.next s1
      ∧ s1.wtab.map (fun pe => pe.1)
          = ((wtab_readfile db0 fresh_block [] tab0).2.enumFrom state1.brk).map (fun pe => pe.1)
      ∧ (∀ pe ∈ s1.wtab, state1.brk ≤ pe.1
          ∧ ∃ e ∈ (wtab_readfile db0 fresh_block [] tab0).2, pe.2 = { e with fd := pe.2.fd })
      ∧ (∀ x ∈ s1.fds, (∃ pe ∈ s1.wtab, pe.2.fd = (x : Int))
          ∨ ((x = lowest_free state1.fds ∨ x ∈ state1.fds)
            ∧ ∀ pe ∈ state1.wtab, pe.2.fd ≠ (x : Int))) :=
  C29_no_old_descriptor_after_reload db0 100 state1
    { sys_ok with ev := some (timer_event 100), content := tab0 } (timer_event 100)
    (by decide) rfl rfl rfl rfl rfl (by decide) (by decide)

/-- C30: for an entry with an envp, the calls of the child of `run_entry`, log calls
and exit left out, are the steps of the specification (chroot and chdir to `/` if a
chroot is present, setgid if the gid is not 0, setuid if the uid is not 0, nanosleep if
the delay is not zero, then the exec of `SHELL -c command` with the envp of the entry),
in that order, run up to the first step that fails; `SHELL` is the value of the first
envp line that starts with `SHELL=`, or `/bin/sh` if there is none; and when chroot,
chdir, setgid or setuid is requested and fails, the child makes no exec and its last
call is `_exit(EXIT_FAILURE)`. -/
theorem C30_child_sequence (wentry : watch_entry) (sys : child_sys) (envp : List (List Nat))
    (henv : wentry.envp = some envp) :
    (run_entry_child wentry sys).filter is_step
        = run_until_failure sys (child_sequence_spec wentry
            ((run_entry_shell envp).getD (str "/bin/sh")) envp)
    ∧ run_entry_shell envp
        = (envp.find? (fun L => decide (strncmp L (str "SHELL=") 6 = 0))).map
            (fun L => cstr (L.drop 6))
    ∧ (((wentry.chroot ≠ none ∧ (sys.chroot_ok = false ∨ sys.chdir_ok = false))
          ∨ (wentry.gid ≠ 0 ∧ sys.setgid_ok = false)
          ∨ (wentry.uid ≠ 0 ∧ sys.setuid_ok = false)) →
        (run_entry_child wentry sys).filter is_execve = []
        ∧ (run_entry_child wentry sys).getLast? = some (child_act.exit 1)) :=
  ⟨run_entry_child_steps wentry sys envp henv, run_entry_shell_find envp,
    run_entry_child_failure wentry sys⟩

/-- C30 (witness): the entry `entry1` when every call succeeds, the entry of `tab0`,
whose envp sets `SHELL`, and `entry1` when `setgid` fails. -/
theorem C30_child_sequence_witness :
    (run_entry_child entry1 ⟨true, true, true, true, true⟩).filter is_step
        = [child_act.chroot (str "/jail"), child_act.chdir (str "/"), child_act.setgid 1002,
           child_act.setuid 1001, child_act.nanosleep ⟨1, 500000000⟩,
           child_act.execve (str "/bin/sh") [str "/bin/sh", str "-c", str "echo hi"]
             [str "PATH=/usr/bin:/bin", str "TRIGGER=/tmp/a"]]
    ∧ (run_entry_child (entry0 (-1)) ⟨true, true, true, true, true⟩).filter is_step
        = [child_act.execve (str "/bin/sh") [str "/bin/sh", str "-c", str "echo hi"]
             [str "SHELL=/bin/sh", str "PATH=/usr/bin:/bin", str "LOGNAME=root",
              str "USER=root", str "HOME=/root", str "TRIGGER=/tmp/a"]]
    ∧ (run_entry_child entry1 ⟨true, true, false, true, true⟩).filter is_execve = []
    ∧ (run_entry_child entry1 ⟨true, true, false, true, true⟩).getLast?
        = some (child_act.exit 1) :=
  ⟨((C30_child_sequence entry1 ⟨true, true, true, true, true⟩
      [str "PATH=/usr/bin:/bin", str "TRIGGER=/tmp/a"] rfl).1).trans (by decide),
   ((C30_child_sequence (entry0 (-1)) ⟨true, true, true, true, true⟩
      [str "SHELL=/bin/sh", str "PATH=/usr/bin:/bin", str "LOGNAME=root",
       str "USER=root", str "HOME=/root", str "TRIGGER=/tmp/a"] rfl).1).trans (by decide),
   ((C30_child_sequence entry1 ⟨true, true, false, true, true⟩
      [str "PATH=/usr/bin:/bin", str "TRIGGER=/tmp/a"] rfl).2.2
      (Or.inr (Or.inl (by decide)))).1,
   ((C30_child_sequence entry1 ⟨true, true, false, true, true⟩
      [str "PATH=/usr/bin:/bin", str "TRIGGER=/tmp/a"] rfl).2.2
      (Or.inr (Or.inl (by decide)))).2⟩

/-- C31 (the defect, in general): an entry line of four fields whose delay field is
`S.F`, with `S` a non-empty string of decimal digits and `F` a string of ten or more
decimal digits of value at least 10^9, is accepted by `wentry_readline`, and the stored
`tv_nsec` is the value of `F` as read by `strtol` (saturating at `LONG_MAX`), without
any scaling; it is greater than 999999999. -/
theorem C31_long_fraction_not_scaled (S F : List Nat) (hne : S ≠ [])
    (hS : ∀ c ∈ S, isdigit c = true) (hF : ∀ c ∈ F, isdigit c = true)
    (h10 : 10 ≤ F.length) (hbig : 10 ^ 9 ≤ decimal F)
    (db : UserDb) (mem : List env_ptr) (dest : watch_entry) (env : watch_env) (f1 f2 f4 : List Nat)
    (k1 k2 k3 : Nat) (l : List Nat) (p : passwd)
    (h1 : is_sep_field f1) (h2 : is_sep_field f2) (h4 : is_field f4)
    (hev : parse_events f2 f2.length ≠ 0)
    (hl : db.getlogin = some l) (hp : db.getpwnam l = some p) :
    (wentry_readline db mem dest
        (f1 ++ tabs k1 ++ f2 ++ tabs k2 ++ (S ++ [46] ++ F) ++ tabs k3 ++ f4) env).map
      (fun r => r.1.delay) = some ⟨clamp_long (decimal S), clamp_long (decimal F)⟩
    ∧ 999999999 < clamp_long (decimal F) := by
  refine ⟨?_, clamp_long_large _ hbig⟩
  have h3 : is_sep_field (S ++ [46] ++ F) := by
    apply digits_sep_field
    · simp
    · intro c hc
      simp only [List.mem_append, List.mem_singleton] at hc
      rcases hc with (hc | hc) | hc
      · exact Or.inl (hS c hc)
      · exact Or.inr hc
      · exact Or.inl (hF c hc)
  rw [wentry_readline_four db mem dest env f1 f2 (S ++ [46] ++ F) f4 k1 k2 k3 l p h1 h2 h3 h4
    hev hl hp]
  have hd := wentry_readline_delay_long_fraction S F (tabs k3 ++ f4) hne hS hF h10
    (by rw [tabs_head]; decide)
  rw [hd]
  rfl

/-- C31 (evaluation at the failing input): the entry line
`/tmp/a<TAB>write<TAB>1.1234567890<TAB>echo hi` is accepted with `tv_sec = 1` and
`tv_nsec = 1234567890`. -/
theorem C31_long_fraction_not_scaled_witness :
    str "/tmp/a" ++ tabs 0 ++ str "write" ++ tabs 0 ++ (str "1" ++ [46] ++ str "1234567890")
        ++ tabs 0 ++ str "echo hi" = str "/tmp/a\twrite\t1.1234567890\techo hi"
    ∧ clamp_long (decimal (str "1")) = 1
    ∧ clamp_long (decimal (str "1234567890")) = 1234567890
    ∧ (wentry_readline db0 fresh_block wentry_init
        (str "/tmp/a" ++ tabs 0 ++ str "write" ++ tabs 0 ++ (str "1" ++ [46] ++ str "1234567890")
          ++ tabs 0 ++ str "echo hi") (wenv_init fresh_block)).map (fun r => r.1.delay)
      = some ⟨clamp_long (decimal (str "1")), clamp_long (decimal (str "1234567890"))⟩
    ∧ 999999999 < clamp_long (decimal (str "1234567890")) :=
  ⟨by decide, by decide, by decide,
   C31_long_fraction_not_scaled (str "1") (str "1234567890") (by decide) (by decide)
     (by decide) (by decide) (by decide) db0 fresh_block wentry_init (wenv_init fresh_block)
     (str "/tmp/a") (str "write") (str "echo hi") 0 0 0 (str "root") ⟨str "root", 0, 0, str "/root"⟩
     (by decide) (by decide) (by decide) (by decide) (by decide) (by decide)⟩

/-- C32 (evaluation at the failing input): `wenv_init` gets from `malloc` a block whose
second slot holds a pointer to a string `M=stale`, the other slots being NULL.  On the
table, `wenv_get` finds nothing for `M`; after `wenv_set` of `N` to `v`, which writes
the first slot and leaves the defined behaviour nowhere, `wenv_get` of `M` returns
`stale`.  With a block of NULL pointers it still finds nothing. -/
theorem C32_stale_slot_after_the_new_line :
    wenv_get (wenv_init (env_ptr.null :: env_ptr.str (str "M=stale")
        :: List.replicate 14 env_ptr.null)) (str "M") = some none
    ∧ wenv_get (wenv_set [] (wenv_init (env_ptr.null :: env_ptr.str (str "M=stale")
        :: List.replicate 14 env_ptr.null)) (str "N") (str "v") true) (str "M")
      = some (some (str "stale"))
    ∧ wenv_set [] (wenv_init (env_ptr.null :: env_ptr.str (str "M=stale")
        :: List.replicate 14 env_ptr.null)) (str "N") (str "v") true
      = ⟨some (env_ptr.str (str "N=v") :: env_ptr.str (str "M=stale")
          :: List.replicate 14 env_ptr.null), 1, 16, false⟩
    ∧ wenv_get (wenv_init fresh_block) (str "M") = some none
    ∧ wenv_get (wenv_set [] (wenv_init fresh_block) (str "N") (str "v") true) (str "M")
      = some none := by
  decide

end Filewatcherd
